import Mathlib

/-!
# ExpressionEngine: lexer, parser, dependency graph and evaluator

A shallow embedding of `jni/Source/{errors,parser,graph,expressions}.h`.

* `std::string` is a list of characters (`Str`).
* `std::map<std::string, T>` is an association list kept in key order (`StdMap`).
* `double` is an abstract carrier `α` with an explicit record `Arith α` of the
  operations the C++ code applies to it; no law about them is assumed.
* C++ exceptions are values of `Error`; a throwing function returns `Except Error _`.
* Loops and recursion that C++ leaves unbounded are driven by a fuel argument
  that is computed from the input; `Error.fuel_exhausted` is the only result
  that has no counterpart in the source.
-/

set_option autoImplicit false

namespace ExpressionEngine

/-- The type `std::string`. -/
abbrev Str := List Char

/-! ## errors.h -/

/-- The exception classes `Error<1>` .. `Error<5>` of errors.h, the standard
library exceptions the code can raise without catching them, and the two
outcomes that only exist in the embedding (undefined behaviour, fuel). -/
inductive Error where
  | Lexical_error (message : Str)
  | Syntax_error (message : Str)
  | Runtime_error (message : Str)
  | ParsingError (message : Str)
  | CyclicDependencyError (message : Str)
  | ios_failure
  | invalid_argument
  | out_of_range
  | undefined_behaviour
  | fuel_exhausted
  deriving DecidableEq, Repr

/-- Member `get_message` of `Error<N>`; empty for the other outcomes. -/
def Error.get_message : Error → Str
  | .Lexical_error m => m
  | .Syntax_error m => m
  | .Runtime_error m => m
  | .ParsingError m => m
  | .CyclicDependencyError m => m
  | _ => []

deriving instance DecidableEq for Except

/-! ## `std::map<std::string, T>` -/

/-- The order `operator<` of `std::string`: lexicographic on character codes. -/
def strLt : Str → Str → Bool
  | [], [] => false
  | [], _ :: _ => true
  | _ :: _, [] => false
  | a :: as, b :: bs =>
    if a.toNat < b.toNat then true
    else if b.toNat < a.toNat then false
    else strLt as bs

/-- A `std::map<std::string, β>`: its entries in iteration order. -/
abbrev StdMap (β : Type) := List (Str × β)

namespace StdMap

variable {β : Type}

/-- Member `find`: `none` stands for `end()`. -/
def find : StdMap β → Str → Option β
  | [], _ => none
  | (k, v) :: m, key => if key = k then some v else find m key

/-- The test `m.find(key) != m.end()`. -/
def contains (m : StdMap β) (key : Str) : Bool := (m.find key).isSome

/-- Places a new entry at its position in key order. -/
def orderedInsert : StdMap β → Str → β → StdMap β
  | [], key, v => [(key, v)]
  | (k, w) :: m, key, v =>
    if strLt key k then (key, v) :: (k, w) :: m else (k, w) :: orderedInsert m key v

/-- Replaces the value stored under an existing key. -/
def replace : StdMap β → Str → β → StdMap β
  | [], _, _ => []
  | (k, w) :: m, key, v => if key = k then (k, v) :: m else (k, w) :: replace m key v

/-- Member `insert(pair(key, v))`: does nothing when the key is already present. -/
def insert (m : StdMap β) (key : Str) (v : β) : StdMap β :=
  match m.find key with
  | some _ => m
  | none => m.orderedInsert key v

/-- The assignment `m[key] = v`: overwrites or creates the entry. -/
def assign (m : StdMap β) (key : Str) (v : β) : StdMap β :=
  match m.find key with
  | some _ => m.replace key v
  | none => m.orderedInsert key v

/-- The keys in iteration order. -/
def keys (m : StdMap β) : List Str := m.map Prod.fst

end StdMap

/-! ## parser.h: tokens and the lexer -/

/-- The enumeration `Token`. -/
inductive Token where
  | Id | Number
  | Sin | Cos | Tan | Asin | Acos | Atan | Log | Exp | Log10 | Exp10 | Sqrt | Int
  | EqualTo | GreaterThanEqual | LessThanEqual | NotEqual | OR | AND
  | GreaterThan | LessThan | Assign | Plus | Minus | Mul | Div | Mod | Pow | Lp | Rp
  | Not | Concat | Eofsym
  deriving DecidableEq, Repr

/-- The function `isspace` of the C locale. -/
def isspace (c : Char) : Bool :=
  c = ' ' || c = '\t' || c = '\n' || c = Char.ofNat 11 || c = Char.ofNat 12 || c = '\r'

/-- The character a failed `input.get()` leaves in a `char`: `EOF` narrowed. -/
def eofChar : Char := Char.ofNat 255

/-- The character `input.get()` would deliver next. -/
def peekChar : List Char → Char
  | [] => eofChar
  | c :: _ => c

/-- The chain of comparisons that turns an identifier into a keyword token. -/
def keywordToken (token_buffer : Str) : Token :=
  if token_buffer = "and".toList then Token.AND
  else if token_buffer = "or".toList then Token.OR
  else if token_buffer = "sin".toList then Token.Sin
  else if token_buffer = "cos".toList then Token.Cos
  else if token_buffer = "tan".toList then Token.Tan
  else if token_buffer = "asin".toList then Token.Asin
  else if token_buffer = "acos".toList then Token.Acos
  else if token_buffer = "atan".toList then Token.Atan
  else if token_buffer = "log".toList then Token.Log
  else if token_buffer = "exp".toList then Token.Exp
  else if token_buffer = "log10".toList then Token.Log10
  else if token_buffer = "exp10".toList then Token.Exp10
  else if token_buffer = "sqrt".toList then Token.Sqrt
  else if token_buffer = "int".toList then Token.Int
  else Token.Id

/-- Method `Lexer::exponent_part`. The stream `s` starts at the character `c`
that the caller has read last; the result is the token buffer and the stream
starting at the new `c`. -/
def exponent_part (token_buffer : Str) (s : List Char) : Except Error (Str × List Char) :=
  let c := peekChar s
  if c ≠ 'e' ∨ c ≠ 'E' then .ok (token_buffer, s)
  else
    let token_buffer := token_buffer ++ [c]
    let s := s.tail
    let (token_buffer, s) :=
      if peekChar s = '+' ∨ peekChar s = '-' then (token_buffer ++ [peekChar s], s.tail)
      else (token_buffer, s)
    if !(peekChar s).isDigit then .error (.Lexical_error (token_buffer ++ [peekChar s]))
    else .ok (token_buffer ++ s.takeWhile Char.isDigit, s.dropWhile Char.isDigit)

/-- The end of both number cases of `get_token`: the call of `exponent_part`,
the `putback` and `return Token::Number`. -/
def number_token (token_buffer : Str) (s : List Char) : Except Error (Token × Str × List Char) :=
  match exponent_part token_buffer s with
  | .error e => .error e
  | .ok r => .ok (Token.Number, r.1, r.2)

/-- Method `Lexer::get_token` from the first character `c` that is not white
space; `rest` is the stream after `c`. -/
def get_token_from (c : Char) (rest : List Char) : Except Error (Token × Str × List Char) :=
  if c.isAlpha then
    .ok (keywordToken (c :: rest.takeWhile Char.isAlphanum), c :: rest.takeWhile Char.isAlphanum,
      rest.dropWhile Char.isAlphanum)
  else if c.isDigit then
    if peekChar (rest.dropWhile Char.isDigit) = '.' then
      number_token
        ((c :: rest.takeWhile Char.isDigit)
          ++ '.' :: (rest.dropWhile Char.isDigit).tail.takeWhile Char.isDigit)
        ((rest.dropWhile Char.isDigit).tail.dropWhile Char.isDigit)
    else number_token (c :: rest.takeWhile Char.isDigit) (rest.dropWhile Char.isDigit)
  else if c = '.' then
    if !(peekChar rest).isDigit then .error (.Lexical_error [c, peekChar rest])
    else number_token (c :: rest.takeWhile Char.isDigit) (rest.dropWhile Char.isDigit)
  else if c = '=' then
    if peekChar rest = '=' then .ok (Token.EqualTo, [c], rest.tail)
    else .error (.Lexical_error [c])
  else if c = '<' then
    if peekChar rest = '=' then .ok (Token.LessThanEqual, [c], rest.tail)
    else .ok (Token.LessThan, [c], rest)
  else if c = '>' then
    if peekChar rest = '=' then .ok (Token.GreaterThanEqual, [c], rest.tail)
    else .ok (Token.GreaterThan, [c], rest)
  else if c = '!' then
    if peekChar rest = '=' then .ok (Token.NotEqual, [c], rest.tail)
    else .error (.Lexical_error [c])
  else if c = '+' then .ok (Token.Plus, [c], rest)
  else if c = '-' then .ok (Token.Minus, [c], rest)
  else if c = '*' then .ok (Token.Mul, [c], rest)
  else if c = '/' then .ok (Token.Div, [c], rest)
  else if c = '%' then .ok (Token.Mod, [c], rest)
  else if c = '^' then .ok (Token.Pow, [c], rest)
  else if c = '(' then .ok (Token.Lp, [c], rest)
  else if c = ')' then .ok (Token.Rp, [c], rest)
  else if c = '~' then .ok (Token.Concat, [c], rest)
  else .error (.Lexical_error [c])

/-- Method `Lexer::get_token` on the characters still in the stream: the token,
the token buffer and the rest of the stream. A character that the source reads
and puts back is left in the stream. -/
def get_token (input : List Char) : Except Error (Token × Str × List Char) :=
  match input.dropWhile isspace with
  | [] => .ok (Token.Eofsym, [], [])
  | c :: rest => get_token_from c rest

/-- The class `Lexer`: the unread part of the stream, the current token and its text. -/
structure Lexer where
  input : List Char
  current_token : Token
  current_token_text : Str
  deriving DecidableEq, Repr

/-- The constructor of `Lexer` (method `init`) over the text `s`. -/
def Lexer.init (s : Str) : Except Error Lexer :=
  match get_token s with
  | .error e => .error e
  | .ok (t, text, rest) => .ok ⟨rest, t, text⟩

/-- Method `Lexer::advance`. -/
def Lexer.advance (lx : Lexer) : Except Error Lexer :=
  if lx.current_token ≠ Token.Eofsym then
    match get_token lx.input with
    | .error e => .error e
    | .ok (t, text, rest) => .ok ⟨rest, t, text⟩
  else .ok lx

/-- A result of `get_token_from` that, when it is a token, is not the end of
the input and leaves no more than the characters `r` in the stream. -/
def TokenOk (r : List Char) (e : Except Error (Token × Str × List Char)) : Prop :=
  ∀ t txt rest, e = .ok (t, txt, rest) → t ≠ Token.Eofsym ∧ rest.length ≤ r.length

/-- What is left to read: the characters of the stream, and the current token
unless it is the end of the input. -/
def Lexer.size (lx : Lexer) : Nat :=
  lx.input.length + (if lx.current_token = Token.Eofsym then 0 else 1)

/-- The lexer `lx'` is what calls of `advance` make of `lx`. -/
def Lexer.Reaches (lx lx' : Lexer) : Prop :=
  Relation.ReflTransGen (fun a b : Lexer => a.advance = .ok b) lx lx'

/-- The loop of `Parser::get_ids`: the list argument with what the loop has
appended, and how the loop ended. -/
def get_ids_loop : Nat → Lexer → List Str → List Str × Except Error Unit
  | 0, _, list => (list, .error .fuel_exhausted)
  | fuel + 1, lx, list =>
    match lx.current_token with
    | Token.Id =>
      match lx.advance with
      | .error e => (list, .error e)
      | .ok lx1 => get_ids_loop fuel lx1 (list ++ [lx.current_token_text])
    | Token.Eofsym => (list, .ok ())
    | _ =>
      match lx.advance with
      | .error e => (list, .error e)
      | .ok lx1 => get_ids_loop fuel lx1 list

/-- Method `Parser::get_ids`: the list with the identifiers appended before
the scan ended, and whether it ended by `return` or by a thrown error. -/
def get_ids (s : Str) (list : List Str) : List Str × Except Error Unit :=
  match Lexer.init s with
  | .error e => (list, .error e)
  | .ok lx => get_ids_loop (s.length + 1) lx list

/-! ## parser.h: arithmetic on `double` -/

/-- The operations on `double` that the parser applies. The carrier and the
operations are parameters: the development assumes nothing about rounding. -/
structure Arith (α : Type) where
  /-- Conversion of an `int` or `bool` to `double`, also for the literals of the source. -/
  ofInt : Int → α
  /-- The extraction `ist >> x` of `to_number`; `none` when it sets `failbit`. -/
  to_number : Str → Option α
  /-- The insertion `ost << x` of `to_string`. -/
  to_string : α → Str
  /-- The conversion `int(x)`; `none` where the C++ standard leaves it undefined. -/
  toInt : α → Option Int
  add : α → α → α
  sub : α → α → α
  mul : α → α → α
  div : α → α → α
  neg : α → α
  fmod : α → α → α
  pow : α → α → α
  eq : α → α → Bool
  lt : α → α → Bool
  le : α → α → Bool
  abs : α → α
  trunc : α → α
  floor : α → α
  ceil : α → α
  sin : α → α
  cos : α → α
  tan : α → α
  asin : α → α
  acos : α → α
  atan : α → α
  log : α → α
  exp : α → α
  log10 : α → α
  sqrt : α → α

namespace Arith

variable {α : Type} (A : Arith α)

/-- The comparison `x != y`. -/
def ne (x y : α) : Bool := !A.eq x y

/-- The comparison `x > y`. -/
def gt (x y : α) : Bool := A.lt y x

/-- The comparison `x >= y`. -/
def ge (x y : α) : Bool := A.le y x

/-- Conversion of a `bool` to `double`. -/
def ofBool (b : Bool) : α := A.ofInt (if b then 1 else 0)

/-- Contextual conversion of a `double` to `bool`. -/
def toBool (x : α) : Bool := A.ne x (A.ofInt 0)

end Arith

/-- Function `to_number`; a set `failbit` raises `std::ios_base::failure`. -/
def to_number {α : Type} (A : Arith α) (s : Str) : Except Error α :=
  match A.to_number s with
  | some x => .ok x
  | none => .error .ios_failure

/-- The function `std::stoi` in base 10. -/
def stoi (s : Str) : Except Error Int :=
  let s := s.dropWhile isspace
  let negative := peekChar s = '-'
  let s := if peekChar s = '-' ∨ peekChar s = '+' then s.tail else s
  let digits := s.takeWhile Char.isDigit
  if digits = [] then .error .invalid_argument
  else
    let n : Nat := digits.foldl (fun acc d => 10 * acc + (d.toNat - 48)) 0
    let v : Int := if negative then -(n : Int) else (n : Int)
    if v < -2147483648 ∨ 2147483647 < v then .error .out_of_range else .ok v

/-- Function `join_number`. The global `to_string(double)` is the only
`to_string` in scope there, so each `int` is converted back to `double`. -/
def join_number {α : Type} (A : Arith α) (x y : α) : Except Error α :=
  if A.ne (A.trunc x) x || A.ne (A.trunc y) y then
    .error (.Runtime_error
      "Attempting to Join two non-integer numbers ( Integer~Integer )".toList)
  else
    match A.toInt x with
    | none => .error .undefined_behaviour
    | some ix =>
      match A.toInt y with
      | none => .error .undefined_behaviour
      | some iy =>
        let first := A.to_string (A.ofInt ix)
        let second := A.to_string (A.ofInt iy)
        let result := first ++ second
        match stoi result with
        | .error e => .error e
        | .ok n => .ok (A.ofInt n)

/-! ## parser.h: the recursive-descent evaluator

Every grammar method is first given as a function of the method it calls
(`primaryF` takes `add_expr`, `concatF` takes `primary`, ...); the methods
themselves tie the knot by recursion on the nesting depth. -/

/-- A grammar method: from the lexer to its value and the lexer it leaves, or
to the error it throws. -/
abbrev Method (α : Type) := Lexer → Except Error (α × Lexer)

section Grammar

variable {α : Type} (A : Arith α) (symbol_table : StdMap α)

/-- Method `Parser::check_domain`. -/
def check_domain (x y : α) : Except Error Unit :=
  if A.ge x (A.ofInt 0) then .ok ()
  else
    let e := A.abs y
    if A.le e (A.ofInt 0) || A.ge e (A.ofInt 1) then .ok ()
    else .error (.Runtime_error "attempt to take root of a negative number".toList)

/-- Method `Parser::get_argument`, given `add_expr`. -/
def get_argumentF (add_expr : Method α) (lx : Lexer) : Except Error (α × Lexer) :=
  lx.advance >>= fun lx =>
  if lx.current_token ≠ Token.Lp then
    .error (.Syntax_error "missing ( after function name".toList)
  else
    lx.advance >>= fun lx =>
    add_expr lx >>= fun arg =>
    if arg.2.current_token ≠ Token.Rp then
      .error (.Syntax_error "missing ) after function argument".toList)
    else
      arg.2.advance >>= fun lx => .ok (arg.1, lx)

/-- The shape `return f(get_argument());` of the function cases of `primary`. -/
def applyFn (f : α → α) (r : Except Error (α × Lexer)) : Except Error (α × Lexer) :=
  r >>= fun arg => .ok (f arg.1, arg.2)

/-- Method `Parser::primary`, given `add_expr`. -/
def primaryF (add_expr : Method α) (lx : Lexer) : Except Error (α × Lexer) :=
  match lx.current_token with
  | Token.Id =>
    lx.advance >>= fun lx1 =>
    match symbol_table.find lx.current_token_text with
    | none =>
      .error (.Syntax_error ("Symbol ".toList ++ lx.current_token_text ++ " not found".toList))
    | some symbol => .ok (symbol, lx1)
  | Token.Number =>
    lx.advance >>= fun lx1 =>
    to_number A lx.current_token_text >>= fun x => .ok (x, lx1)
  | Token.Lp =>
    lx.advance >>= fun lx =>
    add_expr lx >>= fun arg =>
    if arg.2.current_token ≠ Token.Rp then
      .error (.Syntax_error "missing ) after subexpression".toList)
    else
      arg.2.advance >>= fun lx => .ok (arg.1, lx)
  | Token.Sin => applyFn A.sin (get_argumentF add_expr lx)
  | Token.Cos => applyFn A.cos (get_argumentF add_expr lx)
  | Token.Tan =>
    get_argumentF add_expr lx >>= fun arg =>
    if A.eq (A.cos arg.1) (A.ofInt 0) then
      .error (.Runtime_error ("invalid argument to tan: ".toList ++ A.to_string arg.1))
    else .ok (A.tan arg.1, arg.2)
  | Token.Asin => applyFn A.asin (get_argumentF add_expr lx)
  | Token.Acos => applyFn A.acos (get_argumentF add_expr lx)
  | Token.Atan => applyFn A.atan (get_argumentF add_expr lx)
  | Token.Log =>
    get_argumentF add_expr lx >>= fun arg =>
    if A.lt arg.1 (A.ofInt 1) then
      .error (.Runtime_error ("invalid argument to log: ".toList ++ A.to_string arg.1))
    else .ok (A.log arg.1, arg.2)
  | Token.Exp => applyFn A.exp (get_argumentF add_expr lx)
  | Token.Log10 =>
    get_argumentF add_expr lx >>= fun arg =>
    if A.lt arg.1 (A.ofInt 1) then
      .error (.Runtime_error ("invalid argument to log10: ".toList ++ A.to_string arg.1))
    else .ok (A.log10 arg.1, arg.2)
  | Token.Sqrt =>
    get_argumentF add_expr lx >>= fun arg =>
    if A.lt arg.1 (A.ofInt 0) then
      .error (.Runtime_error "attempt to take square root of negative number".toList)
    else .ok (A.sqrt arg.1, arg.2)
  | Token.Int =>
    get_argumentF add_expr lx >>= fun arg =>
    if A.lt arg.1 (A.ofInt 0) then .ok (A.ceil arg.1, arg.2) else .ok (A.floor arg.1, arg.2)
  | _ => .error (.Syntax_error "invalid primary expression".toList)

/-- The `for (;;)` loop of `Parser::concat`, given `primary`. -/
def concat_loop (primary : Method α) : Nat → α → Method α
  | 0, _, _ => .error .fuel_exhausted
  | fuel + 1, result, lx =>
    match lx.current_token with
    | Token.Concat =>
      lx.advance >>= fun lx =>
      primary lx >>= fun y =>
      join_number A result y.1 >>= fun result =>
      concat_loop primary fuel result y.2
    | _ => .ok (result, lx)

/-- Method `Parser::concat`, given `primary`. -/
def concatF (fuel : Nat) (primary : Method α) (lx : Lexer) : Except Error (α × Lexer) :=
  primary lx >>= fun r => concat_loop A primary fuel r.1 r.2

/-- Method `Parser::unary_expr`, given `concat`. -/
def unary_exprF (concat : Method α) (lx : Lexer) : Except Error (α × Lexer) :=
  match lx.current_token with
  | Token.Plus => lx.advance >>= fun lx => concat lx
  | Token.Minus => lx.advance >>= fun lx => applyFn A.neg (concat lx)
  | _ => concat lx

/-- Method `Parser::pow_expr`, given `unary_expr`. -/
def pow_exprF (unary_expr : Method α) (lx : Lexer) : Except Error (α × Lexer) :=
  unary_expr lx >>= fun r =>
  if r.2.current_token = Token.Pow then
    r.2.advance >>= fun lx =>
    unary_expr lx >>= fun x =>
    check_domain A r.1 x.1 >>= fun _ => .ok (A.pow r.1 x.1, x.2)
  else .ok r

/-- The `for (;;)` loop of `Parser::mul_expr`, given `pow_expr`. -/
def mul_loop (pow_expr : Method α) : Nat → α → Method α
  | 0, _, _ => .error .fuel_exhausted
  | fuel + 1, result, lx =>
    match lx.current_token with
    | Token.Mul =>
      lx.advance >>= fun lx =>
      pow_expr lx >>= fun x => mul_loop pow_expr fuel (A.mul result x.1) x.2
    | Token.Div =>
      lx.advance >>= fun lx =>
      pow_expr lx >>= fun x =>
      if A.eq x.1 (A.ofInt 0) then .error (.Runtime_error "attempt to divide by zero".toList)
      else mul_loop pow_expr fuel (A.div result x.1) x.2
    | Token.Mod =>
      lx.advance >>= fun lx =>
      pow_expr lx >>= fun x =>
      if A.eq x.1 (A.ofInt 0) then .error (.Runtime_error "attempt to divide by zero".toList)
      else mul_loop pow_expr fuel (A.fmod result x.1) x.2
    | _ => .ok (result, lx)

/-- Method `Parser::mul_expr`, given `pow_expr`. -/
def mul_exprF (fuel : Nat) (pow_expr : Method α) (lx : Lexer) : Except Error (α × Lexer) :=
  pow_expr lx >>= fun r => mul_loop A pow_expr fuel r.1 r.2

/-- The `for (;;)` loop of `Parser::add_expr`, given `mul_expr`. The case
`Token::Minus` has no `break` and runs into `default: return result;`. -/
def add_loop (mul_expr : Method α) : Nat → α → Method α
  | 0, _, _ => .error .fuel_exhausted
  | fuel + 1, result, lx =>
    match lx.current_token with
    | Token.Plus =>
      lx.advance >>= fun lx =>
      mul_expr lx >>= fun x => add_loop mul_expr fuel (A.add result x.1) x.2
    | Token.Minus =>
      lx.advance >>= fun lx =>
      mul_expr lx >>= fun x => .ok (A.sub result x.1, x.2)
    | _ => .ok (result, lx)

/-- Method `Parser::add_expr`, given `mul_expr`. -/
def add_exprF (fuel : Nat) (mul_expr : Method α) (lx : Lexer) : Except Error (α × Lexer) :=
  mul_expr lx >>= fun r => add_loop A mul_expr fuel r.1 r.2

/-- Method `Parser::add_expr` with the recursion through `primary` unfolded at
most `depth` times; `fuel` bounds each `for (;;)` loop. -/
def add_expr (fuel : Nat) : Nat → Method α
  | 0 => fun _ => .error .fuel_exhausted
  | depth + 1 =>
    add_exprF A fuel (mul_exprF A fuel (pow_exprF A (unary_exprF A
      (concatF A fuel (primaryF A symbol_table (add_expr fuel depth))))))

/-- Method `Parser::get_argument`. -/
def get_argument (fuel depth : Nat) : Method α :=
  get_argumentF (add_expr A symbol_table fuel depth)

/-- Method `Parser::primary`. -/
def primary (fuel depth : Nat) : Method α :=
  primaryF A symbol_table (add_expr A symbol_table fuel depth)

/-- Method `Parser::concat`. -/
def concat (fuel depth : Nat) : Method α :=
  concatF A fuel (primary A symbol_table fuel depth)

/-- Method `Parser::unary_expr`. -/
def unary_expr (fuel depth : Nat) : Method α :=
  unary_exprF A (concat A symbol_table fuel depth)

/-- Method `Parser::pow_expr`. -/
def pow_expr (fuel depth : Nat) : Method α :=
  pow_exprF A (unary_expr A symbol_table fuel depth)

/-- Method `Parser::mul_expr`. -/
def mul_expr (fuel depth : Nat) : Method α :=
  mul_exprF A fuel (pow_expr A symbol_table fuel depth)

/-- One comparison of `Parser::equality_expr`, where `loop` is the rest of the
`for (;;)` loop. -/
def equality_step (add_expr : Method α) (loop : α → Method α) (op : α → α → Bool)
    (result : α) (lx : Lexer) : Except Error (α × Lexer) :=
  lx.advance >>= fun lx =>
  add_expr lx >>= fun x => loop (A.ofBool (op result x.1)) x.2

/-- The `for (;;)` loop of `Parser::equality_expr`. -/
def equality_loop (add_expr : Method α) : Nat → α → Method α
  | 0, _, _ => .error .fuel_exhausted
  | fuel + 1, result, lx =>
    match lx.current_token with
    | Token.EqualTo => equality_step A add_expr (equality_loop add_expr fuel) A.eq result lx
    | Token.GreaterThanEqual =>
      equality_step A add_expr (equality_loop add_expr fuel) A.ge result lx
    | Token.LessThanEqual => equality_step A add_expr (equality_loop add_expr fuel) A.le result lx
    | Token.GreaterThan => equality_step A add_expr (equality_loop add_expr fuel) A.gt result lx
    | Token.LessThan => equality_step A add_expr (equality_loop add_expr fuel) A.lt result lx
    | Token.NotEqual => equality_step A add_expr (equality_loop add_expr fuel) A.ne result lx
    | _ => .ok (result, lx)

/-- Method `Parser::equality_expr`, given `add_expr`. -/
def equality_exprF (fuel : Nat) (add_expr : Method α) (lx : Lexer) : Except Error (α × Lexer) :=
  add_expr lx >>= fun r => equality_loop A add_expr fuel r.1 r.2

/-- Method `Parser::equality_expr`. -/
def equality_expr (fuel depth : Nat) : Method α :=
  equality_exprF A fuel (add_expr A symbol_table fuel depth)

/-- The `for (;;)` loop of `Parser::combination_expr`; the operator `&&`
evaluates its right operand only when the left one is non-zero. -/
def combination_loop (equality_expr : Method α) : Nat → α → Method α
  | 0, _, _ => .error .fuel_exhausted
  | fuel + 1, result, lx =>
    match lx.current_token with
    | Token.AND =>
      lx.advance >>= fun lx =>
      if A.toBool result then
        equality_expr lx >>= fun x =>
        combination_loop equality_expr fuel (A.ofBool (A.toBool x.1)) x.2
      else combination_loop equality_expr fuel (A.ofBool false) lx
    | _ => .ok (result, lx)

/-- Method `Parser::combination_expr`, given `equality_expr`. -/
def combination_exprF (fuel : Nat) (equality_expr : Method α) (lx : Lexer) :
    Except Error (α × Lexer) :=
  equality_expr lx >>= fun r => combination_loop A equality_expr fuel r.1 r.2

/-- Method `Parser::combination_expr`. -/
def combination_expr (fuel depth : Nat) : Method α :=
  combination_exprF A fuel (equality_expr A symbol_table fuel depth)

/-- The `for (;;)` loop of `Parser::choice_expr`; the operator `||` evaluates
its right operand only when the left one is zero. -/
def choice_loop (combination_expr : Method α) : Nat → α → Method α
  | 0, _, _ => .error .fuel_exhausted
  | fuel + 1, result, lx =>
    match lx.current_token with
    | Token.AND =>
      lx.advance >>= fun lx =>
      if A.toBool result then choice_loop combination_expr fuel (A.ofBool true) lx
      else
        combination_expr lx >>= fun x =>
        choice_loop combination_expr fuel (A.ofBool (A.toBool x.1)) x.2
    | _ => .ok (result, lx)

/-- Method `Parser::choice_expr`, given `combination_expr`. -/
def choice_exprF (fuel : Nat) (combination_expr : Method α) (lx : Lexer) :
    Except Error (α × Lexer) :=
  combination_expr lx >>= fun r => choice_loop A combination_expr fuel r.1 r.2

/-- Method `Parser::choice_expr`. -/
def choice_expr (fuel depth : Nat) : Method α :=
  choice_exprF A fuel (combination_expr A symbol_table fuel depth)

end Grammar

/-! ### Vocabulary for statements about the grammar methods -/

/-- The identifier tokens that `advance` delivers from `lx` on are bound alike
in the symbol tables `T1` and `T2`. -/
def SameOn {α : Type} (T1 T2 : StdMap α) (lx : Lexer) : Prop :=
  ∀ lx', lx.Reaches lx' → lx'.current_token = Token.Id →
    T1.find lx'.current_token_text = T2.find lx'.current_token_text

/-- Two runs of a grammar method from the lexer `lx` end alike, not by lack of
fuel, and a value comes with a lexer that `advance` makes of `lx`. -/
def Agree {α : Type} (lx : Lexer) (r1 r2 : Except Error (α × Lexer)) : Prop :=
  r1 = r2 ∧ r1 ≠ .error .fuel_exhausted ∧ ∀ x, r1 = .ok x → lx.Reaches x.2

/-- The methods `f1` (with table `T1`) and `f2` (with table `T2`) agree on every
lexer with fewer than `n` tokens and characters left whose identifiers the
tables bind alike. -/
def AgreeOn {α : Type} (T1 T2 : StdMap α) (n : Nat) (f1 f2 : Method α) : Prop :=
  ∀ lx, lx.size < n → SameOn T1 T2 lx → Agree lx (f1 lx) (f2 lx)

/-- The class `Parser`: its symbol table (the lexer lives only during a call). -/
structure Parser (α : Type) where
  symbol_table : StdMap α

namespace Parser

variable {α : Type} (A : Arith α)

/-- The constructor `Parser::Parser`. -/
def new : Parser α :=
  ⟨(StdMap.assign (StdMap.assign [] "pi".toList (A.mul (A.ofInt 4) (A.atan (A.ofInt 1))))
      "e".toList (A.exp (A.ofInt 1)))⟩

/-- Method `Parser::add_symbol`. -/
def add_symbol (p : Parser α) (s : Str) (value : α) : Parser α :=
  ⟨p.symbol_table.assign s value⟩

/-- The call operator `Parser::operator()`. Loops and nesting are bounded by
the length of the text, which no run can exceed. -/
def call (p : Parser α) (s : Str) : Except Error α :=
  Lexer.init s >>= fun lx =>
  choice_expr A p.symbol_table (s.length + 1) (s.length + 1) lx >>= fun r => .ok r.1

end Parser

/-- The element `a` stands at a smaller index of `l` than the element `b`. -/
def precedes {β : Type} (l : List β) (a b : β) : Prop :=
  ∃ i j : Nat, i < j ∧ l[i]? = some a ∧ l[j]? = some b

/-! ## graph.h -/

/-- The type `Cycles`. -/
abbrev Cycles := List (List Str)

/-- The enumeration `State`. -/
inductive State where
  | NOT_VISITED | IN_STACK | VISITED
  deriving DecidableEq, Repr

/-- The class `Graph`: `V` is the length of `vertices`, `adj v` is the list `adj[v]`.
A `std::stack<int>` is a list whose head is the top. -/
structure Graph where
  vertices : List Str
  adj : Nat → List Nat

namespace Graph

/-- The member `V`. -/
def V (g : Graph) : Nat := g.vertices.length

/-- The default constructor `Graph::Graph()`. -/
def empty : Graph := ⟨[], fun _ => []⟩

/-- The constructor `Graph::Graph(vector<string> &)`. -/
def new (vertices : List Str) : Graph := ⟨vertices, fun _ => []⟩

/-- Method `Graph::addEdge`. -/
def addEdge (g : Graph) (v w : Nat) : Graph :=
  { g with adj := Function.update g.adj v (g.adj v ++ [w]) }

/-- The element `vertices[i]`. -/
def vertex (g : Graph) (i : Nat) : Str := g.vertices.getD i []

/-- Method `Graph::dfs`; `fuel` bounds the depth of the recursion. -/
def dfs (g : Graph) : Nat → Nat → (Nat → Bool) × List Nat → Except Error ((Nat → Bool) × List Nat)
  | 0, _, _ => .error .fuel_exhausted
  | fuel + 1, v, (visited, _stack) =>
    match (g.adj v).foldlM
        (fun (st : (Nat → Bool) × List Nat) j => if !st.1 j then dfs g fuel j st else .ok st)
        (Function.update visited v true, _stack) with
    | .error e => .error e
    | .ok (visited, _stack) => .ok (visited, v :: _stack)

/-- The second `for` loop of `Graph::sort`, over the vertex numbers `is`. -/
def sort_loop (g : Graph) (is : List Nat) (st : (Nat → Bool) × List Nat) :
    Except Error ((Nat → Bool) × List Nat) :=
  is.foldlM (fun st i => if st.1 i = false then g.dfs g.V i st else .ok st) st

/-- Method `Graph::sort`: the vector `sorted` after the call. -/
def sort (g : Graph) (sorted : List Str) : Except Error (List Str) :=
  match g.sort_loop (List.range g.V) (fun _ => false, []) with
  | .error e => .error e
  | .ok (_, _stack) => .ok (sorted ++ _stack.map g.vertex)

/-- The first two statements and the first loop of `Graph::sprintCycle`: moves
entries from `dfs_stack` to `temp` until the top of `temp` is `v`. Reading the
top of an empty stack is undefined. -/
def sprintCycle_pop (v : Nat) : List Nat → List Nat → Except Error (List Nat × List Nat)
  | [], _ => .error .undefined_behaviour
  | t :: dfs_stack, temp =>
    if t = v then .ok (t :: temp, dfs_stack) else sprintCycle_pop v dfs_stack (t :: temp)

/-- Method `Graph::sprintCycle`: the cycle and the stack after the call. -/
def sprintCycle (g : Graph) (dfs_stack : List Nat) (v : Nat) :
    Except Error (List Str × List Nat) :=
  match sprintCycle_pop v dfs_stack [] with
  | .error e => .error e
  | .ok (temp, dfs_stack) =>
    .ok (temp.foldl (fun (r : List Str × List Nat) t => (r.1 ++ [g.vertex t], t :: r.2))
      ([], dfs_stack))

/-- The variables `Graph::processDFStree` works on. -/
structure DFS where
  dfs_state : Nat → State
  dfs_stack : List Nat
  cycles : Cycles

/-- The body of the `for` loop of `Graph::processDFStree` for the successor
`j`, given the recursive call. -/
def processDFStree_step (g : Graph) (processDFStree : DFS → Except Error DFS) (d : DFS)
    (j : Nat) : Except Error DFS :=
  if d.dfs_state j = State.IN_STACK then
    match g.sprintCycle d.dfs_stack j with
    | .error e => .error e
    | .ok (cycle, dfs_stack) =>
      .ok { d with dfs_stack := dfs_stack, cycles := d.cycles ++ [cycle] }
  else if d.dfs_state j = State.NOT_VISITED then
    processDFStree
      { d with dfs_stack := j :: d.dfs_stack,
               dfs_state := Function.update d.dfs_state j State.IN_STACK }
  else .ok d

/-- Method `Graph::processDFStree`; `fuel` bounds the depth of the recursion. -/
def processDFStree (g : Graph) : Nat → DFS → Except Error DFS
  | 0, _ => .error .fuel_exhausted
  | fuel + 1, d =>
    match d.dfs_stack with
    | [] => .error .undefined_behaviour
    | v :: _ =>
      match (g.adj v).foldlM (g.processDFStree_step (processDFStree g fuel)) d with
      | .error e => .error e
      | .ok d =>
        match d.dfs_stack with
        | [] => .error .undefined_behaviour
        | top :: rest =>
          .ok { d with dfs_state := Function.update d.dfs_state top State.VISITED,
                       dfs_stack := rest }

/-- The second `for` loop of `Graph::findCycles`, over the vertex numbers `is`. -/
def findCycles_loop (g : Graph) (is : List Nat) (d : DFS) : Except Error DFS :=
  is.foldlM
    (fun d i =>
      if d.dfs_state i = State.NOT_VISITED then
        g.processDFStree g.V
          { d with dfs_stack := i :: d.dfs_stack,
                   dfs_state := Function.update d.dfs_state i State.IN_STACK }
      else .ok d)
    d

/-- Method `Graph::findCycles`: the vector `cycles` after the call. -/
def findCycles (g : Graph) (cycles : Cycles) : Except Error Cycles :=
  match g.findCycles_loop (List.range g.V) ⟨fun _ => State.NOT_VISITED, [], cycles⟩ with
  | .error e => .error e
  | .ok d => .ok d.cycles

/-! ### Vocabulary for the graph algorithms -/

/-- Every edge joins two vertex numbers below `V`. -/
def Valid (g : Graph) : Prop := ∀ v w, w ∈ g.adj v → v < g.V ∧ w < g.V

/-- There is an edge from `v` to `w`. -/
def edge (g : Graph) (v w : Nat) : Prop := w ∈ g.adj v

/-- The graph contains a directed cycle. -/
def HasCycle (g : Graph) : Prop := ∃ v, Relation.TransGen g.edge v v

/-- The number of vertices `dfs` has not visited yet. -/
def unvisited (g : Graph) (visited : Nat → Bool) : Nat :=
  (List.range g.V).countP (fun u => !visited u)

/-- What holds of `visited` and `_stack` between two calls of `dfs` on a graph
without a cycle: the stack holds visited vertices, each once, and every
edge from a vertex on the stack leads to a vertex deeper in the stack. -/
structure SortInv (g : Graph) (visited : Nat → Bool) (_stack : List Nat) : Prop where
  sub : ∀ u ∈ _stack, visited u = true
  closed : ∀ u ∈ _stack, ∀ w ∈ g.adj u, w ∈ _stack
  ordered : _stack.Pairwise (fun a b => a ∉ g.adj b)
  nodup : _stack.Nodup
  lt : ∀ u ∈ _stack, u < g.V

/-- How a run of `dfs` calls changes `visited` and `_stack`: it visits exactly
the vertices it pushes, and it pushes only vertices that were not visited. -/
structure SortStep (visited : Nat → Bool) (_stack : List Nat)
    (visited' : Nat → Bool) (_stack' : List Nat) : Prop where
  visited_iff : ∀ u, visited' u = true ↔ (visited u = true ∨ u ∈ _stack')
  keeps : ∀ u ∈ _stack, u ∈ _stack'
  fresh : ∀ u ∈ _stack', u ∈ _stack ∨ visited u = false

/-- What holds of the state array and the stack during the cycle search: the
vertices in state `IN_STACK` are those on the stack, each once, and each of
them reaches the top of the stack along edges. -/
structure CycleInv (g : Graph) (d : DFS) : Prop where
  coh : ∀ u, d.dfs_state u = State.IN_STACK ↔ u ∈ d.dfs_stack
  nodup : d.dfs_stack.Nodup
  path : ∀ top, d.dfs_stack.head? = some top →
    ∀ u ∈ d.dfs_stack, Relation.ReflTransGen g.edge u top

/-- The vertices in state `VISITED` are closed under edges and lie on no cycle. -/
structure Finished (g : Graph) (dfs_state : Nat → State) : Prop where
  closed : ∀ u, dfs_state u = State.VISITED → ∀ w ∈ g.adj u, dfs_state w = State.VISITED
  acyclic : ∀ u, dfs_state u = State.VISITED → ¬ Relation.TransGen g.edge u u

/-- How a piece of the cycle search changes its variables. -/
structure CycleStep (g : Graph) (d d' : DFS) : Prop where
  visited : ∀ u, d.dfs_state u = State.VISITED → d'.dfs_state u = State.VISITED
  not_visited : ∀ u, d'.dfs_state u = State.NOT_VISITED → d.dfs_state u = State.NOT_VISITED
  cycles : d.cycles <+: d'.cycles
  sound : (d.cycles ≠ [] → g.HasCycle) → d'.cycles ≠ [] → g.HasCycle
  finished : d'.cycles = [] → g.Finished d.dfs_state → g.Finished d'.dfs_state

/-- The number of vertices in state `NOT_VISITED`. -/
def notVisited (g : Graph) (dfs_state : Nat → State) : Nat :=
  (List.range g.V).countP (fun u => decide (dfs_state u = State.NOT_VISITED))

end Graph

/-! ## expressions.h -/

/-- The decimal digits `operator<<` writes for a non-negative integer. -/
def showNat (n : Nat) : Str := (Nat.repr n).toList

/-- Member `std::string::find(needle)`: the first position at which `needle` occurs. -/
def findSubstring (needle : Str) : Str → Option Nat
  | [] => if needle = [] then some 0 else none
  | c :: hay =>
    if needle.isPrefixOf (c :: hay) then some 0
    else (findSubstring needle hay).map (· + 1)

/-- The class `ExpEvaluator`. -/
structure ExpEvaluator (α : Type) where
  expressions : StdMap Str
  symbol_table : StdMap α
  result : StdMap α
  graph : Graph

namespace ExpEvaluator

variable {α : Type}

/-- The constructor `ExpEvaluator::ExpEvaluator`. -/
def new : ExpEvaluator α := ⟨[], [], [], Graph.empty⟩

/-- Method `ExpEvaluator::insert_expression`. -/
def insert_expression (ev : ExpEvaluator α) (id expression : Str) : ExpEvaluator α :=
  { ev with expressions := ev.expressions.insert id expression }

/-- Method `ExpEvaluator::insert_value`. -/
def insert_value (ev : ExpEvaluator α) (id : Str) (value : α) : ExpEvaluator α :=
  { ev with symbol_table := ev.symbol_table.insert id value }

/-- Method `ExpEvaluator::get_result`: `result[id]` creates a zero entry when
there is none. -/
def get_result (A : Arith α) (ev : ExpEvaluator α) (id : Str) : ExpEvaluator α × α :=
  match ev.result.find id with
  | some v => (ev, v)
  | none => ({ ev with result := ev.result.orderedInsert id (A.ofInt 0) }, A.ofInt 0)

/-- The first loop of `populateIdGraph` from the entry at `pos` on: the map
`position_map` after it. -/
def position_map_loop : StdMap Str → Nat → StdMap Nat → StdMap Nat
  | [], _, position_map => position_map
  | (key, _) :: rest, pos, position_map =>
    position_map_loop rest (pos + 1) (position_map.insert key pos)

/-- The map `position_map` that `populateIdGraph` builds in its first loop. -/
def position_map (expressions : StdMap Str) : StdMap Nat :=
  position_map_loop expressions 0 []

/-- The subscript `position_map[key]`. -/
def position (pm : StdMap Nat) (key : Str) : Nat := (pm.find key).getD 0

/-- The inner `for` loop of `populateIdGraph`: checks the identifiers of the
expression `key = text`. -/
def populate_ids (expressions : StdMap Str) (symbol_table : StdMap α) (pm : StdMap Nat)
    (key text : Str) : List Str → Str × Graph → Str × Graph
  | [], st => st
  | id :: ids, (errorStream, graph) =>
    if !expressions.contains id && !symbol_table.contains id then
      let found := (findSubstring id text).getD 0
      populate_ids expressions symbol_table pm key text ids
        (errorStream ++ "SyntaxError: ".toList ++ ("'".toList ++ id ++ "'".toList)
          ++ " Not found".toList ++ ":expression".toList ++ "[".toList
          ++ showNat (position pm key) ++ "]:".toList ++ text ++ ":".toList
          ++ showNat found ++ "\n".toList, graph)
    else if expressions.contains id then
      populate_ids expressions symbol_table pm key text ids
        (errorStream, graph.addEdge (position pm key) (position pm id))
    else populate_ids expressions symbol_table pm key text ids (errorStream, graph)

/-- The body of the second `for` loop of `populateIdGraph` for one expression. -/
def populate_step (expressions : StdMap Str) (symbol_table : StdMap α) (pm : StdMap Nat)
    (st : Str × Graph) (entry : Str × Str) : Str × Graph :=
  let (id_list, r) := get_ids entry.2 []
  let errorStream :=
    match r with
    | .error e =>
      st.1 ++ "Lexical error: Not a valid token '".toList ++ e.get_message ++ "'".toList
        ++ ":expression".toList ++ "[".toList ++ showNat (position pm entry.1) ++ "]:".toList
        ++ entry.2 ++ "\n".toList
    | .ok _ => st.1
  populate_ids expressions symbol_table pm entry.1 entry.2 id_list (errorStream, st.2)

/-- The second `for` loop of `populateIdGraph`: the text in `errorStream` and
the graph after it. -/
def populate_loop (expressions : StdMap Str) (symbol_table : StdMap α) : Str × Graph :=
  expressions.foldl (populate_step expressions symbol_table (position_map expressions))
    ([], Graph.new expressions.keys)

/-- Method `ExpEvaluator::populateIdGraph`. -/
def populateIdGraph (ev : ExpEvaluator α) : ExpEvaluator α × Except Error Unit :=
  let errors := (populate_loop ev.expressions ev.symbol_table).1
  ({ ev with graph := (populate_loop ev.expressions ev.symbol_table).2 },
    if errors.length > 0 then .error (.ParsingError errors) else .ok ())

/-- The text `validatedIdGraph` writes for the cycles it has found. -/
def cycles_message (expressions : StdMap Str) (cycles : Cycles) : Str :=
  cycles.foldl
    (fun errorStream cycle =>
      cycle.foldl
          (fun errorStream id =>
            errorStream ++ id ++ ("=\x7b".toList ++ (expressions.find id).getD [] ++ "\x7d".toList)
              ++ "->".toList)
          errorStream
        ++ cycle.getD 0 [] ++ "\n".toList)
    []

/-- Method `ExpEvaluator::validatedIdGraph`. -/
def validatedIdGraph (ev : ExpEvaluator α) : Except Error Unit :=
  match ev.graph.findCycles [] with
  | .error e => .error e
  | .ok cycles =>
    if cycles.length > 0 then .error (.CyclicDependencyError (cycles_message ev.expressions cycles))
    else .ok ()

/-- The variables the last loop of `evaluate` works on. -/
structure Pass (α : Type) where
  parser : Parser α
  result : StdMap α
  errorStream : Str

/-- The text one `catch` clause of `evaluate` writes. -/
def error_entry (kind message : Str) (index : Nat) (text : Str) : Str :=
  kind ++ message ++ ":expression".toList ++ "[".toList ++ showNat index ++ "]:".toList
    ++ text ++ "\n".toList

/-- The body of the last loop of `evaluate` for `sorted[i]`, where `index` is
`sorted.size() - 1 - i`. An exception no `catch` clause names leaves the loop. -/
def evaluate_step (A : Arith α) (expressions : StdMap Str) (p : Pass α) (index : Nat)
    (id : Str) : Pass α × Except Error Unit :=
  let text := (expressions.find id).getD []
  match p.parser.call A text with
  | .ok v => ({ p with parser := p.parser.add_symbol id v, result := p.result.insert id v }, .ok ())
  | .error (.Lexical_error m) =>
    ({ p with errorStream := p.errorStream ++ error_entry "Lexical error: ".toList m index text },
      .ok ())
  | .error (.Syntax_error m) =>
    ({ p with errorStream := p.errorStream ++ error_entry "Syntax error: ".toList m index text },
      .ok ())
  | .error (.Runtime_error m) =>
    ({ p with errorStream := p.errorStream ++ error_entry "Runtime error: ".toList m index text },
      .ok ())
  | .error e => (p, .error e)

/-- The last loop of `evaluate` over the identifiers `ids`, which are
`sorted[i]` for `i` counting down; `index` is `sorted.size() - 1 - i`. -/
def evaluate_loop (A : Arith α) (expressions : StdMap Str) :
    List Str → Nat → Pass α → Pass α × Except Error Unit
  | [], _, p => (p, .ok ())
  | id :: ids, index, p =>
    match evaluate_step A expressions p index id with
    | (p, .error e) => (p, .error e)
    | (p, .ok _) => evaluate_loop A expressions ids (index + 1) p

/-- The loop of `evaluate` that hands the registered values to the parser. -/
def add_symbols (parser : Parser α) (symbol_table : StdMap α) : Parser α :=
  symbol_table.foldl (fun parser entry => parser.add_symbol entry.1 entry.2) parser

/-- Method `ExpEvaluator::evaluate`: the evaluator after the call and what the
call returns or throws. -/
def evaluate (A : Arith α) (ev : ExpEvaluator α) :
    ExpEvaluator α × Except Error (StdMap α) :=
  match ev.populateIdGraph with
  | (ev, .error e) => (ev, .error e)
  | (ev, .ok _) =>
    match ev.validatedIdGraph with
    | .error e => (ev, .error e)
    | .ok _ =>
      match ev.graph.sort [] with
      | .error e => (ev, .error e)
      | .ok sorted =>
        let parser := add_symbols (Parser.new A) ev.symbol_table
        match evaluate_loop A ev.expressions sorted.reverse 0 ⟨parser, ev.result, []⟩ with
        | (p, .error e) => ({ ev with result := p.result }, .error e)
        | (p, .ok _) =>
          if p.errorStream.length > 0 then
            ({ ev with result := p.result }, .error (.ParsingError p.errorStream))
          else ({ ev with result := p.result }, .ok p.result)

/-- The index of the first occurrence of `key` in `keys` (their number if
there is none). -/
def firstIndex : List Str → Str → Nat
  | [], _ => 0
  | k :: keys, key => if key = k then 0 else firstIndex keys key + 1

/-- The expression `a` references the expression `b`: the text registered for
`a` contains the identifier token `b`, and `b` is a registered expression. -/
def references (expressions : StdMap Str) (a b : Str) : Prop :=
  ∃ text, expressions.find a = some text ∧ b ∈ (get_ids text []).1
    ∧ expressions.contains b = true

/-- The symbol table `T` binds every identifier of `text` as an evaluation of
the text expects: the identifier of a registered expression to the value
`value` gives for it, any other identifier to its registered value. -/
def Binds (ev : ExpEvaluator α) (value : Str → Option α) (text : Str) (T : StdMap α) : Prop :=
  ∀ id ∈ (get_ids text []).1,
    T.find id = if ev.expressions.contains id then value id else ev.symbol_table.find id

/-! ### The evaluation pass as a sequence of attempts

The words of the specification for phase (d) of `evaluate`: the expressions are
attempted one after the other; a value becomes a symbol for the attempts after
it; a lexical, syntax or runtime failure is collected and the pass goes on. Any
other exception ends the pass. -/

/-- Whether an error is one of the three kinds the pass collects. -/
def collected : Error → Bool
  | .Lexical_error _ => true
  | .Syntax_error _ => true
  | .Runtime_error _ => true
  | _ => false

/-- The attempts of a pass over `ids` that starts with `parser`: each
identifier with what the parser returned or threw for its text. -/
def attempts (A : Arith α) (expressions : StdMap Str) :
    List Str → Parser α → List (Str × Except Error α)
  | [], _ => []
  | id :: ids, parser =>
    match parser.call A ((expressions.find id).getD []) with
    | .ok v => (id, .ok v) :: attempts A expressions ids (parser.add_symbol id v)
    | .error e =>
      if collected e then (id, .error e) :: attempts A expressions ids parser
      else [(id, .error e)]

/-- The identifiers and values of the attempts that returned a value. -/
def succeeded : List (Str × Except Error α) → List (Str × α)
  | [] => []
  | (id, .ok v) :: as => (id, v) :: succeeded as
  | (_, .error _) :: as => succeeded as

/-- The errors of the attempts that threw. -/
def failures : List (Str × Except Error α) → List Error
  | [] => []
  | (_, .ok _) :: as => failures as
  | (_, .error e) :: as => e :: failures as

/-- The map `result` after the values `l` have been inserted in order. -/
def store (result : StdMap α) (l : List (Str × α)) : StdMap α :=
  l.foldl (fun m kv => m.insert kv.1 kv.2) result

end ExpEvaluator

/-! ## ExpressionModule.cpp -/

/-- The evaluator `ExpressionModuleInitializer` builds from its input: the
value `a1 = input` and the expression `a = "a1+1"`. -/
def initializerEvaluator {α : Type} (A : Arith α) (input : Int) : ExpEvaluator α :=
  ((ExpEvaluator.new : ExpEvaluator α).insert_value "a1".toList (A.ofInt input)).insert_expression
    "a".toList "a1+1".toList

/-- Function `ExpressionModuleInitializer`: evaluates and converts
`get_result("a")` to `int`. -/
def ExpressionModuleInitializer {α : Type} (A : Arith α) (input : Int) : Except Error Int :=
  match (initializerEvaluator A input).evaluate A with
  | (_, .error e) => .error e
  | (evaluator, .ok _) =>
    match A.toInt (evaluator.get_result A "a".toList).2 with
    | some i => .ok i
    | none => .error .undefined_behaviour

/-! ## An exact instance of the arithmetic

Fractions in lowest terms with exact `+ - * /`, comparison and rounding to an
integer. On integers below `2^53` these agree with IEEE binary64, which is
all the concrete runs in this file rely on. The elementary functions are exact
at the arguments listed with them and `0` elsewhere, where the true value is
irrational; no statement in this file evaluates them there. -/

/-- A fraction `num / den` with `den > 0`, in lowest terms. -/
structure Q where
  num : Int
  den : Nat
  deriving DecidableEq, Repr

namespace Q

/-- The fraction `n / d` in lowest terms; `0` when `d = 0`. -/
def normalize (n : Int) (d : Nat) : Q :=
  if d = 0 then ⟨0, 1⟩
  else ⟨n / (Nat.gcd n.natAbs d : Nat), d / Nat.gcd n.natAbs d⟩

def ofInt (n : Int) : Q := ⟨n, 1⟩

def add (a b : Q) : Q := normalize (a.num * b.den + b.num * a.den) (a.den * b.den)

def neg (a : Q) : Q := ⟨-a.num, a.den⟩

def sub (a b : Q) : Q := add a (neg b)

def mul (a b : Q) : Q := normalize (a.num * b.num) (a.den * b.den)

def inv (a : Q) : Q :=
  if a.num = 0 then ⟨0, 1⟩
  else if a.num < 0 then ⟨-(a.den : Int), a.num.natAbs⟩
  else ⟨a.den, a.num.natAbs⟩

def div (a b : Q) : Q := mul a (inv b)

def eq (a b : Q) : Bool := a.num * b.den == b.num * a.den

def lt (a b : Q) : Bool := decide (a.num * b.den < b.num * a.den)

def le (a b : Q) : Bool := decide (a.num * b.den ≤ b.num * a.den)

def abs (a : Q) : Q := ⟨a.num.natAbs, a.den⟩

def floor (a : Q) : Q := ofInt (a.num / a.den)

def ceil (a : Q) : Q := neg (floor (neg a))

def trunc (a : Q) : Q := if a.num < 0 then ceil a else floor a

def fmod (a b : Q) : Q := sub a (mul (trunc (div a b)) b)

/-- The power with a natural exponent. -/
def npow (a : Q) : Nat → Q
  | 0 => ofInt 1
  | n + 1 => mul (npow a n) a

/-- Exact for an integral exponent. -/
def pow (a b : Q) : Q :=
  if b.den = 1 then
    if b.num < 0 then inv (npow a b.num.natAbs) else npow a b.num.natAbs
  else ⟨0, 1⟩

/-- Exact on squares of fractions. -/
def sqrt (a : Q) : Q :=
  if 0 ≤ a.num ∧ Nat.sqrt a.num.natAbs * Nat.sqrt a.num.natAbs = a.num.natAbs
      ∧ Nat.sqrt a.den * Nat.sqrt a.den = a.den then
    ⟨Nat.sqrt a.num.natAbs, Nat.sqrt a.den⟩
  else ⟨0, 1⟩

/-- The value `y` at the argument `x`, and `0` at every other argument. -/
def at_point (x y : Int) (a : Q) : Q := if a = ofInt x then ofInt y else ⟨0, 1⟩

/-- The conversion `int(x)`, defined on the range of a 32-bit `int`. -/
def toInt (a : Q) : Option Int :=
  if -2147483648 ≤ (trunc a).num ∧ (trunc a).num ≤ 2147483647 then some (trunc a).num else none

/-- The value of a run of decimal digits. -/
def digitsValue (ds : Str) : Nat := ds.foldl (fun acc d => 10 * acc + (d.toNat - 48)) 0

/-- Reads `digits`, `digits.digits` or `.digits`. -/
def to_number (s : Str) : Option Q :=
  let ip := s.takeWhile Char.isDigit
  let r := s.dropWhile Char.isDigit
  if r = [] then
    if ip = [] then none else some (ofInt (digitsValue ip))
  else if peekChar r = '.' ∧ r.tail.all Char.isDigit ∧ (ip ≠ [] ∨ r.tail ≠ []) then
    some (normalize (digitsValue (ip ++ r.tail)) (10 ^ r.tail.length))
  else none

/-- Drops the trailing zeros of a run of digits. -/
def stripZeros (ds : Str) : Str := (ds.reverse.dropWhile (· = '0')).reverse

/-- The six significant digits of `n / d` after rounding to nearest, ties to
even, and the decimal exponent of the rounded value; `n` and `d` are positive. -/
def sixDigits (n d : Nat) : Nat × Int :=
  let x : Int :=
    if d ≤ n then (((Nat.repr (n / d)).length : Nat) : Int) - 1
    else
      -((((List.range ((Nat.repr d).length + 1)).find? (fun k => d ≤ n * 10 ^ k)).getD 0 : Nat) : Int)
  let num := if x ≤ 5 then n * 10 ^ (5 - x).toNat else n
  let den := if x ≤ 5 then d else d * 10 ^ (x - 5).toNat
  let q := num / den
  let r := num % den
  let m := if den < 2 * r ∨ (2 * r = den ∧ q % 2 = 1) then q + 1 else q
  if m = 1000000 then (100000, x + 1) else (m, x)

/-- The text `ost << x` writes: the format `%g` with six significant digits. -/
def to_string (a : Q) : Str :=
  if a.num = 0 then ['0']
  else
    let sign : Str := if a.num < 0 then ['-'] else []
    let (m, x) := sixDigits a.num.natAbs a.den
    let ds := (Nat.repr m).toList
    if x < -4 ∨ 6 ≤ x then
      let frac := stripZeros ds.tail
      let e := (Nat.repr x.natAbs).toList
      sign ++ ds.take 1 ++ (if frac = [] then [] else '.' :: frac)
        ++ ['e', if x < 0 then '-' else '+'] ++ (if e.length < 2 then '0' :: e else e)
    else if 0 ≤ x then
      let frac := stripZeros (ds.drop (x.toNat + 1))
      sign ++ ds.take (x.toNat + 1) ++ (if frac = [] then [] else '.' :: frac)
    else
      sign ++ ['0', '.'] ++ List.replicate ((-x).toNat - 1) '0' ++ stripZeros ds

end Q

/-- The exact arithmetic on fractions. -/
def exactArith : Arith Q where
  ofInt := Q.ofInt
  to_number := Q.to_number
  to_string := Q.to_string
  toInt := Q.toInt
  add := Q.add
  sub := Q.sub
  mul := Q.mul
  div := Q.div
  neg := Q.neg
  fmod := Q.fmod
  pow := Q.pow
  eq := Q.eq
  lt := Q.lt
  le := Q.le
  abs := Q.abs
  trunc := Q.trunc
  floor := Q.floor
  ceil := Q.ceil
  sin := Q.at_point 0 0
  cos := Q.at_point 0 1
  tan := Q.at_point 0 0
  asin := Q.at_point 0 0
  acos := Q.at_point 1 0
  atan := Q.at_point 0 0
  log := Q.at_point 1 0
  exp := Q.at_point 0 1
  log10 := Q.at_point 1 0
  sqrt := Q.sqrt

end ExpressionEngine

namespace ExpressionEngine

/-! ## parser.h: the method `assign_expr` -/

/-- Method `Parser::assign_expr`, which no other method calls: besides the
value and the lexer, the parser with the symbol table the assignment leaves. -/
def Parser.assign_expr {α : Type} (A : Arith α) (p : Parser α) (fuel depth : Nat)
    (lx : Lexer) : Except Error ((α × Lexer) × Parser α) :=
  add_expr A p.symbol_table fuel depth lx >>= fun result =>
  if result.2.current_token = Token.Assign then
    if lx.current_token ≠ Token.Id then
      .error (.Syntax_error "target of assignment must be an identifier".toList)
    else if lx.current_token_text = "pi".toList ∨ lx.current_token_text = "e".toList then
      .error (.Syntax_error ("attempt to modify the constant ".toList ++ lx.current_token_text))
    else
      result.2.advance >>= fun lx2 =>
      add_expr A p.symbol_table fuel depth lx2 >>= fun v =>
      .ok (v, p.add_symbol lx.current_token_text v.1)
  else .ok (result, p)

/-- A result of `get_token` that is neither `Token::Assign` nor `Token::Not`. -/
def NoAssign (e : Except Error (Token × Str × List Char)) : Prop :=
  ∀ t txt rest, e = .ok (t, txt, rest) → t ≠ Token.Assign ∧ t ≠ Token.Not

/-- The lexer `lx` is one that the constructor of `Lexer` and calls of
`advance` make of some text. -/
def Lexer.Lexed (lx : Lexer) : Prop :=
  ∃ (s : Str) (lx0 : Lexer), Lexer.init s = .ok lx0 ∧ lx0.Reaches lx

/-! ## An arithmetic with NaN -/

namespace ExpEvaluator

variable {α : Type}

/-- The first loop of `getIdCount`: `id_count_map[id] = 0` for every
registered value. -/
def zero_counts (symbol_table : StdMap α) (id_count_map : StdMap Int) : StdMap Int :=
  symbol_table.foldl (fun m entry => m.assign entry.1 0) id_count_map

/-- The inner loop of `getIdCount`: `id_count_map[id_list[i]]++` for every
entry of `id_list` that is not the identifier of an expression. The counter is
an `int`; it stays far below `2^31` on any text that fits in memory. -/
def count_ids (expressions : StdMap Str) (id_list : List Str) (id_count_map : StdMap Int) :
    StdMap Int :=
  id_list.foldl
    (fun m id => if expressions.contains id then m else m.assign id ((m.find id).getD 0 + 1))
    id_count_map

/-- The body of the second loop of `getIdCount` for one expression: a
`Lexical_error` of `get_ids` is caught and the expression is skipped. -/
def count_step (expressions : StdMap Str) (id_count_map : StdMap Int) (entry : Str × Str) :
    Except Error (StdMap Int) :=
  match get_ids entry.2 [] with
  | (id_list, .ok _) => .ok (count_ids expressions id_list id_count_map)
  | (_, .error (.Lexical_error _)) => .ok id_count_map
  | (_, .error e) => .error e

/-- Method `ExpEvaluator::getIdCount`. -/
def getIdCount (ev : ExpEvaluator α) : Except Error (StdMap Int) :=
  ev.expressions.foldlM (count_step ev.expressions) (zero_counts ev.symbol_table [])

/-- Method `ExpEvaluator::getUniqueIds`. -/
def getUniqueIds (ev : ExpEvaluator α) : Except Error (List Str) :=
  getIdCount ev >>= fun id_count_map =>
  .ok ((id_count_map.filter (fun entry => entry.2 > 0)).map Prod.fst)

/-- How many of the registered expressions mention the identifier `id`. -/
def referencing (expressions : StdMap Str) (id : Str) : Nat :=
  (expressions.filter (fun entry => decide (id ∈ (get_ids entry.2 []).1))).length

/-- How many identifier tokens `id` the registered expression texts hold
together. -/
def occurrences (expressions : StdMap Str) (id : Str) : Nat :=
  (expressions.map (fun entry => (get_ids entry.2 []).1.count id)).sum

end ExpEvaluator

end ExpressionEngine

namespace ExpressionEngine

/-! ## Vocabulary for the reported cycles and for the tokens of a text -/

/-- The sequence of names `c` is a dependency loop of the graph: the names of
vertex numbers `p`, not none, each with an edge to the next and the last with
an edge back to the first. -/
def Graph.IsLoop (g : Graph) (c : List Str) : Prop :=
  ∃ p : List Nat, c = p.map g.vertex ∧ p ≠ [] ∧ List.Chain' g.edge p
    ∧ ∃ first last, p.head? = some first ∧ p.getLast? = some last ∧ g.edge last first

/-- The stack is a path, each entry with an edge to the entry above it, and
every cycle reported so far is a loop. -/
def Graph.LoopInv (g : Graph) (d : DFS) : Prop :=
  List.Chain' (fun a b => g.edge b a) d.dfs_stack ∧ ∀ c ∈ d.cycles, g.IsLoop c

/-- The tokens that repeated calls of `get_token` deliver from `input` up to
the end of the input, each with its text; `fuel` bounds their number. -/
def tokenize : Nat → List Char → Except Error (List (Token × Str))
  | 0, _ => .error .fuel_exhausted
  | fuel + 1, input =>
    match get_token input with
    | .error e => .error e
    | .ok (t, txt, rest) =>
      if t = Token.Eofsym then .ok []
      else
        match tokenize fuel rest with
        | .error e => .error e
        | .ok ts => .ok ((t, txt) :: ts)

/-- The tokens of the text `s`. -/
def tokens (s : Str) : Except Error (List (Token × Str)) := tokenize (s.length + 1) s

/-- The texts of the tokens `Token::Id` among `ts`, in order. -/
def idTexts (ts : List (Token × Str)) : List Str :=
  ts.filterMap (fun t => if t.1 = Token.Id then some t.2 else none)

/-- The names that `get_token` turns into a function or logical keyword. -/
def keywords : List Str :=
  ["and".toList, "or".toList, "sin".toList, "cos".toList, "tan".toList, "asin".toList,
    "acos".toList, "atan".toList, "log".toList, "exp".toList, "log10".toList, "exp10".toList,
    "sqrt".toList, "int".toList]

end ExpressionEngine

namespace ExpressionEngine

/-! # Properties

## `std::map` -/

namespace StdMap

variable {β : Type}

theorem find_orderedInsert (m : StdMap β) (k k' : Str) (v : β) (h : m.find k = none) :
    (m.orderedInsert k v).find k' = if k' = k then some v else m.find k' := by
  induction m with
  | nil => simp [orderedInsert, find]
  | cons e m ih =>
    obtain ⟨a, w⟩ := e
    have hka : k ≠ a := by
      intro hk
      simp [find, hk] at h
    have hm : find m k = none := by
      simpa [find, hka] using h
    by_cases hlt : strLt k a = true
    · simp [orderedInsert, hlt, find]
    · by_cases h1 : k' = a
      · have : ¬ k' = k := fun h2 => hka (h2.symm.trans h1)
        simp [orderedInsert, hlt, find, h1, Ne.symm hka]
      · simp [orderedInsert, hlt, find, h1, ih hm]

theorem find_replace (m : StdMap β) (k k' : Str) (v : β) :
    (m.replace k v).find k' = if k' = k then (m.find k).map (fun _ => v) else m.find k' := by
  induction m with
  | nil => simp [replace, find]
  | cons e m ih =>
    obtain ⟨a, w⟩ := e
    by_cases hka : k = a
    · subst hka
      by_cases h1 : k' = k <;> simp [replace, find, h1]
    · by_cases h1 : k' = a
      · have : ¬ k' = k := fun h2 => hka (h2.symm.trans h1)
        simp [replace, find, hka, h1, Ne.symm hka]
      · simp [replace, find, hka, h1, ih]

theorem find_insert (m : StdMap β) (k k' : Str) (v : β) :
    (m.insert k v).find k' = if k' = k then some ((m.find k).getD v) else m.find k' := by
  unfold insert
  cases h : m.find k with
  | none => simp [find_orderedInsert m k k' v h]
  | some w =>
    by_cases h1 : k' = k
    · simp [h1, h]
    · simp [h1]

theorem find_assign (m : StdMap β) (k k' : Str) (v : β) :
    (m.assign k v).find k' = if k' = k then some v else m.find k' := by
  unfold assign
  cases h : m.find k with
  | none => simp [find_orderedInsert m k k' v h]
  | some w => simp [find_replace, h]

theorem insert_of_find_some (m : StdMap β) (k : Str) (v w : β) (h : m.find k = some w) :
    m.insert k v = m := by
  simp [insert, h]

theorem mem_of_find (m : StdMap β) (k : Str) (v : β) (h : m.find k = some v) : (k, v) ∈ m := by
  induction m with
  | nil => simp [find] at h
  | cons e m ih =>
    obtain ⟨a, w⟩ := e
    by_cases hka : k = a
    · have hw : w = v := by simpa [find, hka] using h
      rw [hka, hw]
      exact List.mem_cons_self _ _
    · have hm : find m k = some v := by simpa [find, hka] using h
      exact List.mem_cons_of_mem _ (ih hm)

theorem find_isSome_iff_mem_keys (m : StdMap β) (k : Str) : (m.find k).isSome ↔ k ∈ m.keys := by
  induction m with
  | nil => simp [find, keys]
  | cons e m ih =>
    obtain ⟨a, w⟩ := e
    have hk : keys ((a, w) :: m) = a :: keys m := rfl
    rw [hk, List.mem_cons, ← ih]
    by_cases hka : k = a
    · simp only [find, hka, if_true, Option.isSome_some, true_or]
    · simp only [find, hka, if_false, false_or]

theorem contains_iff_mem_keys (m : StdMap β) (k : Str) : m.contains k = true ↔ k ∈ m.keys :=
  find_isSome_iff_mem_keys m k

theorem find_of_mem (m : StdMap β) (hnd : m.keys.Nodup) (k : Str) (v : β) (h : (k, v) ∈ m) :
    m.find k = some v := by
  induction m with
  | nil => simp at h
  | cons e m ih =>
    obtain ⟨a, w⟩ := e
    simp only [keys, List.map_cons, List.nodup_cons] at hnd
    rcases List.mem_cons.1 h with h1 | h1
    · simp only [Prod.mk.injEq] at h1
      simp [find, h1.1, h1.2]
    · have hka : k ≠ a := by
        intro hk
        apply hnd.1
        rw [← hk]
        exact List.mem_map_of_mem Prod.fst h1
      simp [find, hka, ih hnd.2 h1]

end StdMap

end ExpressionEngine

namespace ExpressionEngine

/-! ## The evaluation loop and its attempts -/

namespace ExpEvaluator

variable {α : Type}

theorem store_cons (R : StdMap α) (k : Str) (v : α) (l : List (Str × α)) :
    store R ((k, v) :: l) = store (R.insert k v) l := rfl

theorem find_store_isSome (l : List (Str × α)) (R : StdMap α) (k : Str)
    (h : (R.find k).isSome) : ((store R l).find k).isSome := by
  induction l generalizing R with
  | nil => exact h
  | cons e l ih =>
    obtain ⟨a, w⟩ := e
    rw [store_cons]
    apply ih
    rw [StdMap.find_insert]
    by_cases hk : k = a
    · simp [hk]
    · simpa [hk] using h

theorem find_store_of_mem (l : List (Str × α)) (R : StdMap α) (k : Str) (v : α)
    (h : (k, v) ∈ l) : ((store R l).find k).isSome := by
  induction l generalizing R with
  | nil => simp at h
  | cons e l ih =>
    obtain ⟨a, w⟩ := e
    rw [store_cons]
    rcases List.mem_cons.1 h with h1 | h1
    · simp only [Prod.mk.injEq] at h1
      apply find_store_isSome
      rw [StdMap.find_insert]
      simp [h1.1]
    · exact ih _ h1

theorem store_absorb (l : List (Str × α)) (R : StdMap α)
    (h : ∀ e ∈ l, (R.find e.1).isSome) : store R l = R := by
  induction l generalizing R with
  | nil => rfl
  | cons e l ih =>
    obtain ⟨a, w⟩ := e
    rw [store_cons]
    have ha : (StdMap.find R a).isSome := h (a, w) (List.mem_cons_self _ _)
    obtain ⟨u, hu⟩ := Option.isSome_iff_exists.1 ha
    rw [StdMap.insert_of_find_some R a w u hu]
    exact ih R (fun e he => h e (List.mem_cons_of_mem _ he))

theorem store_store (l : List (Str × α)) (R : StdMap α) : store (store R l) l = store R l :=
  store_absorb l _ (fun e he => find_store_of_mem l R e.1 e.2 he)

theorem evaluate_loop_result (A : Arith α) (exprs : StdMap Str) (ids : List Str) :
    ∀ (idx : Nat) (P : Parser α) (R : StdMap α) (E : Str),
      (evaluate_loop A exprs ids idx ⟨P, R, E⟩).1.result
        = store R (succeeded (attempts A exprs ids P)) := by
  induction ids with
  | nil => intro idx P R E; rfl
  | cons id ids ih =>
    intro idx P R E
    simp only [evaluate_loop, evaluate_step, attempts]
    cases hc : P.call A ((exprs.find id).getD []) with
    | ok v => simp only [succeeded, store_cons]; exact ih _ _ _ _
    | error e =>
      cases e <;> simp only [collected, succeeded, if_true] <;> first | exact ih _ _ _ _ | rfl

theorem evaluate_loop_indep (A : Arith α) (exprs : StdMap Str) (ids : List Str) :
    ∀ (idx : Nat) (P : Parser α) (R R' : StdMap α) (E : Str),
      (evaluate_loop A exprs ids idx ⟨P, R, E⟩).1.parser
          = (evaluate_loop A exprs ids idx ⟨P, R', E⟩).1.parser
      ∧ (evaluate_loop A exprs ids idx ⟨P, R, E⟩).1.errorStream
          = (evaluate_loop A exprs ids idx ⟨P, R', E⟩).1.errorStream
      ∧ (evaluate_loop A exprs ids idx ⟨P, R, E⟩).2
          = (evaluate_loop A exprs ids idx ⟨P, R', E⟩).2 := by
  induction ids with
  | nil => intro idx P R R' E; exact ⟨rfl, rfl, rfl⟩
  | cons id ids ih =>
    intro idx P R R' E
    simp only [evaluate_loop, evaluate_step]
    cases hc : P.call A ((exprs.find id).getD []) with
    | ok v => exact ih _ _ _ _ _
    | error e =>
      cases e <;> first | exact ih _ _ _ _ _ | exact ⟨rfl, rfl, rfl⟩

end ExpEvaluator
end ExpressionEngine

namespace ExpressionEngine
namespace ExpEvaluator

variable {α : Type}

/-! ## The phases of `evaluate` -/

/-- The phases that make a call of `evaluate` return a map. -/
theorem evaluate_ok_intro (A : Arith α) (ev : ExpEvaluator α) (sorted : List Str) (p : Pass α)
    (h1 : (populate_loop ev.expressions ev.symbol_table).1 = [])
    (h2 : validatedIdGraph { ev with graph := (populate_loop ev.expressions ev.symbol_table).2 }
          = .ok ())
    (h3 : (populate_loop ev.expressions ev.symbol_table).2.sort [] = .ok sorted)
    (h4 : evaluate_loop A ev.expressions sorted.reverse 0
          ⟨add_symbols (Parser.new A) ev.symbol_table, ev.result, []⟩ = (p, .ok ()))
    (h5 : p.errorStream = []) :
    evaluate A ev
      = ({ ev with graph := (populate_loop ev.expressions ev.symbol_table).2, result := p.result },
          .ok p.result) := by
  unfold evaluate
  simp only [populateIdGraph, h1, List.length_nil, gt_iff_lt, lt_self_iff_false, if_false, h2, h3,
    h4, h5]

/-- What a call of `evaluate` that returns a map has gone through. -/
theorem evaluate_ok_inv (A : Arith α) (ev : ExpEvaluator α) (m : StdMap α)
    (h : (evaluate A ev).2 = .ok m) :
    ∃ (sorted : List Str) (p : Pass α),
      (populate_loop ev.expressions ev.symbol_table).1 = []
      ∧ validatedIdGraph { ev with graph := (populate_loop ev.expressions ev.symbol_table).2 }
          = .ok ()
      ∧ (populate_loop ev.expressions ev.symbol_table).2.sort [] = .ok sorted
      ∧ evaluate_loop A ev.expressions sorted.reverse 0
          ⟨add_symbols (Parser.new A) ev.symbol_table, ev.result, []⟩ = (p, .ok ())
      ∧ p.errorStream = []
      ∧ m = p.result
      ∧ (evaluate A ev).1
          = { ev with graph := (populate_loop ev.expressions ev.symbol_table).2,
                      result := p.result } := by
  have hfst : ∀ x : Pass α × Except Error Unit, x = (x.1, x.2) := fun x => rfl
  unfold evaluate at h
  simp only [populateIdGraph] at h
  by_cases he : (populate_loop ev.expressions ev.symbol_table).1.length > 0
  · simp [he] at h
  · have he0 : (populate_loop ev.expressions ev.symbol_table).1 = [] := by
      simpa using he
    simp only [he, if_false] at h
    cases hv : validatedIdGraph
        { ev with graph := (populate_loop ev.expressions ev.symbol_table).2 } with
    | error e => simp [hv] at h
    | ok u =>
      simp only [hv] at h
      cases hs : (populate_loop ev.expressions ev.symbol_table).2.sort [] with
      | error e => simp [hs] at h
      | ok sorted =>
        simp only [hs] at h
        rcases hl : evaluate_loop A ev.expressions sorted.reverse 0
          ⟨add_symbols (Parser.new A) ev.symbol_table, ev.result, []⟩ with ⟨p, st⟩
        simp only [hl] at h
        cases st with
        | error e => simp at h
        | ok u' =>
          simp only at h
          by_cases hp : p.errorStream.length > 0
          · simp [hp] at h
          · have hp0 : p.errorStream = [] := by simpa using hp
            simp only [hp, if_false] at h
            have hm : m = p.result := by simpa using h.symm
            refine ⟨sorted, p, he0, rfl, rfl, ?_, hp0, hm, ?_⟩
            · exact hl
            · rw [evaluate_ok_intro A ev sorted p he0 hv hs hl hp0]

end ExpEvaluator
end ExpressionEngine

namespace ExpressionEngine
namespace ExpEvaluator

variable {α : Type}

/-! ## The validation pass of `populateIdGraph` -/

/-- The entry `populateIdGraph` writes for an identifier it cannot resolve,
up to the words `Not found`. -/
theorem not_found_entry (errorStream id rest : Str) :
    ("SyntaxError: '".toList ++ id ++ "' Not found".toList)
      <:+: (errorStream ++ "SyntaxError: ".toList ++ ("'".toList ++ id ++ "'".toList)
          ++ " Not found".toList ++ rest) := by
  refine ⟨errorStream, rest, ?_⟩
  have h1 : "SyntaxError: '".toList = "SyntaxError: ".toList ++ "'".toList := by decide
  have h2 : "' Not found".toList = "'".toList ++ " Not found".toList := by decide
  rw [h1, h2]
  simp only [List.append_assoc]

theorem populate_ids_grows (expressions : StdMap Str) (symbol_table : StdMap α) (pm : StdMap Nat)
    (key text : Str) (ids : List Str) :
    ∀ st : Str × Graph,
      st.1 <+: (populate_ids expressions symbol_table pm key text ids st).1 := by
  induction ids with
  | nil => intro st; exact List.prefix_refl _
  | cons id ids ih =>
    intro st
    obtain ⟨e, g⟩ := st
    simp only [populate_ids]
    split
    · refine List.IsPrefix.trans ?_ (ih _)
      simp only [List.append_assoc]
      exact List.prefix_append _ _
    · split
      · exact ih (e, _)
      · exact ih (e, g)

theorem populate_ids_not_found (expressions : StdMap Str) (symbol_table : StdMap α)
    (pm : StdMap Nat) (key text id : Str) (hne : expressions.find id = none)
    (hnv : symbol_table.find id = none) (ids : List Str) (hid : id ∈ ids) :
    ∀ st : Str × Graph,
      ("SyntaxError: '".toList ++ id ++ "' Not found".toList)
        <:+: (populate_ids expressions symbol_table pm key text ids st).1 := by
  induction ids with
  | nil => simp at hid
  | cons a ids ih =>
    intro st
    obtain ⟨e, g⟩ := st
    rcases List.mem_cons.1 hid with h1 | h1
    · subst h1
      have hc : (!expressions.contains id && !symbol_table.contains id) = true := by
        simp [StdMap.contains, hne, hnv]
      simp only [populate_ids, hc, if_true]
      refine List.IsInfix.trans ?_ (populate_ids_grows _ _ _ _ _ _ _).isInfix
      simp only [List.append_assoc]
      have := not_found_entry e id (":expression".toList ++ ("[".toList ++ (showNat (position pm key)
        ++ ("]:".toList ++ (text ++ (":".toList ++ (showNat ((findSubstring id text).getD 0)
        ++ "\n".toList)))))))
      simpa only [List.append_assoc] using this
    · simp only [populate_ids]
      split
      · exact ih h1 _
      · split
        · exact ih h1 _
        · exact ih h1 _

theorem populate_step_grows (expressions : StdMap Str) (symbol_table : StdMap α)
    (pm : StdMap Nat) (st : Str × Graph) (entry : Str × Str) :
    st.1 <+: (populate_step expressions symbol_table pm st entry).1 := by
  unfold populate_step
  rcases get_ids entry.2 [] with ⟨id_list, r⟩
  refine List.IsPrefix.trans ?_ (populate_ids_grows _ _ _ _ _ _ _)
  cases r with
  | error e =>
    simp only [List.append_assoc]
    exact List.prefix_append _ _
  | ok u => exact List.prefix_refl _

theorem populate_fold_grows (expressions : StdMap Str) (symbol_table : StdMap α)
    (pm : StdMap Nat) (l : List (Str × Str)) :
    ∀ st : Str × Graph,
      st.1 <+: (l.foldl (populate_step expressions symbol_table pm) st).1 := by
  induction l with
  | nil => intro st; exact List.prefix_refl _
  | cons e l ih =>
    intro st
    exact List.IsPrefix.trans (populate_step_grows _ _ _ _ _) (ih _)

theorem populate_fold_not_found (expressions : StdMap Str) (symbol_table : StdMap α)
    (pm : StdMap Nat) (key text id : Str) (hne : expressions.find id = none)
    (hnv : symbol_table.find id = none) (hid : id ∈ (get_ids text []).1)
    (l : List (Str × Str)) (hmem : (key, text) ∈ l) :
    ∀ st : Str × Graph,
      ("SyntaxError: '".toList ++ id ++ "' Not found".toList)
        <:+: (l.foldl (populate_step expressions symbol_table pm) st).1 := by
  induction l with
  | nil => simp at hmem
  | cons e l ih =>
    intro st
    rcases List.mem_cons.1 hmem with h1 | h1
    · subst h1
      rw [List.foldl_cons]
      refine List.IsInfix.trans ?_ (populate_fold_grows _ _ _ _ _).isInfix
      unfold populate_step
      exact populate_ids_not_found _ _ _ _ _ _ hne hnv _ hid _
    · exact ih h1 _

end ExpEvaluator
end ExpressionEngine

namespace ExpressionEngine
namespace Graph

/-! ## `Graph::sort` -/

theorem countP_lt_of_witness {β : Type} (p q : β → Bool) (l : List β)
    (hpq : ∀ x ∈ l, p x = true → q x = true) (x : β) (hx : x ∈ l) (hq : q x = true)
    (hp : p x = false) : l.countP p < l.countP q := by
  induction l with
  | nil => simp at hx
  | cons a l ih =>
    have hmono : l.countP p ≤ l.countP q :=
      List.countP_mono_left (fun y hy h => hpq y (List.mem_cons_of_mem _ hy) h)
    rcases List.mem_cons.1 hx with h1 | h1
    · subst h1
      rw [List.countP_cons_of_pos _ _ hq, List.countP_cons_of_neg _ _ (by simp [hp])]
      omega
    · have ih' := ih (fun y hy h => hpq y (List.mem_cons_of_mem _ hy) h) h1
      by_cases hpa : p a = true
      · rw [List.countP_cons_of_pos _ _ hpa,
          List.countP_cons_of_pos _ _ (hpq a (List.mem_cons_self _ _) hpa)]
        omega
      · rw [List.countP_cons_of_neg _ _ hpa]
        by_cases hqa : q a = true
        · rw [List.countP_cons_of_pos _ _ hqa]; omega
        · rw [List.countP_cons_of_neg _ _ hqa]; omega

theorem unvisited_mono (g : Graph) (vis vis' : Nat → Bool)
    (h : ∀ u, vis u = true → vis' u = true) : g.unvisited vis' ≤ g.unvisited vis := by
  unfold unvisited
  apply List.countP_mono_left
  intro u _ hu
  cases hv : vis u with
  | false => rfl
  | true => simp [h u hv] at hu

theorem unvisited_update_lt (g : Graph) (vis : Nat → Bool) (v : Nat) (hv : v < g.V)
    (hvis : vis v = false) : g.unvisited (Function.update vis v true) < g.unvisited vis := by
  unfold unvisited
  apply countP_lt_of_witness _ _ _ _ v (List.mem_range.2 hv)
  · simp [hvis]
  · simp
  · intro u _ hu
    by_cases huv : u = v
    · subst huv; simp [hvis]
    · simpa [Function.update, huv] using hu

end Graph
end ExpressionEngine

namespace ExpressionEngine
namespace Graph

theorem unvisited_pos (g : Graph) (vis : Nat → Bool) (v : Nat) (hv : v < g.V)
    (hvis : vis v = false) : 0 < g.unvisited vis :=
  lt_of_le_of_lt (Nat.zero_le _) (unvisited_update_lt g vis v hv hvis)

theorem SortStep.sort_refl (g : Graph) (vis : Nat → Bool) (st : List Nat) (h : g.SortInv vis st) :
    SortStep vis st vis st where
  visited_iff := fun u => ⟨fun hu => Or.inl hu, fun hu => hu.elim id (h.sub u)⟩
  keeps := fun _ hu => hu
  fresh := fun _ hu => Or.inl hu

theorem SortStep.sort_trans {vis vis1 vis2 : Nat → Bool} {st st1 st2 : List Nat}
    (h1 : SortStep vis st vis1 st1) (h2 : SortStep vis1 st1 vis2 st2) :
    SortStep vis st vis2 st2 where
  visited_iff := by
    intro u
    rw [h2.visited_iff, h1.visited_iff]
    constructor
    · rintro ((h | h) | h)
      · exact Or.inl h
      · exact Or.inr (h2.keeps u h)
      · exact Or.inr h
    · rintro (h | h)
      · exact Or.inl (Or.inl h)
      · exact Or.inr h
  keeps := fun u hu => h2.keeps u (h1.keeps u hu)
  fresh := by
    intro u hu
    rcases h2.fresh u hu with h | h
    · exact h1.fresh u h
    · right
      cases hvu : vis u with
      | false => rfl
      | true =>
        have := (h1.visited_iff u).2 (Or.inl hvu)
        rw [h] at this
        exact absurd this (by simp)

/-- The loop over the successors of a vertex (and the loop of `sort`), given
that `dfs` with this fuel meets its specification. -/
theorem dfs_loop_spec (g : Graph) (n : Nat)
    (hdfs : ∀ (v : Nat) (vis : Nat → Bool) (st : List Nat), v < g.V → vis v = false →
      g.SortInv vis st →
      (∀ u, vis u = true → u ∉ st → Relation.ReflTransGen g.edge u v) →
      g.unvisited vis ≤ n →
      ∃ vis' st', g.dfs n v (vis, st) = .ok (vis', st') ∧ g.SortInv vis' st'
        ∧ SortStep vis st vis' st' ∧ v ∈ st') :
    ∀ (js : List Nat) (vis : Nat → Bool) (st : List Nat), (∀ j ∈ js, j < g.V) →
      g.SortInv vis st →
      (∀ j ∈ js, ∀ u, vis u = true → u ∉ st → Relation.ReflTransGen g.edge u j) →
      g.unvisited vis ≤ n →
      ∃ vis' st',
        js.foldlM (fun (s : (Nat → Bool) × List Nat) j => if !s.1 j then g.dfs n j s else .ok s)
          (vis, st) = .ok (vis', st')
        ∧ g.SortInv vis' st' ∧ SortStep vis st vis' st' ∧ ∀ j ∈ js, vis' j = true := by
  intro js
  induction js with
  | nil =>
    intro vis st _ hinv _ _
    exact ⟨vis, st, rfl, hinv, SortStep.sort_refl g vis st hinv, fun j hj => by simp at hj⟩
  | cons j js ih =>
    intro vis st hlt hinv hgray hfuel
    rw [List.foldlM_cons]
    cases hvj : vis j with
    | true =>
      obtain ⟨vis', st', hf, hinv', hstep, hall⟩ :=
        ih vis st (fun x hx => hlt x (List.mem_cons_of_mem _ hx)) hinv
          (fun x hx => hgray x (List.mem_cons_of_mem _ hx)) hfuel
      refine ⟨vis', st', ?_, hinv', hstep, ?_⟩
      · simp only [hvj, Bool.not_true, Bool.false_eq_true, if_false]
        exact hf
      · intro x hx
        rcases List.mem_cons.1 hx with h | h
        · rw [h]; exact (hstep.visited_iff j).2 (Or.inl hvj)
        · exact hall x h
    | false =>
      obtain ⟨vis1, st1, hd, hinv1, hstep1, hj1⟩ :=
        hdfs j vis st (hlt j (List.mem_cons_self _ _)) hvj hinv
          (hgray j (List.mem_cons_self _ _)) hfuel
      have hmono : ∀ u, vis u = true → vis1 u = true :=
        fun u hu => (hstep1.visited_iff u).2 (Or.inl hu)
      obtain ⟨vis', st', hf, hinv', hstep, hall⟩ :=
        ih vis1 st1 (fun x hx => hlt x (List.mem_cons_of_mem _ hx)) hinv1
          (by
            intro x hx u hu hnu
            have hu' : vis u = true := by
              rcases (hstep1.visited_iff u).1 hu with h | h
              · exact h
              · exact absurd h hnu
            exact hgray x (List.mem_cons_of_mem _ hx) u hu' (fun h => hnu (hstep1.keeps u h)))
          (le_trans (unvisited_mono g vis vis1 hmono) hfuel)
      refine ⟨vis', st', ?_, hinv', hstep1.sort_trans hstep, ?_⟩
      · simp only [hvj, Bool.not_false, if_true]
        rw [hd]
        exact hf
      · intro x hx
        rcases List.mem_cons.1 hx with h | h
        · rw [h]; exact hinv'.sub j (hstep.keeps j hj1)
        · exact hall x h

/-- Method `dfs` on a graph without a cycle: with fuel for the vertices not
yet visited it returns, and it keeps the stack in topological order. -/
theorem dfs_spec (g : Graph) (hval : g.Valid) (hac : ¬ g.HasCycle) :
    ∀ (n v : Nat) (vis : Nat → Bool) (st : List Nat), v < g.V → vis v = false →
      g.SortInv vis st →
      (∀ u, vis u = true → u ∉ st → Relation.ReflTransGen g.edge u v) →
      g.unvisited vis ≤ n →
      ∃ vis' st', g.dfs n v (vis, st) = .ok (vis', st') ∧ g.SortInv vis' st'
        ∧ SortStep vis st vis' st' ∧ v ∈ st' := by
  intro n
  induction n with
  | zero =>
    intro v vis st hv hvis _ _ hfuel
    have := unvisited_pos g vis v hv hvis
    omega
  | succ n ih =>
    intro v vis st hv hvis hinv hgray hfuel
    have hvst : v ∉ st := fun h => by
      have := hinv.sub v h
      rw [hvis] at this
      exact absurd this (by simp)
    have hinv1 : g.SortInv (Function.update vis v true) st :=
      { sub := by
          intro u hu
          by_cases huv : u = v
          · rw [huv, Function.update_same]
          · rw [Function.update_noteq huv]
            exact hinv.sub u hu
        closed := hinv.closed
        ordered := hinv.ordered
        nodup := hinv.nodup
        lt := hinv.lt }
    obtain ⟨vis', st', hf, hinv', hstep, hall⟩ :=
      dfs_loop_spec g n ih (g.adj v) (Function.update vis v true) st
        (fun j hj => (hval v j hj).2) hinv1
        (by
          intro j hj u hu hnu
          by_cases huv : u = v
          · rw [huv]; exact Relation.ReflTransGen.single hj
          · have hu' : vis u = true := by simpa [Function.update, huv] using hu
            exact Relation.ReflTransGen.tail (hgray u hu' hnu) hj)
        (by
          have := unvisited_update_lt g vis v hv hvis
          omega)
    have hvst' : v ∉ st' := by
      intro h
      rcases hstep.fresh v h with h1 | h1
      · exact hvst h1
      · rw [Function.update_same] at h1
        exact absurd h1 (by simp)
    refine ⟨vis', v :: st', ?_, ?_, ?_, List.mem_cons_self _ _⟩
    · simp only [dfs]
      rw [hf]
    · exact
        { sub := by
            intro u hu
            rcases List.mem_cons.1 hu with h | h
            · rw [h]; exact (hstep.visited_iff v).2 (Or.inl (by simp))
            · exact hinv'.sub u h
          closed := by
            intro u hu w hw
            rcases List.mem_cons.1 hu with h | h
            · subst h
              by_cases hwst : w ∈ st'
              · exact List.mem_cons_of_mem _ hwst
              · exfalso
                have hw1 : Function.update vis u true w = true := by
                  rcases (hstep.visited_iff w).1 (hall w hw) with h1 | h1
                  · exact h1
                  · exact absurd h1 hwst
                by_cases hwu : w = u
                · subst hwu
                  exact hac ⟨w, Relation.TransGen.single hw⟩
                · have hw2 : vis w = true := by simpa [Function.update, hwu] using hw1
                  have hr := hgray w hw2 (fun h1 => hwst (hstep.keeps w h1))
                  exact hac ⟨u, Relation.TransGen.head' hw hr⟩
            · exact List.mem_cons_of_mem _ (hinv'.closed u h w hw)
          ordered := by
            refine List.Pairwise.cons ?_ hinv'.ordered
            intro b hb hvb
            exact hvst' (hinv'.closed b hb v hvb)
          nodup := List.nodup_cons.2 ⟨hvst', hinv'.nodup⟩
          lt := by
            intro u hu
            rcases List.mem_cons.1 hu with h | h
            · rw [h]; exact hv
            · exact hinv'.lt u h }
    · exact
        { visited_iff := by
            intro u
            rw [hstep.visited_iff]
            by_cases huv : u = v
            · subst huv
              rw [Function.update_same]
              simp
            · rw [Function.update_noteq huv]
              simp [huv]
          keeps := fun u hu => List.mem_cons_of_mem _ (hstep.keeps u hu)
          fresh := by
            intro u hu
            rcases List.mem_cons.1 hu with h | h
            · rw [h]; exact Or.inr hvis
            · rcases hstep.fresh u h with h1 | h1
              · exact Or.inl h1
              · right
                by_cases huv : u = v
                · rw [huv]; exact hvis
                · simpa [Function.update, huv] using h1 }

end Graph
end ExpressionEngine

namespace ExpressionEngine

theorem precedes_reverse {β : Type} (l : List β) (a b : β) (h : precedes l a b) :
    precedes l.reverse b a := by
  obtain ⟨i, j, hij, hi, hj⟩ := h
  have hjl : j < l.length := by
    by_contra hc
    rw [List.getElem?_eq_none (by omega)] at hj
    exact absurd hj (by simp)
  refine ⟨l.length - 1 - j, l.length - 1 - i, by omega, ?_, ?_⟩
  · rw [List.getElem?_reverse (by omega)]
    have : l.length - 1 - (l.length - 1 - j) = j := by omega
    rw [this]; exact hj
  · rw [List.getElem?_reverse (by omega)]
    have : l.length - 1 - (l.length - 1 - i) = i := by omega
    rw [this]; exact hi

theorem precedes_of_pairwise {β : Type} (R : β → β → Prop) (l : List β) (hp : l.Pairwise R)
    (a b : β) (ha : a ∈ l) (hb : b ∈ l) (hne : a ≠ b) (hR : ¬ R b a) : precedes l a b := by
  obtain ⟨i, hi⟩ := List.mem_iff_getElem?.1 ha
  obtain ⟨j, hj⟩ := List.mem_iff_getElem?.1 hb
  have hil : i < l.length := by
    by_contra hc
    rw [List.getElem?_eq_none (by omega)] at hi
    exact absurd hi (by simp)
  have hjl : j < l.length := by
    by_contra hc
    rw [List.getElem?_eq_none (by omega)] at hj
    exact absurd hj (by simp)
  rw [List.getElem?_eq_getElem hil] at hi
  rw [List.getElem?_eq_getElem hjl] at hj
  have hi' : l[i] = a := by simpa using hi
  have hj' : l[j] = b := by simpa using hj
  rcases Nat.lt_trichotomy i j with h | h | h
  · exact ⟨i, j, h, by rw [List.getElem?_eq_getElem hil, hi'],
      by rw [List.getElem?_eq_getElem hjl, hj']⟩
  · exfalso
    subst h
    exact hne (hi'.symm.trans hj')
  · exfalso
    have := List.pairwise_iff_getElem.1 hp j i hjl hil h
    rw [hi', hj'] at this
    exact hR this

namespace Graph

/-- A graph whose edges all descend along a rank has no cycle. -/
theorem not_hasCycle_of_rank (g : Graph) (f : Nat → Nat)
    (h : ∀ v w, w ∈ g.adj v → f w < f v) : ¬ g.HasCycle := by
  rintro ⟨v, hv⟩
  have key : ∀ a b, Relation.TransGen g.edge a b → f b < f a := by
    intro a b hab
    induction hab with
    | single hab => exact h _ _ hab
    | tail _ hbc ih => exact lt_trans (h _ _ hbc) ih
  exact lt_irrefl _ (key v v hv)

theorem sort_loop_eq (g : Graph) (is : List Nat) (st : (Nat → Bool) × List Nat) :
    g.sort_loop is st
      = is.foldlM (fun (s : (Nat → Bool) × List Nat) j => if !s.1 j then g.dfs g.V j s else .ok s)
          st := by
  unfold sort_loop
  congr 1
  funext s i
  cases s.1 i <;> simp

/-- Method `sort` on a graph without a cycle: it returns, it appends every
vertex once, and every edge leads from a smaller index to a larger one. -/
theorem sort_spec (g : Graph) (hval : g.Valid) (hac : ¬ g.HasCycle) (sorted : List Str) :
    ∃ order : List Nat,
      g.sort sorted = .ok (sorted ++ order.map g.vertex)
      ∧ order.Nodup
      ∧ (∀ u, u ∈ order ↔ u < g.V)
      ∧ (∀ v w, w ∈ g.adj v → precedes order v w) := by
  obtain ⟨vis', st', hf, hinv, hstep, hall⟩ :=
    dfs_loop_spec g g.V (dfs_spec g hval hac g.V) (List.range g.V) (fun _ => false) []
      (fun j hj => List.mem_range.1 hj)
      { sub := fun u hu => by simp at hu
        closed := fun u hu => by simp at hu
        ordered := List.Pairwise.nil
        nodup := List.nodup_nil
        lt := fun u hu => by simp at hu }
      (fun j _ u hu => by simp at hu)
      (by
        unfold unvisited
        exact le_trans (List.countP_le_length _) (by simp))
  refine ⟨st', ?_, hinv.nodup, ?_, ?_⟩
  · unfold sort
    rw [sort_loop_eq, hf]
  · intro u
    constructor
    · exact hinv.lt u
    · intro hu
      rcases (hstep.visited_iff u).1 (hall u (List.mem_range.2 hu)) with h | h
      · simp at h
      · exact h
  · intro v w hw
    have hmem : ∀ u, u < g.V → u ∈ st' := by
      intro u hu
      rcases (hstep.visited_iff u).1 (hall u (List.mem_range.2 hu)) with h | h
      · simp at h
      · exact h
    have hvw : v ≠ w := by
      intro h
      subst h
      exact hac ⟨v, Relation.TransGen.single hw⟩
    exact precedes_of_pairwise _ st' hinv.ordered v w (hmem v (hval v w hw).1)
      (hmem w (hval v w hw).2) hvw (fun h => h hw)

end Graph
end ExpressionEngine

namespace ExpressionEngine

theorem precedes_map {β γ : Type} (f : β → γ) (l : List β) (a b : β) (h : precedes l a b) :
    precedes (l.map f) (f a) (f b) := by
  obtain ⟨i, j, hij, hi, hj⟩ := h
  exact ⟨i, j, hij, by simp [List.getElem?_map, hi], by simp [List.getElem?_map, hj]⟩

end ExpressionEngine

namespace ExpressionEngine
namespace Graph

/-! ## `Graph::findCycles` -/

theorem notVisited_mono (g : Graph) (S S' : Nat → State)
    (h : ∀ u, S' u = State.NOT_VISITED → S u = State.NOT_VISITED) :
    g.notVisited S' ≤ g.notVisited S := by
  unfold notVisited
  apply List.countP_mono_left
  intro u _ hu
  simpa using h u (by simpa using hu)

theorem notVisited_update_lt (g : Graph) (S : Nat → State) (j : Nat) (hj : j < g.V)
    (hS : S j = State.NOT_VISITED) :
    g.notVisited (Function.update S j State.IN_STACK) < g.notVisited S := by
  unfold notVisited
  apply countP_lt_of_witness _ _ _ _ j (List.mem_range.2 hj)
  · simpa using hS
  · rw [Function.update_same]; decide
  · intro u _ hu
    by_cases huj : u = j
    · subst huj
      rw [Function.update_same] at hu
      exact absurd hu (by decide)
    · rw [Function.update_noteq huj] at hu
      exact hu

theorem sprintCycle_pop_spec (v : Nat) :
    ∀ (dfs_stack temp : List Nat), v ∈ dfs_stack →
      ∃ temp' rest, sprintCycle_pop v dfs_stack temp = .ok (temp', rest)
        ∧ temp'.reverse ++ rest = temp.reverse ++ dfs_stack := by
  intro dfs_stack
  induction dfs_stack with
  | nil => intro temp h; simp at h
  | cons t s ih =>
    intro temp h
    by_cases htv : t = v
    · exact ⟨t :: temp, s, by simp [sprintCycle_pop, htv], by simp⟩
    · have hv : v ∈ s := by
        rcases List.mem_cons.1 h with h1 | h1
        · exact absurd h1.symm htv
        · exact h1
      obtain ⟨temp', rest, h1, h2⟩ := ih (t :: temp) hv
      exact ⟨temp', rest, by simp [sprintCycle_pop, htv, h1], by simpa using h2⟩

theorem sprintCycle_push (g : Graph) (temp : List Nat) :
    ∀ (r : List Str × List Nat),
      (temp.foldl (fun (r : List Str × List Nat) t => (r.1 ++ [g.vertex t], t :: r.2)) r).2
        = temp.reverse ++ r.2 := by
  induction temp with
  | nil => intro r; rfl
  | cons t temp ih =>
    intro r
    rw [List.foldl_cons, ih]
    simp

/-- Method `sprintCycle` leaves the stack as it found it. -/
theorem sprintCycle_stack (g : Graph) (dfs_stack : List Nat) (v : Nat) (h : v ∈ dfs_stack) :
    ∃ cycle, g.sprintCycle dfs_stack v = .ok (cycle, dfs_stack) := by
  obtain ⟨temp', rest, h1, h2⟩ := sprintCycle_pop_spec v dfs_stack [] h
  refine ⟨(temp'.foldl (fun (r : List Str × List Nat) t => (r.1 ++ [g.vertex t], t :: r.2))
    ([], rest)).1, ?_⟩
  unfold sprintCycle
  rw [h1]
  have := sprintCycle_push g temp' ([], rest)
  simp only at this
  rw [h2] at this
  simp only [List.reverse_nil, List.nil_append] at this
  rw [← this]

theorem CycleStep.refl (g : Graph) (d : DFS) : g.CycleStep d d where
  visited := fun _ h => h
  not_visited := fun _ h => h
  cycles := List.prefix_refl _
  sound := fun h => h
  finished := fun _ h => h

theorem CycleStep.trans {g : Graph} {d d1 d2 : DFS} (h1 : g.CycleStep d d1)
    (h2 : g.CycleStep d1 d2) : g.CycleStep d d2 where
  visited := fun u h => h2.visited u (h1.visited u h)
  not_visited := fun u h => h1.not_visited u (h2.not_visited u h)
  cycles := h1.cycles.trans h2.cycles
  sound := fun h => h2.sound (h1.sound h)
  finished := by
    intro hc hf
    have hc1 : d1.cycles = [] := by
      have := h2.cycles
      rw [hc] at this
      exact List.prefix_nil.1 this
    exact h2.finished hc (h1.finished hc1 hf)

/-- Pushing a vertex that was `NOT_VISITED`. -/
theorem CycleStep.push (g : Graph) (d : DFS) (j : Nat)
    (hj : d.dfs_state j = State.NOT_VISITED) :
    g.CycleStep d
      { d with dfs_stack := j :: d.dfs_stack,
               dfs_state := Function.update d.dfs_state j State.IN_STACK } where
  visited := by
    intro u hu
    have huj : u ≠ j := by
      intro h; rw [h, hj] at hu; exact absurd hu (by decide)
    show Function.update d.dfs_state j State.IN_STACK u = State.VISITED
    rw [Function.update_noteq huj]; exact hu
  not_visited := by
    intro u hu
    have hu' : Function.update d.dfs_state j State.IN_STACK u = State.NOT_VISITED := hu
    by_cases huj : u = j
    · rw [huj]; exact hj
    · rw [Function.update_noteq huj] at hu'; exact hu'
  cycles := List.prefix_refl _
  sound := fun h => h
  finished := by
    intro _ hf
    have key : ∀ u, Function.update d.dfs_state j State.IN_STACK u = State.VISITED →
        d.dfs_state u = State.VISITED := by
      intro u hu
      by_cases huj : u = j
      · rw [huj, Function.update_same] at hu; exact absurd hu (by decide)
      · rw [Function.update_noteq huj] at hu; exact hu
    exact
      { closed := by
          intro u hu w hw
          have hw' := hf.closed u (key u hu) w hw
          have hwj : w ≠ j := by
            intro h; rw [h, hj] at hw'; exact absurd hw' (by decide)
          show Function.update d.dfs_state j State.IN_STACK w = State.VISITED
          rw [Function.update_noteq hwj]; exact hw'
        acyclic := fun u hu => hf.acyclic u (key u hu) }

end Graph
end ExpressionEngine

namespace ExpressionEngine
namespace Graph

theorem reach_visited (g : Graph) (S : Nat → State) (hf : g.Finished S) (a b : Nat)
    (hab : Relation.ReflTransGen g.edge a b) (ha : S a = State.VISITED) :
    S b = State.VISITED := by
  induction hab with
  | refl => exact ha
  | tail _ hbc ih => exact hf.closed _ ih _ hbc

/-- The loop of `processDFStree` over the successors `js` of the top `v`,
given that the recursive call meets its specification. -/
theorem processDFStree_loop_spec (g : Graph) (hval : g.Valid) (n : Nat)
    (hrec : ∀ (d : DFS) (v : Nat) (rest : List Nat), d.dfs_stack = v :: rest → g.CycleInv d →
      g.notVisited d.dfs_state < n →
      ∃ d', g.processDFStree n d = .ok d' ∧ d'.dfs_stack = rest
        ∧ (∀ u, d'.dfs_state u = State.IN_STACK ↔ u ∈ rest)
        ∧ d'.dfs_state v = State.VISITED ∧ g.CycleStep d d')
    (v : Nat) (rest : List Nat) :
    ∀ (js : List Nat), (∀ j ∈ js, j ∈ g.adj v) → ∀ (d : DFS), d.dfs_stack = v :: rest →
      g.CycleInv d → g.notVisited d.dfs_state ≤ n →
      ∃ d', js.foldlM (g.processDFStree_step (g.processDFStree n)) d = .ok d'
        ∧ d'.dfs_stack = v :: rest ∧ g.CycleInv d' ∧ g.CycleStep d d'
        ∧ (d'.cycles = [] → ∀ j ∈ js, d'.dfs_state j = State.VISITED) := by
  intro js
  induction js with
  | nil =>
    intro _ d hst hinv _
    exact ⟨d, rfl, hst, hinv, CycleStep.refl g d, fun _ j hj => by simp at hj⟩
  | cons j js ih =>
    intro hjs d hst hinv hfuel
    have hjadj : j ∈ g.adj v := hjs j (List.mem_cons_self _ _)
    have hjs' : ∀ x ∈ js, x ∈ g.adj v := fun x hx => hjs x (List.mem_cons_of_mem _ hx)
    rw [List.foldlM_cons]
    by_cases h1 : d.dfs_state j = State.IN_STACK
    · -- a cycle is reported
      have hjmem : j ∈ d.dfs_stack := (hinv.coh j).1 h1
      obtain ⟨cycle, hc⟩ := sprintCycle_stack g d.dfs_stack j hjmem
      have hstep1 : g.CycleStep d { d with dfs_stack := d.dfs_stack, cycles := d.cycles ++ [cycle] } :=
        { visited := fun _ h => h
          not_visited := fun _ h => h
          cycles := List.prefix_append _ _
          sound := by
            intro _ _
            have hr := hinv.path v (by rw [hst]; rfl) j hjmem
            exact ⟨v, Relation.TransGen.head' hjadj hr⟩
          finished := by
            intro h
            simp at h }
      obtain ⟨d', hf, hst', hinv', hstep, hall⟩ :=
        ih hjs' { d with dfs_stack := d.dfs_stack, cycles := d.cycles ++ [cycle] } hst
          ⟨hinv.coh, hinv.nodup, hinv.path⟩ hfuel
      refine ⟨d', ?_, hst', hinv', hstep1.trans hstep, ?_⟩
      · simp only [processDFStree_step, h1, if_true, hc]
        exact hf
      · intro hc'
        exfalso
        have := hstep.cycles
        rw [hc'] at this
        have := List.prefix_nil.1 this
        simp at this
    · by_cases h2 : d.dfs_state j = State.NOT_VISITED
      · -- the successor is explored
        have hjV : j < g.V := (hval v j hjadj).2
        have hjn : j ∉ d.dfs_stack := fun h => h1 ((hinv.coh j).2 h)
        have hinv1 : g.CycleInv
            { d with dfs_stack := j :: d.dfs_stack,
                     dfs_state := Function.update d.dfs_state j State.IN_STACK } :=
          { coh := by
              intro u
              show Function.update d.dfs_state j State.IN_STACK u = State.IN_STACK
                ↔ u ∈ j :: d.dfs_stack
              by_cases huj : u = j
              · rw [huj, Function.update_same]; simp
              · rw [Function.update_noteq huj, hinv.coh u]; simp [huj]
            nodup := List.nodup_cons.2 ⟨hjn, hinv.nodup⟩
            path := by
              intro top htop u hu
              have htop' : top = j := by
                have : (j :: d.dfs_stack).head? = some top := htop
                simpa using this.symm
              rw [htop']
              rcases List.mem_cons.1 hu with h | h
              · rw [h]
              · exact Relation.ReflTransGen.tail (hinv.path v (by rw [hst]; rfl) u h) hjadj }
        have hlt : g.notVisited (Function.update d.dfs_state j State.IN_STACK) < n :=
          lt_of_lt_of_le (notVisited_update_lt g d.dfs_state j hjV h2) hfuel
        obtain ⟨d2, hr, hst2, hcoh2, hj2, hstep2⟩ :=
          hrec { d with dfs_stack := j :: d.dfs_stack,
                        dfs_state := Function.update d.dfs_state j State.IN_STACK }
            j d.dfs_stack rfl hinv1 hlt
        have hinv2 : g.CycleInv d2 :=
          { coh := by intro u; rw [hst2]; exact hcoh2 u
            nodup := by rw [hst2]; exact hinv.nodup
            path := by rw [hst2]; exact hinv.path }
        have hstep02 : g.CycleStep d d2 := (CycleStep.push g d j h2).trans hstep2
        obtain ⟨d', hf, hst', hinv', hstep, hall⟩ :=
          ih hjs' d2 (hst2.trans hst) hinv2
            (le_trans (notVisited_mono g _ _ hstep02.not_visited) hfuel)
        refine ⟨d', ?_, hst', hinv', hstep02.trans hstep, ?_⟩
        · simp only [processDFStree_step, h1, h2, if_true, if_false, hr]
          exact hf
        · intro hc' x hx
          rcases List.mem_cons.1 hx with h | h
          · rw [h]; exact hstep.visited j hj2
          · exact hall hc' x h
      · -- the successor is done
        have h3 : d.dfs_state j = State.VISITED := by
          cases hs : d.dfs_state j with
          | NOT_VISITED => exact absurd hs h2
          | IN_STACK => exact absurd hs h1
          | VISITED => rfl
        obtain ⟨d', hf, hst', hinv', hstep, hall⟩ := ih hjs' d hst hinv hfuel
        refine ⟨d', ?_, hst', hinv', hstep, ?_⟩
        · simp only [processDFStree_step, h1, h2, if_false]
          exact hf
        · intro hc' x hx
          rcases List.mem_cons.1 hx with h | h
          · rw [h]; exact hstep.visited j h3
          · exact hall hc' x h

/-- Method `processDFStree` with enough fuel: it returns with the top popped
and marked `VISITED`. -/
theorem processDFStree_spec (g : Graph) (hval : g.Valid) :
    ∀ (n : Nat) (d : DFS) (v : Nat) (rest : List Nat), d.dfs_stack = v :: rest → g.CycleInv d →
      g.notVisited d.dfs_state < n →
      ∃ d', g.processDFStree n d = .ok d' ∧ d'.dfs_stack = rest
        ∧ (∀ u, d'.dfs_state u = State.IN_STACK ↔ u ∈ rest)
        ∧ d'.dfs_state v = State.VISITED ∧ g.CycleStep d d' := by
  intro n
  induction n with
  | zero => intro d v rest _ _ h; omega
  | succ n ih =>
    intro d v rest hst hinv hfuel
    obtain ⟨d1, hf, hst1, hinv1, hstep1, hall⟩ :=
      processDFStree_loop_spec g hval n ih v rest (g.adj v) (fun _ h => h) d hst hinv
        (by omega)
    have hvrest : v ∉ rest := by
      have := hinv.nodup
      rw [hst] at this
      exact (List.nodup_cons.1 this).1
    have hv1 : d1.dfs_state v = State.IN_STACK :=
      (hinv1.coh v).2 (by rw [hst1]; exact List.mem_cons_self _ _)
    refine ⟨{ d1 with dfs_state := Function.update d1.dfs_state v State.VISITED,
                      dfs_stack := rest }, ?_, rfl, ?_, ?_, hstep1.trans ?_⟩
    · simp only [processDFStree, hst, hf, hst1]
    · intro u
      show Function.update d1.dfs_state v State.VISITED u = State.IN_STACK ↔ u ∈ rest
      by_cases huv : u = v
      · rw [huv, Function.update_same]
        constructor
        · intro h; exact absurd h (by decide)
        · intro h; exact absurd h hvrest
      · rw [Function.update_noteq huv, hinv1.coh u, hst1]
        simp [huv]
    · show Function.update d1.dfs_state v State.VISITED v = State.VISITED
      rw [Function.update_same]
    · exact
        { visited := by
            intro u hu
            show Function.update d1.dfs_state v State.VISITED u = State.VISITED
            by_cases huv : u = v
            · rw [huv, Function.update_same]
            · rw [Function.update_noteq huv]; exact hu
          not_visited := by
            intro u hu
            have hu' : Function.update d1.dfs_state v State.VISITED u = State.NOT_VISITED := hu
            by_cases huv : u = v
            · rw [huv, Function.update_same] at hu'; exact absurd hu' (by decide)
            · rw [Function.update_noteq huv] at hu'; exact hu'
          cycles := List.prefix_refl _
          sound := fun h => h
          finished := by
            intro hc hfin
            have hc1 : d1.cycles = [] := hc
            have hsucc := hall hc1
            have up : ∀ u, d1.dfs_state u = State.VISITED →
                Function.update d1.dfs_state v State.VISITED u = State.VISITED := by
              intro u hu
              by_cases huv : u = v
              · rw [huv, Function.update_same]
              · rw [Function.update_noteq huv]; exact hu
            exact
              { closed := by
                  intro u hu w hw
                  have hu' : Function.update d1.dfs_state v State.VISITED u = State.VISITED := hu
                  show Function.update d1.dfs_state v State.VISITED w = State.VISITED
                  by_cases huv : u = v
                  · rw [huv] at hw
                    exact up w (hsucc w hw)
                  · rw [Function.update_noteq huv] at hu'
                    exact up w (hfin.closed u hu' w hw)
                acyclic := by
                  intro u hu hcyc
                  have hu' : Function.update d1.dfs_state v State.VISITED u = State.VISITED := hu
                  by_cases huv : u = v
                  · rw [huv] at hcyc
                    obtain ⟨w, hvw, hwv⟩ := Relation.TransGen.head'_iff.1 hcyc
                    have := reach_visited g d1.dfs_state hfin w v hwv (hsucc w hvw)
                    rw [hv1] at this
                    exact absurd this (by decide)
                  · rw [Function.update_noteq huv] at hu'
                    exact hfin.acyclic u hu' hcyc } }

end Graph
end ExpressionEngine

namespace ExpressionEngine
namespace Graph

theorem notVisited_le (g : Graph) (S : Nat → State) : g.notVisited S ≤ g.V := by
  unfold notVisited
  exact le_trans (List.countP_le_length _) (by simp [V])

/-- The loop of `findCycles` over the vertex numbers `is`. -/
theorem findCycles_loop_spec (g : Graph) (hval : g.Valid) :
    ∀ (is : List Nat), (∀ i ∈ is, i < g.V) → ∀ (d : DFS), d.dfs_stack = [] →
      (∀ u, d.dfs_state u ≠ State.IN_STACK) →
      ∃ d', g.findCycles_loop is d = .ok d' ∧ d'.dfs_stack = []
        ∧ (∀ u, d'.dfs_state u ≠ State.IN_STACK) ∧ g.CycleStep d d'
        ∧ ∀ i ∈ is, d'.dfs_state i = State.VISITED := by
  intro is
  induction is with
  | nil =>
    intro _ d hst hcoh
    exact ⟨d, rfl, hst, hcoh, CycleStep.refl g d, fun i hi => by simp at hi⟩
  | cons i is ih =>
    intro hlt d hst hcoh
    have hlt' : ∀ x ∈ is, x < g.V := fun x hx => hlt x (List.mem_cons_of_mem _ hx)
    unfold findCycles_loop
    rw [List.foldlM_cons]
    by_cases h : d.dfs_state i = State.NOT_VISITED
    · have hiV : i < g.V := hlt i (List.mem_cons_self _ _)
      have hinv1 : g.CycleInv
          { d with dfs_stack := i :: d.dfs_stack,
                   dfs_state := Function.update d.dfs_state i State.IN_STACK } :=
        { coh := by
            intro u
            show Function.update d.dfs_state i State.IN_STACK u = State.IN_STACK
              ↔ u ∈ i :: d.dfs_stack
            rw [hst]
            by_cases hui : u = i
            · rw [hui, Function.update_same]; simp
            · rw [Function.update_noteq hui]
              simp [hui, hcoh u]
          nodup := by rw [hst]; simp
          path := by
            intro top htop u hu
            have hu' : u ∈ i :: d.dfs_stack := hu
            rw [hst] at hu'
            have htop' : (i :: d.dfs_stack).head? = some top := htop
            have h1 : top = i := by simpa using htop'.symm
            have h2 : u = i := by simpa using hu'
            rw [h1, h2] }
      have hfuel : g.notVisited (Function.update d.dfs_state i State.IN_STACK) < g.V :=
        lt_of_lt_of_le (notVisited_update_lt g d.dfs_state i hiV h) (notVisited_le g _)
      obtain ⟨d2, hr, hst2, hcoh2, hi2, hstep2⟩ :=
        processDFStree_spec g hval g.V _ i d.dfs_stack rfl hinv1 hfuel
      have hcoh2' : ∀ u, d2.dfs_state u ≠ State.IN_STACK := by
        intro u hu
        have := (hcoh2 u).1 hu
        rw [hst] at this
        simp at this
      obtain ⟨d', hf, hst', hcoh', hstep, hall⟩ := ih hlt' d2 (hst2.trans hst) hcoh2'
      refine ⟨d', ?_, hst', hcoh', ((CycleStep.push g d i h).trans hstep2).trans hstep, ?_⟩
      · simp only [h, if_true, hr]
        exact hf
      · intro x hx
        rcases List.mem_cons.1 hx with h1 | h1
        · rw [h1]; exact hstep.visited i hi2
        · exact hall x h1
    · have h3 : d.dfs_state i = State.VISITED := by
        cases hs : d.dfs_state i with
        | NOT_VISITED => exact absurd hs h
        | IN_STACK => exact absurd hs (hcoh i)
        | VISITED => rfl
      obtain ⟨d', hf, hst', hcoh', hstep, hall⟩ := ih hlt' d hst hcoh
      refine ⟨d', ?_, hst', hcoh', hstep, ?_⟩
      · simp only [h, if_false]
        exact hf
      · intro x hx
        rcases List.mem_cons.1 hx with h1 | h1
        · rw [h1]; exact hstep.visited i h3
        · exact hall x h1

/-- Method `findCycles` on an empty list of cycles: it returns, and the list
it leaves is non-empty exactly when the graph has a cycle. -/
theorem findCycles_spec (g : Graph) (hval : g.Valid) :
    ∃ cycles, g.findCycles [] = .ok cycles ∧ (cycles ≠ [] ↔ g.HasCycle) := by
  obtain ⟨d', hf, _, _, hstep, hall⟩ :=
    findCycles_loop_spec g hval (List.range g.V) (fun i hi => List.mem_range.1 hi)
      ⟨fun _ => State.NOT_VISITED, [], []⟩ rfl (fun u => by simp)
  refine ⟨d'.cycles, ?_, ?_, ?_⟩
  · unfold findCycles
    rw [hf]
  · exact hstep.sound (fun h => absurd rfl h)
  · rintro ⟨v, hv⟩ hc
    have hfin : g.Finished d'.dfs_state :=
      hstep.finished hc
        { closed := fun u hu => by simp at hu
          acyclic := fun u hu => by simp at hu }
    obtain ⟨w, hvw, _⟩ := Relation.TransGen.head'_iff.1 hv
    have hvV : v < g.V := (hval v w hvw).1
    exact hfin.acyclic v (hall v (List.mem_range.2 hvV)) hv

end Graph
end ExpressionEngine

namespace ExpressionEngine
namespace ExpEvaluator

variable {α : Type}

/-! ## The graph `populateIdGraph` builds -/

theorem position_map_loop_keeps (es : StdMap Str) :
    ∀ (pos : Nat) (pm : StdMap Nat) (k : Str) (p : Nat), pm.find k = some p →
      (position_map_loop es pos pm).find k = some p := by
  induction es with
  | nil => intro pos pm k p h; exact h
  | cons e es ih =>
    intro pos pm k p h
    obtain ⟨k0, t0⟩ := e
    simp only [position_map_loop]
    apply ih
    rw [StdMap.find_insert]
    by_cases hk : k = k0
    · subst hk; simp [h]
    · simp [hk, h]

theorem position_map_loop_find (es : StdMap Str) :
    ∀ (pos : Nat) (pm : StdMap Nat) (k : Str), k ∈ StdMap.keys es → pm.find k = none →
      (position_map_loop es pos pm).find k = some (pos + firstIndex (StdMap.keys es) k) := by
  induction es with
  | nil => intro pos pm k h; simp [StdMap.keys] at h
  | cons e es ih =>
    intro pos pm k hk hnone
    obtain ⟨k0, t0⟩ := e
    have hkeys : StdMap.keys ((k0, t0) :: es) = k0 :: StdMap.keys es := rfl
    rw [hkeys] at hk ⊢
    simp only [position_map_loop]
    by_cases hk0 : k = k0
    · subst hk0
      simp only [firstIndex, if_true, Nat.add_zero]
      apply position_map_loop_keeps
      rw [StdMap.find_insert]
      simp [hnone]
    · have hk' : k ∈ StdMap.keys es := by
        rcases List.mem_cons.1 hk with h | h
        · exact absurd h hk0
        · exact h
      simp only [firstIndex, hk0, if_false]
      have := ih (pos + 1) (pm.insert k0 pos) k hk' (by rw [StdMap.find_insert]; simp [hk0, hnone])
      rw [this]
      congr 1
      omega

/-- The subscript `position_map[key]` is the index of `key` among the keys. -/
theorem position_eq_firstIndex (es : StdMap Str) (k : Str) (hk : k ∈ StdMap.keys es) :
    position (position_map es) k = firstIndex (StdMap.keys es) k := by
  unfold position position_map
  rw [position_map_loop_find es 0 [] k hk rfl]
  simp

theorem getD_firstIndex (l : List Str) (k : Str) (hk : k ∈ l) :
    l.getD (firstIndex l k) [] = k := by
  induction l with
  | nil => simp at hk
  | cons a l ih =>
    by_cases h : k = a
    · subst h; simp [firstIndex]
    · have hk' : k ∈ l := by
        rcases List.mem_cons.1 hk with h1 | h1
        · exact absurd h1 h
        · exact h1
      simp only [firstIndex, h, if_false]
      simpa using ih hk'

theorem firstIndex_lt (l : List Str) (k : Str) (hk : k ∈ l) : firstIndex l k < l.length := by
  induction l with
  | nil => simp at hk
  | cons a l ih =>
    by_cases h : k = a
    · subst h; simp [firstIndex]
    · have hk' : k ∈ l := by
        rcases List.mem_cons.1 hk with h1 | h1
        · exact absurd h1 h
        · exact h1
      simp only [firstIndex, h, if_false, List.length_cons]
      have := ih hk'
      omega

theorem mem_addEdge_adj (g : Graph) (a b v w : Nat) :
    w ∈ (g.addEdge a b).adj v ↔ w ∈ g.adj v ∨ (v = a ∧ w = b) := by
  unfold Graph.addEdge
  by_cases hva : v = a
  · subst hva
    simp [Function.update_same]
  · simp [Function.update_noteq hva, hva]

theorem populate_ids_graph (expressions : StdMap Str) (symbol_table : StdMap α)
    (pm : StdMap Nat) (key text : Str) (v w : Nat) (ids : List Str) :
    ∀ st : Str × Graph,
      (populate_ids expressions symbol_table pm key text ids st).2.vertices = st.2.vertices
      ∧ (w ∈ (populate_ids expressions symbol_table pm key text ids st).2.adj v
        ↔ w ∈ st.2.adj v
          ∨ (v = position pm key
            ∧ ∃ id ∈ ids, expressions.contains id = true ∧ w = position pm id)) := by
  induction ids with
  | nil => intro st; simp [populate_ids]
  | cons id ids ih =>
    intro st
    obtain ⟨e, g⟩ := st
    simp only [populate_ids]
    cases hc : expressions.contains id with
    | false =>
      have hrest : ∀ x : Str × Graph, x.2 = g →
          (populate_ids expressions symbol_table pm key text ids x).2.vertices = g.vertices
          ∧ (w ∈ (populate_ids expressions symbol_table pm key text ids x).2.adj v
            ↔ w ∈ g.adj v ∨ (v = position pm key
              ∧ ∃ id' ∈ id :: ids, expressions.contains id' = true ∧ w = position pm id')) := by
        intro x hx
        obtain ⟨h1, h2⟩ := ih x
        rw [hx] at h1 h2
        refine ⟨h1, h2.trans ?_⟩
        constructor
        · rintro (h | ⟨hv, id', hid', hc', hw⟩)
          · exact Or.inl h
          · exact Or.inr ⟨hv, id', List.mem_cons_of_mem _ hid', hc', hw⟩
        · rintro (h | ⟨hv, id', hid', hc', hw⟩)
          · exact Or.inl h
          · rcases List.mem_cons.1 hid' with h | h
            · rw [h, hc] at hc'; exact absurd hc' (by simp)
            · exact Or.inr ⟨hv, id', h, hc', hw⟩
      cases hs : symbol_table.contains id with
      | false => simpa using hrest _ rfl
      | true => simpa using hrest _ rfl
    | true =>
      have := ih (e, g.addEdge (position pm key) (position pm id))
      obtain ⟨h1, h2⟩ := this
      simp only [Bool.not_true, Bool.false_and, Bool.false_eq_true, if_false, if_true]
      refine ⟨h1, h2.trans ?_⟩
      show w ∈ (g.addEdge (position pm key) (position pm id)).adj v ∨ _ ↔ _
      rw [mem_addEdge_adj]
      constructor
      · rintro ((h | ⟨hv, hw⟩) | ⟨hv, id', hid', hc', hw⟩)
        · exact Or.inl h
        · exact Or.inr ⟨hv, id, List.mem_cons_self _ _, hc, hw⟩
        · exact Or.inr ⟨hv, id', List.mem_cons_of_mem _ hid', hc', hw⟩
      · rintro (h | ⟨hv, id', hid', hc', hw⟩)
        · exact Or.inl (Or.inl h)
        · rcases List.mem_cons.1 hid' with h | h
          · rw [h] at hw; exact Or.inl (Or.inr ⟨hv, hw⟩)
          · exact Or.inr ⟨hv, id', h, hc', hw⟩

theorem populate_fold_graph (expressions : StdMap Str) (symbol_table : StdMap α)
    (pm : StdMap Nat) (v w : Nat) (l : List (Str × Str)) :
    ∀ st : Str × Graph,
      (l.foldl (populate_step expressions symbol_table pm) st).2.vertices = st.2.vertices
      ∧ (w ∈ (l.foldl (populate_step expressions symbol_table pm) st).2.adj v
        ↔ w ∈ st.2.adj v
          ∨ ∃ e ∈ l, v = position pm e.1
            ∧ ∃ id ∈ (get_ids e.2 []).1, expressions.contains id = true ∧ w = position pm id) := by
  induction l with
  | nil => intro st; simp
  | cons e l ih =>
    intro st
    rw [List.foldl_cons]
    obtain ⟨h1, h2⟩ := ih (populate_step expressions symbol_table pm st e)
    have hstep : (populate_step expressions symbol_table pm st e).2.vertices = st.2.vertices
        ∧ (w ∈ (populate_step expressions symbol_table pm st e).2.adj v
          ↔ w ∈ st.2.adj v ∨ (v = position pm e.1
            ∧ ∃ id ∈ (get_ids e.2 []).1, expressions.contains id = true ∧ w = position pm id)) := by
      unfold populate_step
      exact populate_ids_graph expressions symbol_table pm e.1 e.2 v w _ _
    refine ⟨h1.trans hstep.1, h2.trans ?_⟩
    rw [hstep.2]
    constructor
    · rintro ((h | h) | ⟨e', he', h⟩)
      · exact Or.inl h
      · exact Or.inr ⟨e, List.mem_cons_self _ _, h⟩
      · exact Or.inr ⟨e', List.mem_cons_of_mem _ he', h⟩
    · rintro (h | ⟨e', he', h⟩)
      · exact Or.inl (Or.inl h)
      · rcases List.mem_cons.1 he' with h1 | h1
        · rw [h1] at h; exact Or.inl (Or.inr h)
        · exact Or.inr ⟨e', h1, h⟩

/-- The vertices of the graph `populateIdGraph` builds are the keys of the
expressions. -/
theorem populate_loop_vertices (expressions : StdMap Str) (symbol_table : StdMap α) :
    (populate_loop expressions symbol_table).2.vertices = expressions.keys :=
  (populate_fold_graph expressions symbol_table (position_map expressions) 0 0 expressions
    ([], Graph.new expressions.keys)).1

/-- The edges of the graph `populateIdGraph` builds: one from the position of
an expression to the position of every expression its text names. -/
theorem populate_loop_adj (expressions : StdMap Str) (symbol_table : StdMap α) (v w : Nat) :
    w ∈ (populate_loop expressions symbol_table).2.adj v
      ↔ ∃ e ∈ expressions, v = firstIndex (StdMap.keys expressions) e.1
          ∧ ∃ id ∈ (get_ids e.2 []).1, expressions.contains id = true
            ∧ w = firstIndex (StdMap.keys expressions) id := by
  have h := (populate_fold_graph expressions symbol_table (position_map expressions) v w
    expressions ([], Graph.new expressions.keys)).2
  rw [show (populate_loop expressions symbol_table).2
      = (List.foldl (populate_step expressions symbol_table (position_map expressions))
          ([], Graph.new expressions.keys) expressions).2 from rfl, h]
  have hnew : ¬ w ∈ (Graph.new (StdMap.keys expressions)).adj v := by simp [Graph.new]
  constructor
  · rintro (h1 | ⟨e, he, hv, id, hid, hc, hw⟩)
    · exact absurd h1 hnew
    · refine ⟨e, he, ?_, id, hid, hc, ?_⟩
      · rw [hv, position_eq_firstIndex]
        exact List.mem_map_of_mem Prod.fst he
      · rw [hw, position_eq_firstIndex]
        exact (StdMap.contains_iff_mem_keys _ _).1 hc
  · rintro ⟨e, he, hv, id, hid, hc, hw⟩
    right
    refine ⟨e, he, ?_, id, hid, hc, ?_⟩
    · rw [hv, position_eq_firstIndex]
      exact List.mem_map_of_mem Prod.fst he
    · rw [hw, position_eq_firstIndex]
      exact (StdMap.contains_iff_mem_keys _ _).1 hc

end ExpEvaluator
end ExpressionEngine

namespace ExpressionEngine
namespace ExpEvaluator

variable {α : Type}

theorem populate_ids_no_error (expressions : StdMap Str) (symbol_table : StdMap α)
    (pm : StdMap Nat) (key text : Str) (ids : List Str)
    (hreg : ∀ id ∈ ids, expressions.contains id = true ∨ symbol_table.contains id = true) :
    ∀ st : Str × Graph,
      (populate_ids expressions symbol_table pm key text ids st).1 = st.1 := by
  induction ids with
  | nil => intro st; rfl
  | cons id ids ih =>
    intro st
    obtain ⟨e, g⟩ := st
    have ih' := ih (fun x hx => hreg x (List.mem_cons_of_mem _ hx))
    simp only [populate_ids]
    rcases hreg id (List.mem_cons_self _ _) with h | h
    · simp only [h, Bool.not_true, Bool.false_and, Bool.false_eq_true, if_false, if_true]
      exact ih' _
    · simp only [h, Bool.not_true, Bool.and_false, Bool.false_eq_true, if_false]
      split
      · exact ih' _
      · exact ih' _

theorem populate_fold_no_error (expressions : StdMap Str) (symbol_table : StdMap α)
    (pm : StdMap Nat) (l : List (Str × Str))
    (htok : ∀ e ∈ l, (get_ids e.2 []).2 = .ok ())
    (hreg : ∀ e ∈ l, ∀ id ∈ (get_ids e.2 []).1,
      expressions.contains id = true ∨ symbol_table.contains id = true) :
    ∀ st : Str × Graph,
      (l.foldl (populate_step expressions symbol_table pm) st).1 = st.1 := by
  induction l with
  | nil => intro st; rfl
  | cons e l ih =>
    intro st
    rw [List.foldl_cons]
    rw [ih (fun x hx => htok x (List.mem_cons_of_mem _ hx))
      (fun x hx => hreg x (List.mem_cons_of_mem _ hx))]
    have h1 := htok e (List.mem_cons_self _ _)
    have h2 := hreg e (List.mem_cons_self _ _)
    unfold populate_step
    rcases hg : get_ids e.2 [] with ⟨id_list, r⟩
    rw [hg] at h1 h2
    simp only at h1 h2
    subst h1
    simp only
    exact populate_ids_no_error _ _ _ _ _ _ h2 _

/-- When every expression tokenizes and names only registered identifiers,
`populateIdGraph` writes no error. -/
theorem populate_loop_no_error (expressions : StdMap Str) (symbol_table : StdMap α)
    (htok : ∀ e ∈ expressions, (get_ids e.2 []).2 = .ok ())
    (hreg : ∀ e ∈ expressions, ∀ id ∈ (get_ids e.2 []).1,
      expressions.contains id = true ∨ symbol_table.contains id = true) :
    (populate_loop expressions symbol_table).1 = [] :=
  populate_fold_no_error expressions symbol_table _ expressions htok hreg _

/-- The graph `populateIdGraph` builds has its edges between valid positions. -/
theorem populate_loop_valid (expressions : StdMap Str) (symbol_table : StdMap α) :
    (populate_loop expressions symbol_table).2.Valid := by
  intro v w h
  obtain ⟨e, he, hv, id, _, hc, hw⟩ := (populate_loop_adj expressions symbol_table v w).1 h
  have hV : (populate_loop expressions symbol_table).2.V = (StdMap.keys expressions).length := by
    unfold Graph.V
    rw [populate_loop_vertices]
  rw [hV, hv, hw]
  exact ⟨firstIndex_lt _ _ (List.mem_map_of_mem Prod.fst he),
    firstIndex_lt _ _ ((StdMap.contains_iff_mem_keys _ _).1 hc)⟩

theorem edge_of_references (expressions : StdMap Str) (symbol_table : StdMap α) (a b : Str)
    (h : references expressions a b) :
    (populate_loop expressions symbol_table).2.edge
      (firstIndex (StdMap.keys expressions) a) (firstIndex (StdMap.keys expressions) b) := by
  obtain ⟨text, hf, hb, hc⟩ := h
  exact (populate_loop_adj expressions symbol_table _ _).2
    ⟨(a, text), StdMap.mem_of_find _ _ _ hf, rfl, b, hb, hc, rfl⟩

theorem references_of_edge (expressions : StdMap Str) (symbol_table : StdMap α)
    (hnd : (StdMap.keys expressions).Nodup) (v w : Nat)
    (h : (populate_loop expressions symbol_table).2.edge v w) :
    ∃ a b, references expressions a b ∧ v = firstIndex (StdMap.keys expressions) a
      ∧ w = firstIndex (StdMap.keys expressions) b := by
  obtain ⟨e, he, hv, id, hid, hc, hw⟩ := (populate_loop_adj expressions symbol_table v w).1 h
  exact ⟨e.1, id, ⟨e.2, StdMap.find_of_mem _ hnd _ _ he, hid, hc⟩, hv, hw⟩

/-- A cycle of references is a cycle of the graph. -/
theorem hasCycle_of_references (expressions : StdMap Str) (symbol_table : StdMap α) (a : Str)
    (h : Relation.TransGen (references expressions) a a) :
    (populate_loop expressions symbol_table).2.HasCycle :=
  ⟨firstIndex (StdMap.keys expressions) a,
    Relation.TransGen.lift (firstIndex (StdMap.keys expressions))
      (fun x y hxy => edge_of_references expressions symbol_table x y hxy) h⟩

/-- A cycle of the graph is a cycle of references. -/
theorem references_of_hasCycle (expressions : StdMap Str) (symbol_table : StdMap α)
    (hnd : (StdMap.keys expressions).Nodup)
    (h : (populate_loop expressions symbol_table).2.HasCycle) :
    ∃ a, Relation.TransGen (references expressions) a a := by
  obtain ⟨v, hv⟩ := h
  have hname : ∀ x y, (populate_loop expressions symbol_table).2.edge x y →
      references expressions ((StdMap.keys expressions).getD x [])
        ((StdMap.keys expressions).getD y []) := by
    intro x y hxy
    obtain ⟨a, b, hab, hx, hy⟩ := references_of_edge expressions symbol_table hnd x y hxy
    have hab' := hab
    obtain ⟨text, hf, _, hc⟩ := hab'
    have ha : a ∈ StdMap.keys expressions :=
      (StdMap.find_isSome_iff_mem_keys _ _).1 (by rw [hf]; rfl)
    have hb : b ∈ StdMap.keys expressions := (StdMap.contains_iff_mem_keys _ _).1 hc
    rw [hx, hy, getD_firstIndex _ _ ha, getD_firstIndex _ _ hb]
    exact hab
  exact ⟨_, Relation.TransGen.lift (fun x => (StdMap.keys expressions).getD x []) hname hv⟩

end ExpEvaluator
end ExpressionEngine

namespace ExpressionEngine

/-! ## The lexer -/

/-- The test at the head of `exponent_part` holds for every character, so the
method never reads an exponent. -/
theorem exponent_part_eq (token_buffer : Str) (s : List Char) :
    exponent_part token_buffer s = .ok (token_buffer, s) := by
  unfold exponent_part
  have h : peekChar s ≠ 'e' ∨ peekChar s ≠ 'E' := by
    by_cases h1 : peekChar s = 'e'
    · right; rw [h1]; decide
    · left; exact h1
  simp only [h, if_true]

theorem ite_ne_of {β : Type} (p : Prop) [Decidable p] (a b x : β) (ha : a ≠ x) (hb : b ≠ x) :
    (if p then a else b) ≠ x := by
  split <;> assumption

theorem keywordToken_ne_eof (b : Str) : keywordToken b ≠ Token.Eofsym := by
  unfold keywordToken
  repeat' (first | decide | apply ite_ne_of)

theorem length_tail_le' {β : Type} (l : List β) : l.tail.length ≤ l.length := by
  cases l <;> simp

theorem length_dropWhile_le' {β : Type} (p : β → Bool) (l : List β) :
    (l.dropWhile p).length ≤ l.length :=
  (List.dropWhile_sublist p).length_le

theorem number_token_eq (token_buffer : Str) (s : List Char) :
    number_token token_buffer s = .ok (Token.Number, token_buffer, s) := by
  unfold number_token
  rw [exponent_part_eq]

theorem TokenOk.of_ite (r : List Char) (p : Prop) [Decidable p]
    (a b : Except Error (Token × Str × List Char)) (ha : TokenOk r a) (hb : TokenOk r b) :
    TokenOk r (if p then a else b) := by
  split <;> assumption

theorem TokenOk.of_error (r : List Char) (e : Error) : TokenOk r (.error e) := by
  intro t txt rest h
  exact absurd h (by simp)

theorem TokenOk.of_ok (r : List Char) (t : Token) (txt : Str) (rest : List Char)
    (ht : t ≠ Token.Eofsym) (hr : rest.length ≤ r.length) : TokenOk r (.ok (t, txt, rest)) := by
  intro t' txt' rest' h
  simp only [Except.ok.injEq, Prod.mk.injEq] at h
  obtain ⟨h1, _, h3⟩ := h
  rw [← h1, ← h3]
  exact ⟨ht, hr⟩

theorem get_token_from_ok (c : Char) (r : List Char) : TokenOk r (get_token_from c r) := by
  have t1 := length_tail_le' r
  have t2 := length_dropWhile_le' Char.isAlphanum r
  have t3 := length_dropWhile_le' Char.isDigit r
  have t4 := length_dropWhile_le' Char.isDigit (r.dropWhile Char.isDigit).tail
  have t5 := length_tail_le' (r.dropWhile Char.isDigit)
  unfold get_token_from
  simp only [number_token_eq]
  repeat' (first
    | apply TokenOk.of_ite
    | apply TokenOk.of_error
    | (apply TokenOk.of_ok
       · first | decide | exact keywordToken_ne_eof _
       · omega))

theorem get_token_from_size (c : Char) (r : List Char) (t : Token) (txt : Str)
    (rest : List Char) (h : get_token_from c r = .ok (t, txt, rest)) :
    t ≠ Token.Eofsym ∧ rest.length ≤ r.length :=
  get_token_from_ok c r t txt rest h

/-- A token other than the end of the input consumes at least one character;
at the end of the input nothing is left. -/
theorem get_token_size (input : List Char) (t : Token) (txt : Str) (rest : List Char)
    (h : get_token input = .ok (t, txt, rest)) :
    (t = Token.Eofsym ∧ rest = []) ∨ (t ≠ Token.Eofsym ∧ rest.length < input.length) := by
  unfold get_token at h
  have hle := length_dropWhile_le' isspace input
  split at h
  · simp only [Except.ok.injEq, Prod.mk.injEq] at h
    exact Or.inl ⟨h.1.symm, h.2.2.symm⟩
  · rename_i c r hd
    rw [hd] at hle
    simp only [List.length_cons] at hle
    have := get_token_from_size c r t txt rest h
    exact Or.inr ⟨this.1, by omega⟩

theorem advance_size (lx lx' : Lexer) (hne : lx.current_token ≠ Token.Eofsym)
    (h : lx.advance = .ok lx') : lx'.size < lx.size := by
  unfold Lexer.advance at h
  simp only [hne, ne_eq, not_false_eq_true, if_true] at h
  cases hg : get_token lx.input with
  | error e => rw [hg] at h; exact absurd h (by simp)
  | ok r =>
    obtain ⟨t, txt, rest⟩ := r
    rw [hg] at h
    simp only [Except.ok.injEq] at h
    subst h
    unfold Lexer.size
    simp only [hne, if_false]
    rcases get_token_size _ _ _ _ hg with ⟨h1, h2⟩ | ⟨h1, h2⟩
    · simp [h1, h2]
    · simp only [h1, if_false]; omega

theorem advance_eof (lx : Lexer) (h : lx.current_token = Token.Eofsym) :
    lx.advance = .ok lx := by
  unfold Lexer.advance
  simp [h]

theorem advance_size_le (lx lx' : Lexer) (h : lx.advance = .ok lx') : lx'.size ≤ lx.size := by
  by_cases hne : lx.current_token = Token.Eofsym
  · rw [advance_eof lx hne] at h
    simp only [Except.ok.injEq] at h
    rw [h]
  · exact le_of_lt (advance_size lx lx' hne h)

theorem init_size (s : Str) (lx : Lexer) (h : Lexer.init s = .ok lx) : lx.size ≤ s.length := by
  unfold Lexer.init at h
  cases hg : get_token s with
  | error e => rw [hg] at h; exact absurd h (by simp)
  | ok r =>
    obtain ⟨t, txt, rest⟩ := r
    rw [hg] at h
    simp only [Except.ok.injEq] at h
    subst h
    unfold Lexer.size
    rcases get_token_size _ _ _ _ hg with ⟨h1, h2⟩ | ⟨h1, h2⟩
    · simp [h1, h2]
    · simp only [h1, if_false]; omega

theorem reaches_size (lx lx' : Lexer) (h : lx.Reaches lx') : lx'.size ≤ lx.size := by
  induction h with
  | refl => exact le_refl _
  | tail _ hbc ih => exact le_trans (advance_size_le _ _ hbc) ih

end ExpressionEngine

namespace ExpressionEngine

/-! ## The grammar methods: termination and dependence on the symbol table -/

theorem TokErr_ite (p : Prop) [Decidable p] (a b : Except Error (Token × Str × List Char))
    (ha : ∀ e, a = .error e → ∃ m, e = .Lexical_error m)
    (hb : ∀ e, b = .error e → ∃ m, e = .Lexical_error m) :
    ∀ e, (if p then a else b) = .error e → ∃ m, e = .Lexical_error m := by
  split <;> assumption

/-- The lexer throws nothing but `Lexical_error`. -/
theorem get_token_error (input : List Char) (e : Error) (h : get_token input = .error e) :
    ∃ m, e = .Lexical_error m := by
  unfold get_token at h
  split at h
  · exact absurd h (by simp)
  · rename_i c r _
    revert e
    unfold get_token_from
    simp only [number_token_eq]
    repeat' (first
      | apply TokErr_ite
      | (intro e h; cases h <;> exact ⟨_, rfl⟩))

theorem advance_error (lx : Lexer) (e : Error) (h : lx.advance = .error e) :
    ∃ m, e = .Lexical_error m := by
  unfold Lexer.advance at h
  split at h
  · cases hg : get_token lx.input with
    | error e' =>
      rw [hg] at h
      simp only [Except.error.injEq] at h
      rw [← h]
      exact get_token_error _ _ hg
    | ok r => rw [hg] at h; exact absurd h (by simp)
  · exact absurd h (by simp)

theorem init_error (s : Str) (e : Error) (h : Lexer.init s = .error e) :
    ∃ m, e = .Lexical_error m := by
  unfold Lexer.init at h
  cases hg : get_token s with
  | error e' =>
    rw [hg] at h
    simp only [Except.error.injEq] at h
    rw [← h]
    exact get_token_error _ _ hg
  | ok r => rw [hg] at h; exact absurd h (by simp)

theorem SameOn.reaches {α : Type} {T1 T2 : StdMap α} {lx lx' : Lexer} (h : SameOn T1 T2 lx)
    (hr : lx.Reaches lx') : SameOn T1 T2 lx' :=
  fun lx'' hr' htok => h lx'' (Relation.ReflTransGen.trans hr hr') htok

theorem SameOn.advance {α : Type} {T1 T2 : StdMap α} {lx lx' : Lexer} (h : SameOn T1 T2 lx)
    (hr : lx.advance = .ok lx') : SameOn T1 T2 lx' :=
  h.reaches (Relation.ReflTransGen.single hr)

namespace Agree

variable {α : Type}

theorem error (lx : Lexer) (e : Error) (he : e ≠ .fuel_exhausted) :
    Agree (α := α) lx (.error e) (.error e) :=
  ⟨rfl, fun h => he (by simpa using h), fun x h => absurd h (by simp)⟩

theorem ok (lx : Lexer) (x : α × Lexer) (h : lx.Reaches x.2) : Agree lx (.ok x) (.ok x) :=
  ⟨rfl, by simp, fun y hy => by
    simp only [Except.ok.injEq] at hy
    rw [← hy]; exact h⟩

theorem ite (lx : Lexer) (c : Prop) [Decidable c] (a1 a2 b1 b2 : Except Error (α × Lexer))
    (ha : c → Agree lx a1 a2) (hb : ¬ c → Agree lx b1 b2) :
    Agree lx (if c then a1 else b1) (if c then a2 else b2) := by
  by_cases h : c
  · simp only [h, if_true]; exact ha h
  · simp only [h, if_false]; exact hb h

theorem mono {lx lx1 : Lexer} {r1 r2 : Except Error (α × Lexer)} (hr : lx.Reaches lx1)
    (h : Agree lx1 r1 r2) : Agree lx r1 r2 :=
  ⟨h.1, h.2.1, fun x hx => Relation.ReflTransGen.trans hr (h.2.2 x hx)⟩

theorem adv (lx : Lexer) (k1 k2 : Lexer → Except Error (α × Lexer))
    (h : ∀ lx1, lx.advance = .ok lx1 → Agree lx1 (k1 lx1) (k2 lx1)) :
    Agree lx (lx.advance >>= k1) (lx.advance >>= k2) := by
  cases ha : lx.advance with
  | error e =>
    obtain ⟨m, hm⟩ := advance_error lx e ha
    subst hm
    exact error lx _ (by simp)
  | ok lx1 => exact mono (Relation.ReflTransGen.single ha) (h lx1 ha)

theorem bind (lx : Lexer) (r1 r2 : Except Error (α × Lexer))
    (k1 k2 : α × Lexer → Except Error (α × Lexer)) (h : Agree lx r1 r2)
    (hk : ∀ x, r1 = .ok x → lx.Reaches x.2 → Agree x.2 (k1 x) (k2 x)) :
    Agree lx (r1 >>= k1) (r2 >>= k2) := by
  obtain ⟨h1, h2, h3⟩ := h
  subst h1
  cases hr : r1 with
  | error e =>
    exact error lx e (fun he => h2 (by rw [hr, he]))
  | ok x => exact mono (h3 x hr) (hk x hr (h3 x hr))

theorem bind_pure {β : Type} (lx : Lexer) (y : Except Error β)
    (k1 k2 : β → Except Error (α × Lexer)) (hy : y ≠ .error .fuel_exhausted)
    (hk : ∀ b, y = .ok b → Agree lx (k1 b) (k2 b)) : Agree lx (y >>= k1) (y >>= k2) := by
  cases hr : y with
  | error e => exact error lx e (fun he => hy (by rw [hr, he]))
  | ok b => exact hk b hr

end Agree

theorem to_number_ne_fuel {α : Type} (A : Arith α) (s : Str) :
    to_number A s ≠ .error .fuel_exhausted := by
  unfold to_number
  split <;> simp

theorem stoi_ne_fuel (s : Str) : stoi s ≠ .error .fuel_exhausted := by
  unfold stoi
  simp only
  split_ifs <;> simp

theorem join_number_ne_fuel {α : Type} (A : Arith α) (x y : α) :
    join_number A x y ≠ .error .fuel_exhausted := by
  unfold join_number
  split
  · simp
  · split
    · simp
    · split
      · simp
      · simp only
        split
        · rename_i e he
          intro h
          simp only [Except.error.injEq] at h
          rw [h] at he
          exact stoi_ne_fuel _ he
        · simp

theorem check_domain_ne_fuel {α : Type} (A : Arith α) (x y : α) :
    check_domain A x y ≠ .error .fuel_exhausted := by
  unfold check_domain
  split
  · simp
  · simp only
    split <;> simp

end ExpressionEngine

namespace ExpressionEngine

section Levels

variable {α : Type} (A : Arith α) (T1 T2 : StdMap α)

theorem applyFn_agree (f : α → α) (lx : Lexer) (r1 r2 : Except Error (α × Lexer))
    (h : Agree lx r1 r2) : Agree lx (applyFn f r1) (applyFn f r2) := by
  unfold applyFn
  apply Agree.bind _ _ _ _ _ h
  intro x _ _
  exact Agree.ok _ _ Relation.ReflTransGen.refl

theorem get_argumentF_agree (n : Nat) (add1 add2 : Method α)
    (hadd : AgreeOn T1 T2 n add1 add2) (lx : Lexer) (hsize : lx.size < n + 1)
    (htok : lx.current_token ≠ Token.Eofsym) (hsame : SameOn T1 T2 lx) :
    Agree lx (get_argumentF add1 lx) (get_argumentF add2 lx) := by
  unfold get_argumentF
  apply Agree.adv
  intro lx1 h1
  have s1 := advance_size lx lx1 htok h1
  have same1 := hsame.advance h1
  apply Agree.ite
  · intro _; exact Agree.error _ _ (by simp)
  · intro _
    apply Agree.adv
    intro lx2 h2
    have s2 := advance_size_le lx1 lx2 h2
    have same2 := same1.advance h2
    apply Agree.bind _ _ _ _ _ (hadd lx2 (by omega) same2)
    intro x _ _
    apply Agree.ite
    · intro _; exact Agree.error _ _ (by simp)
    · intro _
      apply Agree.adv
      intro lx3 _
      exact Agree.ok _ _ Relation.ReflTransGen.refl

theorem primaryF_agree (n : Nat) (add1 add2 : Method α) (hadd : AgreeOn T1 T2 n add1 add2) :
    AgreeOn T1 T2 (n + 1) (primaryF A T1 add1) (primaryF A T2 add2) := by
  intro lx hsize hsame
  have harg : lx.current_token ≠ Token.Eofsym →
      Agree lx (get_argumentF add1 lx) (get_argumentF add2 lx) :=
    fun h => get_argumentF_agree T1 T2 n add1 add2 hadd lx hsize h hsame
  have hid : lx.current_token = Token.Id →
      T1.find lx.current_token_text = T2.find lx.current_token_text :=
    fun h => hsame lx Relation.ReflTransGen.refl h
  have hadv : lx.current_token ≠ Token.Eofsym → ∀ lx1, lx.advance = .ok lx1 →
      lx1.size < n ∧ SameOn T1 T2 lx1 := by
    intro h lx1 h1
    have := advance_size lx lx1 h h1
    exact ⟨by omega, hsame.advance h1⟩
  unfold primaryF
  cases htok : lx.current_token <;> rw [htok] at harg hid hadv <;> simp only
  case Id =>
    apply Agree.adv
    intro lx1 _
    rw [hid rfl]
    cases T2.find lx.current_token_text with
    | none => exact Agree.error _ _ (by simp)
    | some v => exact Agree.ok _ _ Relation.ReflTransGen.refl
  case Number =>
    apply Agree.adv
    intro lx1 _
    apply Agree.bind_pure _ _ _ _ (to_number_ne_fuel A _)
    intro b _
    exact Agree.ok _ _ Relation.ReflTransGen.refl
  case Lp =>
    apply Agree.adv
    intro lx1 h1
    obtain ⟨s1, same1⟩ := hadv (by decide) lx1 h1
    apply Agree.bind _ _ _ _ _ (hadd lx1 s1 same1)
    intro x _ _
    apply Agree.ite
    · intro _; exact Agree.error _ _ (by simp)
    · intro _
      apply Agree.adv
      intro lx3 _
      exact Agree.ok _ _ Relation.ReflTransGen.refl
  case Sin => exact applyFn_agree _ _ _ _ (harg (by decide))
  case Cos => exact applyFn_agree _ _ _ _ (harg (by decide))
  case Asin => exact applyFn_agree _ _ _ _ (harg (by decide))
  case Acos => exact applyFn_agree _ _ _ _ (harg (by decide))
  case Atan => exact applyFn_agree _ _ _ _ (harg (by decide))
  case Exp => exact applyFn_agree _ _ _ _ (harg (by decide))
  case Tan =>
    apply Agree.bind _ _ _ _ _ (harg (by decide))
    intro x _ _
    apply Agree.ite
    · intro _; exact Agree.error _ _ (by simp)
    · intro _; exact Agree.ok _ _ Relation.ReflTransGen.refl
  case Log =>
    apply Agree.bind _ _ _ _ _ (harg (by decide))
    intro x _ _
    apply Agree.ite
    · intro _; exact Agree.error _ _ (by simp)
    · intro _; exact Agree.ok _ _ Relation.ReflTransGen.refl
  case Log10 =>
    apply Agree.bind _ _ _ _ _ (harg (by decide))
    intro x _ _
    apply Agree.ite
    · intro _; exact Agree.error _ _ (by simp)
    · intro _; exact Agree.ok _ _ Relation.ReflTransGen.refl
  case Sqrt =>
    apply Agree.bind _ _ _ _ _ (harg (by decide))
    intro x _ _
    apply Agree.ite
    · intro _; exact Agree.error _ _ (by simp)
    · intro _; exact Agree.ok _ _ Relation.ReflTransGen.refl
  case Int =>
    apply Agree.bind _ _ _ _ _ (harg (by decide))
    intro x _ _
    apply Agree.ite
    · intro _; exact Agree.ok _ _ Relation.ReflTransGen.refl
    · intro _; exact Agree.ok _ _ Relation.ReflTransGen.refl
  all_goals exact Agree.error _ _ (by simp)

theorem concat_loop_agree (m : Nat) (p1 p2 : Method α) (hp : AgreeOn T1 T2 m p1 p2) :
    ∀ (k : Nat) (result : α) (lx : Lexer), lx.size < k → lx.size < m → SameOn T1 T2 lx →
      Agree lx (concat_loop A p1 k result lx) (concat_loop A p2 k result lx) := by
  intro k
  induction k with
  | zero => intro _ lx h; omega
  | succ k ih =>
    intro result lx hk hm hsame
    unfold concat_loop
    cases htok : lx.current_token <;> simp only
    case Concat =>
      apply Agree.adv
      intro lx1 h1
      have s1 := advance_size lx lx1 (by rw [htok]; decide) h1
      have same1 := hsame.advance h1
      apply Agree.bind _ _ _ _ _ (hp lx1 (by omega) same1)
      intro y _ hr
      have s2 := reaches_size _ _ hr
      apply Agree.bind_pure _ _ _ _ (join_number_ne_fuel A _ _)
      intro b _
      exact ih b y.2 (by omega) (by omega) (same1.reaches hr)
    all_goals exact Agree.ok _ _ Relation.ReflTransGen.refl

theorem concatF_agree (fuel m : Nat) (hfuel : m ≤ fuel) (p1 p2 : Method α)
    (hp : AgreeOn T1 T2 m p1 p2) :
    AgreeOn T1 T2 m (concatF A fuel p1) (concatF A fuel p2) := by
  intro lx hsize hsame
  unfold concatF
  apply Agree.bind _ _ _ _ _ (hp lx hsize hsame)
  intro x _ hr
  have s := reaches_size _ _ hr
  exact concat_loop_agree A T1 T2 m p1 p2 hp fuel x.1 x.2 (by omega) (by omega) (hsame.reaches hr)

theorem unary_exprF_agree (m : Nat) (c1 c2 : Method α) (hc : AgreeOn T1 T2 m c1 c2) :
    AgreeOn T1 T2 m (unary_exprF A c1) (unary_exprF A c2) := by
  intro lx hsize hsame
  unfold unary_exprF
  cases htok : lx.current_token <;> simp only
  case Plus =>
    apply Agree.adv
    intro lx1 h1
    have s1 := advance_size_le lx lx1 h1
    exact hc lx1 (by omega) (hsame.advance h1)
  case Minus =>
    apply Agree.adv
    intro lx1 h1
    have s1 := advance_size_le lx lx1 h1
    exact applyFn_agree _ _ _ _ (hc lx1 (by omega) (hsame.advance h1))
  all_goals exact hc lx hsize hsame

theorem pow_exprF_agree (m : Nat) (u1 u2 : Method α) (hu : AgreeOn T1 T2 m u1 u2) :
    AgreeOn T1 T2 m (pow_exprF A u1) (pow_exprF A u2) := by
  intro lx hsize hsame
  unfold pow_exprF
  apply Agree.bind _ _ _ _ _ (hu lx hsize hsame)
  intro r _ hr
  have s := reaches_size _ _ hr
  apply Agree.ite
  · intro _
    apply Agree.adv
    intro lx1 h1
    have s1 := advance_size_le r.2 lx1 h1
    apply Agree.bind _ _ _ _ _ (hu lx1 (by omega) ((hsame.reaches hr).advance h1))
    intro x _ _
    apply Agree.bind_pure _ _ _ _ (check_domain_ne_fuel A _ _)
    intro _ _
    exact Agree.ok _ _ Relation.ReflTransGen.refl
  · intro _
    exact Agree.ok _ _ Relation.ReflTransGen.refl

theorem mul_loop_agree (m : Nat) (p1 p2 : Method α) (hp : AgreeOn T1 T2 m p1 p2) :
    ∀ (k : Nat) (result : α) (lx : Lexer), lx.size < k → lx.size < m → SameOn T1 T2 lx →
      Agree lx (mul_loop A p1 k result lx) (mul_loop A p2 k result lx) := by
  intro k
  induction k with
  | zero => intro _ lx h; omega
  | succ k ih =>
    intro result lx hk hm hsame
    unfold mul_loop
    cases htok : lx.current_token <;> simp only
    case Mul =>
      apply Agree.adv
      intro lx1 h1
      have s1 := advance_size lx lx1 (by rw [htok]; decide) h1
      have same1 := hsame.advance h1
      apply Agree.bind _ _ _ _ _ (hp lx1 (by omega) same1)
      intro y _ hr
      have s2 := reaches_size _ _ hr
      exact ih _ y.2 (by omega) (by omega) (same1.reaches hr)
    case Div =>
      apply Agree.adv
      intro lx1 h1
      have s1 := advance_size lx lx1 (by rw [htok]; decide) h1
      have same1 := hsame.advance h1
      apply Agree.bind _ _ _ _ _ (hp lx1 (by omega) same1)
      intro y _ hr
      have s2 := reaches_size _ _ hr
      apply Agree.ite
      · intro _; exact Agree.error _ _ (by simp)
      · intro _; exact ih _ y.2 (by omega) (by omega) (same1.reaches hr)
    case Mod =>
      apply Agree.adv
      intro lx1 h1
      have s1 := advance_size lx lx1 (by rw [htok]; decide) h1
      have same1 := hsame.advance h1
      apply Agree.bind _ _ _ _ _ (hp lx1 (by omega) same1)
      intro y _ hr
      have s2 := reaches_size _ _ hr
      apply Agree.ite
      · intro _; exact Agree.error _ _ (by simp)
      · intro _; exact ih _ y.2 (by omega) (by omega) (same1.reaches hr)
    all_goals exact Agree.ok _ _ Relation.ReflTransGen.refl

theorem mul_exprF_agree (fuel m : Nat) (hfuel : m ≤ fuel) (p1 p2 : Method α)
    (hp : AgreeOn T1 T2 m p1 p2) :
    AgreeOn T1 T2 m (mul_exprF A fuel p1) (mul_exprF A fuel p2) := by
  intro lx hsize hsame
  unfold mul_exprF
  apply Agree.bind _ _ _ _ _ (hp lx hsize hsame)
  intro x _ hr
  have s := reaches_size _ _ hr
  exact mul_loop_agree A T1 T2 m p1 p2 hp fuel x.1 x.2 (by omega) (by omega) (hsame.reaches hr)

theorem add_loop_agree (m : Nat) (p1 p2 : Method α) (hp : AgreeOn T1 T2 m p1 p2) :
    ∀ (k : Nat) (result : α) (lx : Lexer), lx.size < k → lx.size < m → SameOn T1 T2 lx →
      Agree lx (add_loop A p1 k result lx) (add_loop A p2 k result lx) := by
  intro k
  induction k with
  | zero => intro _ lx h; omega
  | succ k ih =>
    intro result lx hk hm hsame
    unfold add_loop
    cases htok : lx.current_token <;> simp only
    case Plus =>
      apply Agree.adv
      intro lx1 h1
      have s1 := advance_size lx lx1 (by rw [htok]; decide) h1
      have same1 := hsame.advance h1
      apply Agree.bind _ _ _ _ _ (hp lx1 (by omega) same1)
      intro y _ hr
      have s2 := reaches_size _ _ hr
      exact ih _ y.2 (by omega) (by omega) (same1.reaches hr)
    case Minus =>
      apply Agree.adv
      intro lx1 h1
      have s1 := advance_size lx lx1 (by rw [htok]; decide) h1
      have same1 := hsame.advance h1
      apply Agree.bind _ _ _ _ _ (hp lx1 (by omega) same1)
      intro y _ _
      exact Agree.ok _ _ Relation.ReflTransGen.refl
    all_goals exact Agree.ok _ _ Relation.ReflTransGen.refl

theorem add_exprF_agree (fuel m : Nat) (hfuel : m ≤ fuel) (p1 p2 : Method α)
    (hp : AgreeOn T1 T2 m p1 p2) :
    AgreeOn T1 T2 m (add_exprF A fuel p1) (add_exprF A fuel p2) := by
  intro lx hsize hsame
  unfold add_exprF
  apply Agree.bind _ _ _ _ _ (hp lx hsize hsame)
  intro x _ hr
  have s := reaches_size _ _ hr
  exact add_loop_agree A T1 T2 m p1 p2 hp fuel x.1 x.2 (by omega) (by omega) (hsame.reaches hr)

/-- Method `add_expr` with `depth` levels of nesting does not depend on how the
symbol table binds identifiers the text does not contain, and it does not run
out of fuel on a lexer with fewer than `depth` tokens and characters left. -/
theorem add_expr_agree (fuel : Nat) :
    ∀ depth, depth ≤ fuel →
      AgreeOn T1 T2 depth (add_expr A T1 fuel depth) (add_expr A T2 fuel depth) := by
  intro depth
  induction depth with
  | zero => intro _ lx h; omega
  | succ d ih =>
    intro hd
    have h0 := ih (by omega)
    have h1 := primaryF_agree A T1 T2 d _ _ h0
    have h2 := concatF_agree A T1 T2 fuel (d + 1) hd _ _ h1
    have h3 := unary_exprF_agree A T1 T2 (d + 1) _ _ h2
    have h4 := pow_exprF_agree A T1 T2 (d + 1) _ _ h3
    have h5 := mul_exprF_agree A T1 T2 fuel (d + 1) hd _ _ h4
    exact add_exprF_agree A T1 T2 fuel (d + 1) hd _ _ h5

end Levels

end ExpressionEngine

namespace ExpressionEngine

section Top

variable {α : Type} (A : Arith α) (T1 T2 : StdMap α)

theorem equality_step_agree (m : Nat) (p1 p2 : Method α) (hp : AgreeOn T1 T2 m p1 p2)
    (loop1 loop2 : α → Method α) (op : α → α → Bool) (result : α) (lx : Lexer)
    (htok : lx.current_token ≠ Token.Eofsym) (hm : lx.size < m) (hsame : SameOn T1 T2 lx)
    (hloop : ∀ (r : α) (lx' : Lexer), lx'.size < lx.size → SameOn T1 T2 lx' →
      Agree lx' (loop1 r lx') (loop2 r lx')) :
    Agree lx (equality_step A p1 loop1 op result lx) (equality_step A p2 loop2 op result lx) := by
  unfold equality_step
  apply Agree.adv
  intro lx1 h1
  have s1 := advance_size lx lx1 htok h1
  have same1 := hsame.advance h1
  apply Agree.bind _ _ _ _ _ (hp lx1 (by omega) same1)
  intro y _ hr
  have s2 := reaches_size _ _ hr
  exact hloop _ y.2 (by omega) (same1.reaches hr)

theorem equality_loop_agree (m : Nat) (p1 p2 : Method α) (hp : AgreeOn T1 T2 m p1 p2) :
    ∀ (k : Nat) (result : α) (lx : Lexer), lx.size < k → lx.size < m → SameOn T1 T2 lx →
      Agree lx (equality_loop A p1 k result lx) (equality_loop A p2 k result lx) := by
  intro k
  induction k with
  | zero => intro _ lx h; omega
  | succ k ih =>
    intro result lx hk hm hsame
    have hstep : ∀ op : α → α → Bool, lx.current_token ≠ Token.Eofsym →
        Agree lx (equality_step A p1 (equality_loop A p1 k) op result lx)
          (equality_step A p2 (equality_loop A p2 k) op result lx) :=
      fun op htok => equality_step_agree A T1 T2 m p1 p2 hp _ _ op result lx htok hm hsame
        (fun r lx' hs hsm => ih r lx' (by omega) (by omega) hsm)
    unfold equality_loop
    cases htok : lx.current_token <;> rw [htok] at hstep <;> simp only
    case EqualTo => exact hstep _ (by decide)
    case GreaterThanEqual => exact hstep _ (by decide)
    case LessThanEqual => exact hstep _ (by decide)
    case GreaterThan => exact hstep _ (by decide)
    case LessThan => exact hstep _ (by decide)
    case NotEqual => exact hstep _ (by decide)
    all_goals exact Agree.ok _ _ Relation.ReflTransGen.refl

theorem equality_exprF_agree (fuel m : Nat) (hfuel : m ≤ fuel) (p1 p2 : Method α)
    (hp : AgreeOn T1 T2 m p1 p2) :
    AgreeOn T1 T2 m (equality_exprF A fuel p1) (equality_exprF A fuel p2) := by
  intro lx hsize hsame
  unfold equality_exprF
  apply Agree.bind _ _ _ _ _ (hp lx hsize hsame)
  intro x _ hr
  have s := reaches_size _ _ hr
  exact equality_loop_agree A T1 T2 m p1 p2 hp fuel x.1 x.2 (by omega) (by omega)
    (hsame.reaches hr)

theorem combination_loop_agree (m : Nat) (p1 p2 : Method α) (hp : AgreeOn T1 T2 m p1 p2) :
    ∀ (k : Nat) (result : α) (lx : Lexer), lx.size < k → lx.size < m → SameOn T1 T2 lx →
      Agree lx (combination_loop A p1 k result lx) (combination_loop A p2 k result lx) := by
  intro k
  induction k with
  | zero => intro _ lx h; omega
  | succ k ih =>
    intro result lx hk hm hsame
    unfold combination_loop
    cases htok : lx.current_token <;> simp only
    case AND =>
      apply Agree.adv
      intro lx1 h1
      have s1 := advance_size lx lx1 (by rw [htok]; decide) h1
      have same1 := hsame.advance h1
      apply Agree.ite
      · intro _
        apply Agree.bind _ _ _ _ _ (hp lx1 (by omega) same1)
        intro y _ hr
        have s2 := reaches_size _ _ hr
        exact ih _ y.2 (by omega) (by omega) (same1.reaches hr)
      · intro _
        exact ih _ lx1 (by omega) (by omega) same1
    all_goals exact Agree.ok _ _ Relation.ReflTransGen.refl

theorem combination_exprF_agree (fuel m : Nat) (hfuel : m ≤ fuel) (p1 p2 : Method α)
    (hp : AgreeOn T1 T2 m p1 p2) :
    AgreeOn T1 T2 m (combination_exprF A fuel p1) (combination_exprF A fuel p2) := by
  intro lx hsize hsame
  unfold combination_exprF
  apply Agree.bind _ _ _ _ _ (hp lx hsize hsame)
  intro x _ hr
  have s := reaches_size _ _ hr
  exact combination_loop_agree A T1 T2 m p1 p2 hp fuel x.1 x.2 (by omega) (by omega)
    (hsame.reaches hr)

theorem choice_loop_agree (m : Nat) (p1 p2 : Method α) (hp : AgreeOn T1 T2 m p1 p2) :
    ∀ (k : Nat) (result : α) (lx : Lexer), lx.size < k → lx.size < m → SameOn T1 T2 lx →
      Agree lx (choice_loop A p1 k result lx) (choice_loop A p2 k result lx) := by
  intro k
  induction k with
  | zero => intro _ lx h; omega
  | succ k ih =>
    intro result lx hk hm hsame
    unfold choice_loop
    cases htok : lx.current_token <;> simp only
    case AND =>
      apply Agree.adv
      intro lx1 h1
      have s1 := advance_size lx lx1 (by rw [htok]; decide) h1
      have same1 := hsame.advance h1
      apply Agree.ite
      · intro _
        exact ih _ lx1 (by omega) (by omega) same1
      · intro _
        apply Agree.bind _ _ _ _ _ (hp lx1 (by omega) same1)
        intro y _ hr
        have s2 := reaches_size _ _ hr
        exact ih _ y.2 (by omega) (by omega) (same1.reaches hr)
    all_goals exact Agree.ok _ _ Relation.ReflTransGen.refl

theorem choice_exprF_agree (fuel m : Nat) (hfuel : m ≤ fuel) (p1 p2 : Method α)
    (hp : AgreeOn T1 T2 m p1 p2) :
    AgreeOn T1 T2 m (choice_exprF A fuel p1) (choice_exprF A fuel p2) := by
  intro lx hsize hsame
  unfold choice_exprF
  apply Agree.bind _ _ _ _ _ (hp lx hsize hsame)
  intro x _ hr
  have s := reaches_size _ _ hr
  exact choice_loop_agree A T1 T2 m p1 p2 hp fuel x.1 x.2 (by omega) (by omega)
    (hsame.reaches hr)

theorem choice_expr_agree (fuel depth : Nat) (hd : depth ≤ fuel) :
    AgreeOn T1 T2 depth (choice_expr A T1 fuel depth) (choice_expr A T2 fuel depth) := by
  unfold choice_expr combination_expr equality_expr
  exact choice_exprF_agree A T1 T2 fuel depth hd _ _
    (combination_exprF_agree A T1 T2 fuel depth hd _ _
      (equality_exprF_agree A T1 T2 fuel depth hd _ _ (add_expr_agree A T1 T2 fuel depth hd)))

end Top


end ExpressionEngine

namespace ExpressionEngine

/-! ## `Parser::operator()` and `Parser::get_ids` -/

theorem sameOn_refl {α : Type} (T : StdMap α) (lx : Lexer) : SameOn T T lx :=
  fun _ _ _ => rfl

theorem bind_error {β γ : Type} (e : Error) (k : β → Except Error γ) :
    ((Except.error e : Except Error β) >>= k) = Except.error e := rfl

theorem bind_ok {β γ : Type} (x : β) (k : β → Except Error γ) :
    ((Except.ok x : Except Error β) >>= k) = k x := rfl

theorem call_eq {α : Type} (A : Arith α) (p : Parser α) (s : Str) :
    p.call A s
      = (Lexer.init s >>= fun lx =>
          choice_expr A p.symbol_table (s.length + 1) (s.length + 1) lx >>= fun r => .ok r.1) :=
  rfl

/-- The call operator of the parser never runs out of the fuel it is given. -/
theorem call_ne_fuel {α : Type} (A : Arith α) (p : Parser α) (s : Str) :
    p.call A s ≠ .error .fuel_exhausted := by
  rw [call_eq]
  cases hi : Lexer.init s with
  | error e =>
    obtain ⟨m, hm⟩ := init_error s e hi
    subst hm
    rw [bind_error]
    intro h
    cases h
  | ok lx =>
    have hs := init_size s lx hi
    have h := choice_expr_agree A p.symbol_table p.symbol_table (s.length + 1) (s.length + 1)
      (le_refl _) lx (by omega) (sameOn_refl _ _)
    obtain ⟨_, h2, _⟩ := h
    rw [bind_ok]
    generalize choice_expr A p.symbol_table (s.length + 1) (s.length + 1) lx = r at h2 ⊢
    cases r with
    | error e =>
      rw [bind_error]
      intro h
      cases h
      exact h2 rfl
    | ok x =>
      rw [bind_ok]
      intro h
      cases h

/-- The call operator of the parser returns the same for two symbol tables
that bind alike every identifier token the lexer can reach in the text. -/
theorem call_congr {α : Type} (A : Arith α) (p1 p2 : Parser α) (s : Str)
    (h : ∀ lx, Lexer.init s = .ok lx → SameOn p1.symbol_table p2.symbol_table lx) :
    p1.call A s = p2.call A s := by
  rw [call_eq, call_eq]
  cases hi : Lexer.init s with
  | error e => rw [bind_error, bind_error]
  | ok lx =>
    have hs := init_size s lx hi
    have h' := choice_expr_agree A p1.symbol_table p2.symbol_table (s.length + 1) (s.length + 1)
      (le_refl _) lx (by omega) (h lx hi)
    rw [bind_ok, bind_ok, h'.1]

end ExpressionEngine

namespace ExpressionEngine

theorem reaches_eof (lx lx' : Lexer) (h : lx.current_token = Token.Eofsym)
    (hr : lx.Reaches lx') : lx' = lx := by
  induction hr with
  | refl => rfl
  | tail _ hbc ih =>
    rw [ih, advance_eof lx h] at hbc
    simp only [Except.ok.injEq] at hbc
    exact hbc.symm

theorem get_ids_loop_mono :
    ∀ (fuel : Nat) (lx : Lexer) (list : List Str) (x : Str), x ∈ list →
      x ∈ (get_ids_loop fuel lx list).1 := by
  intro fuel
  induction fuel with
  | zero => intro lx list x hx; exact hx
  | succ k ih =>
    intro lx list x hx
    unfold get_ids_loop
    cases htok : lx.current_token <;> simp only
    case Eofsym => exact hx
    case Id =>
      cases ha : lx.advance with
      | error e => exact hx
      | ok lx1 => exact ih lx1 _ x (List.mem_append_left _ hx)
    all_goals
      cases ha : lx.advance with
      | error e => exact hx
      | ok lx1 => exact ih lx1 _ x hx

/-- When `get_ids` reaches the end of the text, its list contains the text of
every identifier token the lexer delivers. -/
theorem get_ids_loop_reaches :
    ∀ (fuel : Nat) (lx : Lexer) (list : List Str),
      (get_ids_loop fuel lx list).2 = .ok () →
      ∀ lx', lx.Reaches lx' → lx'.current_token = Token.Id →
        lx'.current_token_text ∈ (get_ids_loop fuel lx list).1 := by
  intro fuel
  induction fuel with
  | zero =>
    intro lx list h
    simp [get_ids_loop] at h
  | succ k ih =>
    intro lx list h lx' hr hid
    have hcases : lx' = lx ∨ ∃ lx1, lx.advance = .ok lx1 ∧ lx1.Reaches lx' := by
      rcases Relation.ReflTransGen.cases_head hr with h1 | ⟨lx1, h1, h2⟩
      · exact Or.inl h1.symm
      · exact Or.inr ⟨lx1, h1, h2⟩
    unfold get_ids_loop at h ⊢
    cases htok : lx.current_token <;> rw [htok] at h <;> simp only at h ⊢
    case Eofsym =>
      have := reaches_eof lx lx' htok hr
      rw [this, htok] at hid
      exact absurd hid (by decide)
    case Id =>
      cases ha : lx.advance with
      | error e => rw [ha] at h; exact absurd h (by simp)
      | ok lx1 =>
        rw [ha] at h
        simp only at h ⊢
        rcases hcases with h1 | ⟨lx1', h1, h2⟩
        · rw [h1]
          exact get_ids_loop_mono k lx1 _ _ (List.mem_append_right _ (List.mem_singleton_self _))
        · rw [ha] at h1
          simp only [Except.ok.injEq] at h1
          rw [← h1] at h2
          exact ih lx1 _ h lx' h2 hid
    all_goals
      cases ha : lx.advance with
      | error e => rw [ha] at h; exact absurd h (by simp)
      | ok lx1 =>
        rw [ha] at h
        simp only at h ⊢
        rcases hcases with h1 | ⟨lx1', h1, h2⟩
        · rw [h1, htok] at hid
          exact absurd hid (by decide)
        · rw [ha] at h1
          simp only [Except.ok.injEq] at h1
          rw [← h1] at h2
          exact ih lx1 _ h lx' h2 hid


end ExpressionEngine

namespace ExpressionEngine

/-- The frame property of the parser: two symbol tables that bind alike every
identifier `get_ids` finds in a text that tokenizes give the same result. -/
theorem call_frame {α : Type} (A : Arith α) (p1 p2 : Parser α) (s : Str)
    (htok : (get_ids s []).2 = .ok ())
    (h : ∀ id ∈ (get_ids s []).1, p1.symbol_table.find id = p2.symbol_table.find id) :
    p1.call A s = p2.call A s := by
  apply call_congr
  intro lx hi lx' hr hid
  apply h
  unfold get_ids at htok ⊢
  rw [hi] at htok ⊢
  exact get_ids_loop_reaches _ lx [] htok lx' hr hid

end ExpressionEngine

namespace ExpressionEngine

theorem map_getD_range (l : List Str) :
    (List.range l.length).map (fun i => l.getD i []) = l := by
  apply List.ext_getElem
  · simp
  · intro i h1 h2
    simp [List.getD_eq_getElem?_getD, List.getElem?_eq_getElem h2]

theorem precedes_mem_left {β : Type} (l1 l2 : List β) (a x : β)
    (hnd : (l1 ++ a :: l2).Nodup) (h : precedes (l1 ++ a :: l2) x a) : x ∈ l1 := by
  obtain ⟨i, j, hij, hi, hj⟩ := h
  have hjl : j < (l1 ++ a :: l2).length := by
    by_contra hc
    rw [List.getElem?_eq_none (by omega)] at hj
    exact absurd hj (by simp)
  have hal : l1.length < (l1 ++ a :: l2).length := by
    rw [List.length_append, List.length_cons]; omega
  have ha : (l1 ++ a :: l2)[l1.length] = a := by
    rw [List.getElem_append_right (le_refl _)]
    simp
  have hj' : (l1 ++ a :: l2)[j] = a := by
    rw [List.getElem?_eq_getElem hjl] at hj
    simpa using hj
  have hjeq : j = l1.length := (List.Nodup.getElem_inj_iff hnd).1 (hj'.trans ha.symm)
  have hil : i < l1.length := by omega
  rw [List.getElem?_append_left hil] at hi
  exact List.mem_iff_getElem?.2 ⟨i, hi⟩

namespace ExpEvaluator

variable {α : Type}

/-- When the cycle check passes, `Graph::sort` returns, and `evaluate` walks
every expression once, each after the expressions it references. -/
theorem evaluate_order (ev : ExpEvaluator α) (hnd : (StdMap.keys ev.expressions).Nodup)
    (hval : validatedIdGraph { ev with graph := (populate_loop ev.expressions ev.symbol_table).2 }
      = .ok ()) :
    ∃ sorted : List Str,
      (populate_loop ev.expressions ev.symbol_table).2.sort [] = .ok sorted
      ∧ sorted.reverse.Perm (StdMap.keys ev.expressions)
      ∧ sorted.reverse.Nodup
      ∧ ∀ a b, references ev.expressions a b → precedes sorted.reverse b a := by
  have hvalid := populate_loop_valid ev.expressions ev.symbol_table
  obtain ⟨cs, hfc, hiff⟩ := Graph.findCycles_spec _ hvalid
  have hcs : cs = [] := by
    unfold validatedIdGraph at hval
    simp only [hfc] at hval
    by_contra hne
    have : cs.length > 0 := List.length_pos.2 hne
    simp [this] at hval
  have hac : ¬ (populate_loop ev.expressions ev.symbol_table).2.HasCycle :=
    fun h => (hiff.2 h) hcs
  obtain ⟨order, hs, hond, hmem, hord⟩ := Graph.sort_spec _ hvalid hac []
  have hV : (populate_loop ev.expressions ev.symbol_table).2.V
      = (StdMap.keys ev.expressions).length := by
    unfold Graph.V
    rw [populate_loop_vertices]
  have hvertex : ∀ i, (populate_loop ev.expressions ev.symbol_table).2.vertex i
      = (StdMap.keys ev.expressions).getD i [] := by
    intro i
    unfold Graph.vertex
    rw [populate_loop_vertices]
  have hperm : (order.map (populate_loop ev.expressions ev.symbol_table).2.vertex).Perm
      (StdMap.keys ev.expressions) := by
    have h1 : order.Perm (List.range (StdMap.keys ev.expressions).length) :=
      (List.perm_ext_iff_of_nodup hond (List.nodup_range _)).2
        (fun u => by rw [hmem u, List.mem_range, hV])
    have h2 := h1.map (populate_loop ev.expressions ev.symbol_table).2.vertex
    have h3 : (List.range (StdMap.keys ev.expressions).length).map
        (populate_loop ev.expressions ev.symbol_table).2.vertex = StdMap.keys ev.expressions := by
      rw [show (populate_loop ev.expressions ev.symbol_table).2.vertex
        = fun i => (StdMap.keys ev.expressions).getD i [] from funext hvertex]
      exact map_getD_range _
    rw [h3] at h2
    exact h2
  refine ⟨order.map (populate_loop ev.expressions ev.symbol_table).2.vertex, by simpa using hs,
    (List.reverse_perm _).trans hperm, ?_, ?_⟩
  · exact List.nodup_reverse.2 ((List.Perm.nodup_iff hperm).2 hnd)
  · intro a b hab
    have hedge := edge_of_references ev.expressions ev.symbol_table a b hab
    have hp := precedes_map (populate_loop ev.expressions ev.symbol_table).2.vertex order _ _
      (hord _ _ hedge)
    obtain ⟨text, hf, _, hc⟩ := hab
    have ha : a ∈ StdMap.keys ev.expressions :=
      (StdMap.find_isSome_iff_mem_keys _ _).1 (by rw [hf]; rfl)
    have hb : b ∈ StdMap.keys ev.expressions := (StdMap.contains_iff_mem_keys _ _).1 hc
    rw [hvertex, hvertex, getD_firstIndex _ _ ha, getD_firstIndex _ _ hb] at hp
    exact precedes_reverse _ _ _ hp

end ExpEvaluator
end ExpressionEngine

namespace ExpressionEngine
namespace ExpEvaluator

variable {α : Type}

/-! ## The evaluation pass -/

theorem error_entry_length (kind message : Str) (index : Nat) (text : Str) :
    0 < (error_entry kind message index text).length := by
  unfold error_entry
  simp only [List.length_append]
  have : 0 < "\n".toList.length := by decide
  omega

/-- The loop of `evaluate` and its attempts: when every failure is lexical,
syntactic or a runtime failure, the loop runs to its end, every identifier is
attempted in order, and the error stream grows exactly when an attempt failed. -/
theorem evaluate_loop_status (A : Arith α) (exprs : StdMap Str) (ids : List Str) :
    ∀ (idx : Nat) (P : Parser α) (R : StdMap α) (E : Str),
      (∀ e ∈ failures (attempts A exprs ids P), collected e = true) →
      (evaluate_loop A exprs ids idx ⟨P, R, E⟩).2 = .ok ()
      ∧ (attempts A exprs ids P).map Prod.fst = ids
      ∧ E <+: (evaluate_loop A exprs ids idx ⟨P, R, E⟩).1.errorStream
      ∧ ((evaluate_loop A exprs ids idx ⟨P, R, E⟩).1.errorStream = E
          ↔ failures (attempts A exprs ids P) = []) := by
  induction ids with
  | nil =>
    intro idx P R E _
    exact ⟨rfl, rfl, List.prefix_refl _, by simp [evaluate_loop, attempts, failures]⟩
  | cons id ids ih =>
    intro idx P R E hcol
    have grow : ∀ (kind m : Str) (R' : StdMap α) (P' : Parser α),
        (∀ e ∈ failures (attempts A exprs ids P'), collected e = true) →
        (evaluate_loop A exprs ids (idx + 1)
            ⟨P', R', E ++ error_entry kind m idx ((exprs.find id).getD [])⟩).2 = .ok ()
        ∧ (attempts A exprs ids P').map Prod.fst = ids
        ∧ E <+: (evaluate_loop A exprs ids (idx + 1)
            ⟨P', R', E ++ error_entry kind m idx ((exprs.find id).getD [])⟩).1.errorStream
        ∧ (evaluate_loop A exprs ids (idx + 1)
            ⟨P', R', E ++ error_entry kind m idx ((exprs.find id).getD [])⟩).1.errorStream ≠ E := by
      intro kind m R' P' hc
      obtain ⟨h1, h2, h3, _⟩ := ih (idx + 1) P' R'
        (E ++ error_entry kind m idx ((exprs.find id).getD [])) hc
      refine ⟨h1, h2, (List.prefix_append _ _).trans h3, ?_⟩
      intro heq
      have hl := h3.length_le
      rw [heq, List.length_append] at hl
      have := error_entry_length kind m idx ((exprs.find id).getD [])
      omega
    simp only [evaluate_loop, evaluate_step, attempts] at hcol ⊢
    cases hc : P.call A ((exprs.find id).getD []) with
    | ok v =>
      rw [hc] at hcol
      simp only [failures] at hcol ⊢
      obtain ⟨h1, h2, h3, h4⟩ := ih (idx + 1) (P.add_symbol id v) (R.insert id v) E hcol
      exact ⟨h1, by rw [List.map_cons, h2], h3, h4⟩
    | error e =>
      rw [hc] at hcol
      by_cases hce : collected e = true
      · simp only [hce, if_true, failures] at hcol ⊢
        have hrest : ∀ e' ∈ failures (attempts A exprs ids P), collected e' = true :=
          fun e' he => hcol e' (List.mem_cons_of_mem _ he)
        have fin : ∀ (kind m : Str),
            (evaluate_loop A exprs ids (idx + 1)
                ⟨P, R, E ++ error_entry kind m idx ((exprs.find id).getD [])⟩).2 = .ok ()
            ∧ List.map Prod.fst ((id, Except.error e) :: attempts A exprs ids P) = id :: ids
            ∧ E <+: (evaluate_loop A exprs ids (idx + 1)
                ⟨P, R, E ++ error_entry kind m idx ((exprs.find id).getD [])⟩).1.errorStream
            ∧ ((evaluate_loop A exprs ids (idx + 1)
                ⟨P, R, E ++ error_entry kind m idx ((exprs.find id).getD [])⟩).1.errorStream = E
              ↔ e :: failures (attempts A exprs ids P) = []) := by
          intro kind m
          obtain ⟨h1, h2, h3, h4⟩ := grow kind m R P hrest
          refine ⟨h1, by rw [List.map_cons, h2], h3, ?_⟩
          constructor
          · intro h; exact absurd h h4
          · intro h; exact absurd h (List.cons_ne_nil _ _)
        cases e with
        | Lexical_error m => exact fin _ m
        | Syntax_error m => exact fin _ m
        | Runtime_error m => exact fin _ m
        | ParsingError m => exact absurd hce (by simp [collected])
        | CyclicDependencyError m => exact absurd hce (by simp [collected])
        | ios_failure => exact absurd hce (by simp [collected])
        | invalid_argument => exact absurd hce (by simp [collected])
        | out_of_range => exact absurd hce (by simp [collected])
        | undefined_behaviour => exact absurd hce (by simp [collected])
        | fuel_exhausted => exact absurd hce (by simp [collected])
      · simp only [hce, if_false, failures] at hcol
        exact absurd (hcol e (List.mem_singleton_self _)) hce

/-- The table the parser starts the pass with binds every registered value. -/
theorem add_symbols_find (vals : StdMap α) :
    ∀ (P : Parser α) (x : Str), (StdMap.keys vals).Nodup →
      (add_symbols P vals).symbol_table.find x
        = (match vals.find x with
          | some v => some v
          | none => P.symbol_table.find x) := by
  induction vals with
  | nil => intro P x _; rfl
  | cons e vals ih =>
    intro P x hnd
    obtain ⟨k, v⟩ := e
    have hkeys : StdMap.keys ((k, v) :: vals) = k :: StdMap.keys vals := rfl
    rw [hkeys, List.nodup_cons] at hnd
    have hstep : add_symbols P ((k, v) :: vals) = add_symbols (P.add_symbol k v) vals := rfl
    rw [hstep, ih (P.add_symbol k v) x hnd.2]
    by_cases hx : x = k
    · subst hx
      have hnone : StdMap.find vals x = none := by
        cases hf : StdMap.find vals x with
        | none => rfl
        | some w =>
          exact absurd ((StdMap.find_isSome_iff_mem_keys vals x).1 (by rw [hf]; rfl)) hnd.1
      simp [StdMap.find, hnone, Parser.add_symbol, StdMap.find_assign]
    · simp [StdMap.find, hx, Parser.add_symbol, StdMap.find_assign]

theorem add_symbols_find_of_contains (vals : StdMap α) (P : Parser α) (x : Str)
    (hnd : (StdMap.keys vals).Nodup) (hx : vals.contains x = true) :
    (add_symbols P vals).symbol_table.find x = vals.find x := by
  rw [add_symbols_find vals P x hnd]
  unfold StdMap.contains at hx
  obtain ⟨v, hv⟩ := Option.isSome_iff_exists.1 hx
  rw [hv]

/-- What the stored results contain after a pass that gave every identifier of
`l` the value `ρ` assigns to it. -/
theorem find_store_map (ρ : Str → α) (l : List Str) :
    ∀ (R : StdMap α) (k : Str),
      (store R (l.map (fun x => (x, ρ x)))).find k
        = (match R.find k with
          | some v => some v
          | none => if k ∈ l then some (ρ k) else none) := by
  induction l with
  | nil => intro R k; cases h : R.find k <;> simp [store, h]
  | cons a l ih =>
    intro R k
    rw [List.map_cons, store_cons, ih, StdMap.find_insert]
    by_cases hk : k = a
    · subst hk
      cases h : StdMap.find R k <;> simp [h]
    · cases h : StdMap.find R k <;> simp [h, hk]

end ExpEvaluator
end ExpressionEngine

namespace ExpressionEngine
namespace ExpEvaluator

variable {α : Type}

/-- The attempts of a pass in dependency order, when the values `ρ` solve the
expressions: every attempt returns the value `ρ` assigns. -/
theorem attempts_of_solution (A : Arith α) (ev : ExpEvaluator α)
    (hnd_v : (StdMap.keys ev.symbol_table).Nodup)
    (htok : ∀ e ∈ ev.expressions, (get_ids e.2 []).2 = .ok ())
    (hreg : ∀ e ∈ ev.expressions, ∀ id ∈ (get_ids e.2 []).1,
      ev.expressions.contains id = true ∨ ev.symbol_table.contains id = true)
    (ρ : Str → α)
    (hρ : ∀ e ∈ ev.expressions, ∃ T : StdMap α,
      Binds ev (fun id => some (ρ id)) e.2 T ∧ Parser.call A ⟨T⟩ e.2 = .ok (ρ e.1))
    (ids : List Str) (hids_nd : ids.Nodup)
    (hids_keys : ∀ x ∈ ids, x ∈ StdMap.keys ev.expressions)
    (hdep : ∀ a b, references ev.expressions a b → precedes ids b a) :
    ∀ (rest done : List Str) (P : Parser α), ids = done ++ rest →
      (∀ x ∈ done, P.symbol_table.find x = some (ρ x)) →
      (∀ x, x ∉ done → P.symbol_table.find x
        = (add_symbols (Parser.new A) ev.symbol_table).symbol_table.find x) →
      attempts A ev.expressions rest P = rest.map (fun x => (x, .ok (ρ x))) := by
  intro rest
  induction rest with
  | nil => intro done P _ _ _; rfl
  | cons id rest ih =>
    intro done P hsplit hdone hother
    have hid_ids : id ∈ ids := by rw [hsplit]; simp
    have hid_keys := hids_keys id hid_ids
    obtain ⟨text, hfind⟩ := Option.isSome_iff_exists.1
      ((StdMap.find_isSome_iff_mem_keys ev.expressions id).2 hid_keys)
    have hmem : (id, text) ∈ ev.expressions := StdMap.mem_of_find _ _ _ hfind
    obtain ⟨T0, hbinds, hcall⟩ := hρ (id, text) hmem
    have hframe : P.call A text = (⟨T0⟩ : Parser α).call A text := by
      apply call_frame A P ⟨T0⟩ text (htok _ hmem)
      intro x hx
      rw [hbinds x hx]
      by_cases hc : ev.expressions.contains x = true
      · simp only [hc, if_true]
        have href : references ev.expressions id x := ⟨text, hfind, hx, hc⟩
        have hp := hdep id x href
        rw [hsplit] at hp hids_nd
        exact hdone x (precedes_mem_left done rest id x hids_nd hp)
      · simp only [hc, Bool.false_eq_true, if_false]
        have hxd : x ∉ done := by
          intro hxd
          have : x ∈ ids := by rw [hsplit]; exact List.mem_append_left _ hxd
          exact hc ((StdMap.contains_iff_mem_keys _ _).2 (hids_keys x this))
        rw [hother x hxd]
        rcases hreg _ hmem x hx with h | h
        · exact absurd h hc
        · exact add_symbols_find_of_contains _ _ _ hnd_v h
    have hcall' : P.call A ((ev.expressions.find id).getD []) = .ok (ρ id) := by
      rw [hfind]
      exact hframe.trans hcall
    simp only [attempts, hcall', List.map_cons]
    congr 1
    apply ih (done ++ [id]) (P.add_symbol id (ρ id))
    · rw [hsplit]; simp
    · intro x hx
      simp only [Parser.add_symbol, StdMap.find_assign]
      by_cases hxi : x = id
      · simp [hxi]
      · simp only [hxi, if_false]
        rcases List.mem_append.1 hx with h | h
        · exact hdone x h
        · exact absurd (List.mem_singleton.1 h) hxi
    · intro x hx
      have hxi : x ≠ id := fun h => hx (by rw [h]; simp)
      have hxd : x ∉ done := fun h => hx (List.mem_append_left _ h)
      simp only [Parser.add_symbol, StdMap.find_assign, hxi, if_false]
      exact hother x hxd

theorem succeeded_map_ok (ρ : Str → α) (l : List Str) :
    succeeded (l.map (fun x => (x, (Except.ok (ρ x) : Except Error α))))
      = l.map (fun x => (x, ρ x)) := by
  induction l with
  | nil => rfl
  | cons a l ih => simp only [List.map_cons, succeeded, ih]

theorem failures_map_ok (ρ : Str → α) (l : List Str) :
    failures (l.map (fun x => (x, (Except.ok (ρ x) : Except Error α)))) = [] := by
  induction l with
  | nil => rfl
  | cons a l ih => simp only [List.map_cons, failures, ih]

end ExpEvaluator
end ExpressionEngine

namespace ExpressionEngine

namespace StdMap

variable {β : Type}

theorem keys_orderedInsert_perm (m : StdMap β) (k : Str) (v : β) :
    (keys (orderedInsert m k v)).Perm (k :: keys m) := by
  induction m with
  | nil => exact List.Perm.refl _
  | cons e m ih =>
    obtain ⟨k1, w⟩ := e
    unfold orderedInsert
    by_cases h : strLt k k1 = true
    · rw [if_pos h]; exact List.Perm.refl _
    · rw [if_neg h]
      exact ((List.Perm.cons k1 ih).trans (List.Perm.swap k k1 (keys m)))

/-- The method `std::map::insert` keeps the keys of a map distinct. -/
theorem keys_nodup_insert (m : StdMap β) (k : Str) (v : β) (h : (keys m).Nodup) :
    (keys (insert m k v)).Nodup := by
  unfold insert
  cases hf : find m k with
  | some w => exact h
  | none =>
    have hk : k ∉ keys m := by
      intro hk
      have := (find_isSome_iff_mem_keys m k).2 hk
      rw [hf] at this
      exact absurd this (by simp)
    exact (keys_orderedInsert_perm m k v).nodup_iff.2 (List.nodup_cons.2 ⟨hk, h⟩)

end StdMap

namespace ExpEvaluator

variable {α : Type}

/-- Expressions whose references all descend along a rank have no circular
reference. -/
theorem acyclic_of_rank (expressions : StdMap Str) (rank : Str → Nat)
    (h : ∀ e ∈ expressions, ∀ id ∈ (get_ids e.2 []).1,
      expressions.contains id = true → rank id < rank e.1) :
    ¬ ∃ a, Relation.TransGen (references expressions) a a := by
  rintro ⟨a, ha⟩
  have step : ∀ x y, references expressions x y → rank y < rank x := by
    rintro x y ⟨text, hf, hm, hc⟩
    exact h (x, text) (StdMap.mem_of_find _ _ _ hf) y hm hc
  have key : ∀ x y, Relation.TransGen (references expressions) x y → rank y < rank x := by
    intro x y hxy
    induction hxy with
    | single hxy => exact step _ _ hxy
    | tail _ hbc ih => exact lt_trans (step _ _ hbc) ih
  exact lt_irrefl _ (key a a ha)

/-- What `evaluate` returns once validation, the cycle check and the sort have
passed and the pass has run to its end. -/
theorem evaluate_pass_eq (A : Arith α) (ev : ExpEvaluator α) (sorted : List Str) (p : Pass α)
    (h1 : (populate_loop ev.expressions ev.symbol_table).1 = [])
    (h2 : validatedIdGraph { ev with graph := (populate_loop ev.expressions ev.symbol_table).2 }
          = .ok ())
    (h3 : (populate_loop ev.expressions ev.symbol_table).2.sort [] = .ok sorted)
    (h4 : evaluate_loop A ev.expressions sorted.reverse 0
          ⟨add_symbols (Parser.new A) ev.symbol_table, ev.result, []⟩ = (p, .ok ())) :
    (evaluate A ev).1.result = p.result
    ∧ (evaluate A ev).2
        = if p.errorStream.length > 0 then .error (.ParsingError p.errorStream)
          else .ok p.result := by
  unfold evaluate
  simp only [populateIdGraph, h1, List.length_nil, gt_iff_lt, lt_self_iff_false, if_false, h2, h3,
    h4]
  by_cases h : 0 < p.errorStream.length
  · simp only [h, if_true, and_self]
  · simp only [h, if_false, and_self]

/-- Without a circular reference among the expressions, the cycle check passes. -/
theorem validated_of_acyclic (ev : ExpEvaluator α) (hnd : (StdMap.keys ev.expressions).Nodup)
    (hac : ¬ ∃ a, Relation.TransGen (references ev.expressions) a a) :
    validatedIdGraph { ev with graph := (populate_loop ev.expressions ev.symbol_table).2 }
      = .ok () := by
  have hvalid := populate_loop_valid ev.expressions ev.symbol_table
  obtain ⟨cs, hfc, hiff⟩ := Graph.findCycles_spec _ hvalid
  have hcs : cs = [] := by
    by_contra hne
    exact hac (references_of_hasCycle ev.expressions ev.symbol_table hnd (hiff.1 hne))
  unfold validatedIdGraph
  simp only [hfc, hcs, List.length_nil, gt_iff_lt, lt_self_iff_false, if_false]

/-- When `populateIdGraph` returns, its first loop has written no error. -/
theorem populate_loop_of_ok (ev : ExpEvaluator α) (h : (populateIdGraph ev).2 = .ok ()) :
    (populate_loop ev.expressions ev.symbol_table).1 = [] := by
  unfold populateIdGraph at h
  by_cases hl : (populate_loop ev.expressions ev.symbol_table).1.length > 0
  · simp only [hl, if_true] at h
    exact absurd h (by intro h; cases h)
  · exact List.length_eq_zero.1 (Nat.eq_zero_of_not_pos hl)

end ExpEvaluator

theorem Q.add_ofInt (a b : Int) : Q.add (Q.ofInt a) (Q.ofInt b) = Q.ofInt (a + b) := by
  simp [Q.add, Q.ofInt, Q.normalize]

/-- The evaluation `ExpressionModuleInitializer` runs returns `a = input + 1`,
for every input. -/
theorem initializer_evaluate (n : Int) :
    (ExpEvaluator.evaluate exactArith (initializerEvaluator exactArith n)).2
      = .ok [("a".toList, Q.ofInt (n + 1))] := by
  rw [← Q.add_ofInt]
  rfl

/-- After that evaluation `get_result("a")` is `input + 1`. -/
theorem initializer_get_result (n : Int) :
    (ExpEvaluator.get_result exactArith
      (ExpEvaluator.evaluate exactArith (initializerEvaluator exactArith n)).1 "a".toList).2
      = Q.ofInt (n + 1) := by
  rw [← Q.add_ofInt]
  rfl

end ExpressionEngine

namespace ExpressionEngine

/-! ## The claims -/

/-- C6 as stated fails: after `insert_value("x", 1)` and `insert_value("x", 2)` on a
new evaluator the value registered for `x` is `1`, not `2`, and after
`insert_expression("x", "1")` and `insert_expression("x", "2")` the text
registered for `x` is `"1"`, not `"2"`. -/
theorem C6_last_write_does_not_win :
    (((ExpEvaluator.new : ExpEvaluator Q).insert_value "x".toList (Q.ofInt 1)).insert_value
        "x".toList (Q.ofInt 2)).symbol_table.find "x".toList = some (Q.ofInt 1)
    ∧ (((ExpEvaluator.new : ExpEvaluator Q).insert_value "x".toList (Q.ofInt 1)).insert_value
        "x".toList (Q.ofInt 2)).symbol_table.find "x".toList ≠ some (Q.ofInt 2)
    ∧ (((ExpEvaluator.new : ExpEvaluator Q).insert_expression "x".toList "1".toList).insert_expression
        "x".toList "2".toList).expressions.find "x".toList = some "1".toList
    ∧ (((ExpEvaluator.new : ExpEvaluator Q).insert_expression "x".toList "1".toList).insert_expression
        "x".toList "2".toList).expressions.find "x".toList ≠ some "2".toList := by
  decide

/-- C6, amended: `insert_value` and `insert_expression` keep the first
registration. After two insertions under the same identifier the registered
payload is the one the identifier had before them, and the first of the two
payloads when it had none; the second payload is never stored. -/
theorem C6_first_write_wins {α : Type} (ev : ExpEvaluator α) (id : Str) (p1 p2 : α)
    (t1 t2 : Str) :
    ((ev.insert_value id p1).insert_value id p2).symbol_table.find id
        = some ((ev.symbol_table.find id).getD p1)
    ∧ ((ev.insert_expression id t1).insert_expression id t2).expressions.find id
        = some ((ev.expressions.find id).getD t1) := by
  simp [ExpEvaluator.insert_value, ExpEvaluator.insert_expression, StdMap.find_insert]

/-- C7 fails on the code: register value `b = 1` and expression `a = "b"`,
evaluate, register expression `b = "2"` and evaluate again. The second call
returns `{a: 1, b: 2}`, keeping the result of the first call for `a`, while a
new evaluator holding the same registrations returns `{a: 2, b: 2}`. -/
theorem C7_evaluate_returns_stale_result :
    (ExpEvaluator.evaluate exactArith
        ((ExpEvaluator.evaluate exactArith
            (((ExpEvaluator.new : ExpEvaluator Q).insert_value "b".toList (Q.ofInt 1)).insert_expression
              "a".toList "b".toList)).1.insert_expression "b".toList "2".toList)).2
      = .ok [("a".toList, Q.ofInt 1), ("b".toList, Q.ofInt 2)]
    ∧ (ExpEvaluator.evaluate exactArith
        ((((ExpEvaluator.new : ExpEvaluator Q).insert_value "b".toList (Q.ofInt 1)).insert_expression
            "a".toList "b".toList).insert_expression "b".toList "2".toList)).2
      = .ok [("a".toList, Q.ofInt 2), ("b".toList, Q.ofInt 2)] := by
  decide

/-- C10 fails on the code: with no registered value and the single expression
`r = "pi*2"`, `evaluate()` throws the `ParsingError` of `populateIdGraph`, which
finds `pi` neither among the expressions nor among the values. -/
theorem C10_pi_rejected_by_evaluate :
    (ExpEvaluator.evaluate exactArith
        ((ExpEvaluator.new : ExpEvaluator Q).insert_expression "r".toList "pi*2".toList)).2
      = .error (.ParsingError "SyntaxError: 'pi' Not found:expression[0]:pi*2:0\n".toList) := by
  decide

/-- C8: when `evaluate()` returns a map, a second call made right after it
returns the same map. -/
theorem C8_evaluate_idempotent {α : Type} (A : Arith α) (ev : ExpEvaluator α) (m : StdMap α)
    (h : (ExpEvaluator.evaluate A ev).2 = .ok m) :
    (ExpEvaluator.evaluate A (ExpEvaluator.evaluate A ev).1).2 = .ok m := by
  obtain ⟨sorted, p, h1, h2, h3, h4, h5, hm, hst⟩ := ExpEvaluator.evaluate_ok_inv A ev m h
  have hres : p.result
      = ExpEvaluator.store ev.result (ExpEvaluator.succeeded
          (ExpEvaluator.attempts A ev.expressions sorted.reverse
            (ExpEvaluator.add_symbols (Parser.new A) ev.symbol_table))) := by
    have := ExpEvaluator.evaluate_loop_result A ev.expressions sorted.reverse 0
      (ExpEvaluator.add_symbols (Parser.new A) ev.symbol_table) ev.result []
    rw [h4] at this
    exact this
  obtain ⟨i1, i2, i3⟩ := ExpEvaluator.evaluate_loop_indep A ev.expressions sorted.reverse 0
    (ExpEvaluator.add_symbols (Parser.new A) ev.symbol_table) p.result ev.result []
  have i0 := ExpEvaluator.evaluate_loop_result A ev.expressions sorted.reverse 0
    (ExpEvaluator.add_symbols (Parser.new A) ev.symbol_table) p.result []
  rw [h4] at i1 i2 i3
  rw [hst]
  rcases hl : ExpEvaluator.evaluate_loop A ev.expressions sorted.reverse 0
      ⟨ExpEvaluator.add_symbols (Parser.new A) ev.symbol_table, p.result, []⟩ with ⟨p2, st2⟩
  rw [hl] at i0 i1 i2 i3
  simp only at i0 i1 i2 i3
  have hp2 : p2.result = p.result := by
    rw [i0]
    conv_lhs => rw [hres]
    rw [ExpEvaluator.store_store, ← hres]
  subst i3
  have key := ExpEvaluator.evaluate_ok_intro A
    { ev with graph := (ExpEvaluator.populate_loop ev.expressions ev.symbol_table).2,
              result := p.result } sorted p2 h1 h2 h3 hl (i2.trans h5)
  rw [key, hp2, hm]

/-- C8 holds with its hypothesis met: the evaluator with value `a1 = 5` and the
expressions `a2 = "a1+1"`, `a3 = "a2*2"` returns `{a2: 6, a3: 12}` twice. -/
theorem C8_evaluate_idempotent_witness :
    (ExpEvaluator.evaluate exactArith
        ((((ExpEvaluator.new : ExpEvaluator Q).insert_value "a1".toList (Q.ofInt 5)).insert_expression
          "a2".toList "a1+1".toList).insert_expression "a3".toList "a2*2".toList)).2
      = .ok [("a2".toList, Q.ofInt 6), ("a3".toList, Q.ofInt 12)]
    ∧ (ExpEvaluator.evaluate exactArith (ExpEvaluator.evaluate exactArith
        ((((ExpEvaluator.new : ExpEvaluator Q).insert_value "a1".toList (Q.ofInt 5)).insert_expression
          "a2".toList "a1+1".toList).insert_expression "a3".toList "a2*2".toList)).1).2
      = .ok [("a2".toList, Q.ofInt 6), ("a3".toList, Q.ofInt 12)] :=
  ⟨by decide, C8_evaluate_idempotent exactArith _ _ (by decide)⟩

/-- C5: if the text of a registered expression `key` contains an identifier
token `id` that is neither a registered expression nor a registered value, then
`evaluate()` throws a `ParsingError` whose message contains the entry
`SyntaxError: 'id' Not found`, and the stored result map is left as it was.
The rest of the text need not even tokenize. -/
theorem C5_unknown_identifier {α : Type} (A : Arith α) (ev : ExpEvaluator α)
    (key text id : Str)
    (hreg : ev.expressions.find key = some text)
    (hid : id ∈ (get_ids text []).1)
    (hne : ev.expressions.find id = none)
    (hnv : ev.symbol_table.find id = none) :
    ∃ msg : Str,
      (ExpEvaluator.evaluate A ev).2 = .error (.ParsingError msg)
      ∧ ("SyntaxError: '".toList ++ id ++ "' Not found".toList) <:+: msg
      ∧ (ExpEvaluator.evaluate A ev).1.result = ev.result := by
  have hmem : (key, text) ∈ ev.expressions := StdMap.mem_of_find _ _ _ hreg
  have hin := ExpEvaluator.populate_fold_not_found ev.expressions ev.symbol_table
    (ExpEvaluator.position_map ev.expressions) key text id hne hnv hid ev.expressions hmem
    ([], Graph.new ev.expressions.keys)
  have hin2 : ("SyntaxError: '".toList ++ id ++ "' Not found".toList)
      <:+: (ExpEvaluator.populate_loop ev.expressions ev.symbol_table).1 := hin
  have hlen : (ExpEvaluator.populate_loop ev.expressions ev.symbol_table).1.length > 0 := by
    have := hin2.length_le
    simp only [List.length_append] at this
    have h0 : 0 < "SyntaxError: '".toList.length := by decide
    omega
  refine ⟨(ExpEvaluator.populate_loop ev.expressions ev.symbol_table).1, ?_, hin2, ?_⟩
  · simp only [ExpEvaluator.evaluate, ExpEvaluator.populateIdGraph, hlen, if_true]
  · simp only [ExpEvaluator.evaluate, ExpEvaluator.populateIdGraph, hlen, if_true]

/-- C5 holds with its hypotheses met: with value `a1 = 5` and expression
`a = "a1+b"`, the identifier `b` is unknown and `evaluate()` reports it. -/
theorem C5_unknown_identifier_witness :
    ∃ msg : Str,
      (ExpEvaluator.evaluate exactArith
          (((ExpEvaluator.new : ExpEvaluator Q).insert_value "a1".toList (Q.ofInt 5)).insert_expression
            "a".toList "a1+b".toList)).2 = .error (.ParsingError msg)
      ∧ ("SyntaxError: '".toList ++ "b".toList ++ "' Not found".toList) <:+: msg
      ∧ (ExpEvaluator.evaluate exactArith
          (((ExpEvaluator.new : ExpEvaluator Q).insert_value "a1".toList (Q.ofInt 5)).insert_expression
            "a".toList "a1+b".toList)).1.result = [] :=
  C5_unknown_identifier exactArith
    (((ExpEvaluator.new : ExpEvaluator Q).insert_value "a1".toList (Q.ofInt 5)).insert_expression
      "a".toList "a1+b".toList)
    "a".toList "a1+b".toList "b".toList (by decide) (by decide) (by decide) (by decide)

/-- C2: on a graph without a directed cycle `Graph::sort` returns, its output
lists every vertex exactly once, and for every edge `v -> w` the vertex `v`
stands at a smaller index of the output than `w`; hence in the reversed order,
in which `evaluate()` walks the output, `w` comes before `v`. -/
theorem C2_sort_topological (g : Graph) (hval : g.Valid) (hac : ¬ g.HasCycle) :
    ∃ order : List Nat,
      g.sort [] = .ok (order.map g.vertex)
      ∧ order.Perm (List.range g.V)
      ∧ ∀ v w, w ∈ g.adj v →
          precedes order v w
          ∧ precedes (order.map g.vertex) (g.vertex v) (g.vertex w)
          ∧ precedes (order.map g.vertex).reverse (g.vertex w) (g.vertex v) := by
  obtain ⟨order, hs, hnd, hmem, hord⟩ := Graph.sort_spec g hval hac []
  refine ⟨order, by simpa using hs, ?_, ?_⟩
  · exact (List.perm_ext_iff_of_nodup hnd (List.nodup_range _)).2
      (fun u => by rw [hmem u, List.mem_range])
  · intro v w hw
    exact ⟨hord v w hw, precedes_map _ _ _ _ (hord v w hw),
      precedes_reverse _ _ _ (precedes_map _ _ _ _ (hord v w hw))⟩

/-- C2 holds with its hypotheses met: the graph of `a2 = "a1+1"`, `a3 = "a2*2"`
has the single edge `a3 -> a2`, no cycle, and is sorted as `[a3, a2]`; with the
value `a1 = 5` the evaluator returns `{a2: 6, a3: 12}`. -/
theorem C2_sort_topological_witness :
    ((Graph.new ["a2".toList, "a3".toList]).addEdge 1 0).Valid
    ∧ ¬ ((Graph.new ["a2".toList, "a3".toList]).addEdge 1 0).HasCycle
    ∧ (∃ order : List Nat,
        ((Graph.new ["a2".toList, "a3".toList]).addEdge 1 0).sort []
          = .ok (order.map ((Graph.new ["a2".toList, "a3".toList]).addEdge 1 0).vertex)
        ∧ order.Perm (List.range ((Graph.new ["a2".toList, "a3".toList]).addEdge 1 0).V)
        ∧ ∀ v w, w ∈ ((Graph.new ["a2".toList, "a3".toList]).addEdge 1 0).adj v →
            precedes order v w
            ∧ precedes (order.map ((Graph.new ["a2".toList, "a3".toList]).addEdge 1 0).vertex)
                (((Graph.new ["a2".toList, "a3".toList]).addEdge 1 0).vertex v)
                (((Graph.new ["a2".toList, "a3".toList]).addEdge 1 0).vertex w)
            ∧ precedes
                (order.map ((Graph.new ["a2".toList, "a3".toList]).addEdge 1 0).vertex).reverse
                (((Graph.new ["a2".toList, "a3".toList]).addEdge 1 0).vertex w)
                (((Graph.new ["a2".toList, "a3".toList]).addEdge 1 0).vertex v))
    ∧ ((Graph.new ["a2".toList, "a3".toList]).addEdge 1 0).sort []
        = .ok ["a3".toList, "a2".toList]
    ∧ (ExpEvaluator.evaluate exactArith
        ((((ExpEvaluator.new : ExpEvaluator Q).insert_value "a1".toList (Q.ofInt 5)).insert_expression
          "a2".toList "a1+1".toList).insert_expression "a3".toList "a2*2".toList)).2
      = .ok [("a2".toList, Q.ofInt 6), ("a3".toList, Q.ofInt 12)] := by
  have hval : ((Graph.new ["a2".toList, "a3".toList]).addEdge 1 0).Valid := by
    intro v w h
    by_cases hv : v = 1
    · subst hv
      have hw : w = 0 := by simpa [Graph.addEdge, Graph.new] using h
      subst hw
      exact ⟨by decide, by decide⟩
    · simp [Graph.addEdge, Graph.new, Function.update, hv] at h
  have hac : ¬ ((Graph.new ["a2".toList, "a3".toList]).addEdge 1 0).HasCycle := by
    apply Graph.not_hasCycle_of_rank _ id
    intro v w h
    by_cases hv : v = 1
    · subst hv
      have hw : w = 0 := by simpa [Graph.addEdge, Graph.new] using h
      subst hw
      decide
    · simp [Graph.addEdge, Graph.new, Function.update, hv] at h
  exact ⟨hval, hac, C2_sort_topological _ hval hac, by decide, by decide⟩

/-- C3: for every graph whose edges join valid vertex numbers (self-loops and
repeated edges included), `Graph::findCycles` run on an empty list returns, and
the list it leaves is non-empty if and only if the graph has a directed cycle. -/
theorem C3_findCycles_iff_cycle (g : Graph) (hval : g.Valid) :
    ∃ cycles, g.findCycles [] = .ok cycles ∧ (cycles ≠ [] ↔ g.HasCycle) :=
  Graph.findCycles_spec g hval

/-- C3 holds with its hypothesis met: the graph on `a`, `b` with the edges
`a -> b`, `b -> a` and the self-loop `b -> b` is valid, and `findCycles`
reports its two cycles. -/
theorem C3_findCycles_iff_cycle_witness :
    ((((Graph.new ["a".toList, "b".toList]).addEdge 0 1).addEdge 1 0).addEdge 1 1).Valid
    ∧ (∃ cycles,
        ((((Graph.new ["a".toList, "b".toList]).addEdge 0 1).addEdge 1 0).addEdge 1 1).findCycles []
          = .ok cycles
        ∧ (cycles ≠ []
          ↔ ((((Graph.new ["a".toList, "b".toList]).addEdge 0 1).addEdge 1 0).addEdge 1 1).HasCycle))
    ∧ ((((Graph.new ["a".toList, "b".toList]).addEdge 0 1).addEdge 1 0).addEdge 1 1).findCycles []
        = .ok [["a".toList, "b".toList], ["b".toList]] := by
  have hval :
      ((((Graph.new ["a".toList, "b".toList]).addEdge 0 1).addEdge 1 0).addEdge 1 1).Valid := by
    intro v w h
    have hV : ((((Graph.new ["a".toList, "b".toList]).addEdge 0 1).addEdge 1 0).addEdge 1 1).V
        = 2 := rfl
    rw [hV]
    simp only [ExpEvaluator.mem_addEdge_adj] at h
    have hnew : ¬ w ∈ (Graph.new ["a".toList, "b".toList]).adj v := by simp [Graph.new]
    rcases h with ((h | h) | h) | h
    · exact absurd h hnew
    · omega
    · omega
    · omega
  exact ⟨hval, C3_findCycles_iff_cycle _ hval, by decide⟩

/-- C4: if every expression tokenizes, every identifier it names is
registered, and some expression references itself directly or through a chain
of registered expressions, then `evaluate()` throws `CyclicDependencyError`
and leaves the stored result map as it was. -/
theorem C4_cycle_rejected {α : Type} (A : Arith α) (ev : ExpEvaluator α)
    (htok : ∀ e ∈ ev.expressions, (get_ids e.2 []).2 = .ok ())
    (hreg : ∀ e ∈ ev.expressions, ∀ id ∈ (get_ids e.2 []).1,
      ev.expressions.contains id = true ∨ ev.symbol_table.contains id = true)
    (hcyc : ∃ a, Relation.TransGen (ExpEvaluator.references ev.expressions) a a) :
    ∃ msg : Str,
      (ExpEvaluator.evaluate A ev).2 = .error (.CyclicDependencyError msg)
      ∧ (ExpEvaluator.evaluate A ev).1.result = ev.result := by
  obtain ⟨a, ha⟩ := hcyc
  have herr := ExpEvaluator.populate_loop_no_error ev.expressions ev.symbol_table htok hreg
  have hval := ExpEvaluator.populate_loop_valid ev.expressions ev.symbol_table
  have hc := ExpEvaluator.hasCycle_of_references ev.expressions ev.symbol_table a ha
  obtain ⟨cycles, hfc, hiff⟩ := Graph.findCycles_spec _ hval
  have hne : cycles ≠ [] := hiff.2 hc
  have hlen : cycles.length > 0 := List.length_pos.2 hne
  refine ⟨ExpEvaluator.cycles_message ev.expressions cycles, ?_, ?_⟩
  · simp only [ExpEvaluator.evaluate, ExpEvaluator.populateIdGraph, herr, List.length_nil,
      gt_iff_lt, lt_self_iff_false, if_false, ExpEvaluator.validatedIdGraph, hfc, hlen, if_true]
  · simp only [ExpEvaluator.evaluate, ExpEvaluator.populateIdGraph, herr, List.length_nil,
      gt_iff_lt, lt_self_iff_false, if_false, ExpEvaluator.validatedIdGraph, hfc, hlen, if_true]

/-- C4 holds with its hypotheses met: the expressions `a = "c"`, `b = "a+1"`,
`c = "b"` reference each other in a circle, and `evaluate()` reports the cycle
`a -> c -> b -> a`. -/
theorem C4_cycle_rejected_witness :
    (∃ a, Relation.TransGen (ExpEvaluator.references
        ((((ExpEvaluator.new : ExpEvaluator Q).insert_expression "b".toList "a+1".toList).insert_expression
          "a".toList "c".toList).insert_expression "c".toList "b".toList).expressions) a a)
    ∧ (∃ msg : Str,
        (ExpEvaluator.evaluate exactArith
          ((((ExpEvaluator.new : ExpEvaluator Q).insert_expression "b".toList "a+1".toList).insert_expression
            "a".toList "c".toList).insert_expression "c".toList "b".toList)).2
          = .error (.CyclicDependencyError msg)
        ∧ (ExpEvaluator.evaluate exactArith
          ((((ExpEvaluator.new : ExpEvaluator Q).insert_expression "b".toList "a+1".toList).insert_expression
            "a".toList "c".toList).insert_expression "c".toList "b".toList)).1.result = [])
    ∧ (ExpEvaluator.evaluate exactArith
          ((((ExpEvaluator.new : ExpEvaluator Q).insert_expression "b".toList "a+1".toList).insert_expression
            "a".toList "c".toList).insert_expression "c".toList "b".toList)).2
        = .error (.CyclicDependencyError "a=\x7bc\x7d->c=\x7bb\x7d->b=\x7ba+1\x7d->a\n".toList) := by
  have r1 : ExpEvaluator.references
      ((((ExpEvaluator.new : ExpEvaluator Q).insert_expression "b".toList "a+1".toList).insert_expression
        "a".toList "c".toList).insert_expression "c".toList "b".toList).expressions
      "a".toList "c".toList := ⟨"c".toList, by decide, by decide, by decide⟩
  have r2 : ExpEvaluator.references
      ((((ExpEvaluator.new : ExpEvaluator Q).insert_expression "b".toList "a+1".toList).insert_expression
        "a".toList "c".toList).insert_expression "c".toList "b".toList).expressions
      "c".toList "b".toList := ⟨"b".toList, by decide, by decide, by decide⟩
  have r3 : ExpEvaluator.references
      ((((ExpEvaluator.new : ExpEvaluator Q).insert_expression "b".toList "a+1".toList).insert_expression
        "a".toList "c".toList).insert_expression "c".toList "b".toList).expressions
      "b".toList "a".toList := ⟨"a+1".toList, by decide, by decide, by decide⟩
  have hcyc : ∃ a, Relation.TransGen (ExpEvaluator.references
      ((((ExpEvaluator.new : ExpEvaluator Q).insert_expression "b".toList "a+1".toList).insert_expression
        "a".toList "c".toList).insert_expression "c".toList "b".toList).expressions) a a :=
    ⟨"a".toList, Relation.TransGen.tail (Relation.TransGen.tail (Relation.TransGen.single r1) r2) r3⟩
  exact ⟨hcyc, C4_cycle_rejected exactArith _ (by decide) (by decide) hcyc, by decide⟩

/-- C1: on an evaluator whose result map is still empty (neither `evaluate()`
nor `get_result()` has run) and whose maps hold each key once, as a `std::map`
does, if every expression tokenizes, every identifier it
names is registered, no expression references itself through a chain, and `ρ`
gives each expression the value the parser computes for its text under the
bindings the claim names, then `evaluate()` returns a map whose keys are
exactly the registered expression identifiers; each identifier maps to `ρ`,
which is what the parser computes for the text when the referenced expressions
are bound to the returned map and the other identifiers to their registered
values; and `get_result` then returns that value. -/
theorem C1_evaluate_full_success {α : Type} (A : Arith α) (ev : ExpEvaluator α)
    (hfresh : ev.result = [])
    (hnd_e : (StdMap.keys ev.expressions).Nodup)
    (hnd_v : (StdMap.keys ev.symbol_table).Nodup)
    (htok : ∀ e ∈ ev.expressions, (get_ids e.2 []).2 = .ok ())
    (hreg : ∀ e ∈ ev.expressions, ∀ id ∈ (get_ids e.2 []).1,
      ev.expressions.contains id = true ∨ ev.symbol_table.contains id = true)
    (hac : ¬ ∃ a, Relation.TransGen (ExpEvaluator.references ev.expressions) a a)
    (ρ : Str → α)
    (hρ : ∀ e ∈ ev.expressions, ∃ T : StdMap α,
      ExpEvaluator.Binds ev (fun id => some (ρ id)) e.2 T
      ∧ Parser.call A ⟨T⟩ e.2 = .ok (ρ e.1)) :
    ∃ m : StdMap α,
      (ExpEvaluator.evaluate A ev).2 = .ok m
      ∧ (∀ k, m.contains k = true ↔ ev.expressions.contains k = true)
      ∧ (∀ e ∈ ev.expressions, m.find e.1 = some (ρ e.1))
      ∧ (∀ e ∈ ev.expressions, ∀ T : StdMap α,
          ExpEvaluator.Binds ev (fun id => m.find id) e.2 T →
          (Parser.call A ⟨T⟩ e.2).toOption = m.find e.1)
      ∧ (∀ e ∈ ev.expressions,
          (ExpEvaluator.get_result A (ExpEvaluator.evaluate A ev).1 e.1).2 = ρ e.1) := by
  have herr := ExpEvaluator.populate_loop_no_error ev.expressions ev.symbol_table htok hreg
  have hvalid := ExpEvaluator.validated_of_acyclic ev hnd_e hac
  obtain ⟨sorted, hsort, hperm, hnodup, hdep⟩ := ExpEvaluator.evaluate_order ev hnd_e hvalid
  have hatt := ExpEvaluator.attempts_of_solution A ev hnd_v htok hreg ρ hρ sorted.reverse hnodup
    (fun x hx => hperm.mem_iff.1 hx) hdep sorted.reverse []
    (ExpEvaluator.add_symbols (Parser.new A) ev.symbol_table) rfl
    (fun x hx => absurd hx (List.not_mem_nil x)) (fun _ _ => rfl)
  have hfail : ExpEvaluator.failures (ExpEvaluator.attempts A ev.expressions sorted.reverse
      (ExpEvaluator.add_symbols (Parser.new A) ev.symbol_table)) = [] := by
    rw [hatt]; exact ExpEvaluator.failures_map_ok ρ _
  obtain ⟨hst, _, _, hes⟩ := ExpEvaluator.evaluate_loop_status A ev.expressions sorted.reverse 0
    (ExpEvaluator.add_symbols (Parser.new A) ev.symbol_table) ev.result []
    (by rw [hfail]; intro e he; exact absurd he (List.not_mem_nil e))
  have hres := ExpEvaluator.evaluate_loop_result A ev.expressions sorted.reverse 0
    (ExpEvaluator.add_symbols (Parser.new A) ev.symbol_table) ev.result []
  rw [hatt, ExpEvaluator.succeeded_map_ok, hfresh] at hres
  obtain ⟨hr, hv⟩ := ExpEvaluator.evaluate_pass_eq A ev sorted _ herr hvalid hsort
    (Prod.ext rfl hst)
  rw [hes.2 hfail] at hv
  simp only [List.length_nil, gt_iff_lt, lt_self_iff_false, if_false] at hv
  rw [hfresh] at hr hv
  rw [hres] at hr hv
  have hfind : ∀ k, (ExpEvaluator.store ([] : StdMap α) (sorted.reverse.map (fun x => (x, ρ x)))).find k
      = if k ∈ StdMap.keys ev.expressions then some (ρ k) else none := by
    intro k
    rw [ExpEvaluator.find_store_map ρ sorted.reverse [] k]
    by_cases hk : k ∈ StdMap.keys ev.expressions
    · simp only [StdMap.find, hperm.mem_iff.2 hk, hk, if_true]
    · simp only [StdMap.find, mt hperm.mem_iff.1 hk, hk, if_false]
  have hkey : ∀ e ∈ ev.expressions, e.1 ∈ StdMap.keys ev.expressions :=
    fun e he => List.mem_map_of_mem Prod.fst he
  refine ⟨_, hv, ?_, ?_, ?_, ?_⟩
  · intro k
    rw [StdMap.contains_iff_mem_keys, StdMap.contains_iff_mem_keys,
      ← StdMap.find_isSome_iff_mem_keys, hfind k]
    by_cases hk : k ∈ StdMap.keys ev.expressions <;> simp [hk]
  · intro e he
    rw [hfind, if_pos (hkey e he)]
  · intro e he T hT
    obtain ⟨T0, hT0, hcall⟩ := hρ e he
    have hframe : Parser.call A (⟨T⟩ : Parser α) e.2 = Parser.call A (⟨T0⟩ : Parser α) e.2 := by
      apply call_frame A ⟨T⟩ ⟨T0⟩ e.2 (htok e he)
      intro id hid
      show T.find id = T0.find id
      rw [hT id hid, hT0 id hid]
      by_cases hc : ev.expressions.contains id = true
      · simp only [hc, if_true]
        rw [hfind, if_pos ((StdMap.contains_iff_mem_keys _ _).1 hc)]
      · simp only [hc, Bool.false_eq_true, if_false]
    rw [hframe, hcall, hfind, if_pos (hkey e he)]
    rfl
  · intro e he
    unfold ExpEvaluator.get_result
    rw [hr, hfind, if_pos (hkey e he)]

/-- C1 holds with its hypotheses met, on the evaluator of
`ExpressionModuleInitializer(5)`: value `a1 = 5` and expression `a = "a1+1"`
give the map `{a: 6}`, and `get_result("a")` is then `6`. The lemmas
`initializer_evaluate` and `initializer_get_result` give the same for every
input. -/
theorem C1_evaluate_full_success_witness :
    (¬ ∃ a, Relation.TransGen
        (ExpEvaluator.references (initializerEvaluator exactArith 5).expressions) a a)
    ∧ (∃ m : StdMap Q,
        (ExpEvaluator.evaluate exactArith (initializerEvaluator exactArith 5)).2 = .ok m
        ∧ (∀ k, m.contains k = true
            ↔ (initializerEvaluator exactArith 5).expressions.contains k = true)
        ∧ (∀ e ∈ (initializerEvaluator exactArith 5).expressions, m.find e.1 = some (Q.ofInt 6))
        ∧ (∀ e ∈ (initializerEvaluator exactArith 5).expressions, ∀ T : StdMap Q,
            ExpEvaluator.Binds (initializerEvaluator exactArith 5) (fun id => m.find id) e.2 T →
            (Parser.call exactArith ⟨T⟩ e.2).toOption = m.find e.1)
        ∧ (∀ e ∈ (initializerEvaluator exactArith 5).expressions,
            (ExpEvaluator.get_result exactArith
              (ExpEvaluator.evaluate exactArith (initializerEvaluator exactArith 5)).1 e.1).2
              = Q.ofInt 6))
    ∧ (ExpEvaluator.evaluate exactArith (initializerEvaluator exactArith 5)).2
        = .ok [("a".toList, Q.ofInt 6)]
    ∧ (ExpEvaluator.get_result exactArith
        (ExpEvaluator.evaluate exactArith (initializerEvaluator exactArith 5)).1 "a".toList).2
        = Q.ofInt 6 := by
  have hac : ¬ ∃ a, Relation.TransGen
      (ExpEvaluator.references (initializerEvaluator exactArith 5).expressions) a a :=
    ExpEvaluator.acyclic_of_rank _ (fun _ => 0) (by decide)
  have hx : (initializerEvaluator exactArith 5).expressions = [("a".toList, "a1+1".toList)] := by
    decide
  refine ⟨hac, C1_evaluate_full_success exactArith (initializerEvaluator exactArith 5)
    (by decide) (by decide) (by decide) (by decide) (by decide) hac (fun _ => Q.ofInt 6) ?_,
    by decide, by decide⟩
  intro e he
  rw [hx] at he
  obtain rfl := List.mem_singleton.1 he
  exact ⟨[("a1".toList, Q.ofInt 5)], by unfold ExpEvaluator.Binds; decide, by decide⟩

/-- C9: once `populateIdGraph` and `validatedIdGraph` have passed (on a map of
expressions that holds each key once, as a `std::map` does), the pass of
`evaluate()` walks the registered expressions once each, every expression after
the ones it references; if every failure in the pass is a Lexical, Syntax or
Runtime error, every expression is attempted, every value of a successful
attempt is stored, and `evaluate()` throws `ParsingError` exactly when some
attempt failed and returns the stored map otherwise. -/
theorem C9_failures_collected {α : Type} (A : Arith α) (ev : ExpEvaluator α)
    (hnd : (StdMap.keys ev.expressions).Nodup)
    (hids : (ExpEvaluator.populateIdGraph ev).2 = .ok ())
    (hcyc : ExpEvaluator.validatedIdGraph (ExpEvaluator.populateIdGraph ev).1 = .ok ()) :
    ∃ ids : List Str,
      (ExpEvaluator.populateIdGraph ev).1.graph.sort [] = .ok ids.reverse
      ∧ ids.Perm (StdMap.keys ev.expressions)
      ∧ (∀ a b, ExpEvaluator.references ev.expressions a b → precedes ids b a)
      ∧ ((∀ e ∈ ExpEvaluator.failures (ExpEvaluator.attempts A ev.expressions ids
              (ExpEvaluator.add_symbols (Parser.new A) ev.symbol_table)),
            ExpEvaluator.collected e = true) →
          (ExpEvaluator.attempts A ev.expressions ids
              (ExpEvaluator.add_symbols (Parser.new A) ev.symbol_table)).map Prod.fst = ids
          ∧ (ExpEvaluator.evaluate A ev).1.result
              = ExpEvaluator.store ev.result (ExpEvaluator.succeeded
                  (ExpEvaluator.attempts A ev.expressions ids
                    (ExpEvaluator.add_symbols (Parser.new A) ev.symbol_table)))
          ∧ ((∃ msg, (ExpEvaluator.evaluate A ev).2 = .error (.ParsingError msg))
              ↔ ExpEvaluator.failures (ExpEvaluator.attempts A ev.expressions ids
                  (ExpEvaluator.add_symbols (Parser.new A) ev.symbol_table)) ≠ [])
          ∧ (ExpEvaluator.failures (ExpEvaluator.attempts A ev.expressions ids
                (ExpEvaluator.add_symbols (Parser.new A) ev.symbol_table)) = [] →
              (ExpEvaluator.evaluate A ev).2
                = .ok (ExpEvaluator.store ev.result (ExpEvaluator.succeeded
                    (ExpEvaluator.attempts A ev.expressions ids
                      (ExpEvaluator.add_symbols (Parser.new A) ev.symbol_table)))))) := by
  have herr := ExpEvaluator.populate_loop_of_ok ev hids
  have hvalid : ExpEvaluator.validatedIdGraph
      { ev with graph := (ExpEvaluator.populate_loop ev.expressions ev.symbol_table).2 }
      = .ok () := hcyc
  obtain ⟨sorted, hsort, hperm, _, hdep⟩ := ExpEvaluator.evaluate_order ev hnd hvalid
  refine ⟨sorted.reverse, ?_, hperm, hdep, ?_⟩
  · rw [List.reverse_reverse]; exact hsort
  intro hcol
  obtain ⟨hst, hmap, _, hes⟩ := ExpEvaluator.evaluate_loop_status A ev.expressions sorted.reverse 0
    (ExpEvaluator.add_symbols (Parser.new A) ev.symbol_table) ev.result [] hcol
  have hres := ExpEvaluator.evaluate_loop_result A ev.expressions sorted.reverse 0
    (ExpEvaluator.add_symbols (Parser.new A) ev.symbol_table) ev.result []
  obtain ⟨hr, hv⟩ := ExpEvaluator.evaluate_pass_eq A ev sorted _ herr hvalid hsort
    (Prod.ext rfl hst)
  rw [hres] at hr hv
  refine ⟨hmap, hr, ?_, ?_⟩
  · constructor
    · rintro ⟨msg, hmsg⟩ hnil
      rw [hv, hes.2 hnil] at hmsg
      simp only [List.length_nil, gt_iff_lt, lt_self_iff_false, if_false] at hmsg
      cases hmsg
    · intro hne
      have hpos : (ExpEvaluator.evaluate_loop A ev.expressions sorted.reverse 0
          ⟨ExpEvaluator.add_symbols (Parser.new A) ev.symbol_table, ev.result, []⟩).1.errorStream.length
          > 0 := List.length_pos.2 (fun h => hne (hes.1 h))
      rw [hv, if_pos hpos]
      exact ⟨_, rfl⟩
  · intro hnil
    rw [hv, hes.2 hnil]
    simp only [List.length_nil, gt_iff_lt, lt_self_iff_false, if_false]

/-- C9 holds with its hypotheses met: of the expressions `a = "1+"`,
`b = "1/0"`, `c = "2"`, `d = "c*3"` the first two fail, with a Syntax and a
Runtime error; `c` and `d` are still evaluated and stored, and `evaluate()`
throws the `ParsingError` that lists both failures. -/
theorem C9_failures_collected_witness :
    (StdMap.keys (((((ExpEvaluator.new : ExpEvaluator Q).insert_expression "a".toList "1+".toList).insert_expression
        "b".toList "1/0".toList).insert_expression "c".toList "2".toList).insert_expression
        "d".toList "c*3".toList).expressions).Nodup
    ∧ (ExpEvaluator.populateIdGraph
        (((((ExpEvaluator.new : ExpEvaluator Q).insert_expression "a".toList "1+".toList).insert_expression
        "b".toList "1/0".toList).insert_expression "c".toList "2".toList).insert_expression
        "d".toList "c*3".toList)).2 = .ok ()
    ∧ ExpEvaluator.validatedIdGraph (ExpEvaluator.populateIdGraph
        (((((ExpEvaluator.new : ExpEvaluator Q).insert_expression "a".toList "1+".toList).insert_expression
        "b".toList "1/0".toList).insert_expression "c".toList "2".toList).insert_expression
        "d".toList "c*3".toList)).1 = .ok ()
    ∧ (∃ ids : List Str,
      (ExpEvaluator.populateIdGraph
        (((((ExpEvaluator.new : ExpEvaluator Q).insert_expression "a".toList "1+".toList).insert_expression
        "b".toList "1/0".toList).insert_expression "c".toList "2".toList).insert_expression
        "d".toList "c*3".toList)).1.graph.sort [] = .ok ids.reverse
      ∧ ids.Perm (StdMap.keys (((((ExpEvaluator.new : ExpEvaluator Q).insert_expression "a".toList "1+".toList).insert_expression
        "b".toList "1/0".toList).insert_expression "c".toList "2".toList).insert_expression
        "d".toList "c*3".toList).expressions)
      ∧ (∀ a b, ExpEvaluator.references
        (((((ExpEvaluator.new : ExpEvaluator Q).insert_expression "a".toList "1+".toList).insert_expression
        "b".toList "1/0".toList).insert_expression "c".toList "2".toList).insert_expression
        "d".toList "c*3".toList).expressions a b → precedes ids b a)
      ∧ ((∀ e ∈ ExpEvaluator.failures (ExpEvaluator.attempts exactArith
        (((((ExpEvaluator.new : ExpEvaluator Q).insert_expression "a".toList "1+".toList).insert_expression
        "b".toList "1/0".toList).insert_expression "c".toList "2".toList).insert_expression
        "d".toList "c*3".toList).expressions ids
        (ExpEvaluator.add_symbols (Parser.new exactArith)
          (((((ExpEvaluator.new : ExpEvaluator Q).insert_expression "a".toList "1+".toList).insert_expression
        "b".toList "1/0".toList).insert_expression "c".toList "2".toList).insert_expression
        "d".toList "c*3".toList).symbol_table)), ExpEvaluator.collected e = true) →
        ((ExpEvaluator.attempts exactArith
        (((((ExpEvaluator.new : ExpEvaluator Q).insert_expression "a".toList "1+".toList).insert_expression
        "b".toList "1/0".toList).insert_expression "c".toList "2".toList).insert_expression
        "d".toList "c*3".toList).expressions ids
        (ExpEvaluator.add_symbols (Parser.new exactArith)
          (((((ExpEvaluator.new : ExpEvaluator Q).insert_expression "a".toList "1+".toList).insert_expression
        "b".toList "1/0".toList).insert_expression "c".toList "2".toList).insert_expression
        "d".toList "c*3".toList).symbol_table))).map Prod.fst = ids
        ∧ (ExpEvaluator.evaluate exactArith
            (((((ExpEvaluator.new : ExpEvaluator Q).insert_expression "a".toList "1+".toList).insert_expression
        "b".toList "1/0".toList).insert_expression "c".toList "2".toList).insert_expression
        "d".toList "c*3".toList)).1.result
          = ExpEvaluator.store
            (((((ExpEvaluator.new : ExpEvaluator Q).insert_expression "a".toList "1+".toList).insert_expression
        "b".toList "1/0".toList).insert_expression "c".toList "2".toList).insert_expression
        "d".toList "c*3".toList).result
            (ExpEvaluator.succeeded (ExpEvaluator.attempts exactArith
        (((((ExpEvaluator.new : ExpEvaluator Q).insert_expression "a".toList "1+".toList).insert_expression
        "b".toList "1/0".toList).insert_expression "c".toList "2".toList).insert_expression
        "d".toList "c*3".toList).expressions ids
        (ExpEvaluator.add_symbols (Parser.new exactArith)
          (((((ExpEvaluator.new : ExpEvaluator Q).insert_expression "a".toList "1+".toList).insert_expression
        "b".toList "1/0".toList).insert_expression "c".toList "2".toList).insert_expression
        "d".toList "c*3".toList).symbol_table)))
        ∧ ((∃ msg, (ExpEvaluator.evaluate exactArith
            (((((ExpEvaluator.new : ExpEvaluator Q).insert_expression "a".toList "1+".toList).insert_expression
        "b".toList "1/0".toList).insert_expression "c".toList "2".toList).insert_expression
        "d".toList "c*3".toList)).2 = .error (.ParsingError msg))
          ↔ ExpEvaluator.failures (ExpEvaluator.attempts exactArith
        (((((ExpEvaluator.new : ExpEvaluator Q).insert_expression "a".toList "1+".toList).insert_expression
        "b".toList "1/0".toList).insert_expression "c".toList "2".toList).insert_expression
        "d".toList "c*3".toList).expressions ids
        (ExpEvaluator.add_symbols (Parser.new exactArith)
          (((((ExpEvaluator.new : ExpEvaluator Q).insert_expression "a".toList "1+".toList).insert_expression
        "b".toList "1/0".toList).insert_expression "c".toList "2".toList).insert_expression
        "d".toList "c*3".toList).symbol_table)) ≠ [])
        ∧ (ExpEvaluator.failures (ExpEvaluator.attempts exactArith
        (((((ExpEvaluator.new : ExpEvaluator Q).insert_expression "a".toList "1+".toList).insert_expression
        "b".toList "1/0".toList).insert_expression "c".toList "2".toList).insert_expression
        "d".toList "c*3".toList).expressions ids
        (ExpEvaluator.add_symbols (Parser.new exactArith)
          (((((ExpEvaluator.new : ExpEvaluator Q).insert_expression "a".toList "1+".toList).insert_expression
        "b".toList "1/0".toList).insert_expression "c".toList "2".toList).insert_expression
        "d".toList "c*3".toList).symbol_table)) = [] →
          (ExpEvaluator.evaluate exactArith
            (((((ExpEvaluator.new : ExpEvaluator Q).insert_expression "a".toList "1+".toList).insert_expression
        "b".toList "1/0".toList).insert_expression "c".toList "2".toList).insert_expression
        "d".toList "c*3".toList)).2
          = .ok (ExpEvaluator.store
            (((((ExpEvaluator.new : ExpEvaluator Q).insert_expression "a".toList "1+".toList).insert_expression
        "b".toList "1/0".toList).insert_expression "c".toList "2".toList).insert_expression
        "d".toList "c*3".toList).result
            (ExpEvaluator.succeeded (ExpEvaluator.attempts exactArith
        (((((ExpEvaluator.new : ExpEvaluator Q).insert_expression "a".toList "1+".toList).insert_expression
        "b".toList "1/0".toList).insert_expression "c".toList "2".toList).insert_expression
        "d".toList "c*3".toList).expressions ids
        (ExpEvaluator.add_symbols (Parser.new exactArith)
          (((((ExpEvaluator.new : ExpEvaluator Q).insert_expression "a".toList "1+".toList).insert_expression
        "b".toList "1/0".toList).insert_expression "c".toList "2".toList).insert_expression
        "d".toList "c*3".toList).symbol_table)))))))
    ∧ (ExpEvaluator.populateIdGraph
        (((((ExpEvaluator.new : ExpEvaluator Q).insert_expression "a".toList "1+".toList).insert_expression
        "b".toList "1/0".toList).insert_expression "c".toList "2".toList).insert_expression
        "d".toList "c*3".toList)).1.graph.sort []
      = .ok ["d".toList, "c".toList, "b".toList, "a".toList]
    ∧ ExpEvaluator.failures (ExpEvaluator.attempts exactArith
        (((((ExpEvaluator.new : ExpEvaluator Q).insert_expression "a".toList "1+".toList).insert_expression
        "b".toList "1/0".toList).insert_expression "c".toList "2".toList).insert_expression
        "d".toList "c*3".toList).expressions ["a".toList, "b".toList, "c".toList, "d".toList]
        (ExpEvaluator.add_symbols (Parser.new exactArith)
          (((((ExpEvaluator.new : ExpEvaluator Q).insert_expression "a".toList "1+".toList).insert_expression
        "b".toList "1/0".toList).insert_expression "c".toList "2".toList).insert_expression
        "d".toList "c*3".toList).symbol_table))
      = [.Syntax_error "invalid primary expression".toList,
          .Runtime_error "attempt to divide by zero".toList]
    ∧ (ExpEvaluator.evaluate exactArith
        (((((ExpEvaluator.new : ExpEvaluator Q).insert_expression "a".toList "1+".toList).insert_expression
        "b".toList "1/0".toList).insert_expression "c".toList "2".toList).insert_expression
        "d".toList "c*3".toList)).2
      = .error (.ParsingError
          ("Syntax error: invalid primary expression:expression[0]:1+\n".toList
            ++ "Runtime error: attempt to divide by zero:expression[1]:1/0\n".toList))
    ∧ (ExpEvaluator.evaluate exactArith
        (((((ExpEvaluator.new : ExpEvaluator Q).insert_expression "a".toList "1+".toList).insert_expression
        "b".toList "1/0".toList).insert_expression "c".toList "2".toList).insert_expression
        "d".toList "c*3".toList)).1.result
      = [("c".toList, Q.ofInt 2), ("d".toList, Q.ofInt 6)] :=
  ⟨by decide, by decide, by decide,
    C9_failures_collected exactArith _ (by decide) (by decide) (by decide),
    by decide, by decide, by decide, by decide⟩

end ExpressionEngine

namespace ExpressionEngine

section Layers

variable {α : Type} (A : Arith α) (T : StdMap α)

/-- The body of `mul_expr` at a `/` whose right operand is `y`. -/
theorem mul_loop_div (pow : Method α) (fuel : Nat) (result y : α) (lx lx1 lx2 : Lexer)
    (ht : lx.current_token = Token.Div) (h1 : lx.advance = .ok lx1)
    (h2 : pow lx1 = .ok (y, lx2)) :
    mul_loop A pow (fuel + 1) result lx
      = if A.eq y (A.ofInt 0) then
          .error (.Runtime_error "attempt to divide by zero".toList)
        else mul_loop A pow fuel (A.div result y) lx2 := by
  rw [mul_loop]
  simp only [ht, h1, bind_ok, h2]

/-- The body of `mul_expr` at a `%` whose right operand is `y`. -/
theorem mul_loop_mod (pow : Method α) (fuel : Nat) (result y : α) (lx lx1 lx2 : Lexer)
    (ht : lx.current_token = Token.Mod) (h1 : lx.advance = .ok lx1)
    (h2 : pow lx1 = .ok (y, lx2)) :
    mul_loop A pow (fuel + 1) result lx
      = if A.eq y (A.ofInt 0) then
          .error (.Runtime_error "attempt to divide by zero".toList)
        else mul_loop A pow fuel (A.fmod result y) lx2 := by
  rw [mul_loop]
  simp only [ht, h1, bind_ok, h2]

/-- At the end of the input the loop of `mul_expr` returns. -/
theorem mul_loop_stop (pow : Method α) (fuel : Nat) (result : α) (lx : Lexer)
    (he : lx.current_token = Token.Eofsym) :
    mul_loop A pow (fuel + 1) result lx = .ok (result, lx) := by
  rw [mul_loop]
  simp only [he]

/-- At the end of the input the loop of `add_expr` returns. -/
theorem add_loop_stop (mul : Method α) (fuel : Nat) (result : α) (lx : Lexer)
    (he : lx.current_token = Token.Eofsym) :
    add_loop A mul (fuel + 1) result lx = .ok (result, lx) := by
  rw [add_loop]
  simp only [he]

theorem equality_loop_stop (add : Method α) (fuel : Nat) (result : α) (lx : Lexer)
    (he : lx.current_token = Token.Eofsym) :
    equality_loop A add (fuel + 1) result lx = .ok (result, lx) := by
  rw [equality_loop]
  simp only [he]

theorem combination_loop_stop (eq : Method α) (fuel : Nat) (result : α) (lx : Lexer)
    (he : lx.current_token = Token.Eofsym) :
    combination_loop A eq (fuel + 1) result lx = .ok (result, lx) := by
  rw [combination_loop]
  simp only [he]

theorem choice_loop_stop (comb : Method α) (fuel : Nat) (result : α) (lx : Lexer)
    (he : lx.current_token = Token.Eofsym) :
    choice_loop A comb (fuel + 1) result lx = .ok (result, lx) := by
  rw [choice_loop]
  simp only [he]

/-- A text whose `add_expr` ends at the end of the input evaluates to the
value of that `add_expr`. -/
theorem call_of_add_expr (p : Parser α) (s : Str) (lx0 lx : Lexer) (v : α)
    (h0 : Lexer.init s = .ok lx0)
    (h1 : add_expr A p.symbol_table (s.length + 1) (s.length + 1) lx0 = .ok (v, lx))
    (he : lx.current_token = Token.Eofsym) : p.call A s = .ok v := by
  rw [call_eq, h0, bind_ok]
  simp only [choice_expr, choice_exprF, combination_expr, combination_exprF, equality_expr,
    equality_exprF, h1, bind_ok, equality_loop_stop A _ _ _ _ he,
    combination_loop_stop A _ _ _ _ he, choice_loop_stop A _ _ _ _ he]

/-- An error of the `add_expr` of a text is the error of its evaluation. -/
theorem call_of_add_expr_error (p : Parser α) (s : Str) (lx0 : Lexer) (e : Error)
    (h0 : Lexer.init s = .ok lx0)
    (h1 : add_expr A p.symbol_table (s.length + 1) (s.length + 1) lx0 = .error e) :
    p.call A s = .error e := by
  rw [call_eq, h0, bind_ok]
  simp only [choice_expr, choice_exprF, combination_expr, combination_exprF, equality_expr,
    equality_exprF, h1, bind_error]

theorem add_expr_succ (f d : Nat) (lx : Lexer) :
    add_expr A T f (d + 1) lx
      = (mul_expr A T f d lx >>= fun r => add_loop A (mul_expr A T f d) f r.1 r.2) := rfl

theorem add_expr_of_mul_expr (f d : Nat) (lx lx1 : Lexer) (v : α)
    (h1 : mul_expr A T (f + 1) d lx = .ok (v, lx1)) (he : lx1.current_token = Token.Eofsym) :
    add_expr A T (f + 1) (d + 1) lx = .ok (v, lx1) := by
  rw [add_expr_succ, h1, bind_ok]
  exact add_loop_stop A _ _ _ _ he

theorem add_expr_of_mul_expr_error (f d : Nat) (lx : Lexer) (e : Error)
    (h1 : mul_expr A T f d lx = .error e) :
    add_expr A T f (d + 1) lx = .error e := by
  rw [add_expr_succ, h1, bind_error]

theorem mul_expr_eq (f d : Nat) (lx : Lexer) :
    mul_expr A T f d lx
      = (pow_expr A T f d lx >>= fun r => mul_loop A (pow_expr A T f d) f r.1 r.2) := rfl

theorem mul_expr_of_pow_expr (f d : Nat) (lx lx1 : Lexer) (v : α)
    (h1 : pow_expr A T (f + 1) d lx = .ok (v, lx1)) (he : lx1.current_token = Token.Eofsym) :
    mul_expr A T (f + 1) d lx = .ok (v, lx1) := by
  rw [mul_expr_eq, h1, bind_ok]
  exact mul_loop_stop A _ _ _ _ he

theorem mul_expr_of_pow_expr_error (f d : Nat) (lx : Lexer) (e : Error)
    (h1 : pow_expr A T f d lx = .error e) :
    mul_expr A T f d lx = .error e := by
  rw [mul_expr_eq, h1, bind_error]

theorem pow_expr_eq (f d : Nat) (lx : Lexer) :
    pow_expr A T f d lx = pow_exprF A (unary_expr A T f d) lx := rfl

/-- The method `pow_expr` at a `^` between the operands `x` and `y`. -/
theorem pow_exprF_pow (unary : Method α) (lx lx1 lx2 lx3 : Lexer) (x y : α)
    (h1 : unary lx = .ok (x, lx1)) (ht : lx1.current_token = Token.Pow)
    (h2 : lx1.advance = .ok lx2) (h3 : unary lx2 = .ok (y, lx3)) :
    pow_exprF A unary lx = (check_domain A x y >>= fun _ => .ok (A.pow x y, lx3)) := by
  unfold pow_exprF
  simp only [h1, bind_ok, ht, if_true, h2, h3]

end Layers

end ExpressionEngine

namespace ExpressionEngine

section BinaryTexts

variable {α : Type} (A : Arith α)

/-- A text `operand / operand` evaluates to the quotient, or fails when the
right operand is zero. -/
theorem call_div (p : Parser α) (s : Str) (lx0 lx1 lx2 lx3 : Lexer) (x y : α) (n : Nat)
    (hn : s.length = n + 1) (h0 : Lexer.init s = .ok lx0)
    (h1 : pow_expr A p.symbol_table (n + 2) (n + 1) lx0 = .ok (x, lx1))
    (ht : lx1.current_token = Token.Div) (h2 : lx1.advance = .ok lx2)
    (h3 : pow_expr A p.symbol_table (n + 2) (n + 1) lx2 = .ok (y, lx3))
    (he : lx3.current_token = Token.Eofsym) :
    p.call A s
      = if A.eq y (A.ofInt 0) then .error (.Runtime_error "attempt to divide by zero".toList)
        else .ok (A.div x y) := by
  have hm : mul_expr A p.symbol_table (n + 2) (n + 1) lx0
      = if A.eq y (A.ofInt 0) then .error (.Runtime_error "attempt to divide by zero".toList)
        else .ok (A.div x y, lx3) := by
    rw [mul_expr_eq, h1, bind_ok, mul_loop_div A _ _ _ _ _ _ _ ht h2 h3,
      mul_loop_stop A _ _ _ _ he]
  by_cases hz : A.eq y (A.ofInt 0) = true
  · rw [if_pos hz] at hm ⊢
    apply call_of_add_expr_error A p s lx0 _ h0
    rw [hn]
    exact add_expr_of_mul_expr_error A _ _ _ _ _ hm
  · rw [if_neg hz] at hm ⊢
    apply call_of_add_expr A p s lx0 lx3 _ h0 _ he
    rw [hn]
    exact add_expr_of_mul_expr A _ _ _ _ _ _ hm he

/-- A text `operand % operand` evaluates to the remainder, or fails when the
right operand is zero. -/
theorem call_mod (p : Parser α) (s : Str) (lx0 lx1 lx2 lx3 : Lexer) (x y : α) (n : Nat)
    (hn : s.length = n + 1) (h0 : Lexer.init s = .ok lx0)
    (h1 : pow_expr A p.symbol_table (n + 2) (n + 1) lx0 = .ok (x, lx1))
    (ht : lx1.current_token = Token.Mod) (h2 : lx1.advance = .ok lx2)
    (h3 : pow_expr A p.symbol_table (n + 2) (n + 1) lx2 = .ok (y, lx3))
    (he : lx3.current_token = Token.Eofsym) :
    p.call A s
      = if A.eq y (A.ofInt 0) then .error (.Runtime_error "attempt to divide by zero".toList)
        else .ok (A.fmod x y) := by
  have hm : mul_expr A p.symbol_table (n + 2) (n + 1) lx0
      = if A.eq y (A.ofInt 0) then .error (.Runtime_error "attempt to divide by zero".toList)
        else .ok (A.fmod x y, lx3) := by
    rw [mul_expr_eq, h1, bind_ok, mul_loop_mod A _ _ _ _ _ _ _ ht h2 h3,
      mul_loop_stop A _ _ _ _ he]
  by_cases hz : A.eq y (A.ofInt 0) = true
  · rw [if_pos hz] at hm ⊢
    apply call_of_add_expr_error A p s lx0 _ h0
    rw [hn]
    exact add_expr_of_mul_expr_error A _ _ _ _ _ hm
  · rw [if_neg hz] at hm ⊢
    apply call_of_add_expr A p s lx0 lx3 _ h0 _ he
    rw [hn]
    exact add_expr_of_mul_expr A _ _ _ _ _ _ hm he

/-- A text `operand ^ operand` evaluates to the power, or fails with the error
of `check_domain`. -/
theorem call_pow (p : Parser α) (s : Str) (lx0 lx1 lx2 lx3 : Lexer) (x y : α) (n : Nat)
    (hn : s.length = n + 1) (h0 : Lexer.init s = .ok lx0)
    (h1 : unary_expr A p.symbol_table (n + 2) (n + 1) lx0 = .ok (x, lx1))
    (ht : lx1.current_token = Token.Pow) (h2 : lx1.advance = .ok lx2)
    (h3 : unary_expr A p.symbol_table (n + 2) (n + 1) lx2 = .ok (y, lx3))
    (he : lx3.current_token = Token.Eofsym) :
    p.call A s = (check_domain A x y >>= fun _ => .ok (A.pow x y)) := by
  have hp : pow_expr A p.symbol_table (n + 2) (n + 1) lx0
      = (check_domain A x y >>= fun _ => .ok (A.pow x y, lx3)) := by
    rw [pow_expr_eq]
    exact pow_exprF_pow A _ _ _ _ _ _ _ h1 ht h2 h3
  cases hc : check_domain A x y with
  | error e =>
    rw [hc, bind_error] at hp
    rw [bind_error]
    apply call_of_add_expr_error A p s lx0 _ h0
    rw [hn]
    exact add_expr_of_mul_expr_error A _ _ _ _ _ (mul_expr_of_pow_expr_error A _ _ _ _ _ hp)
  | ok u =>
    rw [hc, bind_ok] at hp
    rw [bind_ok]
    apply call_of_add_expr A p s lx0 lx3 _ h0 _ he
    rw [hn]
    exact add_expr_of_mul_expr A _ _ _ _ _ _ (mul_expr_of_pow_expr A _ _ _ _ _ _ hp he) he

/-- A text that names no identifier but `a1` and `a2` evaluates alike under
every symbol table that binds the two to `x` and `y`. -/
theorem call_two_symbols (T : StdMap α) (x y : α) (s : Str)
    (hx : T.find "a1".toList = some x) (hy : T.find "a2".toList = some y)
    (htok : (get_ids s []).2 = .ok ())
    (hids : ∀ id ∈ (get_ids s []).1, id = "a1".toList ∨ id = "a2".toList) :
    Parser.call A ⟨T⟩ s = Parser.call A ⟨[("a1".toList, x), ("a2".toList, y)]⟩ s := by
  apply call_frame A ⟨T⟩ ⟨[("a1".toList, x), ("a2".toList, y)]⟩ s htok
  intro id hid
  rcases hids id hid with h | h
  · rw [h]; exact hx.trans rfl
  · rw [h]; exact hy.trans rfl

end BinaryTexts

end ExpressionEngine

namespace ExpressionEngine
namespace ExpEvaluator

variable {α : Type}

/-- One step of the pass either leaves the error stream as it is or appends
to it; an error it does not catch is no lack of fuel. -/
theorem evaluate_step_spec (A : Arith α) (exprs : StdMap Str) (p : Pass α) (idx : Nat)
    (id : Str) :
    p.errorStream <+: (evaluate_step A exprs p idx id).1.errorStream
    ∧ (∀ e, (evaluate_step A exprs p idx id).2 = .error e → e ≠ .fuel_exhausted)
    ∧ (∀ m, p.parser.call A ((exprs.find id).getD []) = .error (.Runtime_error m) →
        (evaluate_step A exprs p idx id).2 = .ok ()
        ∧ (evaluate_step A exprs p idx id).1.errorStream ≠ []) := by
  have hne : ∀ (E kind m : Str) (text : Str), E ++ error_entry kind m idx text ≠ [] := by
    intro E kind m text h
    have h1 := congrArg List.length h
    rw [List.length_append, List.length_nil] at h1
    have := error_entry_length kind m idx text
    omega
  have hfuel := call_ne_fuel A p.parser ((exprs.find id).getD [])
  simp only [evaluate_step]
  generalize p.parser.call A ((exprs.find id).getD []) = c at hfuel
  cases c with
  | ok v =>
    refine ⟨List.prefix_refl _, ?_, ?_⟩
    · intro e h; exact absurd h (by simp)
    · intro m h; exact absurd h (by simp)
  | error e =>
    cases e with
    | Lexical_error m =>
      refine ⟨List.prefix_append _ _, ?_, ?_⟩
      · intro e h; exact absurd h (by simp)
      · intro m h; exact absurd h (by simp)
    | Syntax_error m =>
      refine ⟨List.prefix_append _ _, ?_, ?_⟩
      · intro e h; exact absurd h (by simp)
      · intro m h; exact absurd h (by simp)
    | Runtime_error m =>
      refine ⟨List.prefix_append _ _, ?_, ?_⟩
      · intro e h; exact absurd h (by simp)
      · intro m' _; exact ⟨rfl, hne _ _ _ _⟩
    | fuel_exhausted => exact absurd rfl hfuel
    | _ =>
      refine ⟨List.prefix_refl _, ?_, ?_⟩
      · intro e h
        simp only [Except.error.injEq] at h
        rw [← h]
        intro h'
        cases h'
      · intro m h; exact absurd h (by simp)

/-- The loop of `evaluate` only appends to the error stream, and an error that
ends it is no lack of fuel. -/
theorem evaluate_loop_grows (A : Arith α) (exprs : StdMap Str) (ids : List Str) :
    ∀ (idx : Nat) (p : Pass α),
      p.errorStream <+: (evaluate_loop A exprs ids idx p).1.errorStream
      ∧ ∀ e, (evaluate_loop A exprs ids idx p).2 = .error e → e ≠ .fuel_exhausted := by
  induction ids with
  | nil => intro idx p; exact ⟨List.prefix_refl _, fun e h => by cases h⟩
  | cons id ids ih =>
    intro idx p
    obtain ⟨h1, h2, _⟩ := evaluate_step_spec A exprs p idx id
    unfold evaluate_loop
    generalize evaluate_step A exprs p idx id = st at h1 h2
    obtain ⟨p1, r⟩ := st
    cases r with
    | error e => exact ⟨h1, fun e' h => by cases h; exact h2 _ rfl⟩
    | ok u =>
      obtain ⟨h3, h4⟩ := ih (idx + 1) p1
      exact ⟨h1.trans h3, h4⟩

/-- A pass over identifiers one of which has a text that fails with a Runtime
error under every symbol table does not end with an empty error stream. -/
theorem evaluate_loop_fails (A : Arith α) (exprs : StdMap Str) (id m : Str)
    (hdiv : ∀ p : Parser α, p.call A ((exprs.find id).getD []) = .error (.Runtime_error m))
    (ids : List Str) (hid : id ∈ ids) :
    ∀ (idx : Nat) (p : Pass α),
      (evaluate_loop A exprs ids idx p).2 = .ok () →
        (evaluate_loop A exprs ids idx p).1.errorStream ≠ [] := by
  induction ids with
  | nil => exact absurd hid (List.not_mem_nil _)
  | cons a ids ih =>
    intro idx p
    by_cases ha : id = a
    · subst ha
      obtain ⟨_, _, h3⟩ := evaluate_step_spec A exprs p idx id
      obtain ⟨hs, hne⟩ := h3 m (hdiv p.parser)
      unfold evaluate_loop
      generalize evaluate_step A exprs p idx id = st at hs hne
      obtain ⟨p1, r⟩ := st
      cases r with
      | error e => cases hs
      | ok u =>
        intro _ hnil
        have hp := (evaluate_loop_grows A exprs ids (idx + 1) p1).1
        rw [hnil] at hp
        exact hne (List.prefix_nil.1 hp)
    · have hin : id ∈ ids := by
        rcases List.mem_cons.1 hid with h | h
        · exact absurd h ha
        · exact h
      unfold evaluate_loop
      generalize evaluate_step A exprs p idx a = st
      obtain ⟨p1, r⟩ := st
      cases r with
      | error e => intro h; cases h
      | ok u => exact ih hin (idx + 1) p1

/-- An engine that holds an expression whose text fails with a Runtime error
under every symbol table fails in `evaluate()`, and not for lack of fuel. -/
theorem evaluate_fails (A : Arith α) (ev : ExpEvaluator α)
    (hnd : (StdMap.keys ev.expressions).Nodup) (id text m : Str)
    (hmem : (id, text) ∈ ev.expressions)
    (hdiv : ∀ p : Parser α, p.call A text = .error (.Runtime_error m)) :
    ∃ e, (evaluate A ev).2 = .error e ∧ e ≠ .fuel_exhausted := by
  by_cases h1 : (populate_loop ev.expressions ev.symbol_table).1.length > 0
  · refine ⟨.ParsingError (populate_loop ev.expressions ev.symbol_table).1, ?_, by intro h; cases h⟩
    simp only [evaluate, populateIdGraph, h1, if_true]
  have h1' : (populate_loop ev.expressions ev.symbol_table).1 = [] :=
    List.length_eq_zero.1 (Nat.eq_zero_of_not_pos h1)
  have hvalid := populate_loop_valid ev.expressions ev.symbol_table
  obtain ⟨cs, hfc, _⟩ := Graph.findCycles_spec _ hvalid
  by_cases h2 : cs.length > 0
  · refine ⟨.CyclicDependencyError (cycles_message ev.expressions cs), ?_, by intro h; cases h⟩
    simp only [evaluate, populateIdGraph, h1', List.length_nil, gt_iff_lt, lt_self_iff_false,
      if_false, validatedIdGraph, hfc, h2, if_true]
  have hval : validatedIdGraph
      { ev with graph := (populate_loop ev.expressions ev.symbol_table).2 } = .ok () := by
    simp only [validatedIdGraph, hfc, h2, if_false]
  obtain ⟨sorted, hsort, hperm, _, _⟩ := evaluate_order ev hnd hval
  have hfind : ev.expressions.find id = some text :=
    StdMap.find_of_mem ev.expressions hnd id text hmem
  have hid : id ∈ sorted.reverse :=
    hperm.mem_iff.2 (List.mem_map_of_mem Prod.fst hmem)
  have hdiv' : ∀ p : Parser α,
      p.call A ((ev.expressions.find id).getD []) = .error (.Runtime_error m) := by
    intro p; rw [hfind]; exact hdiv p
  have hloop := evaluate_loop_fails A ev.expressions id m hdiv' sorted.reverse hid 0
    ⟨add_symbols (Parser.new A) ev.symbol_table, ev.result, []⟩
  have hfuel := (evaluate_loop_grows A ev.expressions sorted.reverse 0
    ⟨add_symbols (Parser.new A) ev.symbol_table, ev.result, []⟩).2
  generalize hL : evaluate_loop A ev.expressions sorted.reverse 0
    ⟨add_symbols (Parser.new A) ev.symbol_table, ev.result, []⟩ = L at hloop hfuel
  obtain ⟨p, r⟩ := L
  cases r with
  | error e =>
    refine ⟨e, ?_, hfuel e rfl⟩
    simp only [evaluate, populateIdGraph, h1', List.length_nil, gt_iff_lt, lt_self_iff_false,
      if_false, hval, hsort, hL]
  | ok u =>
    have hpos : p.errorStream.length > 0 := List.length_pos.2 (hloop rfl)
    refine ⟨.ParsingError p.errorStream, ?_, by intro h; cases h⟩
    simp only [evaluate, populateIdGraph, h1', List.length_nil, gt_iff_lt, lt_self_iff_false,
      if_false, hval, hsort, hL]
    simp only [gt_iff_lt] at hpos
    simp only [hpos, if_true]

end ExpEvaluator
end ExpressionEngine

namespace ExpressionEngine

section Primary

variable {α : Type} (A : Arith α) (T : StdMap α)

theorem concat_loop_stop (primary : Method α) (fuel : Nat) (result : α) (lx : Lexer)
    (he : lx.current_token = Token.Eofsym) :
    concat_loop A primary (fuel + 1) result lx = .ok (result, lx) := by
  rw [concat_loop]
  simp only [he]

theorem unary_exprF_other (concat : Method α) (lx : Lexer)
    (hp : lx.current_token ≠ Token.Plus) (hm : lx.current_token ≠ Token.Minus) :
    unary_exprF A concat lx = concat lx := by
  unfold unary_exprF
  split
  · next h => exact absurd h hp
  · next h => exact absurd h hm
  · rfl

/-- A primary expression that is neither signed nor followed by anything is
the whole `add_expr`. -/
theorem add_expr_of_primary (f d : Nat) (lx lx1 : Lexer) (v : α)
    (hp : lx.current_token ≠ Token.Plus) (hm : lx.current_token ≠ Token.Minus)
    (h1 : primary A T (f + 1) d lx = .ok (v, lx1)) (he : lx1.current_token = Token.Eofsym) :
    add_expr A T (f + 1) (d + 1) lx = .ok (v, lx1) := by
  apply add_expr_of_mul_expr A T f d lx lx1 v _ he
  apply mul_expr_of_pow_expr A T f d lx lx1 v _ he
  have hc : concat A T (f + 1) d lx = .ok (v, lx1) := by
    show (primary A T (f + 1) d lx >>= fun r =>
      concat_loop A (primary A T (f + 1) d) (f + 1) r.1 r.2) = _
    rw [h1, bind_ok]
    exact concat_loop_stop A _ _ _ _ he
  have hu : unary_expr A T (f + 1) d lx = .ok (v, lx1) := by
    show unary_exprF A (concat A T (f + 1) d) lx = _
    rw [unary_exprF_other A _ lx hp hm, hc]
  show pow_exprF A (unary_expr A T (f + 1) d) lx = _
  unfold pow_exprF
  rw [hu, bind_ok]
  simp only [he]
  rfl

/-- An error of a primary expression that is not signed is the error of the
whole `add_expr`. -/
theorem add_expr_of_primary_error (f d : Nat) (lx : Lexer) (e : Error)
    (hp : lx.current_token ≠ Token.Plus) (hm : lx.current_token ≠ Token.Minus)
    (h1 : primary A T f d lx = .error e) :
    add_expr A T f (d + 1) lx = .error e := by
  apply add_expr_of_mul_expr_error A T f d lx e
  apply mul_expr_of_pow_expr_error A T f d lx e
  have hc : concat A T f d lx = .error e := by
    show (primary A T f d lx >>= fun r => concat_loop A (primary A T f d) f r.1 r.2) = _
    rw [h1, bind_error]
  have hu : unary_expr A T f d lx = .error e := by
    show unary_exprF A (concat A T f d) lx = _
    rw [unary_exprF_other A _ lx hp hm, hc]
  show pow_exprF A (unary_expr A T f d) lx = _
  unfold pow_exprF
  rw [hu, bind_error]

/-- A text that is one function call `f(argument)` with a domain check
`bad`: it throws `err` when the check fires and returns `f(argument)`
otherwise. -/
theorem call_checked (p : Parser α) (s : Str) (lx0 lx1 : Lexer) (x : α) (n : Nat)
    (bad : α → Bool) (err : α → Error) (fn : α → α)
    (hn : s.length = n + 1) (h0 : Lexer.init s = .ok lx0)
    (hp : lx0.current_token ≠ Token.Plus) (hm : lx0.current_token ≠ Token.Minus)
    (h1 : get_argument A p.symbol_table (n + 2) (n + 1) lx0 = .ok (x, lx1))
    (hprim : primary A p.symbol_table (n + 2) (n + 1) lx0
      = (get_argument A p.symbol_table (n + 2) (n + 1) lx0 >>= fun arg =>
          if bad arg.1 then .error (err arg.1) else .ok (fn arg.1, arg.2)))
    (he : lx1.current_token = Token.Eofsym) :
    p.call A s = if bad x then .error (err x) else .ok (fn x) := by
  rw [h1, bind_ok] at hprim
  by_cases hb : bad x = true
  · rw [if_pos hb] at hprim ⊢
    apply call_of_add_expr_error A p s lx0 _ h0
    rw [hn]
    exact add_expr_of_primary_error A _ _ _ _ _ hp hm hprim
  · rw [if_neg hb] at hprim ⊢
    apply call_of_add_expr A p s lx0 lx1 _ h0 _ he
    rw [hn]
    exact add_expr_of_primary A _ _ _ _ _ _ hp hm hprim he

/-- A text that names no identifier but `a1` evaluates alike under every
symbol table that binds it to `x`. -/
theorem call_one_symbol (T : StdMap α) (x : α) (s : Str)
    (hx : T.find "a1".toList = some x)
    (htok : (get_ids s []).2 = .ok ())
    (hids : ∀ id ∈ (get_ids s []).1, id = "a1".toList) :
    Parser.call A ⟨T⟩ s = Parser.call A ⟨[("a1".toList, x)]⟩ s := by
  apply call_frame A ⟨T⟩ ⟨[("a1".toList, x)]⟩ s htok
  intro id hid
  rw [hids id hid]
  exact hx.trans rfl

end Primary

end ExpressionEngine

namespace ExpressionEngine

/-! ## The tokens `Assign` and `Not` -/

theorem noAssign_ite (p : Prop) [Decidable p]
    (a b : Except Error (Token × Str × List Char)) (ha : NoAssign a) (hb : NoAssign b) :
    NoAssign (if p then a else b) := by
  split <;> assumption

theorem noAssign_error (e : Error) : NoAssign (.error e) := by
  intro t txt rest h
  exact absurd h (by simp)

theorem noAssign_ok (t : Token) (txt : Str) (rest : List Char)
    (h1 : t ≠ Token.Assign) (h2 : t ≠ Token.Not) : NoAssign (.ok (t, txt, rest)) := by
  intro t' txt' rest' h
  simp only [Except.ok.injEq, Prod.mk.injEq] at h
  rw [← h.1]
  exact ⟨h1, h2⟩

theorem keywordToken_ne_assign (b : Str) : keywordToken b ≠ Token.Assign := by
  unfold keywordToken
  repeat' (first | decide | apply ite_ne_of)

theorem keywordToken_ne_not (b : Str) : keywordToken b ≠ Token.Not := by
  unfold keywordToken
  repeat' (first | decide | apply ite_ne_of)

theorem get_token_from_noAssign (c : Char) (r : List Char) : NoAssign (get_token_from c r) := by
  unfold get_token_from
  simp only [number_token_eq]
  repeat' (first
    | apply noAssign_ite
    | apply noAssign_error
    | (apply noAssign_ok
       · first | decide | exact keywordToken_ne_assign _
       · first | decide | exact keywordToken_ne_not _))

/-- Method `get_token` returns neither `Token::Assign` nor `Token::Not`. -/
theorem get_token_noAssign (input : List Char) : NoAssign (get_token input) := by
  unfold get_token
  split
  · exact noAssign_ok _ _ _ (by decide) (by decide)
  · exact get_token_from_noAssign _ _

/-- At a `=` that no `=` follows, `get_token` throws the Lexical error `=`. -/
theorem get_token_assign (input rest : List Char)
    (h : input.dropWhile isspace = '=' :: rest) (hne : peekChar rest ≠ '=') :
    get_token input = .error (.Lexical_error ['=']) := by
  unfold get_token
  rw [h]
  show get_token_from '=' rest = _
  unfold get_token_from
  rw [if_neg (by decide), if_neg (by decide), if_neg (by decide), if_pos rfl, if_neg hne]

/-- At a `!` that no `=` follows, `get_token` throws the Lexical error `!`. -/
theorem get_token_not (input rest : List Char)
    (h : input.dropWhile isspace = '!' :: rest) (hne : peekChar rest ≠ '=') :
    get_token input = .error (.Lexical_error ['!']) := by
  unfold get_token
  rw [h]
  show get_token_from '!' rest = _
  unfold get_token_from
  rw [if_neg (by decide), if_neg (by decide), if_neg (by decide), if_neg (by decide),
    if_neg (by decide), if_neg (by decide), if_pos rfl, if_neg hne]

theorem init_noAssign (s : Str) (lx : Lexer) (h : Lexer.init s = .ok lx) :
    lx.current_token ≠ Token.Assign ∧ lx.current_token ≠ Token.Not := by
  unfold Lexer.init at h
  cases hg : get_token s with
  | error e => rw [hg] at h; exact absurd h (by simp)
  | ok r =>
    obtain ⟨t, txt, rest⟩ := r
    rw [hg] at h
    simp only [Except.ok.injEq] at h
    subst h
    exact get_token_noAssign s t txt rest hg

theorem advance_noAssign (lx lx' : Lexer)
    (h0 : lx.current_token ≠ Token.Assign ∧ lx.current_token ≠ Token.Not)
    (h : lx.advance = .ok lx') :
    lx'.current_token ≠ Token.Assign ∧ lx'.current_token ≠ Token.Not := by
  by_cases he : lx.current_token = Token.Eofsym
  · rw [advance_eof lx he] at h
    simp only [Except.ok.injEq] at h
    rw [← h]; exact h0
  · unfold Lexer.advance at h
    simp only [he, ne_eq, not_false_eq_true, if_true] at h
    cases hg : get_token lx.input with
    | error e => rw [hg] at h; exact absurd h (by simp)
    | ok r =>
      obtain ⟨t, txt, rest⟩ := r
      rw [hg] at h
      simp only [Except.ok.injEq] at h
      subst h
      exact get_token_noAssign _ t txt rest hg

theorem reaches_noAssign (lx lx' : Lexer)
    (h0 : lx.current_token ≠ Token.Assign ∧ lx.current_token ≠ Token.Not)
    (h : lx.Reaches lx') :
    lx'.current_token ≠ Token.Assign ∧ lx'.current_token ≠ Token.Not := by
  induction h with
  | refl => exact h0
  | tail _ hbc ih => exact advance_noAssign _ _ ih hbc

/-- The current token of a lexer is never `Token::Assign` or `Token::Not`. -/
theorem lexed_noAssign (lx : Lexer) (h : lx.Lexed) :
    lx.current_token ≠ Token.Assign ∧ lx.current_token ≠ Token.Not := by
  obtain ⟨s, lx0, h0, hr⟩ := h
  exact reaches_noAssign lx0 lx (init_noAssign s lx0 h0) hr

/-- With the fuel the call operator provides, `assign_expr` never takes its
assignment branch: it is `add_expr` and leaves the symbol table alone. -/
theorem assign_expr_eq {α : Type} (A : Arith α) (p : Parser α) (fuel depth : Nat) (lx : Lexer)
    (hl : lx.Lexed) (hs : lx.size < depth) (hd : depth ≤ fuel) :
    p.assign_expr A fuel depth lx
      = (add_expr A p.symbol_table fuel depth lx >>= fun r => .ok (r, p)) := by
  have hag := add_expr_agree A p.symbol_table p.symbol_table fuel depth hd lx hs
    (sameOn_refl _ _)
  unfold Parser.assign_expr
  cases hr : add_expr A p.symbol_table fuel depth lx with
  | error e => rfl
  | ok r =>
    have hreach : lx.Reaches r.2 := hag.2.2 r hr
    obtain ⟨s, lx0, h0, hr0⟩ := hl
    have hno := lexed_noAssign r.2 ⟨s, lx0, h0, hr0.trans hreach⟩
    simp only [bind_ok, hno.1, if_false]

end ExpressionEngine

namespace ExpressionEngine

namespace StdMap

variable {β : Type}

theorem keys_replace (m : StdMap β) (k : Str) (v : β) : keys (replace m k v) = keys m := by
  induction m with
  | nil => rfl
  | cons e m ih =>
    obtain ⟨a, w⟩ := e
    unfold replace
    by_cases h : k = a
    · rw [if_pos h]; rfl
    · rw [if_neg h]
      show a :: keys (replace m k v) = a :: keys m
      rw [ih]

/-- The assignment `m[key] = v` keeps the keys of a map distinct. -/
theorem keys_nodup_assign (m : StdMap β) (k : Str) (v : β) (h : (keys m).Nodup) :
    (keys (assign m k v)).Nodup := by
  unfold assign
  cases hf : find m k with
  | some w => show (keys (replace m k v)).Nodup; rw [keys_replace]; exact h
  | none =>
    have hk : k ∉ keys m := by
      intro hk
      have := (find_isSome_iff_mem_keys m k).2 hk
      rw [hf] at this
      exact absurd this (by simp)
    exact (keys_orderedInsert_perm m k v).nodup_iff.2 (List.nodup_cons.2 ⟨hk, h⟩)

end StdMap

namespace ExpEvaluator

variable {α : Type}

/-! ## `getIdCount` -/

theorem zero_counts_find (symbol_table : StdMap α) :
    ∀ (m : StdMap Int) (k : Str),
      StdMap.find (zero_counts symbol_table m) k
        = if k ∈ StdMap.keys symbol_table then some 0 else StdMap.find m k := by
  induction symbol_table with
  | nil => intro m k; simp [zero_counts, StdMap.keys]
  | cons e vs ih =>
    intro m k
    show StdMap.find (zero_counts vs (StdMap.assign m e.1 0)) k = _
    rw [ih, StdMap.find_assign]
    show _ = if k ∈ e.1 :: StdMap.keys vs then some 0 else StdMap.find m k
    by_cases h1 : k ∈ StdMap.keys vs
    · simp [h1]
    · by_cases h2 : k = e.1
      · simp [h2]
      · simp [h1, h2]

theorem zero_counts_nodup (symbol_table : StdMap α) :
    ∀ m : StdMap Int, (StdMap.keys m).Nodup →
      (StdMap.keys (zero_counts symbol_table m)).Nodup := by
  induction symbol_table with
  | nil => intro m h; exact h
  | cons e vs ih =>
    intro m h
    exact ih _ (StdMap.keys_nodup_assign m e.1 0 h)

theorem count_ids_find (expressions : StdMap Str) (id_list : List Str) :
    ∀ (m : StdMap Int) (k : Str),
      StdMap.find (count_ids expressions id_list m) k
        = if expressions.contains k = true ∨ id_list.count k = 0 then StdMap.find m k
          else some ((StdMap.find m k).getD 0 + (id_list.count k : Int)) := by
  induction id_list with
  | nil => intro m k; simp [count_ids]
  | cons id ids ih =>
    intro m k
    show StdMap.find (count_ids expressions ids
      (if expressions.contains id then m
        else StdMap.assign m id ((StdMap.find m id).getD 0 + 1))) k = _
    rw [ih]
    by_cases hc : expressions.contains k = true
    · simp only [hc, true_or, if_true]
      by_cases hid : expressions.contains id = true
      · simp only [hid, if_true]
      · simp only [hid, Bool.false_eq_true, if_false]
        rw [StdMap.find_assign]
        have : k ≠ id := fun h => hid (h ▸ hc)
        simp only [this, if_false]
    · simp only [hc, false_or]
      by_cases hk : k = id
      · subst hk
        simp only [hc, Bool.false_eq_true, if_false, StdMap.find_assign, if_true,
          List.count_cons_self, Option.getD_some]
        have h1 : ¬ (List.count k ids + 1 = 0) := by omega
        simp only [h1, if_false]
        by_cases h0 : List.count k ids = 0
        · simp [h0]
        · simp only [h0, or_self, if_false, Option.some.injEq]
          push_cast
          omega
      · have hc' : List.count k (id :: ids) = List.count k ids := by
          rw [List.count_cons]
          have : (id == k) = false := by
            simp only [beq_eq_false_iff_ne, ne_eq]
            exact fun h => hk h.symm
          simp [this]
        rw [hc']
        by_cases hid : expressions.contains id = true
        · simp only [hid, if_true]
        · simp only [hid, Bool.false_eq_true, if_false, StdMap.find_assign, hk]

theorem count_ids_nodup (expressions : StdMap Str) (id_list : List Str) :
    ∀ m : StdMap Int, (StdMap.keys m).Nodup →
      (StdMap.keys (count_ids expressions id_list m)).Nodup := by
  induction id_list with
  | nil => intro m h; exact h
  | cons id ids ih =>
    intro m h
    show (StdMap.keys (count_ids expressions ids
      (if expressions.contains id then m
        else StdMap.assign m id ((StdMap.find m id).getD 0 + 1)))).Nodup
    apply ih
    by_cases hid : expressions.contains id = true
    · simp only [hid, if_true]; exact h
    · simp only [hid, Bool.false_eq_true, if_false]
      exact StdMap.keys_nodup_assign m id _ h

end ExpEvaluator
end ExpressionEngine

namespace ExpressionEngine
namespace ExpEvaluator

variable {α : Type}

theorem occurrences_cons (e : Str × Str) (es : StdMap Str) (k : Str) :
    occurrences (e :: es) k = (get_ids e.2 []).1.count k + occurrences es k := rfl

/-- An identifier occurs in the texts exactly when some text holds it. -/
theorem occurrences_pos (es : StdMap Str) (k : Str) :
    0 < occurrences es k ↔ ∃ e ∈ es, k ∈ (get_ids e.2 []).1 := by
  induction es with
  | nil => simp [occurrences]
  | cons e es ih =>
    rw [occurrences_cons]
    constructor
    · intro h
      by_cases hc : 0 < (get_ids e.2 []).1.count k
      · exact ⟨e, List.mem_cons_self _ _, List.count_pos_iff.1 hc⟩
      · obtain ⟨e', he', hk⟩ := ih.1 (by omega)
        exact ⟨e', List.mem_cons_of_mem _ he', hk⟩
    · rintro ⟨e', he', hk⟩
      rcases List.mem_cons.1 he' with h | h
      · subst h
        have := List.count_pos_iff.2 hk
        omega
      · have := ih.2 ⟨e', h, hk⟩
        omega

theorem count_fold_find (expressions : StdMap Str) (es : StdMap Str) :
    ∀ (m : StdMap Int) (k : Str),
      StdMap.find
          (es.foldl (fun m entry => count_ids expressions (get_ids entry.2 []).1 m) m) k
        = if expressions.contains k = true ∨ occurrences es k = 0 then StdMap.find m k
          else some ((StdMap.find m k).getD 0 + (occurrences es k : Int)) := by
  induction es with
  | nil => intro m k; simp [occurrences]
  | cons e es ih =>
    intro m k
    rw [List.foldl_cons, ih, count_ids_find, occurrences_cons]
    by_cases hc : expressions.contains k = true
    · simp only [hc, true_or, if_true]
    · simp only [hc, Bool.false_eq_true, false_or]
      by_cases h1 : (get_ids e.2 []).1.count k = 0
      · simp only [h1, if_true, Nat.zero_add]
      · by_cases h2 : occurrences es k = 0
        · simp only [h1, h2, if_false, if_true, Nat.add_zero]
        · have h3 : ¬ ((get_ids e.2 []).1.count k + occurrences es k = 0) := by omega
          simp only [h1, h2, h3, if_false, Option.getD_some, Option.some.injEq]
          push_cast
          ring

theorem count_fold_nodup (expressions : StdMap Str) (es : StdMap Str) :
    ∀ m : StdMap Int, (StdMap.keys m).Nodup →
      (StdMap.keys
        (es.foldl (fun m entry => count_ids expressions (get_ids entry.2 []).1 m) m)).Nodup := by
  induction es with
  | nil => intro m h; exact h
  | cons e es ih =>
    intro m h
    rw [List.foldl_cons]
    exact ih _ (count_ids_nodup expressions _ m h)

theorem count_step_ok (expressions : StdMap Str) (m : StdMap Int) (e : Str × Str)
    (h : (get_ids e.2 []).2 = .ok ()) :
    count_step expressions m e = .ok (count_ids expressions (get_ids e.2 []).1 m) := by
  unfold count_step
  have : get_ids e.2 [] = ((get_ids e.2 []).1, .ok ()) := Prod.ext rfl h
  rw [this]

theorem count_foldlM (expressions : StdMap Str) (es : StdMap Str)
    (htok : ∀ e ∈ es, (get_ids e.2 []).2 = .ok ()) :
    ∀ m : StdMap Int,
      es.foldlM (count_step expressions) m
        = .ok (es.foldl (fun m entry => count_ids expressions (get_ids entry.2 []).1 m) m) := by
  induction es with
  | nil => intro m; rfl
  | cons e es ih =>
    intro m
    rw [List.foldlM_cons, count_step_ok expressions m e (htok e (List.mem_cons_self _ _)),
      List.foldl_cons]
    exact ih (fun e' he' => htok e' (List.mem_cons_of_mem _ he')) _

/-- What `getIdCount` returns when every text tokenizes. -/
theorem getIdCount_spec (ev : ExpEvaluator α)
    (htok : ∀ e ∈ ev.expressions, (get_ids e.2 []).2 = .ok ()) :
    ∃ m : StdMap Int, getIdCount ev = .ok m ∧ (StdMap.keys m).Nodup
      ∧ ∀ k, StdMap.find m k
          = if ev.expressions.contains k = true then
              (if ev.symbol_table.contains k = true then some 0 else none)
            else if ev.symbol_table.contains k = true ∨ 0 < occurrences ev.expressions k then
              some (occurrences ev.expressions k : Int)
            else none := by
  refine ⟨_, count_foldlM ev.expressions ev.expressions htok _,
    count_fold_nodup _ _ _ (zero_counts_nodup _ _ List.nodup_nil), ?_⟩
  intro k
  rw [count_fold_find, zero_counts_find]
  have hkeys : (k ∈ StdMap.keys ev.symbol_table) ↔ ev.symbol_table.contains k = true :=
    (StdMap.contains_iff_mem_keys _ _).symm
  by_cases hc : ev.expressions.contains k = true
  · simp only [hc, true_or, if_true, hkeys]
    rfl
  · simp only [hc, false_or, Bool.false_eq_true, if_false, hkeys]
    by_cases h0 : occurrences ev.expressions k = 0
    · by_cases hv : ev.symbol_table.contains k = true
      · simp [h0, hv]
      · simp only [h0, hv, if_true, if_false, lt_self_iff_false, or_self]
        rfl
    · have hpos : 0 < occurrences ev.expressions k := Nat.pos_of_ne_zero h0
      by_cases hv : ev.symbol_table.contains k = true
      · simp [h0, hv]
      · simp only [h0, hv, hpos, if_false, or_true, if_true, Option.some.injEq]
        show (StdMap.find ([] : StdMap Int) k).getD 0 + _ = _
        simp [StdMap.find]

end ExpEvaluator
end ExpressionEngine

namespace ExpressionEngine
namespace ExpEvaluator

variable {α : Type}

/-- The keys of the map `getIdCount` returns, and the count under each key. -/
theorem getIdCount_keys (ev : ExpEvaluator α)
    (htok : ∀ e ∈ ev.expressions, (get_ids e.2 []).2 = .ok ()) :
    ∃ m : StdMap Int, getIdCount ev = .ok m ∧ (StdMap.keys m).Nodup
      ∧ (∀ k, m.contains k = true ↔
          (ev.symbol_table.contains k = true
            ∨ (ev.expressions.contains k = false
                ∧ ∃ e ∈ ev.expressions, k ∈ (get_ids e.2 []).1)))
      ∧ (∀ k, m.contains k = true →
          StdMap.find m k
            = some (if ev.expressions.contains k = true then 0
                else (occurrences ev.expressions k : Int))) := by
  obtain ⟨m, hm, hnd, hfind⟩ := getIdCount_spec ev htok
  have hcont : ∀ k, m.contains k = true ↔
      (ev.symbol_table.contains k = true
        ∨ (ev.expressions.contains k = false
            ∧ ∃ e ∈ ev.expressions, k ∈ (get_ids e.2 []).1)) := by
    intro k
    unfold StdMap.contains at *
    rw [hfind k, ← occurrences_pos]
    by_cases hc : (StdMap.find ev.expressions k).isSome = true
    · by_cases hv : (StdMap.find ev.symbol_table k).isSome = true <;> simp [hc, hv]
    · by_cases hv : (StdMap.find ev.symbol_table k).isSome = true
      · simp [hc, hv]
      · by_cases ho : 0 < occurrences ev.expressions k <;> simp [hc, hv, ho]
  refine ⟨m, hm, hnd, hcont, ?_⟩
  intro k hk
  have h := (hcont k).1 hk
  rw [hfind k]
  by_cases hc : ev.expressions.contains k = true
  · rcases h with hv | ⟨hc', _⟩
    · simp only [hc, hv, if_true]
    · rw [hc] at hc'; cases hc'
  · rw [← occurrences_pos] at h
    have h' : ev.symbol_table.contains k = true ∨ 0 < occurrences ev.expressions k := by
      rcases h with hv | ⟨_, ho⟩
      · exact Or.inl hv
      · exact Or.inr ho
    simp only [hc, Bool.false_eq_true, if_false, h', if_true]

/-- What `getUniqueIds` returns when every text tokenizes. -/
theorem getUniqueIds_spec (ev : ExpEvaluator α)
    (htok : ∀ e ∈ ev.expressions, (get_ids e.2 []).2 = .ok ()) :
    ∃ l : List Str, getUniqueIds ev = .ok l ∧ l.Nodup
      ∧ ∀ k, k ∈ l ↔
          (ev.expressions.contains k = false
            ∧ ∃ e ∈ ev.expressions, k ∈ (get_ids e.2 []).1) := by
  obtain ⟨m, hm, hnd, hfind⟩ := getIdCount_spec ev htok
  refine ⟨(m.filter (fun entry => entry.2 > 0)).map Prod.fst, ?_, ?_, ?_⟩
  · unfold getUniqueIds
    rw [hm, bind_ok]
  · exact List.Nodup.sublist ((List.filter_sublist m).map Prod.fst) hnd
  · intro k
    rw [← occurrences_pos]
    constructor
    · intro hk
      obtain ⟨⟨k', v⟩, hmem, hk'⟩ := List.mem_map.1 hk
      simp only at hk'
      subst hk'
      obtain ⟨hin, hv⟩ := List.mem_filter.1 hmem
      simp only [gt_iff_lt, decide_eq_true_eq] at hv
      have hf := StdMap.find_of_mem m hnd k' v hin
      rw [hfind k'] at hf
      by_cases hc : ev.expressions.contains k' = true
      · simp only [hc, if_true] at hf
        by_cases hs : ev.symbol_table.contains k' = true
        · simp only [hs, if_true, Option.some.injEq] at hf
          omega
        · simp only [hs, Bool.false_eq_true, if_false] at hf
          cases hf
      · simp only [hc, Bool.false_eq_true, if_false] at hf
        refine ⟨by simpa using hc, ?_⟩
        by_cases ho : 0 < occurrences ev.expressions k'
        · exact ho
        · by_cases hs : ev.symbol_table.contains k' = true
          · simp only [hs, true_or, if_true, Option.some.injEq] at hf
            omega
          · simp only [hs, ho, Bool.false_eq_true, or_self, if_false] at hf
            cases hf
    · rintro ⟨hc, ho⟩
      have hf : StdMap.find m k = some (occurrences ev.expressions k : Int) := by
        rw [hfind k]
        simp only [hc, Bool.false_eq_true, if_false, ho, or_true, if_true]
      have hin := StdMap.mem_of_find m k _ hf
      apply List.mem_map.2
      refine ⟨(k, (occurrences ev.expressions k : Int)), List.mem_filter.2 ⟨hin, ?_⟩, rfl⟩
      simp only [gt_iff_lt, decide_eq_true_eq]
      exact_mod_cast ho

end ExpEvaluator
end ExpressionEngine

namespace ExpressionEngine

/-- C11: under every symbol table that binds `a1` to `x` and `a2` to `y`, the
texts `a1 + a2`, `a1 - a2` and `a1 * a2` evaluate to the sum, the difference
and the product of `x` and `y`; `a1 / a2` and `a1 % a2` evaluate to the
quotient and to `fmod(x, y)` when `y` is not zero; `a1 ^ a2` evaluates to
`pow(x, y)` when `check_domain` accepts the operands. The arithmetic is
arbitrary: the parser applies its operation once to the two looked-up values. -/
theorem C11_binary_operators {α : Type} (A : Arith α) (T : StdMap α) (x y : α)
    (hx : T.find "a1".toList = some x) (hy : T.find "a2".toList = some y) :
    Parser.call A ⟨T⟩ "a1 + a2".toList = .ok (A.add x y)
    ∧ Parser.call A ⟨T⟩ "a1 - a2".toList = .ok (A.sub x y)
    ∧ Parser.call A ⟨T⟩ "a1 * a2".toList = .ok (A.mul x y)
    ∧ (A.eq y (A.ofInt 0) = false → Parser.call A ⟨T⟩ "a1 / a2".toList = .ok (A.div x y))
    ∧ (A.eq y (A.ofInt 0) = false → Parser.call A ⟨T⟩ "a1 % a2".toList = .ok (A.fmod x y))
    ∧ (check_domain A x y = .ok () → Parser.call A ⟨T⟩ "a1 ^ a2".toList = .ok (A.pow x y)) := by
  refine ⟨?_, ?_, ?_, ?_, ?_, ?_⟩
  · rw [call_two_symbols A T x y _ hx hy (by decide) (by decide)]
    rfl
  · rw [call_two_symbols A T x y _ hx hy (by decide) (by decide)]
    rfl
  · rw [call_two_symbols A T x y _ hx hy (by decide) (by decide)]
    rfl
  · intro hz
    rw [call_two_symbols A T x y _ hx hy (by decide) (by decide),
      call_div A ⟨[("a1".toList, x), ("a2".toList, y)]⟩ "a1 / a2".toList _ _ _ _ x y 6
        rfl rfl rfl rfl rfl rfl rfl, hz]
    rfl
  · intro hz
    rw [call_two_symbols A T x y _ hx hy (by decide) (by decide),
      call_mod A ⟨[("a1".toList, x), ("a2".toList, y)]⟩ "a1 % a2".toList _ _ _ _ x y 6
        rfl rfl rfl rfl rfl rfl rfl, hz]
    rfl
  · intro hd
    rw [call_two_symbols A T x y _ hx hy (by decide) (by decide),
      call_pow A ⟨[("a1".toList, x), ("a2".toList, y)]⟩ "a1 ^ a2".toList _ _ _ _ x y 6
        rfl rfl rfl rfl rfl rfl rfl, hd]
    rfl

/-- C11 holds with its hypotheses met: with the values `a1 = 7` and `a2 = 2`
handed to the parser as `evaluate()` does, the six texts evaluate to `9`, `5`,
`14`, `7/2`, `1` and `49`. -/
theorem C11_binary_operators_witness :
    (ExpEvaluator.add_symbols (Parser.new exactArith)
        [("a1".toList, Q.ofInt 7), ("a2".toList, Q.ofInt 2)]).symbol_table.find "a1".toList
      = some (Q.ofInt 7)
    ∧ exactArith.eq (Q.ofInt 2) (exactArith.ofInt 0) = false
    ∧ check_domain exactArith (Q.ofInt 7) (Q.ofInt 2) = .ok ()
    ∧ Parser.call exactArith (ExpEvaluator.add_symbols (Parser.new exactArith)
        [("a1".toList, Q.ofInt 7), ("a2".toList, Q.ofInt 2)]) "a1 + a2".toList = .ok (Q.ofInt 9)
    ∧ Parser.call exactArith (ExpEvaluator.add_symbols (Parser.new exactArith)
        [("a1".toList, Q.ofInt 7), ("a2".toList, Q.ofInt 2)]) "a1 - a2".toList = .ok (Q.ofInt 5)
    ∧ Parser.call exactArith (ExpEvaluator.add_symbols (Parser.new exactArith)
        [("a1".toList, Q.ofInt 7), ("a2".toList, Q.ofInt 2)]) "a1 * a2".toList = .ok (Q.ofInt 14)
    ∧ Parser.call exactArith (ExpEvaluator.add_symbols (Parser.new exactArith)
        [("a1".toList, Q.ofInt 7), ("a2".toList, Q.ofInt 2)]) "a1 / a2".toList = .ok ⟨7, 2⟩
    ∧ Parser.call exactArith (ExpEvaluator.add_symbols (Parser.new exactArith)
        [("a1".toList, Q.ofInt 7), ("a2".toList, Q.ofInt 2)]) "a1 % a2".toList = .ok (Q.ofInt 1)
    ∧ Parser.call exactArith (ExpEvaluator.add_symbols (Parser.new exactArith)
        [("a1".toList, Q.ofInt 7), ("a2".toList, Q.ofInt 2)]) "a1 ^ a2".toList
      = .ok (Q.ofInt 49) := by
  have h := C11_binary_operators exactArith
    (ExpEvaluator.add_symbols (Parser.new exactArith)
      [("a1".toList, Q.ofInt 7), ("a2".toList, Q.ofInt 2)]).symbol_table
    (Q.ofInt 7) (Q.ofInt 2) (by decide) (by decide)
  exact ⟨by decide, by decide, by decide, h.1, h.2.1, h.2.2.1, h.2.2.2.1 (by decide),
    h.2.2.2.2.1 (by decide), h.2.2.2.2.2 (by decide)⟩

/-- C12: the case `Token::Minus` of `add_expr` returns after its operand: under
every arithmetic `a - b - c` evaluates to `a - b` and `a - b + c` to `a - b`, the
rest of the text being left unread; `10-2-3` evaluates to `8`, not `5`, also
through `evaluate()`. -/
theorem C12_minus_ends_the_chain :
    (∀ (α : Type) (A : Arith α) (a b c : α),
      Parser.call A ⟨[("a".toList, a), ("b".toList, b), ("c".toList, c)]⟩ "a - b - c".toList
        = .ok (A.sub a b)
      ∧ Parser.call A ⟨[("a".toList, a), ("b".toList, b), ("c".toList, c)]⟩ "a - b + c".toList
        = .ok (A.sub a b))
    ∧ Parser.call exactArith (Parser.new exactArith) "10-2-3".toList = .ok (Q.ofInt 8)
    ∧ Parser.call exactArith (Parser.new exactArith) "10-2-3".toList
        ≠ .ok (exactArith.sub (exactArith.sub (Q.ofInt 10) (Q.ofInt 2)) (Q.ofInt 3))
    ∧ (ExpEvaluator.evaluate exactArith
        ((ExpEvaluator.new : ExpEvaluator Q).insert_expression "r".toList "10-2-3".toList)).2
      = .ok [("r".toList, Q.ofInt 8)] :=
  ⟨fun _ _ _ _ _ => ⟨rfl, rfl⟩, by decide, by decide, by decide⟩

/-- C13: in the loop of `mul_expr`, at a `/` or a `%` whose right operand
evaluates to zero, the method throws the Runtime error "attempt to divide by
zero", whatever the left operand `result` is; the texts `1/0` and `5%0` fail so
under every symbol table; and an engine that holds an expression whose text
fails so fails in `evaluate()`. -/
theorem C13_division_by_zero {α : Type} (A : Arith α) :
    (∀ (pow : Method α) (fuel : Nat) (result y : α) (lx lx1 lx2 : Lexer),
      (lx.current_token = Token.Div ∨ lx.current_token = Token.Mod) →
      lx.advance = .ok lx1 → pow lx1 = .ok (y, lx2) → A.eq y (A.ofInt 0) = true →
      mul_loop A pow (fuel + 1) result lx
        = .error (.Runtime_error "attempt to divide by zero".toList))
    ∧ (∀ p : Parser Q,
      p.call exactArith "1/0".toList
        = .error (.Runtime_error "attempt to divide by zero".toList)
      ∧ p.call exactArith "5%0".toList
        = .error (.Runtime_error "attempt to divide by zero".toList))
    ∧ (∀ (ev : ExpEvaluator α) (id text : Str),
      (StdMap.keys ev.expressions).Nodup → (id, text) ∈ ev.expressions →
      (∀ p : Parser α,
        p.call A text = .error (.Runtime_error "attempt to divide by zero".toList)) →
      ∃ e, (ExpEvaluator.evaluate A ev).2 = .error e ∧ e ≠ .fuel_exhausted) := by
  refine ⟨?_, ?_, ?_⟩
  · intro pow fuel result y lx lx1 lx2 ht h1 h2 hz
    rcases ht with ht | ht
    · rw [mul_loop_div A pow fuel result y lx lx1 lx2 ht h1 h2, if_pos hz]
    · rw [mul_loop_mod A pow fuel result y lx lx1 lx2 ht h1 h2, if_pos hz]
  · intro p
    constructor
    · rw [call_div exactArith p "1/0".toList _ _ _ _ _ _ 2 rfl rfl rfl rfl rfl rfl rfl]
      rfl
    · rw [call_mod exactArith p "5%0".toList _ _ _ _ _ _ 2 rfl rfl rfl rfl rfl rfl rfl]
      rfl
  · intro ev id text hnd hmem hz
    exact ExpEvaluator.evaluate_fails A ev hnd id text _ hmem hz

/-- C13 holds with its hypotheses met: an engine with the value `a1 = 5` and
the expressions `q = "1/0"` and `s = "a1+1"` fails in `evaluate()`, with the
`ParsingError` that reports the division. -/
theorem C13_division_by_zero_witness :
    (∃ e, (ExpEvaluator.evaluate exactArith
        ((((ExpEvaluator.new : ExpEvaluator Q).insert_value "a1".toList (Q.ofInt 5)).insert_expression
          "q".toList "1/0".toList).insert_expression "s".toList "a1+1".toList)).2 = .error e
      ∧ e ≠ .fuel_exhausted)
    ∧ (ExpEvaluator.evaluate exactArith
        ((((ExpEvaluator.new : ExpEvaluator Q).insert_value "a1".toList (Q.ofInt 5)).insert_expression
          "q".toList "1/0".toList).insert_expression "s".toList "a1+1".toList)).2
      = .error (.ParsingError
          "Runtime error: attempt to divide by zero:expression[0]:1/0\n".toList)
    ∧ Parser.call exactArith (Parser.new exactArith) "7 * 3 / (2 - 2)".toList
      = .error (.Runtime_error "attempt to divide by zero".toList) :=
  ⟨(C13_division_by_zero exactArith).2.2 _ "q".toList "1/0".toList (by decide) (by decide)
      (fun p => ((C13_division_by_zero exactArith).2.1 p).1),
    by decide, by decide⟩

/-- C15: `join_number` prints each operand with the `to_string(double)` of
parser.h, which writes six significant digits: `1234567` becomes
`1.23457e+06`, so `1234567~8` evaluates to `1` and not to `12345678`, and
`12~1000000` to `121`; also through `evaluate()` with the values `a1 = 1234567`
and `a2 = 8`. Operands below a million join as the claim says: `12~34` is
`1234`. -/
theorem C15_join_loses_digits :
    exactArith.to_string (exactArith.ofInt 1234567) = "1.23457e+06".toList
    ∧ join_number exactArith (Q.ofInt 1234567) (Q.ofInt 8) = .ok (Q.ofInt 1)
    ∧ Parser.call exactArith (Parser.new exactArith) "1234567~8".toList = .ok (Q.ofInt 1)
    ∧ Parser.call exactArith (Parser.new exactArith) "12~1000000".toList = .ok (Q.ofInt 121)
    ∧ (ExpEvaluator.evaluate exactArith
        ((((ExpEvaluator.new : ExpEvaluator Q).insert_value "a1".toList
          (Q.ofInt 1234567)).insert_value "a2".toList (Q.ofInt 8)).insert_expression
          "r".toList "a1~a2".toList)).2
      = .ok [("r".toList, Q.ofInt 1)]
    ∧ (ExpEvaluator.evaluate exactArith
        ((((ExpEvaluator.new : ExpEvaluator Q).insert_value "a1".toList
          (Q.ofInt 12)).insert_value "a2".toList (Q.ofInt 34)).insert_expression
          "r".toList "a1~a2".toList)).2
      = .ok [("r".toList, Q.ofInt 1234)] :=
  ⟨by decide, by decide, by decide, by decide, by decide, by decide⟩

/-- C16: under every symbol table that binds `a1` to `x`, the texts
`log(a1)` and `log10(a1)` throw a Runtime error exactly when `x < 1`, and
`sqrt(a1)` exactly when `x < 0`; otherwise they evaluate to `log(x)`,
`log10(x)` and `sqrt(x)`. -/
theorem C16_function_domains {α : Type} (A : Arith α) (T : StdMap α) (x : α)
    (hx : T.find "a1".toList = some x) :
    ((∃ m, Parser.call A ⟨T⟩ "log(a1)".toList = .error (.Runtime_error m))
      ↔ A.lt x (A.ofInt 1) = true)
    ∧ (A.lt x (A.ofInt 1) = false → Parser.call A ⟨T⟩ "log(a1)".toList = .ok (A.log x))
    ∧ ((∃ m, Parser.call A ⟨T⟩ "log10(a1)".toList = .error (.Runtime_error m))
      ↔ A.lt x (A.ofInt 1) = true)
    ∧ (A.lt x (A.ofInt 1) = false → Parser.call A ⟨T⟩ "log10(a1)".toList = .ok (A.log10 x))
    ∧ ((∃ m, Parser.call A ⟨T⟩ "sqrt(a1)".toList = .error (.Runtime_error m))
      ↔ A.lt x (A.ofInt 0) = true)
    ∧ (A.lt x (A.ofInt 0) = false → Parser.call A ⟨T⟩ "sqrt(a1)".toList = .ok (A.sqrt x)) := by
  have hlog : Parser.call A ⟨T⟩ "log(a1)".toList
      = if A.lt x (A.ofInt 1) then
          .error (.Runtime_error ("invalid argument to log: ".toList ++ A.to_string x))
        else .ok (A.log x) := by
    rw [call_one_symbol A T x _ hx (by decide) (by decide),
      call_checked A ⟨[("a1".toList, x)]⟩ "log(a1)".toList _ _ x 6
        (fun a => A.lt a (A.ofInt 1)) (fun a => .Runtime_error ("invalid argument to log: ".toList ++ A.to_string a)) A.log
        rfl rfl (by decide) (by decide) rfl rfl rfl]
  have hlog10 : Parser.call A ⟨T⟩ "log10(a1)".toList
      = if A.lt x (A.ofInt 1) then
          .error (.Runtime_error ("invalid argument to log10: ".toList ++ A.to_string x))
        else .ok (A.log10 x) := by
    rw [call_one_symbol A T x _ hx (by decide) (by decide),
      call_checked A ⟨[("a1".toList, x)]⟩ "log10(a1)".toList _ _ x 8
        (fun a => A.lt a (A.ofInt 1)) (fun a => .Runtime_error ("invalid argument to log10: ".toList ++ A.to_string a)) A.log10
        rfl rfl (by decide) (by decide) rfl rfl rfl]
  have hsqrt : Parser.call A ⟨T⟩ "sqrt(a1)".toList
      = if A.lt x (A.ofInt 0) then
          .error (.Runtime_error "attempt to take square root of negative number".toList)
        else .ok (A.sqrt x) := by
    rw [call_one_symbol A T x _ hx (by decide) (by decide),
      call_checked A ⟨[("a1".toList, x)]⟩ "sqrt(a1)".toList _ _ x 7
        (fun a => A.lt a (A.ofInt 0)) (fun a => .Runtime_error ("attempt to take square root of negative number".toList)) A.sqrt
        rfl rfl (by decide) (by decide) rfl rfl rfl]
  rw [hlog, hlog10, hsqrt]
  cases A.lt x (A.ofInt 1) <;> cases A.lt x (A.ofInt 0) <;> simp

/-- C16 holds with its hypotheses met: with `a1 = 1` the text `log(a1)`
evaluates to `0`; and `sqrt(-1)` and `log(0)` fail while `log(1)` is `0`. -/
theorem C16_function_domains_witness :
    StdMap.find [("a1".toList, Q.ofInt 1)] "a1".toList = some (Q.ofInt 1)
    ∧ exactArith.lt (Q.ofInt 1) (exactArith.ofInt 1) = false
    ∧ Parser.call exactArith ⟨[("a1".toList, Q.ofInt 1)]⟩ "log(a1)".toList = .ok (Q.ofInt 0)
    ∧ Parser.call exactArith (Parser.new exactArith) "sqrt(-1)".toList
      = .error (.Runtime_error "attempt to take square root of negative number".toList)
    ∧ Parser.call exactArith (Parser.new exactArith) "log(0)".toList
      = .error (.Runtime_error "invalid argument to log: 0".toList)
    ∧ Parser.call exactArith (Parser.new exactArith) "log(1)".toList = .ok (Q.ofInt 0) :=
  ⟨by decide, by decide,
    (C16_function_domains exactArith [("a1".toList, Q.ofInt 1)] (Q.ofInt 1) (by decide)).2.1
      (by decide),
    by decide, by decide, by decide⟩

/-- C17: the test `c != 'e' || c != 'E'` at the head of `exponent_part` holds
for every character, so the method returns at once and no exponent is ever
read: in `1e5` the token Number has the text `1` and is followed by the
identifier `e5`; the parser evaluates `1e5` to `1` and `2.5E-3` to `2.5`; and
`evaluate()` rejects the expression `1e5` for its unknown identifier `e5`. -/
theorem C17_exponent_never_read :
    (∀ (token_buffer : Str) (s : List Char),
      exponent_part token_buffer s = .ok (token_buffer, s))
    ∧ Lexer.init "1e5".toList = .ok ⟨"e5".toList, Token.Number, "1".toList⟩
    ∧ Lexer.advance ⟨"e5".toList, Token.Number, "1".toList⟩
      = .ok ⟨[], Token.Id, "e5".toList⟩
    ∧ Lexer.init "2.5E-3".toList = .ok ⟨"E-3".toList, Token.Number, "2.5".toList⟩
    ∧ Parser.call exactArith (Parser.new exactArith) "1e5".toList = .ok (Q.ofInt 1)
    ∧ Parser.call exactArith (Parser.new exactArith) "2.5E-3".toList = .ok ⟨5, 2⟩
    ∧ (ExpEvaluator.evaluate exactArith
        ((ExpEvaluator.new : ExpEvaluator Q).insert_expression "r".toList "1e5".toList)).2
      = .error (.ParsingError "SyntaxError: 'e5' Not found:expression[0]:1e5:1\n".toList) :=
  ⟨exponent_part_eq, by decide, by decide, by decide, by decide, by decide, by decide⟩

/-- C18: at a `=` or a `!` that no `=` follows, `get_token` throws a Lexical
error; `get_token` returns neither `Token::Assign` nor `Token::Not` on any
input, so the current token of a lexer is never one of them; and
`assign_expr`, run with the fuel the call operator provides, never takes its
assignment branch: it returns what `add_expr` returns and leaves the symbol
table as it was. -/
theorem C18_assign_never_lexed {α : Type} (A : Arith α) :
    (∀ input rest : List Char, input.dropWhile isspace = '=' :: rest → peekChar rest ≠ '=' →
      get_token input = .error (.Lexical_error ['=']))
    ∧ (∀ input rest : List Char, input.dropWhile isspace = '!' :: rest →
      peekChar rest ≠ '=' → get_token input = .error (.Lexical_error ['!']))
    ∧ (∀ (input : List Char) (t : Token) (txt : Str) (rest : List Char),
      get_token input = .ok (t, txt, rest) → t ≠ Token.Assign ∧ t ≠ Token.Not)
    ∧ (∀ lx : Lexer, lx.Lexed →
      lx.current_token ≠ Token.Assign ∧ lx.current_token ≠ Token.Not)
    ∧ (∀ (p : Parser α) (fuel depth : Nat) (lx : Lexer),
      lx.Lexed → lx.size < depth → depth ≤ fuel →
      p.assign_expr A fuel depth lx
        = (add_expr A p.symbol_table fuel depth lx >>= fun r => .ok (r, p))) :=
  ⟨get_token_assign, get_token_not, get_token_noAssign, lexed_noAssign, assign_expr_eq A⟩

/-- C18 holds with its hypotheses met: `a = 1` and `!a` stop at the `=` and at
the `!`; and on the lexer of the text `1+2` the method `assign_expr` returns
the `3` of `add_expr`. -/
theorem C18_assign_never_lexed_witness :
    get_token " = 1".toList = .error (.Lexical_error ['='])
    ∧ get_token "!a".toList = .error (.Lexical_error ['!'])
    ∧ Lexer.init "1+2".toList = .ok ⟨"+2".toList, Token.Number, "1".toList⟩
    ∧ Parser.assign_expr exactArith (Parser.new exactArith) 4 4
        ⟨"+2".toList, Token.Number, "1".toList⟩
      = (add_expr exactArith (Parser.new exactArith).symbol_table 4 4
          ⟨"+2".toList, Token.Number, "1".toList⟩ >>= fun r => .ok (r, Parser.new exactArith))
    ∧ add_expr exactArith (Parser.new exactArith).symbol_table 4 4
        ⟨"+2".toList, Token.Number, "1".toList⟩ = .ok (Q.ofInt 3, ⟨[], Token.Eofsym, []⟩)
    ∧ Parser.call exactArith (Parser.new exactArith) "a = 1".toList
      = .error (.Lexical_error ['='])
    ∧ Parser.call exactArith (Parser.new exactArith) "!1".toList
      = .error (.Lexical_error ['!']) :=
  ⟨(C18_assign_never_lexed exactArith).1 " = 1".toList " 1".toList (by decide) (by decide),
    (C18_assign_never_lexed exactArith).2.1 "!a".toList "a".toList (by decide) (by decide),
    by decide,
    (C18_assign_never_lexed exactArith).2.2.2.2 (Parser.new exactArith) 4 4
      ⟨"+2".toList, Token.Number, "1".toList⟩
      ⟨"1+2".toList, ⟨"+2".toList, Token.Number, "1".toList⟩, by decide,
        Relation.ReflTransGen.refl⟩
      (by decide) (by decide),
    by decide, by decide, by decide⟩

/-- C19 fails as stated: with the value `a1` and the one expression
`a = "a1+a1"`, `getIdCount()` maps `a1` to `2` although one expression
references it; and with the one expression `b = "zz"` and no value it returns
the key `zz`, which is not a registered value. Both texts tokenize. -/
theorem C19_counts_every_token :
    (∀ e ∈ (((ExpEvaluator.new : ExpEvaluator Q).insert_value "a1".toList (Q.ofInt 1)).insert_expression
        "a".toList "a1+a1".toList).expressions, (get_ids e.2 []).2 = .ok ())
    ∧ ExpEvaluator.getIdCount
      (((ExpEvaluator.new : ExpEvaluator Q).insert_value "a1".toList (Q.ofInt 1)).insert_expression
        "a".toList "a1+a1".toList) = .ok [("a1".toList, 2)]
    ∧ ExpEvaluator.referencing
      (((ExpEvaluator.new : ExpEvaluator Q).insert_value "a1".toList (Q.ofInt 1)).insert_expression
        "a".toList "a1+a1".toList).expressions "a1".toList = 1
    ∧ (∀ e ∈ ((ExpEvaluator.new : ExpEvaluator Q).insert_expression "b".toList "zz".toList).expressions,
        (get_ids e.2 []).2 = .ok ())
    ∧ ExpEvaluator.getIdCount
      ((ExpEvaluator.new : ExpEvaluator Q).insert_expression "b".toList "zz".toList) = .ok [("zz".toList, 1)]
    ∧ StdMap.contains
      ((ExpEvaluator.new : ExpEvaluator Q).insert_expression "b".toList "zz".toList).symbol_table
      "zz".toList = false :=
  ⟨by decide, by decide, by decide, by decide, by decide, by decide⟩

/-- C19, amended: when every expression text tokenizes, `getIdCount()` returns
a map whose keys are the registered value identifiers and the identifiers that
occur in an expression text without being an expression identifier; a key that
is an expression identifier maps to `0`, any other key to the number of
identifier tokens of that name in all the expression texts; and when every
identifier of the texts is registered, the keys are exactly the registered
value identifiers. -/
theorem C19_getIdCount_counts_tokens {α : Type} (ev : ExpEvaluator α)
    (htok : ∀ e ∈ ev.expressions, (get_ids e.2 []).2 = .ok ()) :
    ∃ m : StdMap Int, ExpEvaluator.getIdCount ev = .ok m
      ∧ (∀ k, m.contains k = true ↔
          (ev.symbol_table.contains k = true
            ∨ (ev.expressions.contains k = false
                ∧ ∃ e ∈ ev.expressions, k ∈ (get_ids e.2 []).1)))
      ∧ (∀ k, m.contains k = true →
          StdMap.find m k
            = some (if ev.expressions.contains k = true then 0
                else (ExpEvaluator.occurrences ev.expressions k : Int)))
      ∧ ((∀ e ∈ ev.expressions, ∀ id ∈ (get_ids e.2 []).1,
            ev.expressions.contains id = true ∨ ev.symbol_table.contains id = true) →
          ∀ k, m.contains k = true ↔ ev.symbol_table.contains k = true) := by
  obtain ⟨m, hm, _, hkeys, hfind⟩ := ExpEvaluator.getIdCount_keys ev htok
  refine ⟨m, hm, hkeys, hfind, ?_⟩
  intro hreg k
  rw [hkeys k]
  constructor
  · rintro (hv | ⟨hc, e, he, hk⟩)
    · exact hv
    · rcases hreg e he k hk with h | h
      · rw [hc] at h; cases h
      · exact h
  · exact Or.inl

/-- C19, amended, holds with its hypothesis met: with the values `a1` and `a2`
and the expressions `a = "a1+a1"` and `b = "a*a1"`, the map sends `a1` to `3`
and `a2` to `0`. -/
theorem C19_getIdCount_counts_tokens_witness :
    (∃ m : StdMap Int, ExpEvaluator.getIdCount
        (((((ExpEvaluator.new : ExpEvaluator Q).insert_value "a1".toList (Q.ofInt 1)).insert_value
          "a2".toList (Q.ofInt 2)).insert_expression "a".toList "a1+a1".toList).insert_expression
          "b".toList "a*a1".toList) = .ok m
      ∧ (∀ k, m.contains k = true ↔
          (StdMap.contains [("a1".toList, Q.ofInt 1), ("a2".toList, Q.ofInt 2)] k = true
            ∨ (StdMap.contains [("a".toList, "a1+a1".toList), ("b".toList, "a*a1".toList)] k
                = false
                ∧ ∃ e ∈ [("a".toList, "a1+a1".toList), ("b".toList, "a*a1".toList)],
                    k ∈ (get_ids e.2 []).1)))
      ∧ (∀ k, m.contains k = true →
          StdMap.find m k
            = some (if StdMap.contains
                  [("a".toList, "a1+a1".toList), ("b".toList, "a*a1".toList)] k = true then 0
                else (ExpEvaluator.occurrences
                  [("a".toList, "a1+a1".toList), ("b".toList, "a*a1".toList)] k : Int)))
      ∧ ((∀ e ∈ [("a".toList, "a1+a1".toList), ("b".toList, "a*a1".toList)],
            ∀ id ∈ (get_ids e.2 []).1,
            StdMap.contains [("a".toList, "a1+a1".toList), ("b".toList, "a*a1".toList)] id
                = true
              ∨ StdMap.contains [("a1".toList, Q.ofInt 1), ("a2".toList, Q.ofInt 2)] id
                = true) →
          ∀ k, m.contains k = true
            ↔ StdMap.contains [("a1".toList, Q.ofInt 1), ("a2".toList, Q.ofInt 2)] k = true))
    ∧ ExpEvaluator.getIdCount
        (((((ExpEvaluator.new : ExpEvaluator Q).insert_value "a1".toList (Q.ofInt 1)).insert_value
          "a2".toList (Q.ofInt 2)).insert_expression "a".toList "a1+a1".toList).insert_expression
          "b".toList "a*a1".toList)
      = .ok [("a1".toList, 3), ("a2".toList, 0)] :=
  ⟨C19_getIdCount_counts_tokens
      (((((ExpEvaluator.new : ExpEvaluator Q).insert_value "a1".toList (Q.ofInt 1)).insert_value
        "a2".toList (Q.ofInt 2)).insert_expression "a".toList "a1+a1".toList).insert_expression
        "b".toList "a*a1".toList) (by decide),
    by decide⟩

/-- C20 fails as stated: with the one expression `b = "zz"` and no value,
`getUniqueIds()` returns `zz`, which is not a registered value; and with the
value `a` and the expressions `a = "1"` and `b = "a+1"` it returns nothing,
although the registered value identifier `a` is referenced by `b`. -/
theorem C20_lists_unregistered_identifiers :
    (∀ e ∈ ((ExpEvaluator.new : ExpEvaluator Q).insert_expression "b".toList "zz".toList).expressions,
        (get_ids e.2 []).2 = .ok ())
    ∧ ExpEvaluator.getUniqueIds
      ((ExpEvaluator.new : ExpEvaluator Q).insert_expression "b".toList "zz".toList) = .ok ["zz".toList]
    ∧ StdMap.contains
      ((ExpEvaluator.new : ExpEvaluator Q).insert_expression "b".toList "zz".toList).symbol_table
      "zz".toList = false
    ∧ (∀ e ∈ ((((ExpEvaluator.new : ExpEvaluator Q).insert_value "a".toList (Q.ofInt 1)).insert_expression
        "a".toList "1".toList).insert_expression "b".toList "a+1".toList).expressions, (get_ids e.2 []).2 = .ok ())
    ∧ ExpEvaluator.getUniqueIds
      ((((ExpEvaluator.new : ExpEvaluator Q).insert_value "a".toList (Q.ofInt 1)).insert_expression
        "a".toList "1".toList).insert_expression "b".toList "a+1".toList) = .ok []
    ∧ StdMap.contains
      ((((ExpEvaluator.new : ExpEvaluator Q).insert_value "a".toList (Q.ofInt 1)).insert_expression
        "a".toList "1".toList).insert_expression "b".toList "a+1".toList).symbol_table "a".toList = true
    ∧ ExpEvaluator.referencing
      ((((ExpEvaluator.new : ExpEvaluator Q).insert_value "a".toList (Q.ofInt 1)).insert_expression
        "a".toList "1".toList).insert_expression "b".toList "a+1".toList).expressions "a".toList = 1 :=
  ⟨by decide, by decide, by decide, by decide, by decide, by decide, by decide⟩

/-- C20, amended: when every expression text tokenizes, `getUniqueIds()`
returns, without duplicates, exactly the identifiers that occur in at least one
registered expression text and are not expression identifiers; when every
identifier of the texts is registered, each of them is a registered value
identifier. -/
theorem C20_getUniqueIds_lists_tokens {α : Type} (ev : ExpEvaluator α)
    (htok : ∀ e ∈ ev.expressions, (get_ids e.2 []).2 = .ok ()) :
    ∃ l : List Str, ExpEvaluator.getUniqueIds ev = .ok l ∧ l.Nodup
      ∧ (∀ k, k ∈ l ↔
          (ev.expressions.contains k = false
            ∧ ∃ e ∈ ev.expressions, k ∈ (get_ids e.2 []).1))
      ∧ ((∀ e ∈ ev.expressions, ∀ id ∈ (get_ids e.2 []).1,
            ev.expressions.contains id = true ∨ ev.symbol_table.contains id = true) →
          ∀ k, k ∈ l ↔
            (ev.symbol_table.contains k = true ∧ ev.expressions.contains k = false
              ∧ ∃ e ∈ ev.expressions, k ∈ (get_ids e.2 []).1)) := by
  obtain ⟨l, hl, hnd, hmem⟩ := ExpEvaluator.getUniqueIds_spec ev htok
  refine ⟨l, hl, hnd, hmem, ?_⟩
  intro hreg k
  rw [hmem k]
  constructor
  · rintro ⟨hc, e, he, hk⟩
    refine ⟨?_, hc, e, he, hk⟩
    rcases hreg e he k hk with h | h
    · rw [hc] at h; cases h
    · exact h
  · rintro ⟨_, hc, h⟩
    exact ⟨hc, h⟩

/-- C20, amended, holds with its hypothesis met: with the values `a1` and `a2`
and the expressions `a = "a1+a1"` and `b = "a*a1"`, the list is `a1`. -/
theorem C20_getUniqueIds_lists_tokens_witness :
    (∃ l : List Str, ExpEvaluator.getUniqueIds
        (((((ExpEvaluator.new : ExpEvaluator Q).insert_value "a1".toList (Q.ofInt 1)).insert_value
          "a2".toList (Q.ofInt 2)).insert_expression "a".toList "a1+a1".toList).insert_expression
          "b".toList "a*a1".toList) = .ok l ∧ l.Nodup
      ∧ (∀ k, k ∈ l ↔
          (StdMap.contains [("a".toList, "a1+a1".toList), ("b".toList, "a*a1".toList)] k = false
            ∧ ∃ e ∈ [("a".toList, "a1+a1".toList), ("b".toList, "a*a1".toList)],
                k ∈ (get_ids e.2 []).1))
      ∧ ((∀ e ∈ [("a".toList, "a1+a1".toList), ("b".toList, "a*a1".toList)],
            ∀ id ∈ (get_ids e.2 []).1,
            StdMap.contains [("a".toList, "a1+a1".toList), ("b".toList, "a*a1".toList)] id
                = true
              ∨ StdMap.contains [("a1".toList, Q.ofInt 1), ("a2".toList, Q.ofInt 2)] id
                = true) →
          ∀ k, k ∈ l ↔
            (StdMap.contains [("a1".toList, Q.ofInt 1), ("a2".toList, Q.ofInt 2)] k = true
              ∧ StdMap.contains [("a".toList, "a1+a1".toList), ("b".toList, "a*a1".toList)] k
                = false
              ∧ ∃ e ∈ [("a".toList, "a1+a1".toList), ("b".toList, "a*a1".toList)],
                  k ∈ (get_ids e.2 []).1)))
    ∧ ExpEvaluator.getUniqueIds
        (((((ExpEvaluator.new : ExpEvaluator Q).insert_value "a1".toList (Q.ofInt 1)).insert_value
          "a2".toList (Q.ofInt 2)).insert_expression "a".toList "a1+a1".toList).insert_expression
          "b".toList "a*a1".toList)
      = .ok ["a1".toList] :=
  ⟨C20_getUniqueIds_lists_tokens
      (((((ExpEvaluator.new : ExpEvaluator Q).insert_value "a1".toList (Q.ofInt 1)).insert_value
        "a2".toList (Q.ofInt 2)).insert_expression "a".toList "a1+a1".toList).insert_expression
        "b".toList "a*a1".toList) (by decide),
    by decide⟩

end ExpressionEngine

namespace ExpressionEngine

section Logical

variable {α : Type} (A : Arith α) (T : StdMap α)

/-- At a token other than `and` the loop of `combination_expr` returns. -/
theorem combination_loop_other (eq : Method α) (fuel : Nat) (result : α) (lx : Lexer)
    (h : lx.current_token ≠ Token.AND) :
    combination_loop A eq (fuel + 1) result lx = .ok (result, lx) := by
  rw [combination_loop]
  split
  · next h' => exact absurd h' h
  · rfl

/-- At a token other than `and` the loop of `choice_expr` returns. -/
theorem choice_loop_other (comb : Method α) (fuel : Nat) (result : α) (lx : Lexer)
    (h : lx.current_token ≠ Token.AND) :
    choice_loop A comb (fuel + 1) result lx = .ok (result, lx) := by
  rw [choice_loop]
  split
  · next h' => exact absurd h' h
  · rfl

/-- The loop of `combination_expr` at an `and`. -/
theorem combination_loop_and (eq : Method α) (fuel : Nat) (result : α) (lx lx1 : Lexer)
    (ht : lx.current_token = Token.AND) (h1 : lx.advance = .ok lx1) :
    combination_loop A eq (fuel + 1) result lx
      = if A.toBool result then
          eq lx1 >>= fun x => combination_loop A eq fuel (A.ofBool (A.toBool x.1)) x.2
        else combination_loop A eq fuel (A.ofBool false) lx1 := by
  rw [combination_loop]
  simp only [ht, h1, bind_ok]

/-- The loop of `combination_expr` returns only at a token other than `and`. -/
theorem combination_loop_token (eq : Method α) :
    ∀ (fuel : Nat) (result : α) (lx : Lexer) (v : α) (lx' : Lexer),
      combination_loop A eq fuel result lx = .ok (v, lx') →
        lx'.current_token ≠ Token.AND := by
  intro fuel
  induction fuel with
  | zero => intro result lx v lx' h; rw [combination_loop] at h; cases h
  | succ fuel ih =>
    intro result lx v lx' h
    by_cases ht : lx.current_token = Token.AND
    · cases ha : lx.advance with
      | error e =>
        rw [combination_loop] at h
        simp only [ht, ha, bind_error] at h
        cases h
      | ok lx1 =>
        rw [combination_loop_and A eq fuel result lx lx1 ht ha] at h
        by_cases hb : A.toBool result = true
        · rw [if_pos hb] at h
          cases he : eq lx1 with
          | error e => rw [he, bind_error] at h; cases h
          | ok x =>
            rw [he, bind_ok] at h
            exact ih _ _ _ _ h
        · rw [if_neg hb] at h
          exact ih _ _ _ _ h
    · rw [combination_loop_other A eq fuel result lx ht] at h
      simp only [Except.ok.injEq, Prod.mk.injEq] at h
      rw [← h.2]
      exact ht

/-- Method `combination_expr` returns only at a token other than `and`. -/
theorem combination_expr_token (fuel depth : Nat) (lx : Lexer) (v : α) (lx' : Lexer)
    (h : combination_expr A T fuel depth lx = .ok (v, lx')) :
    lx'.current_token ≠ Token.AND := by
  unfold combination_expr combination_exprF at h
  cases he : equality_expr A T fuel depth lx with
  | error e => rw [he, bind_error] at h; cases h
  | ok r =>
    rw [he, bind_ok] at h
    exact combination_loop_token A _ _ _ _ _ _ h

/-- Method `choice_expr` never applies its operator: it returns what
`combination_expr` returns. -/
theorem choice_expr_eq (fuel depth : Nat) (lx : Lexer) :
    choice_expr A T (fuel + 1) depth lx = combination_expr A T (fuel + 1) depth lx := by
  show (combination_expr A T (fuel + 1) depth lx >>= fun r =>
    choice_loop A (combination_expr A T (fuel + 1) depth) (fuel + 1) r.1 r.2) = _
  cases hc : combination_expr A T (fuel + 1) depth lx with
  | error e => rfl
  | ok r =>
    rw [bind_ok]
    exact choice_loop_other A _ _ _ _ (combination_expr_token A T _ _ lx r.1 r.2 hc)

/-- The call operator returns the value of `combination_expr`. -/
theorem call_eq_combination (p : Parser α) (s : Str) :
    p.call A s
      = (Lexer.init s >>= fun lx =>
          combination_expr A p.symbol_table (s.length + 1) (s.length + 1) lx >>= fun r =>
            .ok r.1) := by
  rw [call_eq]
  cases Lexer.init s with
  | error e => rfl
  | ok lx =>
    rw [bind_ok, bind_ok, choice_expr_eq]

/-- The loop of `combination_expr` at an `and` whose left operand is zero:
whatever method reads the right operand, it is not called. -/
theorem combination_loop_zero (eq : Method α) (fuel : Nat) (result : α) (lx lx1 : Lexer)
    (hz : A.toBool result = false) (ht : lx.current_token = Token.AND)
    (h1 : lx.advance = .ok lx1) (hne : lx1.current_token ≠ Token.AND) :
    combination_loop A eq (fuel + 2) result lx = .ok (A.ofBool false, lx1) := by
  rw [combination_loop_and A eq (fuel + 1) result lx lx1 ht h1, hz]
  simp only [Bool.false_eq_true, if_false]
  exact combination_loop_other A eq fuel _ lx1 hne

/-- A text whose `combination_expr` returns evaluates to its value. -/
theorem call_of_combination (p : Parser α) (s : Str) (lx0 lx : Lexer) (v : α)
    (h0 : Lexer.init s = .ok lx0)
    (h1 : combination_expr A p.symbol_table (s.length + 1) (s.length + 1) lx0 = .ok (v, lx)) :
    p.call A s = .ok v := by
  rw [call_eq_combination, h0, bind_ok, h1, bind_ok]

theorem combination_expr_eq (fuel depth : Nat) (lx : Lexer) :
    combination_expr A T fuel depth lx
      = (equality_expr A T fuel depth lx >>= fun r =>
          combination_loop A (equality_expr A T fuel depth) fuel r.1 r.2) := rfl

/-- A text `operand and operand` evaluates to `1` when both operands are
non-zero and to `0` otherwise. -/
theorem call_and (p : Parser α) (s : Str) (lx0 lx1 lx2 lx3 : Lexer) (x y : α) (n : Nat)
    (hn : s.length = n + 1) (h0 : Lexer.init s = .ok lx0)
    (h1 : equality_expr A p.symbol_table (n + 2) (n + 2) lx0 = .ok (x, lx1))
    (ht : lx1.current_token = Token.AND) (h2 : lx1.advance = .ok lx2)
    (hne : lx2.current_token ≠ Token.AND)
    (h3 : equality_expr A p.symbol_table (n + 2) (n + 2) lx2 = .ok (y, lx3))
    (he : lx3.current_token = Token.Eofsym) :
    p.call A s = .ok (A.ofBool (A.toBool x && A.toBool y)) := by
  by_cases hb : A.toBool x = true
  · apply call_of_combination A p s lx0 lx3 _ h0
    rw [hn, combination_expr_eq, h1, bind_ok,
      combination_loop_and A _ (n + 1) x lx1 lx2 ht h2, if_pos hb, h3, bind_ok,
      combination_loop_stop A _ _ _ _ he, hb, Bool.true_and]
  · have hb' : A.toBool x = false := by simpa using hb
    apply call_of_combination A p s lx0 lx2 _ h0
    rw [hn, combination_expr_eq, h1, bind_ok,
      combination_loop_zero A _ n x lx1 lx2 hb' ht h2 hne, hb', Bool.false_and]

/-- A text `operand and ...` whose left operand is zero evaluates to `0`,
whatever follows the `and`. -/
theorem call_and_zero (p : Parser α) (s : Str) (lx0 lx1 lx2 : Lexer) (x : α) (n : Nat)
    (hn : s.length = n + 1) (h0 : Lexer.init s = .ok lx0)
    (h1 : equality_expr A p.symbol_table (n + 2) (n + 2) lx0 = .ok (x, lx1))
    (ht : lx1.current_token = Token.AND) (h2 : lx1.advance = .ok lx2)
    (hne : lx2.current_token ≠ Token.AND) (hz : A.toBool x = false) :
    p.call A s = .ok (A.ofBool false) := by
  apply call_of_combination A p s lx0 lx2 _ h0
  rw [hn, combination_expr_eq, h1, bind_ok, combination_loop_zero A _ n x lx1 lx2 hz ht h2 hne]

end Logical

end ExpressionEngine

namespace ExpressionEngine
namespace Graph

/-! ## The cycles `findCycles` reports -/

/-- What the first loop of `sprintCycle` moves to `temp`: the entries of the
stack down to the first `v`. -/
theorem sprintCycle_pop_shape (v : Nat) :
    ∀ (dfs_stack temp temp' rest : List Nat),
      sprintCycle_pop v dfs_stack temp = .ok (temp', rest) →
      ∃ pre, dfs_stack = pre ++ v :: rest ∧ v ∉ pre ∧ temp' = v :: (pre.reverse ++ temp) := by
  intro dfs_stack
  induction dfs_stack with
  | nil => intro temp temp' rest h; simp [sprintCycle_pop] at h
  | cons t s ih =>
    intro temp temp' rest h
    by_cases htv : t = v
    · simp only [sprintCycle_pop, htv, if_true, Except.ok.injEq, Prod.mk.injEq] at h
      refine ⟨[], ?_, by simp, ?_⟩
      · rw [htv, ← h.2]; rfl
      · rw [← h.1]; rfl
    · simp only [sprintCycle_pop, htv, if_false] at h
      obtain ⟨pre, h1, h2, h3⟩ := ih (t :: temp) temp' rest h
      refine ⟨t :: pre, by rw [h1]; rfl, ?_, ?_⟩
      · intro hm
        rcases List.mem_cons.1 hm with hm | hm
        · exact htv hm.symm
        · exact h2 hm
      · rw [h3]; simp

theorem sprintCycle_names (g : Graph) (temp : List Nat) :
    ∀ (r : List Str × List Nat),
      (temp.foldl (fun (r : List Str × List Nat) t => (r.1 ++ [g.vertex t], t :: r.2)) r).1
        = r.1 ++ temp.map g.vertex := by
  induction temp with
  | nil => intro r; simp
  | cons t temp ih =>
    intro r
    rw [List.foldl_cons, ih]
    simp

/-- What `sprintCycle` returns: the names of the stack entries from the first
`v` up to the top, and the stack as it was. -/
theorem sprintCycle_eq (g : Graph) (dfs_stack : List Nat) (v : Nat) (cycle : List Str)
    (stack' : List Nat) (h : g.sprintCycle dfs_stack v = .ok (cycle, stack')) :
    ∃ pre post, dfs_stack = pre ++ v :: post ∧ v ∉ pre
      ∧ cycle = (v :: pre.reverse).map g.vertex ∧ stack' = dfs_stack := by
  unfold sprintCycle at h
  cases hp : sprintCycle_pop v dfs_stack [] with
  | error e => rw [hp] at h; cases h
  | ok r =>
    obtain ⟨temp', rest⟩ := r
    rw [hp] at h
    simp only [Except.ok.injEq] at h
    obtain ⟨pre, h1, h2, h3⟩ := sprintCycle_pop_shape v dfs_stack [] temp' rest hp
    have hc := sprintCycle_names g temp' ([], rest)
    have hs := sprintCycle_push g temp' ([], rest)
    rw [h] at hc hs
    simp only [List.nil_append] at hc hs
    refine ⟨pre, rest, h1, h2, ?_, ?_⟩
    · rw [hc, h3]; simp
    · rw [hs, h3, h1]; simp

/-- For a vertex on the stack, `sprintCycle` returns. -/
theorem sprintCycle_spec (g : Graph) (dfs_stack : List Nat) (v : Nat) (hv : v ∈ dfs_stack) :
    ∃ pre post, dfs_stack = pre ++ v :: post ∧ v ∉ pre
      ∧ g.sprintCycle dfs_stack v = .ok ((v :: pre.reverse).map g.vertex, dfs_stack) := by
  obtain ⟨cycle, hc⟩ := sprintCycle_stack g dfs_stack v hv
  obtain ⟨pre, post, h1, h2, h3, _⟩ := sprintCycle_eq g dfs_stack v cycle dfs_stack hc
  exact ⟨pre, post, h1, h2, by rw [hc, h3]⟩

/-- On a stack that is a path, the entries from a successor `j` of the top up
to the top are a loop. -/
theorem isLoop_of_stack (g : Graph) (top j : Nat) (rest pre post : List Nat)
    (hchain : List.Chain' (fun a b => g.edge b a) (top :: rest))
    (hj : j ∈ g.adj top) (hsplit : top :: rest = pre ++ j :: post) :
    g.IsLoop ((j :: pre.reverse).map g.vertex) := by
  refine ⟨j :: pre.reverse, rfl, by simp, ?_, j, ?_⟩
  · have h1 : List.Chain' (fun a b => g.edge b a) (pre ++ [j]) := by
      have : top :: rest = (pre ++ [j]) ++ post := by rw [hsplit]; simp
      rw [this] at hchain
      exact hchain.left_of_append
    have h2 : j :: pre.reverse = (pre ++ [j]).reverse := by simp
    rw [h2, List.chain'_reverse]
    exact h1
  · cases pre with
    | nil =>
      have hjt : top = j := by
        simp only [List.nil_append, List.cons.injEq] at hsplit
        exact hsplit.1
      subst hjt
      exact ⟨top, rfl, rfl, hj⟩
    | cons a pre' =>
      have hat : top = a := by
        simp only [List.cons_append, List.cons.injEq] at hsplit
        exact hsplit.1
      subst hat
      refine ⟨top, rfl, ?_, hj⟩
      have h3 : j :: (top :: pre').reverse = (j :: pre'.reverse) ++ [top] := by simp
      rw [h3]
      exact List.getLast?_concat _

/-- The loop of `processDFStree` over successors `js` of the top `v` keeps the
stack and reports only loops, given that the recursive call does. -/
theorem processDFStree_fold_loops (g : Graph) (n : Nat)
    (hrec : ∀ (d d' : DFS) (v : Nat) (rest : List Nat), g.processDFStree n d = .ok d' →
      d.dfs_stack = v :: rest → g.LoopInv d → d'.dfs_stack = rest ∧ g.LoopInv d')
    (v : Nat) (rest : List Nat) :
    ∀ (js : List Nat), (∀ j ∈ js, j ∈ g.adj v) → ∀ (d d' : DFS),
      js.foldlM (g.processDFStree_step (g.processDFStree n)) d = .ok d' →
      d.dfs_stack = v :: rest → g.LoopInv d → d'.dfs_stack = v :: rest ∧ g.LoopInv d' := by
  intro js
  induction js with
  | nil =>
    intro _ d d' h hst hinv
    simp only [List.foldlM_nil, pure, Except.pure, Except.ok.injEq] at h
    rw [← h]
    exact ⟨hst, hinv⟩
  | cons j js ih =>
    intro hjs d d' h hst hinv
    have hjadj : j ∈ g.adj v := hjs j (List.mem_cons_self _ _)
    have hjs' : ∀ x ∈ js, x ∈ g.adj v := fun x hx => hjs x (List.mem_cons_of_mem _ hx)
    rw [List.foldlM_cons] at h
    cases hs : g.processDFStree_step (g.processDFStree n) d j with
    | error e => rw [hs, bind_error] at h; cases h
    | ok d1 =>
      rw [hs, bind_ok] at h
      have key : d1.dfs_stack = v :: rest ∧ g.LoopInv d1 := by
        unfold processDFStree_step at hs
        by_cases h1 : d.dfs_state j = State.IN_STACK
        · simp only [h1, if_true] at hs
          cases hc : g.sprintCycle d.dfs_stack j with
          | error e => rw [hc] at hs; cases hs
          | ok r =>
            obtain ⟨cycle, stack'⟩ := r
            rw [hc] at hs
            simp only [Except.ok.injEq] at hs
            obtain ⟨pre, post, hsplit, _, hcyc, hstack⟩ :=
              sprintCycle_eq g d.dfs_stack j cycle stack' hc
            rw [← hs]
            refine ⟨by show stack' = v :: rest; rw [hstack, hst], ?_, ?_⟩
            · show List.Chain' (fun a b => g.edge b a) stack'
              rw [hstack]; exact hinv.1
            · intro c hcm
              rcases List.mem_append.1 hcm with hcm | hcm
              · exact hinv.2 c hcm
              · rw [List.mem_singleton.1 hcm, hcyc]
                have hch := hinv.1
                rw [hst] at hch hsplit
                exact isLoop_of_stack g v j rest pre post hch hjadj hsplit
        · simp only [h1, if_false] at hs
          by_cases h2 : d.dfs_state j = State.NOT_VISITED
          · simp only [h2, if_true] at hs
            have hinv1 : g.LoopInv
                { d with dfs_stack := j :: d.dfs_stack,
                         dfs_state := Function.update d.dfs_state j State.IN_STACK } := by
              refine ⟨?_, hinv.2⟩
              show List.Chain' (fun a b => g.edge b a) (j :: d.dfs_stack)
              rw [hst]
              exact List.Chain'.cons hjadj (by rw [← hst]; exact hinv.1)
            exact hrec _ d1 j (v :: rest) hs (by show j :: d.dfs_stack = _; rw [hst]) hinv1
          · simp only [h2, if_false, Except.ok.injEq] at hs
            rw [← hs]
            exact ⟨hst, hinv⟩
      exact ih hjs' d1 d' h key.1 key.2

/-- Method `processDFStree` pops the top of the stack and reports only loops. -/
theorem processDFStree_loops (g : Graph) :
    ∀ (fuel : Nat) (d d' : DFS) (v : Nat) (rest : List Nat),
      g.processDFStree fuel d = .ok d' → d.dfs_stack = v :: rest → g.LoopInv d →
      d'.dfs_stack = rest ∧ g.LoopInv d' := by
  intro fuel
  induction fuel with
  | zero => intro d d' v rest h; rw [processDFStree] at h; cases h
  | succ n ih =>
    intro d d' v rest h hst hinv
    rw [processDFStree] at h
    simp only [hst] at h
    cases hf : (g.adj v).foldlM (g.processDFStree_step (g.processDFStree n)) d with
    | error e => rw [hf] at h; cases h
    | ok d1 =>
      rw [hf] at h
      obtain ⟨hst1, hinv1⟩ := processDFStree_fold_loops g n ih v rest (g.adj v)
        (fun _ hj => hj) d d1 hf hst hinv
      simp only [hst1, Except.ok.injEq] at h
      rw [← h]
      refine ⟨rfl, ?_, hinv1.2⟩
      show List.Chain' (fun a b => g.edge b a) rest
      have := hinv1.1
      rw [hst1] at this
      exact this.tail

theorem findCycles_loop_loops (g : Graph) :
    ∀ (is : List Nat) (d d' : DFS), g.findCycles_loop is d = .ok d' → d.dfs_stack = [] →
      g.LoopInv d → d'.dfs_stack = [] ∧ g.LoopInv d' := by
  intro is
  induction is with
  | nil =>
    intro d d' h hst hinv
    simp only [findCycles_loop, List.foldlM_nil, pure, Except.pure, Except.ok.injEq] at h
    rw [← h]
    exact ⟨hst, hinv⟩
  | cons i is ih =>
    intro d d' h hst hinv
    unfold findCycles_loop at h
    rw [List.foldlM_cons] at h
    by_cases h1 : d.dfs_state i = State.NOT_VISITED
    · simp only [h1, if_true] at h
      cases hp : g.processDFStree g.V
          { d with dfs_stack := i :: d.dfs_stack,
                   dfs_state := Function.update d.dfs_state i State.IN_STACK } with
      | error e => rw [hp, bind_error] at h; cases h
      | ok d1 =>
        rw [hp, bind_ok] at h
        have hinv0 : g.LoopInv
            { d with dfs_stack := i :: d.dfs_stack,
                     dfs_state := Function.update d.dfs_state i State.IN_STACK } := by
          refine ⟨?_, hinv.2⟩
          show List.Chain' (fun a b => g.edge b a) (i :: d.dfs_stack)
          rw [hst]
          exact List.chain'_singleton i
        obtain ⟨hst1, hinv1⟩ := processDFStree_loops g g.V _ d1 i [] hp
          (by show i :: d.dfs_stack = [i]; rw [hst]) hinv0
        exact ih d1 d' h hst1 hinv1
    · simp only [h1, if_false, bind_ok] at h
      exact ih d d' h hst hinv

/-- Every cycle `findCycles` reports is a loop of the graph. -/
theorem findCycles_loops (g : Graph) (cycles : Cycles) (h : g.findCycles [] = .ok cycles) :
    ∀ c ∈ cycles, g.IsLoop c := by
  unfold findCycles at h
  cases hl : g.findCycles_loop (List.range g.V) ⟨fun _ => State.NOT_VISITED, [], []⟩ with
  | error e => rw [hl] at h; cases h
  | ok d =>
    rw [hl] at h
    simp only [Except.ok.injEq] at h
    rw [← h]
    exact (findCycles_loop_loops g _ _ d hl rfl
      ⟨List.chain'_nil, fun c hc => absurd hc (List.not_mem_nil c)⟩).2.2

end Graph
end ExpressionEngine

namespace ExpressionEngine

/-! ## The tokens of a text and `get_ids` -/

theorem tokenize_succ (fuel : Nat) (input : List Char) (t : Token) (txt : Str)
    (rest : List Char) (h : get_token input = .ok (t, txt, rest)) :
    tokenize (fuel + 1) input
      = if t = Token.Eofsym then .ok []
        else
          match tokenize fuel rest with
          | .error e => .error e
          | .ok ts => .ok ((t, txt) :: ts) := by
  rw [tokenize, h] <;> rfl

theorem tokenize_succ_error (fuel : Nat) (input : List Char) (e : Error)
    (h : get_token input = .error e) : tokenize (fuel + 1) input = .error e := by
  rw [tokenize, h]

/-- With more fuel than characters the scan of the tokens comes to an end:
it delivers the tokens or stops at a Lexical error. -/
theorem tokenize_total :
    ∀ (fuel : Nat) (input : List Char), input.length < fuel →
      (∃ ts, tokenize fuel input = .ok ts)
        ∨ ∃ m, tokenize fuel input = .error (.Lexical_error m) := by
  intro fuel
  induction fuel with
  | zero => intro input h; omega
  | succ k ih =>
    intro input hlen
    cases hg : get_token input with
    | error e =>
      obtain ⟨m, hm⟩ := get_token_error input e hg
      exact Or.inr ⟨m, by rw [tokenize_succ_error k input e hg, hm]⟩
    | ok r =>
      obtain ⟨t, txt, rest⟩ := r
      rw [tokenize_succ k input t txt rest hg]
      by_cases ht : t = Token.Eofsym
      · exact Or.inl ⟨[], by rw [if_pos ht]⟩
      · rw [if_neg ht]
        have hsz : rest.length < input.length := by
          rcases get_token_size input t txt rest hg with ⟨h1, _⟩ | ⟨_, h2⟩
          · exact absurd h1 ht
          · exact h2
        rcases ih rest (by omega) with ⟨ts, hts⟩ | ⟨m, hm⟩
        · exact Or.inl ⟨(t, txt) :: ts, by rw [hts]⟩
        · exact Or.inr ⟨m, by rw [hm]⟩

theorem idTexts_cons_id (txt : Str) (ts : List (Token × Str)) :
    idTexts ((Token.Id, txt) :: ts) = txt :: idTexts ts := rfl

theorem idTexts_cons_other (t : Token) (txt : Str) (ts : List (Token × Str))
    (h : t ≠ Token.Id) : idTexts ((t, txt) :: ts) = idTexts ts := by
  unfold idTexts
  rw [List.filterMap_cons]
  simp only [h, if_false]

theorem advance_of_get_token (lx : Lexer) (t : Token) (txt : Str) (rest : List Char)
    (hne : lx.current_token ≠ Token.Eofsym) (h : get_token lx.input = .ok (t, txt, rest)) :
    lx.advance = .ok ⟨rest, t, txt⟩ := by
  unfold Lexer.advance
  simp only [hne, ne_eq, not_false_eq_true, if_true, h]

theorem get_ids_loop_eof (fuel : Nat) (lx : Lexer) (list : List Str)
    (h : lx.current_token = Token.Eofsym) :
    get_ids_loop (fuel + 1) lx list = (list, .ok ()) := by
  rw [get_ids_loop]
  simp only [h]

theorem get_ids_loop_id (fuel : Nat) (lx lx1 : Lexer) (list : List Str)
    (h : lx.current_token = Token.Id) (ha : lx.advance = .ok lx1) :
    get_ids_loop (fuel + 1) lx list
      = get_ids_loop fuel lx1 (list ++ [lx.current_token_text]) := by
  rw [get_ids_loop]
  simp only [h, ha]

theorem get_ids_loop_skip (fuel : Nat) (lx lx1 : Lexer) (list : List Str)
    (h1 : lx.current_token ≠ Token.Id) (h2 : lx.current_token ≠ Token.Eofsym)
    (ha : lx.advance = .ok lx1) :
    get_ids_loop (fuel + 1) lx list = get_ids_loop fuel lx1 list := by
  rw [get_ids_loop]
  cases htok : lx.current_token <;> simp only [ha]
  case Eofsym => exact absurd htok h2
  case Id => exact absurd htok h1

/-- The loop of `get_ids` from a lexer whose stream holds the tokens `ts`:
it appends the texts of the identifier tokens, the current one included. -/
theorem get_ids_loop_tokens :
    ∀ (fuel : Nat) (lx : Lexer) (list : List Str) (ts : List (Token × Str)),
      lx.current_token ≠ Token.Eofsym → tokenize fuel lx.input = .ok ts →
      get_ids_loop (fuel + 1) lx list
        = (list ++ idTexts ((lx.current_token, lx.current_token_text) :: ts), .ok ()) := by
  intro fuel
  induction fuel with
  | zero => intro lx list ts _ h; rw [tokenize] at h; cases h
  | succ k ih =>
    intro lx list ts hne h
    cases hg : get_token lx.input with
    | error e => rw [tokenize_succ_error k _ e hg] at h; cases h
    | ok r =>
      obtain ⟨t, txt, rest⟩ := r
      rw [tokenize_succ k _ t txt rest hg] at h
      have ha := advance_of_get_token lx t txt rest hne hg
      have rest_loop : ∀ l : List Str,
          get_ids_loop (k + 1) ⟨rest, t, txt⟩ l = (l ++ idTexts ts, .ok ()) := by
        intro l
        by_cases ht : t = Token.Eofsym
        · rw [if_pos ht] at h
          simp only [Except.ok.injEq] at h
          rw [get_ids_loop_eof k _ l ht, ← h]
          simp [idTexts]
        · rw [if_neg ht] at h
          cases hts : tokenize k rest with
          | error e => rw [hts] at h; cases h
          | ok ts' =>
            rw [hts] at h
            simp only [Except.ok.injEq] at h
            rw [← h]
            exact ih ⟨rest, t, txt⟩ l ts' ht hts
      by_cases hid : lx.current_token = Token.Id
      · rw [get_ids_loop_id (k + 1) lx _ list hid ha, rest_loop, hid, idTexts_cons_id]
        simp
      · rw [get_ids_loop_skip (k + 1) lx _ list hid hne ha, rest_loop,
          idTexts_cons_other _ _ _ hid]

/-- On a text that tokenizes, `get_ids` returns, having appended the texts of
the identifier tokens in order. -/
theorem get_ids_tokens (s : Str) (list : List Str) (ts : List (Token × Str))
    (h : tokens s = .ok ts) : get_ids s list = (list ++ idTexts ts, .ok ()) := by
  unfold tokens at h
  unfold get_ids Lexer.init
  cases hg : get_token s with
  | error e => rw [tokenize_succ_error _ s e hg] at h; cases h
  | ok r =>
    obtain ⟨t, txt, rest⟩ := r
    rw [tokenize_succ _ s t txt rest hg] at h
    simp only
    by_cases ht : t = Token.Eofsym
    · rw [if_pos ht] at h
      simp only [Except.ok.injEq] at h
      rw [get_ids_loop_eof _ _ list ht, ← h]
      simp [idTexts]
    · rw [if_neg ht] at h
      cases hts : tokenize s.length rest with
      | error e => rw [hts] at h; cases h
      | ok ts' =>
        rw [hts] at h
        simp only [Except.ok.injEq] at h
        rw [← h]
        exact get_ids_loop_tokens s.length ⟨rest, t, txt⟩ list ts' ht hts

/-! ### What an identifier token is -/

theorem notId_ite (p : Prop) [Decidable p] (a b : Except Error (Token × Str × List Char))
    (ha : ∀ txt rest, a ≠ .ok (Token.Id, txt, rest))
    (hb : ∀ txt rest, b ≠ .ok (Token.Id, txt, rest)) :
    ∀ txt rest, (if p then a else b) ≠ .ok (Token.Id, txt, rest) := by
  split <;> assumption

theorem notId_error (e : Error) :
    ∀ (txt : Str) (rest : List Char),
      (Except.error e : Except Error (Token × Str × List Char)) ≠ .ok (Token.Id, txt, rest) := by
  intro txt rest h
  cases h

theorem notId_ok (t : Token) (txt0 : Str) (rest0 : List Char) (h : t ≠ Token.Id) :
    ∀ (txt : Str) (rest : List Char),
      (Except.ok (t, txt0, rest0) : Except Error (Token × Str × List Char))
        ≠ .ok (Token.Id, txt, rest) := by
  intro txt rest h'
  simp only [Except.ok.injEq, Prod.mk.injEq] at h'
  exact h h'.1

/-- An identifier token starts with a letter, goes on with letters and digits,
and is none of the keywords. -/
theorem get_token_from_id (c : Char) (r : List Char) (txt : Str) (rest : List Char)
    (h : get_token_from c r = .ok (Token.Id, txt, rest)) :
    keywordToken txt = Token.Id ∧ c.isAlpha = true
      ∧ txt = c :: r.takeWhile Char.isAlphanum := by
  by_cases hc : c.isAlpha = true
  · unfold get_token_from at h
    rw [if_pos hc] at h
    simp only [Except.ok.injEq, Prod.mk.injEq] at h
    exact ⟨by rw [← h.2.1]; exact h.1, hc, h.2.1.symm⟩
  · exfalso
    revert h
    unfold get_token_from
    rw [if_neg hc]
    simp only [number_token_eq]
    revert txt rest
    repeat' (first
      | apply notId_ite
      | apply notId_error
      | (apply notId_ok; decide))

theorem keywords_not_id : ∀ k ∈ keywords, keywordToken k ≠ Token.Id := by decide

/-- The identifier tokens of a text: none is a keyword, and each starts with a
letter and goes on with letters and digits. -/
theorem tokenize_ids :
    ∀ (fuel : Nat) (input : List Char) (ts : List (Token × Str)),
      tokenize fuel input = .ok ts →
      ∀ id ∈ idTexts ts, id ∉ keywords
        ∧ ∃ c r, id = c :: r ∧ c.isAlpha = true ∧ ∀ x ∈ r, x.isAlphanum = true := by
  intro fuel
  induction fuel with
  | zero => intro input ts h; rw [tokenize] at h; cases h
  | succ k ih =>
    intro input ts h
    cases hg : get_token input with
    | error e => rw [tokenize_succ_error k _ e hg] at h; cases h
    | ok r =>
      obtain ⟨t, txt, rest⟩ := r
      rw [tokenize_succ k _ t txt rest hg] at h
      by_cases ht : t = Token.Eofsym
      · rw [if_pos ht] at h
        simp only [Except.ok.injEq] at h
        rw [← h]
        intro id hid
        simp [idTexts] at hid
      · rw [if_neg ht] at h
        cases hts : tokenize k rest with
        | error e => rw [hts] at h; cases h
        | ok ts' =>
          rw [hts] at h
          simp only [Except.ok.injEq] at h
          rw [← h]
          intro id hid
          by_cases htid : t = Token.Id
          · rw [htid, idTexts_cons_id] at hid
            rcases List.mem_cons.1 hid with hid | hid
            · rw [htid] at hg
              unfold get_token at hg
              split at hg
              · simp only [Except.ok.injEq, Prod.mk.injEq] at hg
                exact absurd hg.1 (by decide)
              · rename_i c r _
                obtain ⟨h1, h2, h3⟩ := get_token_from_id c r txt rest hg
                rw [hid]
                refine ⟨fun hk => keywords_not_id txt hk h1, c, _, h3, h2, ?_⟩
                intro x hx
                exact List.mem_takeWhile_imp hx
            · exact ih rest ts' hts id hid
          · rw [idTexts_cons_other _ _ _ htid] at hid
            exact ih rest ts' hts id hid

end ExpressionEngine

namespace ExpressionEngine
namespace ExpEvaluator

variable {α : Type}

/-! ## The stored results -/

/-- An entry of `result` survives every later insertion; a new key gets the
first value inserted for it. -/
theorem find_store_first (l : List (Str × α)) :
    ∀ (R : StdMap α) (k : Str),
      StdMap.find (store R l) k
        = (match StdMap.find R k with
          | some v => some v
          | none => StdMap.find l k) := by
  induction l with
  | nil => intro R k; cases h : StdMap.find R k <;> simp [store, h, StdMap.find]
  | cons e l ih =>
    obtain ⟨a, w⟩ := e
    intro R k
    rw [store_cons, ih, StdMap.find_insert]
    by_cases hk : k = a
    · subst hk
      cases h : StdMap.find R k <;> simp [h, StdMap.find]
    · cases h : StdMap.find R k <;> simp [h, hk, StdMap.find]

theorem find_store_of_find (l : List (Str × α)) (R : StdMap α) (k : Str) (v : α)
    (h : StdMap.find R k = some v) : StdMap.find (store R l) k = some v := by
  rw [find_store_first, h]

theorem mem_succeeded (tr : List (Str × Except Error α)) (id : Str) (v : α)
    (h : (id, Except.ok v) ∈ tr) : (id, v) ∈ succeeded tr := by
  induction tr with
  | nil => simp at h
  | cons e tr ih =>
    obtain ⟨a, r⟩ := e
    cases r with
    | ok w =>
      rcases List.mem_cons.1 h with h | h
      · simp only [Prod.mk.injEq, Except.ok.injEq] at h
        rw [h.1, h.2]
        exact List.mem_cons_self _ _
      · exact List.mem_cons_of_mem _ (ih h)
    | error e =>
      rcases List.mem_cons.1 h with h | h
      · simp at h
      · exact ih h

theorem keys_succeeded_sublist (tr : List (Str × Except Error α)) :
    (StdMap.keys (succeeded tr)).Sublist (tr.map Prod.fst) := by
  induction tr with
  | nil => exact List.Sublist.refl _
  | cons e tr ih =>
    obtain ⟨a, r⟩ := e
    cases r with
    | ok w => exact List.Sublist.cons₂ a ih
    | error e => exact List.Sublist.cons a ih

/-- After `get_result` on an identifier without a stored result, the entry
`0` is stored, and a later `evaluate()` that returns a map returns `0` for it. -/
theorem evaluate_after_get_result (A : Arith α) (ev : ExpEvaluator α) (id : Str)
    (h : StdMap.find ev.result id = none) :
    (get_result A ev id).2 = A.ofInt 0
    ∧ (get_result A ev id).1
        = { ev with result := StdMap.orderedInsert ev.result id (A.ofInt 0) }
    ∧ StdMap.find (get_result A ev id).1.result id = some (A.ofInt 0)
    ∧ ∀ m, (evaluate A (get_result A ev id).1).2 = .ok m →
        StdMap.find m id = some (A.ofInt 0) := by
  have hg : get_result A ev id
      = ({ ev with result := StdMap.orderedInsert ev.result id (A.ofInt 0) }, A.ofInt 0) := by
    unfold get_result
    rw [h]
  have hf : StdMap.find (StdMap.orderedInsert ev.result id (A.ofInt 0)) id
      = some (A.ofInt 0) := by
    rw [StdMap.find_orderedInsert ev.result id id (A.ofInt 0) h, if_pos rfl]
  rw [hg]
  refine ⟨rfl, rfl, hf, ?_⟩
  intro m hm
  obtain ⟨sorted, p, _, _, _, hl, _, hmp, _⟩ := evaluate_ok_inv A _ m hm
  have hr := evaluate_loop_result A ev.expressions sorted.reverse 0
    (add_symbols (Parser.new A) ev.symbol_table)
    (StdMap.orderedInsert ev.result id (A.ofInt 0)) []
  have hl' : (evaluate_loop A ev.expressions sorted.reverse 0
      ⟨add_symbols (Parser.new A) ev.symbol_table,
        StdMap.orderedInsert ev.result id (A.ofInt 0), []⟩) = (p, .ok ()) := hl
  rw [hl'] at hr
  rw [hmp, hr]
  exact find_store_of_find _ _ id _ hf

/-- A pass in which an attempt fails with a Lexical, Syntax or Runtime error:
`evaluate()` throws `ParsingError`, and the values of the attempts that
returned are stored all the same. -/
theorem evaluate_failing_pass (A : Arith α) (ev : ExpEvaluator α)
    (hnd : (StdMap.keys ev.expressions).Nodup)
    (hids : (populateIdGraph ev).2 = .ok ())
    (hcyc : validatedIdGraph (populateIdGraph ev).1 = .ok ()) :
    ∃ ids : List Str, (populateIdGraph ev).1.graph.sort [] = .ok ids.reverse
      ∧ ((∀ e ∈ failures (attempts A ev.expressions ids
              (add_symbols (Parser.new A) ev.symbol_table)), collected e = true) →
          failures (attempts A ev.expressions ids
              (add_symbols (Parser.new A) ev.symbol_table)) ≠ [] →
          (∃ msg, (evaluate A ev).2 = .error (.ParsingError msg))
          ∧ (evaluate A ev).1.result
              = store ev.result (succeeded (attempts A ev.expressions ids
                  (add_symbols (Parser.new A) ev.symbol_table)))
          ∧ ∀ id v, (id, Except.ok v) ∈ attempts A ev.expressions ids
                (add_symbols (Parser.new A) ev.symbol_table) →
              StdMap.find ev.result id = none →
              StdMap.find (evaluate A ev).1.result id = some v
              ∧ get_result A (evaluate A ev).1 id = ((evaluate A ev).1, v)) := by
  have herr := populate_loop_of_ok ev hids
  have hvalid : validatedIdGraph
      { ev with graph := (populate_loop ev.expressions ev.symbol_table).2 } = .ok () := hcyc
  obtain ⟨sorted, hsort, hperm, hnodup, _⟩ := evaluate_order ev hnd hvalid
  refine ⟨sorted.reverse, by rw [List.reverse_reverse]; exact hsort, ?_⟩
  intro hcol hne
  obtain ⟨hst, hmap, _, hes⟩ := evaluate_loop_status A ev.expressions sorted.reverse 0
    (add_symbols (Parser.new A) ev.symbol_table) ev.result [] hcol
  have hres := evaluate_loop_result A ev.expressions sorted.reverse 0
    (add_symbols (Parser.new A) ev.symbol_table) ev.result []
  obtain ⟨hr, hv⟩ := evaluate_pass_eq A ev sorted _ herr hvalid hsort (Prod.ext rfl hst)
  rw [hres] at hr
  have hpos : (evaluate_loop A ev.expressions sorted.reverse 0
      ⟨add_symbols (Parser.new A) ev.symbol_table, ev.result, []⟩).1.errorStream.length
      > 0 := List.length_pos.2 (fun h => hne (hes.1 h))
  refine ⟨⟨_, by rw [hv, if_pos hpos]⟩, hr, ?_⟩
  intro id v hmem hnone
  have hkeys : (StdMap.keys (succeeded (attempts A ev.expressions sorted.reverse
      (add_symbols (Parser.new A) ev.symbol_table)))).Nodup := by
    apply List.Nodup.sublist (keys_succeeded_sublist _)
    rw [hmap]
    exact hnodup
  have hfind : StdMap.find (evaluate A ev).1.result id = some v := by
    rw [hr, find_store_first, hnone]
    exact StdMap.find_of_mem _ hkeys id v (mem_succeeded _ id v hmem)
  refine ⟨hfind, ?_⟩
  unfold get_result
  rw [hfind]

end ExpEvaluator
end ExpressionEngine

namespace ExpressionEngine

/-- A text that `get_ids` may append: no function or logical keyword, and a
letter followed by letters and digits. -/
theorem get_token_id (input : List Char) (txt : Str) (rest : List Char)
    (h : get_token input = .ok (Token.Id, txt, rest)) :
    txt ∉ keywords
      ∧ ∃ c r, txt = c :: r ∧ c.isAlpha = true ∧ ∀ x ∈ r, x.isAlphanum = true := by
  unfold get_token at h
  split at h
  · simp only [Except.ok.injEq, Prod.mk.injEq] at h
    exact absurd h.1 (by decide)
  · rename_i c r _
    obtain ⟨h1, h2, h3⟩ := get_token_from_id c r txt rest h
    refine ⟨fun hk => keywords_not_id txt hk h1, c, _, h3, h2, ?_⟩
    intro x hx
    exact List.mem_takeWhile_imp hx

theorem init_id (s : Str) (lx : Lexer) (h : Lexer.init s = .ok lx)
    (ht : lx.current_token = Token.Id) :
    lx.current_token_text ∉ keywords
      ∧ ∃ c r, lx.current_token_text = c :: r ∧ c.isAlpha = true
        ∧ ∀ x ∈ r, x.isAlphanum = true := by
  unfold Lexer.init at h
  cases hg : get_token s with
  | error e => rw [hg] at h; cases h
  | ok r =>
    obtain ⟨t, txt, rest⟩ := r
    rw [hg] at h
    simp only [Except.ok.injEq] at h
    subst h
    simp only at ht
    subst ht
    exact get_token_id s txt rest hg

theorem advance_id (lx lx1 : Lexer) (h : lx.advance = .ok lx1)
    (h0 : lx.current_token = Token.Id → lx.current_token_text ∉ keywords
      ∧ ∃ c r, lx.current_token_text = c :: r ∧ c.isAlpha = true
        ∧ ∀ x ∈ r, x.isAlphanum = true)
    (ht : lx1.current_token = Token.Id) :
    lx1.current_token_text ∉ keywords
      ∧ ∃ c r, lx1.current_token_text = c :: r ∧ c.isAlpha = true
        ∧ ∀ x ∈ r, x.isAlphanum = true := by
  unfold Lexer.advance at h
  by_cases he : lx.current_token ≠ Token.Eofsym
  · rw [if_pos he] at h
    cases hg : get_token lx.input with
    | error e => rw [hg] at h; cases h
    | ok r =>
      obtain ⟨t, txt, rest⟩ := r
      rw [hg] at h
      simp only [Except.ok.injEq] at h
      subst h
      simp only at ht
      subst ht
      exact get_token_id _ txt rest hg
  · rw [if_neg he] at h
    simp only [Except.ok.injEq] at h
    subst h
    exact h0 ht

/-- Whatever way the loop of `get_ids` ends, what it has appended to the list
are identifiers: no keyword and no number. -/
theorem get_ids_loop_appended :
    ∀ (fuel : Nat) (lx : Lexer) (list : List Str),
      (lx.current_token = Token.Id → lx.current_token_text ∉ keywords
        ∧ ∃ c r, lx.current_token_text = c :: r ∧ c.isAlpha = true
          ∧ ∀ x ∈ r, x.isAlphanum = true) →
      ∃ app, (get_ids_loop fuel lx list).1 = list ++ app
        ∧ ∀ id ∈ app, id ∉ keywords
          ∧ ∃ c r, id = c :: r ∧ c.isAlpha = true ∧ ∀ x ∈ r, x.isAlphanum = true := by
  intro fuel
  induction fuel with
  | zero =>
    intro lx list _
    exact ⟨[], by simp [get_ids_loop], by simp⟩
  | succ k ih =>
    intro lx list h0
    cases ha : lx.advance with
    | error e =>
      refine ⟨[], ?_, by simp⟩
      rw [get_ids_loop]
      cases htok : lx.current_token <;> simp [ha]
    | ok lx1 =>
      have h1 := advance_id lx lx1 ha h0
      by_cases hid : lx.current_token = Token.Id
      · rw [get_ids_loop_id k lx lx1 list hid ha]
        obtain ⟨app, happ, hgood⟩ := ih lx1 (list ++ [lx.current_token_text]) h1
        refine ⟨lx.current_token_text :: app, by rw [happ]; simp, ?_⟩
        intro id hmem
        rcases List.mem_cons.1 hmem with hmem | hmem
        · rw [hmem]; exact h0 hid
        · exact hgood id hmem
      · by_cases heof : lx.current_token = Token.Eofsym
        · rw [get_ids_loop_eof k lx list heof]
          exact ⟨[], by simp, by simp⟩
        · rw [get_ids_loop_skip k lx lx1 list hid heof ha]
          exact ih lx1 list h1

theorem get_ids_appended (s : Str) (list : List Str) :
    ∃ app, (get_ids s list).1 = list ++ app
      ∧ ∀ id ∈ app, id ∉ keywords
        ∧ ∃ c r, id = c :: r ∧ c.isAlpha = true ∧ ∀ x ∈ r, x.isAlphanum = true := by
  unfold get_ids
  cases h : Lexer.init s with
  | error e => exact ⟨[], by simp, by simp⟩
  | ok lx => exact get_ids_loop_appended _ lx list (init_id s lx h)

section Logical

variable {α : Type} (A : Arith α)

/-- The loop of `combination_expr` at an `and` after which the lexer finds no
token. -/
theorem combination_loop_and_error (eq : Method α) (fuel : Nat) (result : α) (lx : Lexer)
    (e : Error) (ht : lx.current_token = Token.AND) (h1 : lx.advance = .error e) :
    combination_loop A eq (fuel + 1) result lx = .error e := by
  rw [combination_loop]
  simp only [ht, h1, bind_error]

/-- A text `operand and ...` whose left operand is zero evaluates to `0`
when the token after the `and` is a token other than `and`. -/
theorem call_zero_and (p : Parser α) (s : Str) (lx0 lx1 lx2 : Lexer) (x : α)
    (h0 : Lexer.init s = .ok lx0)
    (h1 : equality_expr A p.symbol_table (s.length + 1) (s.length + 1) lx0 = .ok (x, lx1))
    (hz : A.toBool x = false)
    (ht : lx1.current_token = Token.AND) (h2 : lx1.advance = .ok lx2)
    (hne : lx2.current_token ≠ Token.AND) :
    p.call A s = .ok (A.ofBool false) := by
  cases s with
  | nil =>
    exfalso
    have hi : Lexer.init [] = .ok ⟨[], Token.Eofsym, []⟩ := rfl
    rw [hi] at h0
    simp only [Except.ok.injEq] at h0
    subst h0
    revert h1
    simp only [List.length_nil]
    intro h1
    cases h1
  | cons c r =>
    exact call_and_zero A p (c :: r) lx0 lx1 lx2 x r.length rfl h0 h1 ht h2 hne hz

/-- The loop of `combination_expr` at an `and` after which the lexer finds no
token: the call fails with the error of the lexer. -/
theorem call_and_error (p : Parser α) (s : Str) (lx0 lx1 : Lexer) (x : α) (e : Error)
    (h0 : Lexer.init s = .ok lx0)
    (h1 : equality_expr A p.symbol_table (s.length + 1) (s.length + 1) lx0 = .ok (x, lx1))
    (ht : lx1.current_token = Token.AND) (h2 : lx1.advance = .error e) :
    p.call A s = .error e := by
  rw [call_eq_combination, h0, bind_ok, combination_expr_eq, h1, bind_ok,
    combination_loop_and_error A _ s.length x lx1 e ht h2, bind_error]

end Logical

namespace ExpEvaluator

variable {α : Type}

/-- An entry of the stored map `result` is what `evaluate()` returns for its
identifier, when it returns a map. -/
theorem evaluate_keeps_entry (A : Arith α) (ev : ExpEvaluator α) (id : Str) (w : α)
    (h : StdMap.find ev.result id = some w) (m : StdMap α)
    (hm : (evaluate A ev).2 = .ok m) : StdMap.find m id = some w := by
  obtain ⟨sorted, p, _, _, _, hl, _, hmp, _⟩ := evaluate_ok_inv A ev m hm
  have hr := evaluate_loop_result A ev.expressions sorted.reverse 0
    (add_symbols (Parser.new A) ev.symbol_table) ev.result []
  rw [hl] at hr
  rw [hmp, hr]
  exact find_store_of_find _ _ id _ h

end ExpEvaluator

end ExpressionEngine

namespace ExpressionEngine

/-- C21: the loop of `combination_expr` returns only at a token that is not
`and`, so `choice_expr`, which looks for `and` as well, never applies its
operator: it returns what `combination_expr` returns, and so does the call
operator. Under every symbol table that binds `a` to `x` and `b` to `y`, the
text `a and b` evaluates to `1` when `x` and `y` are both non-zero and to `0`
otherwise. -/
theorem C21_and_is_boolean_and {α : Type} (A : Arith α) (T : StdMap α) (x y : α)
    (hx : T.find "a".toList = some x) (hy : T.find "b".toList = some y) :
    (∀ (T' : StdMap α) (fuel depth : Nat) (lx : Lexer) (v : α) (lx' : Lexer),
      combination_expr A T' fuel depth lx = .ok (v, lx') → lx'.current_token ≠ Token.AND)
    ∧ (∀ (T' : StdMap α) (fuel depth : Nat) (lx : Lexer),
      choice_expr A T' (fuel + 1) depth lx = combination_expr A T' (fuel + 1) depth lx)
    ∧ (∀ (p : Parser α) (s : Str),
      p.call A s
        = (Lexer.init s >>= fun lx =>
            combination_expr A p.symbol_table (s.length + 1) (s.length + 1) lx >>= fun r =>
              .ok r.1))
    ∧ Parser.call A ⟨T⟩ "a and b".toList = .ok (A.ofBool (A.toBool x && A.toBool y)) := by
  refine ⟨fun T' => combination_expr_token A T', fun T' => choice_expr_eq A T',
    call_eq_combination A, ?_⟩
  have hframe : Parser.call A ⟨T⟩ "a and b".toList
      = Parser.call A ⟨[("a".toList, x), ("b".toList, y)]⟩ "a and b".toList := by
    apply call_frame A ⟨T⟩ ⟨[("a".toList, x), ("b".toList, y)]⟩ _ (by decide)
    intro id hid
    have hid' : id = "a".toList ∨ id = "b".toList := by
      revert id
      decide
    rcases hid' with h | h
    · rw [h]; exact hx.trans rfl
    · rw [h]; exact hy.trans rfl
  rw [hframe]
  exact call_and A ⟨[("a".toList, x), ("b".toList, y)]⟩ "a and b".toList _ _ _ _ x y 6
    rfl rfl rfl rfl rfl (by decide) rfl rfl

/-- C21 holds with its hypotheses met: with `a = 2`, the text `a and b` is `1`
for `b = 3` and `0` for `b = 0`; and `0 and 3` is `0`. -/
theorem C21_and_is_boolean_and_witness :
    StdMap.find [("a".toList, Q.ofInt 2), ("b".toList, Q.ofInt 3)] "a".toList
      = some (Q.ofInt 2)
    ∧ Parser.call exactArith ⟨[("a".toList, Q.ofInt 2), ("b".toList, Q.ofInt 3)]⟩
        "a and b".toList = .ok (Q.ofInt 1)
    ∧ Parser.call exactArith ⟨[("a".toList, Q.ofInt 2), ("b".toList, Q.ofInt 0)]⟩
        "a and b".toList = .ok (Q.ofInt 0)
    ∧ Parser.call exactArith (Parser.new exactArith) "0 and 3".toList = .ok (Q.ofInt 0) :=
  ⟨by decide,
    (C21_and_is_boolean_and exactArith [("a".toList, Q.ofInt 2), ("b".toList, Q.ofInt 3)]
      (Q.ofInt 2) (Q.ofInt 3) (by decide) (by decide)).2.2.2,
    (C21_and_is_boolean_and exactArith [("a".toList, Q.ofInt 2), ("b".toList, Q.ofInt 0)]
      (Q.ofInt 2) (Q.ofInt 0) (by decide) (by decide)).2.2.2,
    by decide⟩

/-- C22: for a vertex `v` on the stack, `sprintCycle` returns the names of the
stack entries from the first `v` up to the top and leaves the stack as it
was; `processDFStree` keeps the stack a path of edges and pops its top; and on
a graph whose edges join valid vertex numbers `findCycles` returns, and every
cycle it reports names vertices, at least one, each with an edge to the next
and the last with an edge back to the first. -/
theorem C22_reported_cycles_are_loops (g : Graph) (hval : g.Valid) :
    (∀ (dfs_stack : List Nat) (v : Nat), v ∈ dfs_stack →
      ∃ pre post, dfs_stack = pre ++ v :: post ∧ v ∉ pre
        ∧ g.sprintCycle dfs_stack v = .ok ((v :: pre.reverse).map g.vertex, dfs_stack))
    ∧ (∀ (fuel : Nat) (d d' : Graph.DFS) (v : Nat) (rest : List Nat),
      g.processDFStree fuel d = .ok d' → d.dfs_stack = v :: rest → g.LoopInv d →
      d'.dfs_stack = rest ∧ g.LoopInv d')
    ∧ ∃ cycles, g.findCycles [] = .ok cycles ∧ ∀ c ∈ cycles, g.IsLoop c := by
  refine ⟨Graph.sprintCycle_spec g, Graph.processDFStree_loops g, ?_⟩
  obtain ⟨cycles, hc, _⟩ := Graph.findCycles_spec g hval
  exact ⟨cycles, hc, Graph.findCycles_loops g cycles hc⟩

/-- C22 holds with its hypothesis met, on the graph `populateIdGraph` builds
for `a = "c"`, `b = "a+1"`, `c = "b+c"`: the cycles reported are `a, c, b` and
`c`. -/
theorem C22_reported_cycles_are_loops_witness :
    (ExpEvaluator.populate_loop
        [("a".toList, "c".toList), ("b".toList, "a+1".toList), ("c".toList, "b+c".toList)]
        ([] : StdMap Q)).2.Valid
    ∧ (∃ cycles, (ExpEvaluator.populate_loop
          [("a".toList, "c".toList), ("b".toList, "a+1".toList), ("c".toList, "b+c".toList)]
          ([] : StdMap Q)).2.findCycles [] = .ok cycles
        ∧ ∀ c ∈ cycles, (ExpEvaluator.populate_loop
          [("a".toList, "c".toList), ("b".toList, "a+1".toList), ("c".toList, "b+c".toList)]
          ([] : StdMap Q)).2.IsLoop c)
    ∧ (ExpEvaluator.populate_loop
        [("a".toList, "c".toList), ("b".toList, "a+1".toList), ("c".toList, "b+c".toList)]
        ([] : StdMap Q)).2.findCycles []
      = .ok [["a".toList, "c".toList, "b".toList], ["c".toList]]
    ∧ (ExpEvaluator.populate_loop
        [("a".toList, "c".toList), ("b".toList, "a+1".toList), ("c".toList, "b+c".toList)]
        ([] : StdMap Q)).2.sprintCycle [1, 2, 0] 0
      = .ok (["a".toList, "c".toList, "b".toList], [1, 2, 0]) :=
  ⟨ExpEvaluator.populate_loop_valid _ _,
    (C22_reported_cycles_are_loops _ (ExpEvaluator.populate_loop_valid _ _)).2.2,
    by decide, by decide⟩

/-- C23: the scan of the tokens of a text comes to an end, with the tokens or
with a Lexical error; on a text that tokenizes, `get_ids` returns, having
appended to the list the texts of the tokens `Token::Id`, in order and with
repetitions; and on every text, however the scan ends, what `get_ids` has
appended is no function or logical keyword and starts with a letter, so it is
no number literal. -/
theorem C23_get_ids_lists_identifiers (s : Str) (ts : List (Token × Str)) (list : List Str)
    (h : tokens s = .ok ts) :
    get_ids s list = (list ++ idTexts ts, .ok ())
    ∧ (∀ (s' : Str) (list' : List Str), ∃ app, (get_ids s' list').1 = list' ++ app
        ∧ ∀ id ∈ app, id ∉ keywords
          ∧ ∃ c r, id = c :: r ∧ c.isAlpha = true ∧ ∀ x ∈ r, x.isAlphanum = true)
    ∧ (∀ s' : Str, (∃ ts', tokens s' = .ok ts')
        ∨ ∃ m, tokens s' = .error (.Lexical_error m)) :=
  ⟨get_ids_tokens s list ts h, get_ids_appended,
    fun s' => tokenize_total (s'.length + 1) s' (Nat.lt_succ_self _)⟩

/-- C23 holds with its hypothesis met: of the text
`sin(a1)+b*2 and a1 or int(x)`, `get_ids` appends `a1`, `b`, `a1`, `x`. -/
theorem C23_get_ids_lists_identifiers_witness :
    tokens "sin(a1)+b*2 and a1 or int(x)".toList
      = .ok [(Token.Sin, "sin".toList), (Token.Lp, "(".toList), (Token.Id, "a1".toList),
          (Token.Rp, ")".toList), (Token.Plus, "+".toList), (Token.Id, "b".toList),
          (Token.Mul, "*".toList), (Token.Number, "2".toList), (Token.AND, "and".toList),
          (Token.Id, "a1".toList), (Token.OR, "or".toList), (Token.Int, "int".toList),
          (Token.Lp, "(".toList), (Token.Id, "x".toList), (Token.Rp, ")".toList)]
    ∧ get_ids "sin(a1)+b*2 and a1 or int(x)".toList ["z".toList]
      = (["z".toList, "a1".toList, "b".toList, "a1".toList, "x".toList], .ok ()) :=
  ⟨by decide,
    (C23_get_ids_lists_identifiers "sin(a1)+b*2 and a1 or int(x)".toList
      [(Token.Sin, "sin".toList), (Token.Lp, "(".toList), (Token.Id, "a1".toList),
        (Token.Rp, ")".toList), (Token.Plus, "+".toList), (Token.Id, "b".toList),
        (Token.Mul, "*".toList), (Token.Number, "2".toList), (Token.AND, "and".toList),
        (Token.Id, "a1".toList), (Token.OR, "or".toList), (Token.Int, "int".toList),
        (Token.Lp, "(".toList), (Token.Id, "x".toList), (Token.Rp, ")".toList)]
      ["z".toList] (by decide)).1⟩

/-- C24: for an identifier without a stored result, `get_result` returns `0`
and stores the entry `0` in the result map, changing nothing else; an
`evaluate()` that returns a map, on the engine after it or on any engine with
that result map (further insertions leave the map as it is), returns `0` for
that identifier, whatever the expression registered under it computes. -/
theorem C24_get_result_stores_zero {α : Type} (A : Arith α) (ev : ExpEvaluator α) (id : Str)
    (h : StdMap.find ev.result id = none) :
    (ExpEvaluator.get_result A ev id).2 = A.ofInt 0
    ∧ (ExpEvaluator.get_result A ev id).1
        = { ev with result := StdMap.orderedInsert ev.result id (A.ofInt 0) }
    ∧ StdMap.find (ExpEvaluator.get_result A ev id).1.result id = some (A.ofInt 0)
    ∧ (∀ m, (ExpEvaluator.evaluate A (ExpEvaluator.get_result A ev id).1).2 = .ok m →
        StdMap.find m id = some (A.ofInt 0))
    ∧ (∀ (ev' : ExpEvaluator α) (m : StdMap α),
        ev'.result = (ExpEvaluator.get_result A ev id).1.result →
        (ExpEvaluator.evaluate A ev').2 = .ok m → StdMap.find m id = some (A.ofInt 0)) := by
  obtain ⟨h1, h2, h3, h4⟩ := ExpEvaluator.evaluate_after_get_result A ev id h
  refine ⟨h1, h2, h3, h4, ?_⟩
  intro ev' m he hm
  exact ExpEvaluator.evaluate_keeps_entry A ev' id _ (by rw [he]; exact h3) m hm

/-- C24 holds with its hypothesis met: with the value `a1 = 5` and the
expression `a = "a1+1"`, `evaluate()` returns `a = 6`, but after `get_result`
on `a` it returns `a = 0`. -/
theorem C24_get_result_stores_zero_witness :
    StdMap.find (initializerEvaluator exactArith 5).result "a".toList = none
    ∧ (ExpEvaluator.get_result exactArith (initializerEvaluator exactArith 5) "a".toList).2
      = Q.ofInt 0
    ∧ (ExpEvaluator.evaluate exactArith
        (ExpEvaluator.get_result exactArith (initializerEvaluator exactArith 5)
          "a".toList).1).2
      = .ok [("a".toList, Q.ofInt 0)]
    ∧ (ExpEvaluator.evaluate exactArith (initializerEvaluator exactArith 5)).2
      = .ok [("a".toList, Q.ofInt 6)] :=
  ⟨by decide,
    (C24_get_result_stores_zero exactArith (initializerEvaluator exactArith 5) "a".toList
      (by decide)).1,
    by decide, by decide⟩

/-- C25: the call operator returns the value of `choice_expr` whatever token
the lexer is left at: it does not ask for the end of the input. So `1 2`
evaluates to `1`, `0 or 1` to `0` and `2^3^2` to `8`. -/
theorem C25_trailing_tokens_ignored {α : Type} (A : Arith α) (p : Parser α) (s : Str)
    (lx0 lx : Lexer) (v : α) (h0 : Lexer.init s = .ok lx0)
    (h1 : choice_expr A p.symbol_table (s.length + 1) (s.length + 1) lx0 = .ok (v, lx)) :
    p.call A s = .ok v
    ∧ Parser.call exactArith (Parser.new exactArith) "1 2".toList = .ok (Q.ofInt 1)
    ∧ Parser.call exactArith (Parser.new exactArith) "0 or 1".toList = .ok (Q.ofInt 0)
    ∧ Parser.call exactArith (Parser.new exactArith) "2^3^2".toList = .ok (Q.ofInt 8) := by
  refine ⟨?_, by decide, by decide, by decide⟩
  rw [call_eq, h0, bind_ok, h1, bind_ok]

/-- C25 holds with its hypotheses met: on `1 2` the method `choice_expr`
returns `1` with the lexer at the number `2`, and the call returns `1`. -/
theorem C25_trailing_tokens_ignored_witness :
    Lexer.init "1 2".toList = .ok ⟨" 2".toList, Token.Number, "1".toList⟩
    ∧ choice_expr exactArith (Parser.new exactArith).symbol_table 4 4
        ⟨" 2".toList, Token.Number, "1".toList⟩
      = .ok (Q.ofInt 1, ⟨[], Token.Number, "2".toList⟩)
    ∧ Parser.call exactArith (Parser.new exactArith) "1 2".toList = .ok (Q.ofInt 1) :=
  ⟨by decide, by decide,
    (C25_trailing_tokens_ignored exactArith (Parser.new exactArith) "1 2".toList
      ⟨" 2".toList, Token.Number, "1".toList⟩ ⟨[], Token.Number, "2".toList⟩ (Q.ofInt 1)
      (by decide) (by decide)).1⟩

/-- C26 as stated fails: in `0 and $` the left operand of `and` is zero, and
the call fails with the Lexical error of the character after the `and`. -/
theorem C26_lexical_error_after_and :
    exactArith.toBool (Q.ofInt 0) = false
    ∧ Parser.call exactArith (Parser.new exactArith) "0 and $".toList
      = .error (.Lexical_error "$".toList) :=
  ⟨by decide, by decide⟩

/-- C26, amended: when the left operand of `and` is zero, the lexer reads the
token after the `and` and the method that would read the right operand is not
called, whatever it is. When that token is a token other than `and`, the loop
of `combination_expr` returns `0` with the lexer at it and the call returns
`0`; when the lexer fails there, the call fails with the error of the lexer.
So `0 and 1/0` evaluates to `0`, while `1 and 1/0` fails. -/
theorem C26_and_skips_right_operand {α : Type} (A : Arith α) (p : Parser α) (s : Str)
    (lx0 lx1 : Lexer) (x : α) (h0 : Lexer.init s = .ok lx0)
    (h1 : equality_expr A p.symbol_table (s.length + 1) (s.length + 1) lx0 = .ok (x, lx1))
    (hz : A.toBool x = false) (ht : lx1.current_token = Token.AND) :
    (∀ lx2, lx1.advance = .ok lx2 → lx2.current_token ≠ Token.AND →
      p.call A s = .ok (A.ofInt 0))
    ∧ (∀ e, lx1.advance = .error e → p.call A s = .error e)
    ∧ (∀ (eq : Method α) (fuel : Nat) (lx2 : Lexer), lx1.advance = .ok lx2 →
      lx2.current_token ≠ Token.AND →
      combination_loop A eq (fuel + 2) x lx1 = .ok (A.ofInt 0, lx2))
    ∧ Parser.call exactArith (Parser.new exactArith) "0 and 1/0".toList = .ok (Q.ofInt 0)
    ∧ Parser.call exactArith (Parser.new exactArith) "1 and 1/0".toList
      = .error (.Runtime_error "attempt to divide by zero".toList) := by
  refine ⟨?_, ?_, ?_, by decide, by decide⟩
  · intro lx2 h2 hne
    exact call_zero_and A p s lx0 lx1 lx2 x h0 h1 hz ht h2 hne
  · intro e h2
    exact call_and_error A p s lx0 lx1 x e h0 h1 ht h2
  · intro eq fuel lx2 h2 hne
    exact combination_loop_zero A eq fuel x lx1 lx2 hz ht h2 hne

/-- C26, amended, holds with its hypotheses met: in `0 and 1/0` the left
operand is `0`, the lexer goes on to the number `1` and the call returns `0`;
in `0 and $` the lexer fails and so does the call. -/
theorem C26_and_skips_right_operand_witness :
    Lexer.init "0 and 1/0".toList = .ok ⟨" and 1/0".toList, Token.Number, "0".toList⟩
    ∧ equality_expr exactArith (Parser.new exactArith).symbol_table 10 10
        ⟨" and 1/0".toList, Token.Number, "0".toList⟩
      = .ok (Q.ofInt 0, ⟨" 1/0".toList, Token.AND, "and".toList⟩)
    ∧ Lexer.advance ⟨" 1/0".toList, Token.AND, "and".toList⟩
      = .ok ⟨"/0".toList, Token.Number, "1".toList⟩
    ∧ Parser.call exactArith (Parser.new exactArith) "0 and 1/0".toList = .ok (Q.ofInt 0)
    ∧ Parser.call exactArith (Parser.new exactArith) "0 and $".toList
      = .error (.Lexical_error "$".toList) :=
  ⟨by decide, by decide, by decide,
    (C26_and_skips_right_operand exactArith (Parser.new exactArith) "0 and 1/0".toList
      ⟨" and 1/0".toList, Token.Number, "0".toList⟩
      ⟨" 1/0".toList, Token.AND, "and".toList⟩ (Q.ofInt 0)
      (by decide) (by decide) (by decide) (by decide)).1
      ⟨"/0".toList, Token.Number, "1".toList⟩ (by decide) (by decide),
    (C26_and_skips_right_operand exactArith (Parser.new exactArith) "0 and $".toList
      ⟨" and $".toList, Token.Number, "0".toList⟩
      ⟨" $".toList, Token.AND, "and".toList⟩ (Q.ofInt 0)
      (by decide) (by decide) (by decide) (by decide)).2.1
      (.Lexical_error "$".toList) (by decide)⟩

/-- What a failing pass leaves in the stored result map: once
`populateIdGraph` and `validatedIdGraph` have passed, a pass in which some
attempt fails with a Lexical, Syntax or Runtime error makes `evaluate()` throw
`ParsingError`, and the value of every attempt that returned has been handed
to `result.insert`: for an identifier without a stored result `get_result`
finds that value afterwards, while `insert` leaves an entry stored before the
call as it was. -/
theorem failing_evaluate_stores_successes {α : Type} (A : Arith α)
    (ev : ExpEvaluator α)
    (hnd : (StdMap.keys ev.expressions).Nodup)
    (hids : (ExpEvaluator.populateIdGraph ev).2 = .ok ())
    (hcyc : ExpEvaluator.validatedIdGraph (ExpEvaluator.populateIdGraph ev).1 = .ok ()) :
    ∃ ids : List Str, (ExpEvaluator.populateIdGraph ev).1.graph.sort [] = .ok ids.reverse
      ∧ ((∀ e ∈ ExpEvaluator.failures (ExpEvaluator.attempts A ev.expressions ids
              (ExpEvaluator.add_symbols (Parser.new A) ev.symbol_table)),
            ExpEvaluator.collected e = true) →
          ExpEvaluator.failures (ExpEvaluator.attempts A ev.expressions ids
              (ExpEvaluator.add_symbols (Parser.new A) ev.symbol_table)) ≠ [] →
          (∃ msg, (ExpEvaluator.evaluate A ev).2 = .error (.ParsingError msg))
          ∧ (ExpEvaluator.evaluate A ev).1.result
              = ExpEvaluator.store ev.result (ExpEvaluator.succeeded
                  (ExpEvaluator.attempts A ev.expressions ids
                    (ExpEvaluator.add_symbols (Parser.new A) ev.symbol_table)))
          ∧ (∀ id v, (id, Except.ok v) ∈ ExpEvaluator.attempts A ev.expressions ids
                (ExpEvaluator.add_symbols (Parser.new A) ev.symbol_table) →
              StdMap.find ev.result id = none →
              StdMap.find (ExpEvaluator.evaluate A ev).1.result id = some v
              ∧ ExpEvaluator.get_result A (ExpEvaluator.evaluate A ev).1 id
                  = ((ExpEvaluator.evaluate A ev).1, v))
          ∧ ∀ id w, StdMap.find ev.result id = some w →
              StdMap.find (ExpEvaluator.evaluate A ev).1.result id = some w
              ∧ ExpEvaluator.get_result A (ExpEvaluator.evaluate A ev).1 id
                  = ((ExpEvaluator.evaluate A ev).1, w)) := by
  obtain ⟨ids, hs, h⟩ := ExpEvaluator.evaluate_failing_pass A ev hnd hids hcyc
  refine ⟨ids, hs, ?_⟩
  intro hcol hne
  obtain ⟨hm, hr, hv⟩ := h hcol hne
  refine ⟨hm, hr, hv, ?_⟩
  intro id w hw
  have hfind : StdMap.find (ExpEvaluator.evaluate A ev).1.result id = some w := by
    rw [hr]
    exact ExpEvaluator.find_store_of_find _ _ id w hw
  refine ⟨hfind, ?_⟩
  unfold ExpEvaluator.get_result
  rw [hfind]

/-- The failing pass on a new engine: with `a = "1/0"` and `b = "2"` the pass
fails on `a`, `evaluate()` throws `ParsingError`, and `get_result` on `b`
returns `2` afterwards. -/
theorem failing_evaluate_stores_successes_example :
    (StdMap.keys (((ExpEvaluator.new : ExpEvaluator Q).insert_expression "a".toList
        "1/0".toList).insert_expression "b".toList "2".toList).expressions).Nodup
    ∧ (∃ msg, (ExpEvaluator.evaluate exactArith
        (((ExpEvaluator.new : ExpEvaluator Q).insert_expression "a".toList
          "1/0".toList).insert_expression "b".toList "2".toList)).2
        = .error (.ParsingError msg))
    ∧ ExpEvaluator.get_result exactArith (ExpEvaluator.evaluate exactArith
        (((ExpEvaluator.new : ExpEvaluator Q).insert_expression "a".toList
          "1/0".toList).insert_expression "b".toList "2".toList)).1 "b".toList
      = ((ExpEvaluator.evaluate exactArith
        (((ExpEvaluator.new : ExpEvaluator Q).insert_expression "a".toList
          "1/0".toList).insert_expression "b".toList "2".toList)).1, Q.ofInt 2)
    ∧ (ExpEvaluator.evaluate exactArith
        (((ExpEvaluator.new : ExpEvaluator Q).insert_expression "a".toList
          "1/0".toList).insert_expression "b".toList "2".toList)).2
      = .error (.ParsingError
          "Runtime error: attempt to divide by zero:expression[0]:1/0\n".toList) := by
  obtain ⟨ids, hs, h⟩ := failing_evaluate_stores_successes exactArith
    (((ExpEvaluator.new : ExpEvaluator Q).insert_expression "a".toList
      "1/0".toList).insert_expression "b".toList "2".toList)
    (by decide) (by decide) (by decide)
  have hsort : (ExpEvaluator.populateIdGraph
      (((ExpEvaluator.new : ExpEvaluator Q).insert_expression "a".toList
        "1/0".toList).insert_expression "b".toList "2".toList)).1.graph.sort []
      = .ok ["b".toList, "a".toList] := by decide
  rw [hsort] at hs
  have hids : ids = ["a".toList, "b".toList] := by
    have h1 : ["b".toList, "a".toList] = ids.reverse := by
      injection hs
    have h2 := congrArg List.reverse h1
    rw [List.reverse_reverse] at h2
    exact h2.symm
  subst hids
  obtain ⟨hm, _, hv, _⟩ := h (by decide) (by decide)
  exact ⟨by decide, hm, (hv "b".toList (Q.ofInt 2) (by decide) (by decide)).2, by decide⟩

/-- C27: the claim fails on the code where an earlier `evaluate()` has stored
a result. With the value `c = 1` and the expression `b = "c"`, `evaluate()`
stores `b = 1`; after `insert_expression("c", "2")` and
`insert_expression("a", "1/0")` the pass fails on `a` and computes `c = 2`
and `b = 2`, `evaluate()` throws `ParsingError`, and `get_result` returns `2`
for `c` but still `1` for `b`: `result.insert` has dropped the value the pass
computed. On a new engine with the same registrations `get_result` returns
`2` for `b` after the failing `evaluate()`, as the claim says. -/
theorem C27_computed_result_dropped :
    (ExpEvaluator.evaluate exactArith
        (((ExpEvaluator.new : ExpEvaluator Q).insert_value "c".toList
          (Q.ofInt 1)).insert_expression "b".toList "c".toList)).2
      = .ok [("b".toList, Q.ofInt 1)]
    ∧ (ExpEvaluator.evaluate exactArith
        (((ExpEvaluator.evaluate exactArith
            (((ExpEvaluator.new : ExpEvaluator Q).insert_value "c".toList
              (Q.ofInt 1)).insert_expression "b".toList "c".toList)).1.insert_expression
          "c".toList "2".toList).insert_expression "a".toList "1/0".toList)).2
      = .error (.ParsingError
          "Runtime error: attempt to divide by zero:expression[0]:1/0\n".toList)
    ∧ ExpEvaluator.attempts exactArith
        (((ExpEvaluator.evaluate exactArith
            (((ExpEvaluator.new : ExpEvaluator Q).insert_value "c".toList
              (Q.ofInt 1)).insert_expression "b".toList "c".toList)).1.insert_expression
          "c".toList "2".toList).insert_expression "a".toList "1/0".toList).expressions
        ["a".toList, "c".toList, "b".toList]
        (ExpEvaluator.add_symbols (Parser.new exactArith)
          (((ExpEvaluator.evaluate exactArith
            (((ExpEvaluator.new : ExpEvaluator Q).insert_value "c".toList
              (Q.ofInt 1)).insert_expression "b".toList "c".toList)).1.insert_expression
          "c".toList "2".toList).insert_expression "a".toList "1/0".toList).symbol_table)
      = [("a".toList, .error (.Runtime_error "attempt to divide by zero".toList)),
          ("c".toList, .ok (Q.ofInt 2)), ("b".toList, .ok (Q.ofInt 2))]
    ∧ (ExpEvaluator.get_result exactArith
        (ExpEvaluator.evaluate exactArith
          (((ExpEvaluator.evaluate exactArith
            (((ExpEvaluator.new : ExpEvaluator Q).insert_value "c".toList
              (Q.ofInt 1)).insert_expression "b".toList "c".toList)).1.insert_expression
          "c".toList "2".toList).insert_expression "a".toList "1/0".toList)).1
        "c".toList).2 = Q.ofInt 2
    ∧ (ExpEvaluator.get_result exactArith
        (ExpEvaluator.evaluate exactArith
          (((ExpEvaluator.evaluate exactArith
            (((ExpEvaluator.new : ExpEvaluator Q).insert_value "c".toList
              (Q.ofInt 1)).insert_expression "b".toList "c".toList)).1.insert_expression
          "c".toList "2".toList).insert_expression "a".toList "1/0".toList)).1
        "b".toList).2 = Q.ofInt 1
    ∧ (ExpEvaluator.evaluate exactArith
        (((((ExpEvaluator.new : ExpEvaluator Q).insert_value "c".toList
            (Q.ofInt 1)).insert_expression "b".toList "c".toList).insert_expression
          "c".toList "2".toList).insert_expression "a".toList "1/0".toList)).2
      = .error (.ParsingError
          "Runtime error: attempt to divide by zero:expression[0]:1/0\n".toList)
    ∧ (ExpEvaluator.get_result exactArith
        (ExpEvaluator.evaluate exactArith
          (((((ExpEvaluator.new : ExpEvaluator Q).insert_value "c".toList
            (Q.ofInt 1)).insert_expression "b".toList "c".toList).insert_expression
          "c".toList "2".toList).insert_expression "a".toList "1/0".toList)).1
        "b".toList).2 = Q.ofInt 2 :=
  ⟨by decide, by decide, by decide, by decide, by decide, by decide, by decide⟩

end ExpressionEngine
